import Mathlib

/-!
# A verification development for the explicit-free-list allocator `mm.c`

The allocator manages one growable arena of 64-bit words.  The arena is
modelled as a total map from byte addresses to 64-bit words (every access of
the allocator is word sized and, in every well-formed arena, word aligned),
together with the arena bounds kept by `memlib`.  Functions of `mm.c` are
translated one for one; loops carry a fuel argument taken from the arena
size, and a result of `none` means that the C call does not return (the
process exits after a failed `mem_sbrk`, or a loop does not terminate).
-/

namespace MM

/-! ## Machine constants -/

/-- Modulus of `size_t` and pointer arithmetic (64-bit target). -/
abbrev WORD_MOD : Nat := 18446744073709551616

/-- `#define WORD_SIZE sizeof(void*)`. -/
abbrev WORD_SIZE : Nat := 8

/-- `#define MIN_BLOCK_SIZE (sizeof(block_info) + WORD_SIZE)`: three words of
`block_info` and one boundary tag. -/
abbrev MIN_BLOCK_SIZE : Nat := 3 * WORD_SIZE + WORD_SIZE

/-- `#define ALIGNMENT 8`. -/
abbrev ALIGNMENT : Nat := 8

/-- `#define TAG_USED 1`. -/
abbrev TAG_USED : Nat := 1

/-- `#define TAG_PRECEDING_USED 2`. -/
abbrev TAG_PRECEDING_USED : Nat := 2

/-! ## The arena (`memlib`) -/

/-- The arena as `memlib` keeps it: `lo` is `mem_heap_lo()`, `brk` is one past
the last arena byte, `max` is the address the arena may not grow past,
`pagesize` is `mem_pagesize()`, and `mem` gives the word stored at a byte
address. -/
structure Heap where
  lo : Nat
  brk : Nat
  max : Nat
  pagesize : Nat
  mem : Nat → Nat

/-- Modelled from the spec: `regionStart()` of the arena-growth collaborator
(`mem_heap_lo` of `memlib`, which is not among the sources). -/
def mem_heap_lo (h : Heap) : Nat := h.lo

/-- Modelled from the spec: `regionEnd()` of the arena-growth collaborator
(`mem_heap_hi` of `memlib`): the address of the last arena byte. -/
def mem_heap_hi (h : Heap) : Nat := h.brk - 1

/-- Modelled from the spec: `pageSize()` of the arena-growth collaborator
(`mem_pagesize` of `memlib`). -/
def mem_pagesize (h : Heap) : Nat := h.pagesize

/-- Modelled from the spec: `extend(nBytes)` of the arena-growth collaborator
(`mem_sbrk` of `memlib`): extends the arena by `incr` bytes and returns the
previous end address, or fails (`none`) when the arena limit would be
exceeded. -/
def mem_sbrk (h : Heap) (incr : Nat) : Option (Heap × Nat) :=
  if h.brk + incr ≤ h.max then some ({ h with brk := h.brk + incr }, h.brk) else none

/-- Read of the word at address `a`. -/
def load (h : Heap) (a : Nat) : Nat := h.mem a

/-- Write of the word `v` at address `a`. -/
def store (h : Heap) (a v : Nat) : Heap :=
  { h with mem := fun x => if x = a then v else h.mem x }

/-! ## Pointer and tag helpers -/

/-- Conversion of a `size_t` value to the `int` parameter of the pointer
helpers (two's complement truncation to 32 bits). -/
def toInt32 (x : Nat) : Int :=
  if x % 4294967296 < 2147483648 then ((x % 4294967296 : Nat) : Int)
  else ((x % 4294967296 : Nat) : Int) - 4294967296

/-- `UNSCALED_POINTER_ADD(void* p, int x)`. -/
def UNSCALED_POINTER_ADD (p x : Nat) : Nat :=
  (((p : Int) + toInt32 x) % (WORD_MOD : Int)).toNat

/-- `UNSCALED_POINTER_SUB(void* p, int x)`. -/
def UNSCALED_POINTER_SUB (p x : Nat) : Nat :=
  (((p : Int) - toInt32 x) % (WORD_MOD : Int)).toNat

/-- `SIZE(x) = x & ~(ALIGNMENT - 1)`; the mask `~7` is `2^64 - 8` as a
`size_t`. -/
def SIZE (x : Nat) : Nat := x &&& (WORD_MOD - ALIGNMENT)

/-- `FREE_LIST_HEAD`: the first word of the arena. -/
def FREE_LIST_HEAD (h : Heap) : Nat := load h (mem_heap_lo h)

/-- Address of the `next` field of a `block_info`. -/
def next_field (b : Nat) : Nat := b + WORD_SIZE

/-- Address of the `prev` field of a `block_info`. -/
def prev_field (b : Nat) : Nat := b + 2 * WORD_SIZE

/-- Fuel given to every loop of the allocator: the number of arena bytes.
Each loop visits pairwise different blocks of the arena, so a well-formed
arena never exhausts it. -/
def loop_fuel (h : Heap) : Nat := h.brk - h.lo

/-! ## Free list -/

/-- The loop of `search_free_list`. -/
def search_loop (h : Heap) (req_size : Nat) : Nat → Nat → Option Nat
  | 0, _ => none
  | fuel + 1, free_block =>
    if free_block = 0 then some 0
    else if SIZE (load h free_block) ≥ req_size then some free_block
    else search_loop h req_size fuel (load h (next_field free_block))

/-- `search_free_list`: first block of the free list of size at least
`req_size`, or `NULL` (0). -/
def search_free_list (h : Heap) (req_size : Nat) : Option Nat :=
  search_loop h req_size (loop_fuel h) (FREE_LIST_HEAD h)

/-- `insert_free_block`: push at the head of the free list. -/
def insert_free_block (h : Heap) (free_block : Nat) : Heap :=
  let old_head := FREE_LIST_HEAD h
  let h1 := store h (next_field free_block) old_head
  let h2 := if old_head ≠ 0 then store h1 (prev_field old_head) free_block else h1
  let h3 := store h2 (prev_field free_block) 0
  store h3 (mem_heap_lo h3) free_block

/-- `remove_free_block`: unlink a block from the free list. -/
def remove_free_block (h : Heap) (free_block : Nat) : Heap :=
  let next_free := load h (next_field free_block)
  let prev_free := load h (prev_field free_block)
  let h1 := if next_free ≠ 0 then store h (prev_field next_free) prev_free else h
  if free_block = FREE_LIST_HEAD h1 then store h1 (mem_heap_lo h1) next_free
  else store h1 (next_field prev_free) next_free

/-! ## Coalescing -/

/-- First loop of `coalesce_free_block`: absorb free blocks that precede the
cursor in memory.  Yields the arena, the final cursor and the running size. -/
def coalesce_preceding (fuel : Nat) (h : Heap) (block_cursor new_size : Nat) :
    Option (Heap × Nat × Nat) :=
  match fuel with
  | 0 => none
  | fuel + 1 =>
    if load h block_cursor &&& TAG_PRECEDING_USED = 0 then
      let size := SIZE (load h (UNSCALED_POINTER_SUB block_cursor WORD_SIZE))
      let free_block := UNSCALED_POINTER_SUB block_cursor size
      let h1 := remove_free_block h free_block
      coalesce_preceding fuel h1 free_block ((new_size + size) % WORD_MOD)
    else some (h, block_cursor, new_size)

/-- Second loop of `coalesce_free_block`: absorb free blocks that follow in
memory.  Yields the arena, the final cursor and the running size. -/
def coalesce_following (fuel : Nat) (h : Heap) (block_cursor new_size : Nat) :
    Option (Heap × Nat × Nat) :=
  match fuel with
  | 0 => none
  | fuel + 1 =>
    if load h block_cursor &&& TAG_USED = 0 then
      let size := SIZE (load h block_cursor)
      let h1 := remove_free_block h block_cursor
      coalesce_following fuel h1 (UNSCALED_POINTER_ADD block_cursor size)
        ((new_size + size) % WORD_MOD)
    else some (h, block_cursor, new_size)

/-- `coalesce_free_block`. -/
def coalesce_free_block (h : Heap) (old_block : Nat) : Option Heap :=
  let old_size := SIZE (load h old_block)
  match coalesce_preceding (loop_fuel h) h old_block old_size with
  | none => none
  | some (h1, new_block, new_size1) =>
    match coalesce_following (loop_fuel h) h1
        (UNSCALED_POINTER_ADD old_block old_size) new_size1 with
    | none => none
    | some (h2, block_cursor, new_size) =>
      if new_size ≠ old_size then
        let h3 := remove_free_block h2 old_block
        let h4 := store h3 new_block (new_size ||| TAG_PRECEDING_USED)
        let h5 := store h4 (UNSCALED_POINTER_SUB block_cursor WORD_SIZE)
          (new_size ||| TAG_PRECEDING_USED)
        some (insert_free_block h5 new_block)
      else some h2

/-! ## Arena growth and initialisation -/

/-- `request_more_space`; `none` when `mem_sbrk` fails (the process exits) or
coalescing does not terminate. -/
def request_more_space (h : Heap) (req_size : Nat) : Option Heap :=
  let pagesize := mem_pagesize h
  let num_pages := ((req_size + pagesize + (WORD_MOD - 1)) % WORD_MOD) / pagesize
  let total_size := (num_pages * pagesize) % WORD_MOD
  match mem_sbrk h total_size with
  | none => none
  | some (h1, mem_sbrk_result) =>
    let new_block := UNSCALED_POINTER_SUB mem_sbrk_result WORD_SIZE
    let prev_last_word_mask := load h1 new_block &&& TAG_PRECEDING_USED
    let h2 := store h1 new_block (total_size ||| prev_last_word_mask)
    let h3 := store h2
      (UNSCALED_POINTER_ADD new_block ((total_size + (WORD_MOD - WORD_SIZE)) % WORD_MOD))
      (total_size ||| prev_last_word_mask)
    let h4 := store h3 (UNSCALED_POINTER_ADD new_block total_size) TAG_USED
    let h5 := insert_free_block h4 new_block
    coalesce_free_block h5 new_block

/-- `mm_init`; yields the arena and the return value 0, or `none` when
`mem_sbrk` fails (the process exits). -/
def mm_init (h : Heap) : Option (Heap × Nat) :=
  let init_size := WORD_SIZE + MIN_BLOCK_SIZE + WORD_SIZE
  match mem_sbrk h init_size with
  | none => none
  | some (h1, _) =>
    let first_free_block := UNSCALED_POINTER_ADD (mem_heap_lo h1) WORD_SIZE
    let total_size := init_size - WORD_SIZE - WORD_SIZE
    let h2 := store h1 first_free_block (total_size ||| TAG_PRECEDING_USED)
    let h3 := store h2 (next_field first_free_block) 0
    let h4 := store h3 (prev_field first_free_block) 0
    let h5 := store h4 (UNSCALED_POINTER_ADD first_free_block (total_size - WORD_SIZE))
      (total_size ||| TAG_PRECEDING_USED)
    let h6 := store h5 (UNSCALED_POINTER_SUB (mem_heap_hi h5) (WORD_SIZE - 1)) TAG_USED
    some (store h6 (mem_heap_lo h6) first_free_block, 0)

/-! ## Allocation and deallocation -/

/-- The block size `req_size` that `mm_malloc` computes from a non-zero
request, in `size_t` arithmetic. -/
def mm_malloc_req_size (size : Nat) : Nat :=
  let size := (size + WORD_SIZE) % WORD_MOD
  if size ≤ MIN_BLOCK_SIZE then MIN_BLOCK_SIZE
  else (ALIGNMENT * (((size + ALIGNMENT + (WORD_MOD - 1)) % WORD_MOD) / ALIGNMENT)) % WORD_MOD

/-- The search of `mm_malloc`: the first `search_free_list`, and on a miss
`request_more_space` followed by the second search. -/
def mm_malloc_find (h : Heap) (req_size : Nat) : Option (Heap × Nat) :=
  match search_free_list h req_size with
  | none => none
  | some ptr_free_block =>
    if ptr_free_block = 0 then
      match request_more_space h req_size with
      | none => none
      | some h1 =>
        match search_free_list h1 req_size with
        | none => none
        | some ptr_free_block => some (h1, ptr_free_block)
    else some (h, ptr_free_block)

/-- The tail of `mm_malloc` once a block is chosen: split or not, tag the
block used, unlink it, and return the payload address. -/
def mm_malloc_place (h : Heap) (req_size ptr_free_block : Nat) : Heap × Nat :=
  let block_size := SIZE (load h ptr_free_block)
  let h1 :=
    if block_size ≥ (MIN_BLOCK_SIZE + req_size) % WORD_MOD then
      let preceding_block_use_tag := load h ptr_free_block &&& TAG_PRECEDING_USED
      let h2 := store h ptr_free_block req_size
      let h3 := store h2 ptr_free_block (load h2 ptr_free_block ||| preceding_block_use_tag)
      let block_size := (block_size + (WORD_MOD - req_size)) % WORD_MOD
      let header := block_size ||| TAG_PRECEDING_USED
      let h4 := store h3 (UNSCALED_POINTER_ADD ptr_free_block req_size) header
      let h5 := store h4
        (UNSCALED_POINTER_ADD ptr_free_block
          ((block_size + req_size + (WORD_MOD - WORD_SIZE)) % WORD_MOD)) header
      insert_free_block h5 (UNSCALED_POINTER_ADD ptr_free_block req_size)
    else
      let following := UNSCALED_POINTER_ADD ptr_free_block block_size
      store h following (load h following ||| TAG_PRECEDING_USED)
  let h6 := store h1 ptr_free_block (load h1 ptr_free_block ||| TAG_USED)
  let h7 := remove_free_block h6 ptr_free_block
  (h7, UNSCALED_POINTER_ADD ptr_free_block WORD_SIZE)

/-- `mm_malloc`; yields the arena and the returned pointer (0 is `NULL`). -/
def mm_malloc (h : Heap) (size : Nat) : Option (Heap × Nat) :=
  if size = 0 then some (h, 0)
  else
    match mm_malloc_find h (mm_malloc_req_size size) with
    | none => none
    | some (h1, ptr_free_block) =>
      some (mm_malloc_place h1 (mm_malloc_req_size size) ptr_free_block)

/-- `mm_free`. -/
def mm_free (h : Heap) (ptr : Nat) : Option Heap :=
  let block_to_free := UNSCALED_POINTER_SUB ptr WORD_SIZE
  let payload_size := SIZE (load h block_to_free)
  let following_block := UNSCALED_POINTER_ADD block_to_free payload_size
  let h1 := store h following_block
    (load h following_block &&& (WORD_MOD - 1 - TAG_PRECEDING_USED))
  let header := load h1 block_to_free &&& (WORD_MOD - 1 - TAG_USED)
  let h2 := store h1 block_to_free header
  let h3 := store h2
    (UNSCALED_POINTER_ADD block_to_free ((payload_size + (WORD_MOD - WORD_SIZE)) % WORD_MOD))
    header
  let h4 := insert_free_block h3 block_to_free
  coalesce_free_block h4 block_to_free

/-! ## Abstract description of a well-formed arena -/

/-- The header word of a block of `size` bytes with the given flags. -/
def word (size : Nat) (used pu : Bool) : Nat :=
  size + ((if pu then 2 else 0) + (if used then 1 else 0))

/-- A block of the arena: the address of its header, its size in bytes, its
`TAG_USED` flag and its `TAG_PRECEDING_USED` flag.  The sentinel word at the
end of the arena is described as a used block of size 0. -/
structure Blk where
  addr : Nat
  size : Nat
  used : Bool
  pu : Bool

/-- The header word that describes a block. -/
def Blk.hdr (b : Blk) : Nat := word b.size b.used b.pu

/-- Address of the boundary tag (last word) of a block. -/
def Blk.ftr (b : Blk) : Nat := b.addr + b.size - WORD_SIZE

/-- The blocks of `xs` lie one after the other from address `a` on. -/
def Seg : Nat → List Blk → Prop
  | _, [] => True
  | a, b :: r => b.addr = a ∧ Seg (a + b.size) r

/-- Each block of `xs` carries in `pu` the `used` flag of the block before it
(`pu0` for the first). -/
def Flags : Bool → List Blk → Prop
  | _, [] => True
  | pu0, b :: r => b.pu = pu0 ∧ Flags b.used r

/-- The list ends in the sentinel (size 0, used, the last word before `brk`)
and every block before it has at least `MIN_BLOCK_SIZE` bytes, a multiple
of 8. -/
def EndsAt (brk : Nat) : List Blk → Prop
  | [] => False
  | [s] => s.size = 0 ∧ s.used = true ∧ s.addr + WORD_SIZE = brk
  | b :: c :: r => MIN_BLOCK_SIZE ≤ b.size ∧ 8 ∣ b.size ∧ EndsAt brk (c :: r)

/-- Requirements on the arena-growth collaborator (`memlib`, which is not
among the sources): a non-null, 8-aligned arena base, a page size that is a
positive multiple of 8, and an arena limit below `2^64`. -/
structure Memlib (h : Heap) : Prop where
  lo_pos : 0 < h.lo
  lo_al : 8 ∣ h.lo
  ps_pos : 0 < h.pagesize
  ps_al : 8 ∣ h.pagesize
  ps_lt : h.pagesize < WORD_MOD
  brk_le : h.brk ≤ h.max
  max_lt : h.max < WORD_MOD

/-- The arenas on which the allocator is well behaved: the requirements
`Memlib` on the collaborator, and `span`, an arena limit less than `2^31`
bytes above the arena base.  The pointer helpers `UNSCALED_POINTER_ADD` and
`UNSCALED_POINTER_SUB` take their offset as an `int`; `span` keeps every
block size within the range of `int`, and the allocator goes wrong on larger
arenas.  Every statement that depends on `Env` names the limit among its
hypotheses. -/
structure Env (h : Heap) : Prop where
  lo_pos : 0 < h.lo
  lo_al : 8 ∣ h.lo
  ps_pos : 0 < h.pagesize
  ps_al : 8 ∣ h.pagesize
  ps_lt : h.pagesize < WORD_MOD
  brk_le : h.brk ≤ h.max
  max_lt : h.max < WORD_MOD
  span : h.max < h.lo + 2147483648

/-- The blocks `xs`, the sentinel last, tile the arena: block after block
from the word behind the head word up to the last word of the arena. -/
structure Geo (h : Heap) (xs : List Blk) : Prop where
  env : Env h
  seg : Seg (h.lo + WORD_SIZE) xs
  ends : EndsAt h.brk xs

/-- The arena is tiled by `xs`, every header in memory describes its block,
and the last word of a free block holds its size. -/
structure Shape (h : Heap) (xs : List Blk) : Prop where
  geo : Geo h xs
  hdrs : ∀ b ∈ xs, h.mem b.addr = b.hdr
  ftrs : ∀ b ∈ xs, b.used = false → SIZE (h.mem b.ftr) = b.size

/-- A doubly linked list segment in memory: `a` is the pointer that leads to
the first node, `p` the `prev` value the first node must hold, `z` the
`next` value of the last node. -/
def dseg (h : Heap) : Nat → List Nat → Nat → Nat → Prop
  | _, [], a, z => a = z
  | p, g :: r, a, z =>
    a = g ∧ g ≠ 0 ∧ h.mem (prev_field g) = p ∧ dseg h g r (h.mem (next_field g)) z

/-- The free list read from `FREE_LIST_HEAD` is the sequence `fl`: the head
word leads to its first node, the `prev` of the first node and the `next` of
the last node are `NULL`. -/
def FreeList (h : Heap) (fl : List Nat) : Prop := dseg h 0 fl (h.mem h.lo) 0

/-- The addresses `l` lie behind the head word and at least 32 bytes apart,
so that their link fields do not overlap. -/
def Spaced (lo : Nat) (l : List Nat) : Prop :=
  (∀ x ∈ l, lo + 8 ≤ x) ∧ ∀ x ∈ l, ∀ y ∈ l, x = y ∨ x + 32 ≤ y ∨ y + 32 ≤ x

/-- Every address of `l` is the address of a block of `xs` that is not the
sentinel. -/
def Slots (xs : List Blk) (l : List Nat) : Prop :=
  ∀ g ∈ l, ∃ b ∈ xs, b.addr = g ∧ 32 ≤ b.size

/-- The free list holds exactly the blocks that are not tagged used. -/
def Agree (xs : List Blk) (fl : List Nat) : Prop :=
  ∀ g, g ∈ fl ↔ ∃ b ∈ xs, b.addr = g ∧ b.used = false

/-- A free block is settled when the block before it is used and its
boundary tag equals its header. -/
def Settled (h : Heap) (xs : List Blk) : Prop :=
  ∀ b ∈ xs, b.used = false → b.pu = true ∧ h.mem b.ftr = b.hdr

/-- The arena between the steps of an operation: tiling, consistent
`TAG_PRECEDING_USED` flags, free list, and agreement of tiling and free
list. -/
structure Pre (h : Heap) (xs : List Blk) (fl : List Nat) : Prop where
  shape : Shape h xs
  flags : Flags true xs
  links : FreeList h fl
  nodup : fl.Nodup
  agree : Agree xs fl

/-- The allocator invariant with its witnesses: a tiled arena whose free
list holds exactly the free blocks, and every free block settled. -/
structure Rep (h : Heap) (xs : List Blk) (fl : List Nat) extends Pre h xs fl : Prop where
  settled : Settled h xs

/-- The allocator invariant. -/
def Inv (h : Heap) : Prop := ∃ xs fl, Rep h xs fl

/-- Sum of the sizes of a list of blocks. -/
def total : List Blk → Nat
  | [] => 0
  | b :: r => b.size + total r

/-- The `used` flag of the last block of a list (`pu0` for the empty list). -/
def lastUsed : Bool → List Blk → Bool
  | pu0, [] => pu0
  | _, b :: r => lastUsed b.used r

/-- The last node of a list segment (`p` for the empty segment). -/
def lastOr : Nat → List Nat → Nat
  | p, [] => p
  | _, g :: r => lastOr g r

/-- The two arenas have the same bounds, limit and page size. -/
def SameEnv (h h1 : Heap) : Prop :=
  h1.lo = h.lo ∧ h1.brk = h.brk ∧ h1.max = h.max ∧ h1.pagesize = h.pagesize

/-- Memory of `h1` equals memory of `h` except at the head word and at the
link fields of the nodes `fl`. -/
def LinkFrame (h h1 : Heap) (fl : List Nat) : Prop :=
  ∀ a, a ≠ h.lo → (∀ x ∈ fl, a ≠ next_field x ∧ a ≠ prev_field x) → h1.mem a = h.mem a

/-- Memory of `h1` equals memory of `h` except at the head word, at the link
fields of the nodes `fl`, and at the addresses `W`. -/
def FrameW (h h1 : Heap) (fl W : List Nat) : Prop :=
  ∀ a, a ≠ h.lo → (∀ x ∈ fl, a ≠ next_field x ∧ a ≠ prev_field x) → a ∉ W →
    h1.mem a = h.mem a

/-- What the loops of `coalesce_free_block` rely on and keep: tiling, flags,
a well-formed free list whose nodes are blocks. -/
structure Loose (h : Heap) (xs : List Blk) (fl : List Nat) : Prop where
  shape : Shape h xs
  flags : Flags true xs
  links : FreeList h fl
  nodup : fl.Nodup
  slots : Slots xs fl

/-- The first block of `l`, or `d` when `l` is empty. -/
def firstBlk (l : List Blk) (d : Blk) : Blk := l.headD d

/-- Every used block of `xs` other than the sentinel is a used block of
`xs1`, at the same address and of the same size. -/
def UsedKeep (xs xs1 : List Blk) : Prop :=
  ∀ y ∈ xs, y.used = true → 32 ≤ y.size →
    ∃ z ∈ xs1, z.used = true ∧ z.addr = y.addr ∧ z.size = y.size

/-- Sum of the sizes of the free blocks of a tiling. -/
def freeBytes : List Blk → Nat
  | [] => 0
  | b :: r => (if b.used then 0 else b.size) + freeBytes r

/-! ## Reachable states and observations -/

/-- The live allocations `L`, pairs of a returned pointer and the requested
size, are payloads of pairwise different used blocks of the tiling, each
large enough for the request behind its header. -/
def Live (xs : List Blk) (L : List (Nat × Nat)) : Prop :=
  (L.map Prod.fst).Nodup ∧
    ∀ e ∈ L, ∃ b ∈ xs, b.used = true ∧ 32 ≤ b.size ∧ e.1 = b.addr + 8 ∧ e.2 + 8 ≤ b.size

/-- The states reachable from `mm_init` on the empty arena `h0` by calls of
`mm_malloc` with requests of at most `bound` bytes, calls of `mm_free` on
live pointers, and stores of the client into live payloads, together with
the live allocations: pairs of a returned pointer and the size requested for
it.  A client store puts any word `v` at any address of a live payload
`[p, p + n)`; a store of a single byte is a store of the word around it with
the other bytes as they were.  Nothing is required of the arena `h0`: the
statements about reachable states name their requirements on it. -/
inductive Reach (bound : Nat) (h0 : Heap) : Heap → List (Nat × Nat) → Prop
  | init (h : Heap) (r : Nat) : h0.brk = h0.lo → mm_init h0 = some (h, r) →
      Reach bound h0 h []
  | malloc (h : Heap) (L : List (Nat × Nat)) (n : Nat) (h1 : Heap) (p : Nat) :
      Reach bound h0 h L → 0 < n → n ≤ bound → mm_malloc h n = some (h1, p) →
      Reach bound h0 h1 ((p, n) :: L)
  | malloc_zero (h : Heap) (L : List (Nat × Nat)) (h1 : Heap) (p : Nat) :
      Reach bound h0 h L → mm_malloc h 0 = some (h1, p) → Reach bound h0 h1 L
  | free (h : Heap) (L : List (Nat × Nat)) (p n : Nat) (h1 : Heap) :
      Reach bound h0 h L → (p, n) ∈ L → mm_free h p = some h1 →
      Reach bound h0 h1 (L.erase (p, n))
  | client_store (h : Heap) (L : List (Nat × Nat)) (p n a v : Nat) :
      Reach bound h0 h L → (p, n) ∈ L → p ≤ a → a < p + n → v < WORD_MOD →
      Reach bound h0 (store h a v) L

/-- The largest request a `size_t` can hold. -/
abbrev SIZE_MAX : Nat := WORD_MOD - 1

/-- The largest request for which adding the header word and rounding up to
a multiple of 8 does not wrap around. -/
abbrev REQUEST_MAX : Nat := WORD_MOD - 2 * WORD_SIZE

/-- The loop of `examine_heap`, which walks the arena as an implicit list:
the addresses of the blocks it visits and the address at which it stops
(`none` when the fuel runs out). -/
def examine_loop (h : Heap) : Nat → Nat → Option (List Nat × Nat)
  | 0, _ => none
  | fuel + 1, block =>
    if SIZE (load h block) ≠ 0 ∧ block < mem_heap_hi h then
      match examine_loop h fuel (UNSCALED_POINTER_ADD block (SIZE (load h block))) with
      | none => none
      | some (bs, e) => some (block :: bs, e)
    else some ([], block)

/-- `examine_heap`, returning what it visits instead of printing it. -/
def examine_heap (h : Heap) : Option (List Nat × Nat) :=
  examine_loop h (loop_fuel h) (UNSCALED_POINTER_ADD (mem_heap_lo h) WORD_SIZE)

/-- The blocks met by following `next` from a block to `NULL` (`none` when
the fuel runs out). -/
def free_list_loop (h : Heap) : Nat → Nat → Option (List Nat)
  | 0, _ => none
  | fuel + 1, free_block =>
    if free_block = 0 then some []
    else
      match free_list_loop h fuel (load h (next_field free_block)) with
      | none => none
      | some l => some (free_block :: l)

/-- The free list: the blocks met by following `next` from `FREE_LIST_HEAD`
to `NULL`. -/
def free_list (h : Heap) : Option (List Nat) :=
  free_list_loop h (loop_fuel h) (FREE_LIST_HEAD h)

/-- The block at `a` has `TAG_USED` clear. -/
def is_free (h : Heap) (a : Nat) : Prop := load h a &&& TAG_USED = 0

instance (h : Heap) (a : Nat) : Decidable (is_free h a) :=
  inferInstanceAs (Decidable (load h a &&& TAG_USED = 0))

/-- Tag consistency: walking the arena, sentinel included, each block that
has a predecessor has `TAG_PRECEDING_USED` set exactly when this predecessor
has `TAG_USED` set. -/
def TagsConsistent (h : Heap) : Prop :=
  ∃ bs e, examine_heap h = some (bs, e) ∧
    List.Chain' (fun a c => (load h c &&& TAG_PRECEDING_USED ≠ 0 ↔ ¬ is_free h a)) (bs ++ [e])

/-- Coalescing is maximal: walking the arena, sentinel included, no block
and its successor are both free. -/
def NoAdjacentFree (h : Heap) : Prop :=
  ∃ bs e, examine_heap h = some (bs, e) ∧
    List.Chain' (fun a c => ¬ (is_free h a ∧ is_free h c)) (bs ++ [e])

/-- The free list is exact: following `next` from `FREE_LIST_HEAD` reaches
`NULL`, meets no block twice, and meets exactly the blocks of the arena that
have `TAG_USED` clear. -/
def FreeListExact (h : Heap) : Prop :=
  ∃ bs e l, examine_heap h = some (bs, e) ∧ free_list h = some l ∧ l.Nodup ∧
    ∀ a, a ∈ l ↔ a ∈ bs ∧ is_free h a

/-- Boundary tags: the last word of every free block of the arena equals its
header. -/
def FootersMatch (h : Heap) : Prop :=
  ∃ bs e, examine_heap h = some (bs, e) ∧
    ∀ a ∈ bs, is_free h a → load h (a + SIZE (load h a) - WORD_SIZE) = load h a

/-- Tiling: the walk from the word behind the head word advances by the size
of each block, every size is a multiple of 8 and at least `MIN_BLOCK_SIZE`,
and the walk stops at the last word of the arena, which is tagged used and
has size 0. -/
def Tiled (h : Heap) : Prop :=
  ∃ bs e, examine_heap h = some (bs, e) ∧
    (∀ a ∈ bs, 8 ∣ SIZE (load h a) ∧ MIN_BLOCK_SIZE ≤ SIZE (load h a)) ∧
    (bs ++ [e]).head? = some (mem_heap_lo h + WORD_SIZE) ∧
    List.Chain' (fun a c => c = a + SIZE (load h a)) (bs ++ [e]) ∧
    e = UNSCALED_POINTER_SUB (mem_heap_hi h) (WORD_SIZE - 1) ∧
    ¬ is_free h e ∧ SIZE (load h e) = 0

/-- The free byte count of the arena: the sum of `SIZE(header)` over the
blocks of the arena that have `TAG_USED` clear. -/
def free_bytes (h : Heap) : Option Nat :=
  match examine_heap h with
  | none => none
  | some (bs, _) =>
    some (((bs.filter (fun a => decide (is_free h a))).map (fun a => SIZE (load h a))).sum)

/-- The invariant of the reachable states: the arena is well formed, holds
at least one block besides the sentinel, and the live allocations are
payloads of its used blocks. -/
def Good (h : Heap) (L : List (Nat × Nat)) : Prop :=
  ∃ xs fl, Rep h xs fl ∧ (∃ b ∈ xs, 32 ≤ b.size) ∧ Live xs L

/-! ## Concrete arenas

A small arena on which the statements are evaluated: the states below are
the results of short call sequences from `mm_init`. -/

/-- An empty arena at address 4096 with room for 64 KiB, pages of 4 KiB and
zeroed memory. -/
def arena0 : Heap := ⟨4096, 4096, 69632, 4096, fun _ => 0⟩

/-- The arena of a call that returned (`arena0` when it did not). -/
def heap_of (o : Option (Heap × Nat)) : Heap :=
  match o with
  | some (h, _) => h
  | none => arena0

/-- The arena after `mm_malloc(n)`. -/
def after_malloc (h : Heap) (n : Nat) : Heap := heap_of (mm_malloc h n)

/-- The arena after `mm_free(p)`. -/
def after_free (h : Heap) (p : Nat) : Heap :=
  match mm_free h p with
  | some h1 => h1
  | none => h

/-- The arena after `mm_init`. -/
def init0 : Heap := heap_of (mm_init arena0)

/-- Scenario A: `p1 = mm_malloc(8)`. -/
def scenA1 : Heap := after_malloc init0 8

/-- Scenario A: `p2 = mm_malloc(16)`. -/
def scenA2 : Heap := after_malloc scenA1 16

/-- Scenario A: `mm_free(p1)`. -/
def scenA3 : Heap := after_free scenA2 4112

/-- Scenario A: the second `mm_malloc(8)`. -/
def scenA4 : Heap := after_malloc scenA3 8

/-- After `mm_init`, a request of `2^64 - 9` bytes, for which `mm_malloc`
computes the block size 0. -/
def wrap1 : Heap := after_malloc init0 18446744073709551607

/-- After `wrap1`, a request of 8 bytes. -/
def wrap2 : Heap := after_malloc wrap1 8

/-- After `wrap2`, `mm_free` of the pointer the request of 8 bytes got. -/
def wrap3 : Heap := after_free wrap2 4112

/-- After `mm_init`: `mm_malloc(40)`, which grows the arena. -/
def grown1 : Heap := after_malloc init0 40

/-- After `grown1`, a request of `2^64 - 9` bytes. -/
def grown2 : Heap := after_malloc grown1 18446744073709551607

/-- After `grown2`: `mm_malloc(4000)` and `mm_malloc(100)`, both served from
the block that the wrapped request left in the free list. -/
def adjacent_free : Heap := after_malloc (after_malloc grown2 4000) 100

/-- After `grown2`: both blocks are freed. -/
def stale2 : Heap := after_free (after_free grown2 4160) 4112

/-- After `stale2`: `mm_malloc(56)`. -/
def overrun : Heap := after_malloc stale2 56

/-- After `stale2`: `mm_malloc(4000)` twice. -/
def torn_footer : Heap := after_malloc (after_malloc stale2 4000) 4000

/-- After `mm_init`: `mm_malloc(100)`, which grows the arena, then `mm_free`
of its pointer. -/
def regrown : Heap := after_free (after_malloc init0 100) 4112

/-- After `mm_init`: a request of `2^64 - 1` bytes, which gets the block of
32 bytes. -/
def huge1 : Heap := after_malloc init0 18446744073709551615

/-- After `huge1`: `mm_free` of its pointer. -/
def huge2 : Heap := after_free huge1 4112


/-! ## Definitions for the claims on single functions -/

/-- The block size that the specification prescribes for a request of `n`
bytes, over the unbounded integers: the smallest multiple of `ALIGNMENT` that
is at least `max (n + WORD_SIZE) MIN_BLOCK_SIZE`. -/
def req_size_unbounded (n : Nat) : Nat :=
  ALIGNMENT * ((max (n + WORD_SIZE) MIN_BLOCK_SIZE + (ALIGNMENT - 1)) / ALIGNMENT)

/-- The word at address `a` is a word of the arena: its 8 bytes lie between
`mem_heap_lo()` and `mem_heap_hi()`. -/
def in_arena (h : Heap) (a : Nat) : Prop :=
  mem_heap_lo h ≤ a ∧ a + WORD_SIZE ≤ mem_heap_hi h + 1

instance (h : Heap) (a : Nat) : Decidable (in_arena h a) :=
  inferInstanceAs (Decidable (mem_heap_lo h ≤ a ∧ a + WORD_SIZE ≤ mem_heap_hi h + 1))

/-- The address of the first memory access of `mm_free(ptr)`: the read of
`block_to_free->size_and_tags`, where `block_to_free` is
`UNSCALED_POINTER_SUB(ptr, WORD_SIZE)`.  No test of `ptr` precedes it. -/
def mm_free_first_access (ptr : Nat) : Nat := UNSCALED_POINTER_SUB ptr WORD_SIZE

/-- `mm_free` on a machine that maps nothing but the arena: when the word
that `mm_free` reads first is no word of the arena the call faults there
(`Except.error` with the address); otherwise it runs as `mm_free`. -/
def mm_free_mapped (h : Heap) (ptr : Nat) : Except Nat (Option Heap) :=
  if in_arena h (mm_free_first_access ptr) then Except.ok (mm_free h ptr)
  else Except.error (mm_free_first_access ptr)

/-- The words strictly inside the used blocks of `ys`, which are the payloads
behind their headers, hold in `h1` what they hold in `h`. -/
def Keeps (h h1 : Heap) (ys : List Blk) : Prop :=
  ∀ y ∈ ys, y.used = true → ∀ a, y.addr < a → a < y.addr + y.size → h1.mem a = h.mem a

/-- The number of bytes by which `request_more_space` grows the arena: the
request rounded up to whole pages, in `size_t` arithmetic. -/
def request_total_size (h : Heap) (req_size : Nat) : Nat :=
  let pagesize := mem_pagesize h
  let num_pages := ((req_size + pagesize + (WORD_MOD - 1)) % WORD_MOD) / pagesize
  (num_pages * pagesize) % WORD_MOD

/-! ## The words that the allocator writes

For every function of the allocator that stores to the arena, the addresses
of the words it writes, in program order, whether or not the call returns. -/

/-- The addresses that `insert_free_block` writes: the `next` field of the
block, the `prev` field of the old head (if there is one), the `prev` field
of the block, and the head word. -/
def insert_free_block_writes (h : Heap) (free_block : Nat) : List Nat :=
  let old_head := FREE_LIST_HEAD h
  [next_field free_block] ++ (if old_head ≠ 0 then [prev_field old_head] else []) ++
    [prev_field free_block, mem_heap_lo h]

/-- The addresses that `remove_free_block` writes: the `prev` field of the
successor (if there is one), and the head word or the `next` field of the
predecessor. -/
def remove_free_block_writes (h : Heap) (free_block : Nat) : List Nat :=
  let next_free := load h (next_field free_block)
  let prev_free := load h (prev_field free_block)
  let h1 := if next_free ≠ 0 then store h (prev_field next_free) prev_free else h
  (if next_free ≠ 0 then [prev_field next_free] else []) ++
    (if free_block = FREE_LIST_HEAD h1 then [mem_heap_lo h1] else [next_field prev_free])

/-- The addresses written by the first loop of `coalesce_free_block`: those
of the `remove_free_block` call of each iteration. -/
def coalesce_preceding_writes (fuel : Nat) (h : Heap) (block_cursor : Nat) : List Nat :=
  match fuel with
  | 0 => []
  | fuel + 1 =>
    if load h block_cursor &&& TAG_PRECEDING_USED = 0 then
      let size := SIZE (load h (UNSCALED_POINTER_SUB block_cursor WORD_SIZE))
      let free_block := UNSCALED_POINTER_SUB block_cursor size
      remove_free_block_writes h free_block ++
        coalesce_preceding_writes fuel (remove_free_block h free_block) free_block
    else []

/-- The addresses written by the second loop of `coalesce_free_block`: those
of the `remove_free_block` call of each iteration. -/
def coalesce_following_writes (fuel : Nat) (h : Heap) (block_cursor : Nat) : List Nat :=
  match fuel with
  | 0 => []
  | fuel + 1 =>
    if load h block_cursor &&& TAG_USED = 0 then
      let size := SIZE (load h block_cursor)
      remove_free_block_writes h block_cursor ++
        coalesce_following_writes fuel (remove_free_block h block_cursor)
          (UNSCALED_POINTER_ADD block_cursor size)
    else []

/-- The addresses that `coalesce_free_block` writes: those of its two loops
and, when blocks were merged, those of the `remove_free_block` call, the
header and the boundary tag of the merged block, and those of the
`insert_free_block` call. -/
def coalesce_free_block_writes (h : Heap) (old_block : Nat) : List Nat :=
  let old_size := SIZE (load h old_block)
  coalesce_preceding_writes (loop_fuel h) h old_block ++
    match coalesce_preceding (loop_fuel h) h old_block old_size with
    | none => []
    | some (h1, new_block, new_size1) =>
      coalesce_following_writes (loop_fuel h) h1 (UNSCALED_POINTER_ADD old_block old_size) ++
        match coalesce_following (loop_fuel h) h1
            (UNSCALED_POINTER_ADD old_block old_size) new_size1 with
        | none => []
        | some (h2, block_cursor, new_size) =>
          if new_size ≠ old_size then
            let h3 := remove_free_block h2 old_block
            let h4 := store h3 new_block (new_size ||| TAG_PRECEDING_USED)
            let h5 := store h4 (UNSCALED_POINTER_SUB block_cursor WORD_SIZE)
              (new_size ||| TAG_PRECEDING_USED)
            remove_free_block_writes h2 old_block ++
              [new_block, UNSCALED_POINTER_SUB block_cursor WORD_SIZE] ++
              insert_free_block_writes h5 new_block
          else []

/-- The addresses that `request_more_space` writes: none when `mem_sbrk`
fails; otherwise the header and the boundary tag of the new block, the new
sentinel, and those of the calls of `insert_free_block` and
`coalesce_free_block`. -/
def request_more_space_writes (h : Heap) (req_size : Nat) : List Nat :=
  let pagesize := mem_pagesize h
  let num_pages := ((req_size + pagesize + (WORD_MOD - 1)) % WORD_MOD) / pagesize
  let total_size := (num_pages * pagesize) % WORD_MOD
  match mem_sbrk h total_size with
  | none => []
  | some (h1, mem_sbrk_result) =>
    let new_block := UNSCALED_POINTER_SUB mem_sbrk_result WORD_SIZE
    let prev_last_word_mask := load h1 new_block &&& TAG_PRECEDING_USED
    let h2 := store h1 new_block (total_size ||| prev_last_word_mask)
    let h3 := store h2
      (UNSCALED_POINTER_ADD new_block ((total_size + (WORD_MOD - WORD_SIZE)) % WORD_MOD))
      (total_size ||| prev_last_word_mask)
    let h4 := store h3 (UNSCALED_POINTER_ADD new_block total_size) TAG_USED
    let h5 := insert_free_block h4 new_block
    [new_block,
      UNSCALED_POINTER_ADD new_block ((total_size + (WORD_MOD - WORD_SIZE)) % WORD_MOD),
      UNSCALED_POINTER_ADD new_block total_size] ++
      insert_free_block_writes h4 new_block ++ coalesce_free_block_writes h5 new_block

/-- The addresses written by the tail of `mm_malloc` once a block is chosen:
on a split the header of the block (twice), the header and the boundary tag
of the remainder and those of `insert_free_block`, otherwise the header of
the following block; then the header of the block and those of
`remove_free_block`. -/
def mm_malloc_place_writes (h : Heap) (req_size ptr_free_block : Nat) : List Nat :=
  let block_size := SIZE (load h ptr_free_block)
  let h1 :=
    if block_size ≥ (MIN_BLOCK_SIZE + req_size) % WORD_MOD then
      let preceding_block_use_tag := load h ptr_free_block &&& TAG_PRECEDING_USED
      let h2 := store h ptr_free_block req_size
      let h3 := store h2 ptr_free_block (load h2 ptr_free_block ||| preceding_block_use_tag)
      let block_size := (block_size + (WORD_MOD - req_size)) % WORD_MOD
      let header := block_size ||| TAG_PRECEDING_USED
      let h4 := store h3 (UNSCALED_POINTER_ADD ptr_free_block req_size) header
      let h5 := store h4
        (UNSCALED_POINTER_ADD ptr_free_block
          ((block_size + req_size + (WORD_MOD - WORD_SIZE)) % WORD_MOD)) header
      insert_free_block h5 (UNSCALED_POINTER_ADD ptr_free_block req_size)
    else
      let following := UNSCALED_POINTER_ADD ptr_free_block block_size
      store h following (load h following ||| TAG_PRECEDING_USED)
  let h6 := store h1 ptr_free_block (load h1 ptr_free_block ||| TAG_USED)
  (if block_size ≥ (MIN_BLOCK_SIZE + req_size) % WORD_MOD then
      let preceding_block_use_tag := load h ptr_free_block &&& TAG_PRECEDING_USED
      let h2 := store h ptr_free_block req_size
      let h3 := store h2 ptr_free_block (load h2 ptr_free_block ||| preceding_block_use_tag)
      let block_size := (block_size + (WORD_MOD - req_size)) % WORD_MOD
      let header := block_size ||| TAG_PRECEDING_USED
      let h4 := store h3 (UNSCALED_POINTER_ADD ptr_free_block req_size) header
      let h5 := store h4
        (UNSCALED_POINTER_ADD ptr_free_block
          ((block_size + req_size + (WORD_MOD - WORD_SIZE)) % WORD_MOD)) header
      [ptr_free_block, ptr_free_block, UNSCALED_POINTER_ADD ptr_free_block req_size,
        UNSCALED_POINTER_ADD ptr_free_block
          ((block_size + req_size + (WORD_MOD - WORD_SIZE)) % WORD_MOD)] ++
        insert_free_block_writes h5 (UNSCALED_POINTER_ADD ptr_free_block req_size)
    else [UNSCALED_POINTER_ADD ptr_free_block block_size]) ++
    [ptr_free_block] ++ remove_free_block_writes h6 ptr_free_block

/-- The addresses that `mm_malloc` writes: none for a request of 0 bytes;
otherwise those of `request_more_space`, if the first search misses, and
those of the placement, if a block is found. -/
def mm_malloc_writes (h : Heap) (size : Nat) : List Nat :=
  if size = 0 then []
  else
    match search_free_list h (mm_malloc_req_size size) with
    | none => []
    | some ptr_free_block =>
      if ptr_free_block = 0 then
        request_more_space_writes h (mm_malloc_req_size size) ++
          match request_more_space h (mm_malloc_req_size size) with
          | none => []
          | some h1 =>
            match search_free_list h1 (mm_malloc_req_size size) with
            | none => []
            | some ptr_free_block =>
              mm_malloc_place_writes h1 (mm_malloc_req_size size) ptr_free_block
      else mm_malloc_place_writes h (mm_malloc_req_size size) ptr_free_block

/-- The addresses that `mm_free` writes: the header of the following block,
the header and the boundary tag of the block, and those of the calls of
`insert_free_block` and `coalesce_free_block`. -/
def mm_free_writes (h : Heap) (ptr : Nat) : List Nat :=
  let block_to_free := UNSCALED_POINTER_SUB ptr WORD_SIZE
  let payload_size := SIZE (load h block_to_free)
  let following_block := UNSCALED_POINTER_ADD block_to_free payload_size
  let h1 := store h following_block
    (load h following_block &&& (WORD_MOD - 1 - TAG_PRECEDING_USED))
  let header := load h1 block_to_free &&& (WORD_MOD - 1 - TAG_USED)
  let h2 := store h1 block_to_free header
  let h3 := store h2
    (UNSCALED_POINTER_ADD block_to_free ((payload_size + (WORD_MOD - WORD_SIZE)) % WORD_MOD))
    header
  let h4 := insert_free_block h3 block_to_free
  [following_block, block_to_free,
    UNSCALED_POINTER_ADD block_to_free ((payload_size + (WORD_MOD - WORD_SIZE)) % WORD_MOD)] ++
    insert_free_block_writes h3 block_to_free ++ coalesce_free_block_writes h4 block_to_free

/-- The address `a` is the head word, a link field of a node of `fl`, or one
of the addresses `W`. -/
def Touch (lo : Nat) (fl W : List Nat) (a : Nat) : Prop :=
  a = lo ∨ (∃ x ∈ fl, a = next_field x ∨ a = prev_field x) ∨ a ∈ W

/-- The words at the addresses `ws` lie outside the payloads of the used
blocks of `ys`: each of them ends where such a block starts, or earlier, or
starts where the block ends, or later. -/
def Misses (ws : List Nat) (ys : List Blk) : Prop :=
  ∀ a ∈ ws, ∀ y ∈ ys, y.used = true → a ≤ y.addr ∨ y.addr + y.size ≤ a


/-! ## Further concrete arenas -/

/-- The arena in which `mm_free` of the second block of scenario A calls
`coalesce_free_block`, after the first block has been freed: the block at
4136 has given up `TAG_USED`, the block at 4168 behind it
`TAG_PRECEDING_USED`, the boundary tag at 4160 is written and the block is
at the head of the free list, so that the three blocks of the arena are free
and in the free list. -/
def run3 : Heap :=
  let h1 := store scenA3 4168 (load scenA3 4168 &&& (WORD_MOD - 1 - TAG_PRECEDING_USED))
  let header := load h1 4136 &&& (WORD_MOD - 1 - TAG_USED)
  insert_free_block (store (store h1 4136 header) 4160 header) 4136

/-- Scenario C: after scenario A's two allocations, a third `mm_malloc(8)`;
the blocks at 4104, 4136 and 4168 are used and adjacent, the rest of the
arena is one free block at 4200. -/
def scenC3 : Heap := after_malloc scenA2 8

/-- After `scenC3`: `mm_free` of the first block. -/
def scenC4 : Heap := after_free scenC3 4112

/-- After `scenC4`: `mm_free` of the third block. -/
def scenC5 : Heap := after_free scenC4 4176

/-- After `scenC5`: `mm_free` of the second block. -/
def scenC6 : Heap := after_free scenC5 4144

/-- After scenario A's two allocations: `mm_malloc(2^64 - 9)`, which returns
the payload of the free block at 4168 and leaves that block in the free
list. -/
def clob1 : Heap := after_malloc scenA2 18446744073709551607

/-- After `clob1`: `mm_malloc(16)`, which returns the same payload 4176. -/
def clob2 : Heap := after_malloc clob1 16

/-- After `clob2`: `mm_malloc(8)`. -/
def clob3 : Heap := after_malloc clob2 8

/-- Scenario C continued with two more requests of 8 bytes: five blocks of
32 bytes at 4104, 4136, 4168, 4200 and 4232 are used. -/
def edge5 : Heap := after_malloc (after_malloc scenC3 8) 8

/-- After `edge5`: `mm_free` of the first block. -/
def edge6 : Heap := after_free edge5 4112

/-- After `edge6`: `mm_malloc(2^64 - 9)`, which computes the block size 0,
takes the free block at 4104, tags it used and does not set
`TAG_PRECEDING_USED` of the block at 4136 behind it. -/
def edge7 : Heap := after_malloc edge6 18446744073709551607

/-- After `edge7`: `mm_free` of the block at 4136. -/
def edge8 : Heap := after_free edge7 4144

/-- After `edge8`: `mm_free` of the block at 4200. -/
def edge9 : Heap := after_free edge8 4208

/-- After `edge9`: `mm_free` of the block at 4168. -/
def edge10 : Heap := after_free edge9 4176

/-- After `mm_init`: `mm_malloc(24)`, which takes the whole block of 32
bytes, so that the payload `[4112, 4136)` ends at the sentinel. -/
def full1 : Heap := after_malloc init0 24

/-- The arena in which `request_more_space(2^64 - 8)` on `full1` calls
`coalesce_free_block`: the arena has grown by 0 bytes, the header of the new
block of size 0 is written over the sentinel at 4136, its boundary tag at
`4136 - 8`, the sentinel at `4136 + 0`, and the block is pushed onto the free
list. -/
def fullR : Heap :=
  let mask := load full1 4136 &&& TAG_PRECEDING_USED
  insert_free_block
    (store (store (store full1 4136 (0 ||| mask)) 4128 (0 ||| mask)) 4136 TAG_USED) 4136

/-! ## An arena with pages of 16 bytes -/

/-- An empty arena at address 4096 with room for 64 KiB, pages of 16 bytes
and zeroed memory. -/
def arena16 : Heap := ⟨4096, 4096, 69632, 16, fun _ => 0⟩

/-- The arena with small pages after `mm_init`. -/
def small0 : Heap := heap_of (mm_init arena16)

/-- After `small0`: `mm_malloc(8)`, which takes the only free block. -/
def small1 : Heap := after_malloc small0 8

/-! ## An arena beyond the range of `int`

The pointer helpers take their offset as an `int`.  On an arena of 8 GiB a
block can be larger than `2^31` bytes, and the helpers then step by the size
truncated to 32 bits. -/

/-- An empty arena at address 4096 with room for 8 GiB, pages of 4 KiB and
zeroed memory. -/
def arenaG : Heap := ⟨4096, 4096, 8589938688, 4096, fun _ => 0⟩

/-- The large arena after `mm_init`. -/
def big0 : Heap := heap_of (mm_init arenaG)

/-- After `big0`: `mm_malloc(2^32 + 40)`, which returns 4112; the block at
4104 has size `2^32 + 48`, and the remainder of the split is placed at
`4104 + 48`. -/
def big1 : Heap := after_malloc big0 4294967336

/-- After `big1`: `mm_malloc(8)`, which returns 4160. -/
def big2 : Heap := after_malloc big1 8

/-- After `big2`: `mm_free(4112)`. -/
def big3 : Heap := after_free big2 4112

/-- After `big3`: `mm_malloc(8)`, which returns 4112. -/
def big4 : Heap := after_malloc big3 8

/-- After `big3`: `mm_malloc(40)` twice. -/
def big5 : Heap := after_malloc (after_malloc big3 40) 40

/-- After `big1`: `mm_free(4112)`. -/
def big6 : Heap := after_free big1 4112

/-- After `big1`: `mm_malloc(4000)`, `mm_free(4112)`, `mm_malloc(4000)`. -/
def big7 : Heap := after_malloc (after_free (after_malloc big1 4000) 4112) 4000

/-- After `big7`: `mm_malloc(8)`, which returns 8120. -/
def big8 : Heap := after_malloc big7 8

/-- After `big8`: `mm_free(8120)`. -/
def big9 : Heap := after_free big8 8120

/-- After `big0`: `mm_malloc(2^32 + 8)`, which returns 4112; the block at
4104 has size `2^32 + 16`. -/
def bigB : Heap := after_malloc big0 4294967304

/-- The arena in which `mm_free(4112)` on `bigB` calls `coalesce_free_block`:
the word at `4104 + 16`, which `mm_free` takes for the following block, has
given up `TAG_PRECEDING_USED`, the block at 4104 `TAG_USED`, the boundary tag
is written at `4104 + 8` and the block is pushed onto the free list. -/
def bigB1 : Heap :=
  let h1 := store bigB 4120 (load bigB 4120 &&& (WORD_MOD - 1 - TAG_PRECEDING_USED))
  let header := load h1 4104 &&& (WORD_MOD - 1 - TAG_USED)
  insert_free_block (store (store h1 4104 header) 4112 header) 4104

/-- The arena in which `request_more_space(2^32)` on `big0` calls
`coalesce_free_block`: the arena has grown by `2^32` bytes, the header of the
new block is written over the old sentinel at 4136, its boundary tag at
`4136 - 8`, the new sentinel at `4136 + 0`, and the block is pushed onto the
free list. -/
def bigR : Heap :=
  let h1 : Heap := ⟨big0.lo, big0.brk + 4294967296, big0.max, big0.pagesize, big0.mem⟩
  let mask := load h1 4136 &&& TAG_PRECEDING_USED
  insert_free_block
    (store (store (store h1 4136 (4294967296 ||| mask)) 4128 (4294967296 ||| mask)) 4136
      TAG_USED) 4136

/-- After `big2`: `mm_malloc(8)` twice, which return 4192 and 4224, and
`mm_free(4112)`: the blocks at 4152, 4184 and 4216 are used and adjacent,
and the free block at 4104 in front of them has size `2^32 + 48`. -/
def bigC : Heap := after_free (after_malloc (after_malloc big2 8) 8) 4112

/-- After `bigC`: `mm_free` of the three blocks in the order first, third,
second. -/
def bigC3 : Heap := after_free (after_free (after_free bigC 4160) 4224) 4192

/-- A tiled arena of `2^32 + 80` bytes: the head word, a free block of
`2^32 + 32` bytes at 4104, a free block of 32 bytes behind it at
`2^32 + 4136`, and the sentinel at `2^32 + 4168`.  Both blocks are in the
free list, headers and boundary tags agree, and the `TAG_PRECEDING_USED`
bits are consistent.  The word at 4136 inside the first block holds 1. -/
def giant : Heap :=
  ⟨4096, 4294971472, 8589938688, 4096, fun a =>
    if a = 4096 then 4104
    else if a = 4104 then 4294967330
    else if a = 4112 then 4294971432
    else if a = 4120 then 0
    else if a = 4136 then 1
    else if a = 4294971424 then 4294967330
    else if a = 4294971432 then 32
    else if a = 4294971440 then 0
    else if a = 4294971448 then 4104
    else if a = 4294971456 then 32
    else if a = 4294971464 then 1
    else 0⟩

/-! ## Theorems -/

/-! ### Words and tags -/

theorem land_split (k t m n : Nat) (ht : t < 8) (hn : n < 8) :
    (8 * k + t) &&& (8 * m + n) = 8 * (k &&& m) + (t &&& n) := by
  have h3 : (8:Nat) = 2 ^ 3 := by norm_num
  have htn : t &&& n < 2 ^ 3 := Nat.and_lt_two_pow _ (by omega)
  apply Nat.eq_of_testBit_eq
  intro i
  rw [Nat.testBit_and, h3, Nat.testBit_mul_pow_two_add _ (by omega),
    Nat.testBit_mul_pow_two_add _ (by omega), Nat.testBit_mul_pow_two_add _ htn]
  split <;> simp [Nat.testBit_and]

theorem lor_split (k t m n : Nat) (ht : t < 8) (hn : n < 8) :
    (8 * k + t) ||| (8 * m + n) = 8 * (k ||| m) + (t ||| n) := by
  have h3 : (8:Nat) = 2 ^ 3 := by norm_num
  have htn : t ||| n < 2 ^ 3 := Nat.or_lt_two_pow (by omega) (by omega)
  apply Nat.eq_of_testBit_eq
  intro i
  rw [Nat.testBit_or, h3, Nat.testBit_mul_pow_two_add _ (by omega),
    Nat.testBit_mul_pow_two_add _ (by omega), Nat.testBit_mul_pow_two_add _ htn]
  split <;> simp [Nat.testBit_or]

theorem land_mask61 (k : Nat) (hk : k < 2305843009213693952) :
    k &&& 2305843009213693951 = k := by
  have h : (2305843009213693951 : Nat) = 2 ^ 61 - 1 := by norm_num
  rw [h, Nat.and_pow_two_sub_one_eq_mod, Nat.mod_eq_of_lt (by omega)]

/-- Masking a word `8 * k + t` with a mask whose size part is all ones. -/
theorem land_high (k t n : Nat) (hk : k < 2305843009213693952) (ht : t < 8) (hn : n < 8) :
    (8 * k + t) &&& (8 * 2305843009213693951 + n) = 8 * k + (t &&& n) := by
  rw [land_split _ _ _ _ ht hn, land_mask61 _ hk]

/-- Masking a word `8 * k + t` with a mask below 8. -/
theorem land_low (k t n : Nat) (ht : t < 8) (hn : n < 8) :
    (8 * k + t) &&& n = t &&& n := by
  have := land_split k t 0 n ht hn
  simpa using this

theorem lor_low (k t n : Nat) (ht : t < 8) (hn : n < 8) :
    (8 * k + t) ||| n = 8 * k + (t ||| n) := by
  have := lor_split k t 0 n ht hn
  simpa using this

theorem SIZE_word (s : Nat) (u p : Bool) (h8 : 8 ∣ s) (hs : s < WORD_MOD) :
    SIZE (word s u p) = s := by
  obtain ⟨k, rfl⟩ := h8
  simp only [WORD_MOD] at hs
  have := land_high k ((if p then 2 else 0) + (if u then 1 else 0)) 0 (by omega)
    (by cases u <;> cases p <;> simp) (by omega)
  unfold SIZE word
  simp only [WORD_MOD, ALIGNMENT]
  rw [show (18446744073709551616 - 8 : Nat) = 8 * 2305843009213693951 + 0 by norm_num, this]
  simp

theorem word_and_used (s : Nat) (u p : Bool) (h8 : 8 ∣ s) :
    word s u p &&& TAG_USED = if u then 1 else 0 := by
  obtain ⟨k, rfl⟩ := h8
  unfold word
  rw [land_low k _ _ (by cases u <;> cases p <;> simp) (by decide)]
  cases u <;> cases p <;> rfl

theorem word_and_pu (s : Nat) (u p : Bool) (h8 : 8 ∣ s) :
    word s u p &&& TAG_PRECEDING_USED = if p then 2 else 0 := by
  obtain ⟨k, rfl⟩ := h8
  unfold word
  rw [land_low k _ _ (by cases u <;> cases p <;> simp) (by decide)]
  cases u <;> cases p <;> rfl

theorem word_or_used (s : Nat) (u p : Bool) (h8 : 8 ∣ s) :
    word s u p ||| TAG_USED = word s true p := by
  obtain ⟨k, rfl⟩ := h8
  unfold word
  rw [lor_low k _ _ (by cases u <;> cases p <;> simp) (by decide)]
  cases u <;> cases p <;> rfl

theorem word_or_pu (s : Nat) (u p : Bool) (h8 : 8 ∣ s) :
    word s u p ||| TAG_PRECEDING_USED = word s u true := by
  obtain ⟨k, rfl⟩ := h8
  unfold word
  rw [lor_low k _ _ (by cases u <;> cases p <;> simp) (by decide)]
  cases u <;> cases p <;> rfl

theorem size_or_mask (s : Nat) (p : Bool) (h8 : 8 ∣ s) :
    s ||| (if p then 2 else 0) = word s false p := by
  obtain ⟨k, rfl⟩ := h8
  have := lor_low k 0 (if p then 2 else 0) (by simp) (by cases p <;> simp)
  unfold word
  simp only [Nat.add_zero] at this
  rw [this]
  cases p <;> rfl

theorem word_clear_used (s : Nat) (u p : Bool) (h8 : 8 ∣ s) (hs : s < WORD_MOD) :
    word s u p &&& (WORD_MOD - 1 - TAG_USED) = word s false p := by
  obtain ⟨k, rfl⟩ := h8
  simp only [WORD_MOD] at hs
  unfold word
  simp only [WORD_MOD, TAG_USED]
  rw [show (18446744073709551616 - 1 - 1 : Nat) = 8 * 2305843009213693951 + 6 by norm_num,
    land_high k _ 6 (by omega) (by cases u <;> cases p <;> simp) (by omega)]
  cases u <;> cases p <;> rfl

theorem word_clear_pu (s : Nat) (u p : Bool) (h8 : 8 ∣ s) (hs : s < WORD_MOD) :
    word s u p &&& (WORD_MOD - 1 - TAG_PRECEDING_USED) = word s u false := by
  obtain ⟨k, rfl⟩ := h8
  simp only [WORD_MOD] at hs
  unfold word
  simp only [WORD_MOD, TAG_PRECEDING_USED]
  rw [show (18446744073709551616 - 1 - 2 : Nat) = 8 * 2305843009213693951 + 5 by norm_num,
    land_high k _ 5 (by omega) (by cases u <;> cases p <;> simp) (by omega)]
  cases u <;> cases p <;> rfl

theorem toInt32_small (x : Nat) (hx : x < 2147483648) : toInt32 x = (x : Int) := by
  unfold toInt32
  have : x % 4294967296 = x := Nat.mod_eq_of_lt (by omega)
  rw [this, if_pos hx]

theorem ptr_add (p x : Nat) (hx : x < 2147483648) (hp : p + x < WORD_MOD) :
    UNSCALED_POINTER_ADD p x = p + x := by
  unfold UNSCALED_POINTER_ADD
  rw [toInt32_small x hx]
  simp only [WORD_MOD] at *
  omega

theorem ptr_sub (p x : Nat) (hx : x < 2147483648) (hxp : x ≤ p) (hp : p < WORD_MOD) :
    UNSCALED_POINTER_SUB p x = p - x := by
  unfold UNSCALED_POINTER_SUB
  rw [toInt32_small x hx]
  simp only [WORD_MOD] at *
  omega

/-! ### Memory -/

@[simp] theorem load_eq (h : Heap) (a : Nat) : load h a = h.mem a := rfl

@[simp] theorem store_mem (h : Heap) (a v x : Nat) :
    (store h a v).mem x = if x = a then v else h.mem x := rfl

@[simp] theorem store_lo (h : Heap) (a v : Nat) : (store h a v).lo = h.lo := rfl

@[simp] theorem store_brk (h : Heap) (a v : Nat) : (store h a v).brk = h.brk := rfl

@[simp] theorem store_max (h : Heap) (a v : Nat) : (store h a v).max = h.max := rfl

@[simp] theorem store_pagesize (h : Heap) (a v : Nat) :
    (store h a v).pagesize = h.pagesize := rfl

theorem next_field_eq (b : Nat) : next_field b = b + 8 := rfl

theorem prev_field_eq (b : Nat) : prev_field b = b + 16 := rfl

theorem mem_store_of_eq {h : Heap} {a v x : Nat} (e : x = a) : (store h a v).mem x = v := by
  simp [e]

theorem mem_store_of_ne {h : Heap} {a v x : Nat} (e : x ≠ a) :
    (store h a v).mem x = h.mem x := by
  simp [e]

theorem word_lt (s : Nat) (u p : Bool) (hs : s + 8 ≤ WORD_MOD) : word s u p < WORD_MOD := by
  unfold word
  simp only [WORD_MOD] at *
  cases u <;> cases p <;> simp <;> omega

/-! ### Block sequences -/

theorem total_append (l1 l2 : List Blk) : total (l1 ++ l2) = total l1 + total l2 := by
  induction l1 with
  | nil => simp [total]
  | cons b r ih => simp [total, ih]; omega

theorem lastUsed_append_cons (pu0 : Bool) (l1 : List Blk) (b : Blk) (l2 : List Blk) :
    lastUsed pu0 (l1 ++ b :: l2) = lastUsed b.used l2 := by
  induction l1 generalizing pu0 with
  | nil => simp [lastUsed]
  | cons c r ih => simpa [lastUsed] using ih c.used

theorem Seg_append (a : Nat) (l1 l2 : List Blk) :
    Seg a (l1 ++ l2) ↔ Seg a l1 ∧ Seg (a + total l1) l2 := by
  induction l1 generalizing a with
  | nil => simp [Seg, total]
  | cons b r ih =>
    show (b.addr = a ∧ Seg (a + b.size) (r ++ l2)) ↔
      ((b.addr = a ∧ Seg (a + b.size) r) ∧ Seg (a + (b.size + total r)) l2)
    rw [ih, Nat.add_assoc]
    tauto

theorem Flags_append (pu0 : Bool) (l1 l2 : List Blk) :
    Flags pu0 (l1 ++ l2) ↔ Flags pu0 l1 ∧ Flags (lastUsed pu0 l1) l2 := by
  induction l1 generalizing pu0 with
  | nil => simp [Flags, lastUsed]
  | cons b r ih =>
    show (b.pu = pu0 ∧ Flags b.used (r ++ l2)) ↔
      ((b.pu = pu0 ∧ Flags b.used r) ∧ Flags (lastUsed b.used r) l2)
    rw [ih]
    tauto

theorem Seg_bounds {a : Nat} {xs : List Blk} (hs : Seg a xs)
    {b : Blk} (hb : b ∈ xs) : a ≤ b.addr ∧ b.addr + b.size ≤ a + total xs := by
  induction xs generalizing a with
  | nil => cases hb
  | cons c r ih =>
    obtain ⟨h1, h3⟩ := hs
    rcases List.mem_cons.1 hb with rfl | hb
    · simp only [total]; omega
    · have := ih h3 hb
      simp only [total]; omega

/-- Two blocks of one sequence are the same block or do not overlap. -/
theorem Seg_sep {a : Nat} {xs : List Blk} (hs : Seg a xs)
    {b c : Blk} (hb : b ∈ xs) (hc : c ∈ xs) :
    b = c ∨ b.addr + b.size ≤ c.addr ∨ c.addr + c.size ≤ b.addr := by
  induction xs generalizing a with
  | nil => cases hb
  | cons x r ih =>
    obtain ⟨h1, h3⟩ := hs
    rcases List.mem_cons.1 hb with hbx | hbr
    · rcases List.mem_cons.1 hc with hcx | hcr
      · exact Or.inl (hbx.trans hcx.symm)
      · have := (Seg_bounds h3 hcr).1
        subst hbx
        right; left; omega
    · rcases List.mem_cons.1 hc with hcx | hcr
      · have := (Seg_bounds h3 hbr).1
        subst hcx
        right; right; omega
      · exact ih h3 hbr hcr

theorem Seg_aligned {a : Nat} {xs : List Blk} (hs : Seg a xs)
    (ha : 8 ∣ a) (hsz : ∀ b ∈ xs, 8 ∣ b.size) {b : Blk} (hb : b ∈ xs) : 8 ∣ b.addr := by
  induction xs generalizing a with
  | nil => cases hb
  | cons c r ih =>
    obtain ⟨h1, h3⟩ := hs
    rcases List.mem_cons.1 hb with rfl | hb
    · rw [h1]; exact ha
    · exact ih h3 (Nat.dvd_add ha (hsz c (List.mem_cons_self _ _)))
        (fun x hx => hsz x (List.mem_cons_of_mem _ hx)) hb

/-- In a sequence, the block that follows `b` starts where `b` ends. -/
theorem Seg_next {a : Nat} {l1 l2 : List Blk} {b c : Blk}
    (hs : Seg a (l1 ++ b :: c :: l2)) : c.addr = b.addr + b.size := by
  rw [Seg_append] at hs
  obtain ⟨_, hb, hc, _⟩ := hs
  omega

/-- With consistent flags, the block that follows `b` carries the `used` flag
of `b` in `pu`. -/
theorem Flags_next {pu0 : Bool} {l1 l2 : List Blk} {b c : Blk}
    (hs : Flags pu0 (l1 ++ b :: c :: l2)) : c.pu = b.used := by
  rw [Flags_append] at hs
  exact hs.2.2.1

theorem Seg_at {a : Nat} {l1 l2 : List Blk} {b : Blk}
    (hs : Seg a (l1 ++ b :: l2)) : b.addr = a + total l1 := by
  rw [Seg_append] at hs
  exact hs.2.1

theorem Flags_at {pu0 : Bool} {l1 l2 : List Blk} {b : Blk}
    (hs : Flags pu0 (l1 ++ b :: l2)) : b.pu = lastUsed pu0 l1 := by
  rw [Flags_append] at hs
  exact hs.2.1

/-! ### Facts about a tiled arena -/

theorem EndsAt_total {brk a : Nat} {xs : List Blk} (hs : Seg a xs) (he : EndsAt brk xs) :
    a + total xs + 8 = brk := by
  induction xs generalizing a with
  | nil => cases he
  | cons b r ih =>
    cases r with
    | nil =>
      obtain ⟨h1, _, h3⟩ := he
      have h4 : b.addr = a := hs.1
      simp only [total, WORD_SIZE] at *
      omega
    | cons c r2 =>
      obtain ⟨_, _, h3⟩ := he
      have := ih hs.2 h3
      simp only [total] at *
      omega

theorem EndsAt_kind {brk : Nat} {xs : List Blk} (he : EndsAt brk xs) {b : Blk} (hb : b ∈ xs) :
    (32 ≤ b.size ∧ 8 ∣ b.size) ∨ (b.size = 0 ∧ b.used = true ∧ b.addr + 8 = brk) := by
  induction xs with
  | nil => cases hb
  | cons c r ih =>
    cases r with
    | nil =>
      rw [List.mem_singleton.1 hb]
      exact Or.inr he
    | cons d r2 =>
      obtain ⟨h1, h2, h3⟩ := he
      rcases List.mem_cons.1 hb with e | hb2
      · rw [e]; exact Or.inl ⟨h1, h2⟩
      · exact ih h3 hb2

theorem EndsAt_append_cons {brk : Nat} {l1 : List Blk} {c : Blk} {r : List Blk} :
    EndsAt brk (l1 ++ c :: r) ↔
      (∀ b ∈ l1, 32 ≤ b.size ∧ 8 ∣ b.size) ∧ EndsAt brk (c :: r) := by
  induction l1 with
  | nil => simp
  | cons b t ih =>
    cases t with
    | nil =>
      show (MIN_BLOCK_SIZE ≤ b.size ∧ 8 ∣ b.size ∧ EndsAt brk (c :: r)) ↔ _
      simp
      tauto
    | cons d t2 =>
      show (MIN_BLOCK_SIZE ≤ b.size ∧ 8 ∣ b.size ∧ EndsAt brk (d :: t2 ++ c :: r)) ↔ _
      rw [ih]
      simp
      tauto

theorem Geo.total_eq {h : Heap} {xs : List Blk} (hG : Geo h xs) :
    h.lo + 8 + total xs + 8 = h.brk :=
  EndsAt_total hG.seg hG.ends

theorem Geo.bounds {h : Heap} {xs : List Blk} (hG : Geo h xs) {b : Blk} (hb : b ∈ xs) :
    h.lo + 8 ≤ b.addr ∧ b.addr + b.size + 8 ≤ h.brk ∧ 8 ∣ b.size ∧ 8 ∣ b.addr ∧
      b.size < 2147483648 ∧ h.brk < 18446744073709551616 ∧ h.brk ≤ h.lo + 2147483648 ∧
      (b.size = 0 ∨ 32 ≤ b.size) := by
  have h1 := Seg_bounds hG.seg hb
  have h2 := hG.total_eq
  have hk := EndsAt_kind hG.ends hb
  have e := hG.env
  have h8 : 8 ∣ b.size := by
    rcases hk with hk | hk
    · exact hk.2
    · rw [hk.1]; exact Nat.dvd_zero 8
  have h5 : 8 ∣ b.addr := by
    refine Seg_aligned hG.seg (Nat.dvd_add e.lo_al (by decide)) ?_ hb
    intro x hx
    rcases EndsAt_kind hG.ends hx with hk | hk
    · exact hk.2
    · rw [hk.1]; exact Nat.dvd_zero 8
  have := e.brk_le; have := e.max_lt; have := e.span
  simp only [WORD_SIZE, WORD_MOD] at *
  refine ⟨h1.1, by omega, h8, h5, by omega, by omega, by omega, ?_⟩
  rcases hk with hk | hk
  · exact Or.inr hk.1
  · exact Or.inl hk.1

theorem Geo.free_real {h : Heap} {xs : List Blk} (hG : Geo h xs) {b : Blk} (hb : b ∈ xs)
    (hu : b.used = false) : 32 ≤ b.size := by
  rcases EndsAt_kind hG.ends hb with hk | hk
  · exact hk.1
  · rw [hk.2.1] at hu; cases hu

/-- Two blocks of the arena (the sentinel included) are the same or do not
overlap. -/
theorem Geo.sep {h : Heap} {xs : List Blk} (hG : Geo h xs) {b c : Blk} (hb : b ∈ xs)
    (hc : c ∈ xs) : b = c ∨ b.addr + b.size ≤ c.addr ∨ c.addr + c.size ≤ b.addr :=
  Seg_sep hG.seg hb hc

theorem Geo.of_sameEnv {h h1 : Heap} {xs : List Blk} (hG : Geo h xs) (he : SameEnv h h1) :
    Geo h1 xs := by
  obtain ⟨e1, e2, e3, e4⟩ := he
  exact ⟨⟨by rw [e1]; exact hG.env.lo_pos, by rw [e1]; exact hG.env.lo_al,
    by rw [e4]; exact hG.env.ps_pos, by rw [e4]; exact hG.env.ps_al,
    by rw [e4]; exact hG.env.ps_lt, by rw [e2, e3]; exact hG.env.brk_le,
    by rw [e3]; exact hG.env.max_lt, by rw [e3, e1]; exact hG.env.span⟩,
    by rw [e1]; exact hG.seg, by rw [e2]; exact hG.ends⟩

/-! ### Frame lemmas for the tiling -/

/-- A store that hits no header and no boundary tag of a free block keeps
the tiling. -/
theorem Shape.after_store {h : Heap} {xs : List Blk} (hS : Shape h xs) {w : Nat} (v : Nat)
    (h1 : ∀ c ∈ xs, w ≠ c.addr) (h2 : ∀ c ∈ xs, c.used = false → w ≠ c.ftr) :
    Shape (store h w v) xs := by
  refine ⟨hS.geo.of_sameEnv ⟨rfl, rfl, rfl, rfl⟩, ?_, ?_⟩
  · intro c hc
    simp only [store_mem]
    rw [if_neg (Ne.symm (h1 c hc))]
    exact hS.hdrs c hc
  · intro c hc hu
    simp only [store_mem]
    rw [if_neg (Ne.symm (h2 c hc hu))]
    exact hS.ftrs c hc hu

/-- An address strictly between the header and the boundary tag of a block is
no header and no boundary tag. -/
theorem Geo.inner_ne {h : Heap} {xs : List Blk} (hG : Geo h xs) {b : Blk} (hb : b ∈ xs)
    {w : Nat} (hw1 : b.addr < w) (hw2 : w + 8 < b.addr + b.size) :
    (∀ c ∈ xs, w ≠ c.addr) ∧ (∀ c ∈ xs, 32 ≤ c.size → w ≠ c.ftr) := by
  constructor
  · intro c hc
    have hcb := hG.bounds hc
    rcases hG.sep hb hc with rfl | h1 | h1 <;> omega
  · intro c hc h32
    have hcb := hG.bounds hc
    unfold Blk.ftr
    simp only [WORD_SIZE]
    rcases hG.sep hb hc with rfl | h1 | h1 <;> omega

theorem Geo.lo_ne {h : Heap} {xs : List Blk} (hG : Geo h xs) :
    (∀ c ∈ xs, h.lo ≠ c.addr) ∧ (∀ c ∈ xs, 32 ≤ c.size → h.lo ≠ c.ftr) := by
  constructor
  · intro c hc
    have := hG.bounds hc; omega
  · intro c hc h32
    have := hG.bounds hc
    unfold Blk.ftr
    simp only [WORD_SIZE]
    omega

/-- The link fields of a block are no header and no boundary tag. -/
theorem Geo.link_ne {h : Heap} {xs : List Blk} (hG : Geo h xs) {b : Blk} (hb : b ∈ xs)
    (h32 : 32 ≤ b.size) :
    (∀ c ∈ xs, next_field b.addr ≠ c.addr ∧ prev_field b.addr ≠ c.addr) ∧
      (∀ c ∈ xs, 32 ≤ c.size → next_field b.addr ≠ c.ftr ∧ prev_field b.addr ≠ c.ftr) := by
  have n1 := hG.inner_ne hb (w := next_field b.addr) (by rw [next_field_eq]; omega)
    (by rw [next_field_eq]; omega)
  have n2 := hG.inner_ne hb (w := prev_field b.addr) (by rw [prev_field_eq]; omega)
    (by rw [prev_field_eq]; omega)
  exact ⟨fun c hc => ⟨n1.1 c hc, n2.1 c hc⟩, fun c hc hs => ⟨n1.2 c hc hs, n2.2 c hc hs⟩⟩

/-- A free-list operation over nodes that are blocks leaves every header and
every boundary tag alone. -/
theorem Geo.tags_frame {h h1 : Heap} {xs : List Blk} {fl : List Nat} (hG : Geo h xs)
    (hf : LinkFrame h h1 fl) (hsl : Slots xs fl) :
    (∀ c ∈ xs, h1.mem c.addr = h.mem c.addr) ∧
      (∀ c ∈ xs, 32 ≤ c.size → h1.mem c.ftr = h.mem c.ftr) := by
  constructor
  · intro c hc
    refine hf c.addr (Ne.symm (hG.lo_ne.1 c hc)) (fun x hx => ?_)
    obtain ⟨b, hb, rfl, h32⟩ := hsl x hx
    exact ⟨Ne.symm ((hG.link_ne hb h32).1 c hc).1, Ne.symm ((hG.link_ne hb h32).1 c hc).2⟩
  · intro c hc hs
    refine hf c.ftr (Ne.symm (hG.lo_ne.2 c hc hs)) (fun x hx => ?_)
    obtain ⟨b, hb, rfl, h32⟩ := hsl x hx
    exact ⟨Ne.symm ((hG.link_ne hb h32).2 c hc hs).1,
      Ne.symm ((hG.link_ne hb h32).2 c hc hs).2⟩

/-- Tiling and tags survive a free-list operation. -/
theorem Shape.link_frame {h h1 : Heap} {xs : List Blk} {fl : List Nat} (hS : Shape h xs)
    (he : SameEnv h h1) (hf : LinkFrame h h1 fl) (hsl : Slots xs fl) : Shape h1 xs := by
  have t := hS.geo.tags_frame hf hsl
  refine ⟨hS.geo.of_sameEnv he, ?_, ?_⟩
  · intro c hc
    rw [t.1 c hc]; exact hS.hdrs c hc
  · intro c hc hu
    rw [t.2 c hc (hS.geo.free_real hc hu)]; exact hS.ftrs c hc hu

/-- Addresses of blocks are spaced. -/
theorem Geo.spaced {h : Heap} {xs : List Blk} (hG : Geo h xs) {l : List Nat}
    (hsl : Slots xs l) : Spaced h.lo l := by
  constructor
  · intro x hx
    obtain ⟨b, hb, rfl, _⟩ := hsl x hx
    exact (hG.bounds hb).1
  · intro x hx y hy
    obtain ⟨b, hb, rfl, hb32⟩ := hsl x hx
    obtain ⟨c, hc, rfl, hc32⟩ := hsl y hy
    rcases hG.sep hb hc with rfl | h1 | h1
    · exact Or.inl rfl
    · right; left; omega
    · right; right; omega

theorem Agree.slots {h : Heap} {xs : List Blk} {fl : List Nat} (hG : Geo h xs)
    (ha : Agree xs fl) : Slots xs fl := by
  intro g hg
  obtain ⟨b, hb, e, hu⟩ := (ha g).1 hg
  exact ⟨b, hb, e, hG.free_real hb hu⟩

/-! ### Doubly linked list segments -/

theorem lastOr_append_singleton (p : Nat) (l : List Nat) (x : Nat) :
    lastOr p (l ++ [x]) = x := by
  induction l generalizing p with
  | nil => rfl
  | cons y r ih => exact ih y

theorem dseg_head {h : Heap} {p : Nat} {l : List Nat} {a z : Nat} (hd : dseg h p l a z) :
    a = l.headD z := by
  cases l with
  | nil => exact hd
  | cons g r => exact hd.1

theorem dseg_ne_zero {h : Heap} {p : Nat} {l : List Nat} {a z : Nat} (hd : dseg h p l a z) :
    ∀ g ∈ l, g ≠ 0 := by
  induction l generalizing p a with
  | nil => intro g hg; cases hg
  | cons x r ih =>
    intro g hg
    rcases List.mem_cons.1 hg with rfl | hg
    · exact hd.2.1
    · exact ih hd.2.2.2 g hg

theorem dseg_append {h : Heap} {p : Nat} {l1 l2 : List Nat} {a z : Nat} :
    dseg h p (l1 ++ l2) a z ↔ ∃ m, dseg h p l1 a m ∧ dseg h (lastOr p l1) l2 m z := by
  induction l1 generalizing p a with
  | nil =>
    constructor
    · intro hd; exact ⟨a, rfl, hd⟩
    · rintro ⟨m, h1, h2⟩
      have : a = m := h1
      subst this; exact h2
  | cons g r ih =>
    show (a = g ∧ g ≠ 0 ∧ h.mem (prev_field g) = p ∧ dseg h g (r ++ l2) (h.mem (next_field g)) z) ↔
      ∃ m, (a = g ∧ g ≠ 0 ∧ h.mem (prev_field g) = p ∧ dseg h g r (h.mem (next_field g)) m) ∧
        dseg h (lastOr g r) l2 m z
    rw [ih]
    constructor
    · rintro ⟨h1, h2, h3, m, h4, h5⟩; exact ⟨m, ⟨h1, h2, h3, h4⟩, h5⟩
    · rintro ⟨m, ⟨h1, h2, h3, h4⟩, h5⟩; exact ⟨h1, h2, h3, m, h4, h5⟩

/-- A segment does not depend on memory outside the link fields of its nodes. -/
theorem dseg_frame {h h1 : Heap} {p : Nat} {l : List Nat} {a z : Nat}
    (hf : ∀ g ∈ l, h1.mem (prev_field g) = h.mem (prev_field g) ∧
      h1.mem (next_field g) = h.mem (next_field g))
    (hd : dseg h p l a z) : dseg h1 p l a z := by
  induction l generalizing p a with
  | nil => exact hd
  | cons g r ih =>
    obtain ⟨e1, e2, e3, e4⟩ := hd
    have hg := hf g (List.mem_cons_self _ _)
    refine ⟨e1, e2, by rw [hg.1]; exact e3, ?_⟩
    rw [hg.2]
    exact ih (fun x hx => hf x (List.mem_cons_of_mem _ hx)) e4

theorem dseg_store {h : Heap} {p : Nat} {l : List Nat} {a z w v : Nat}
    (hw : ∀ g ∈ l, w ≠ prev_field g ∧ w ≠ next_field g)
    (hd : dseg h p l a z) : dseg (store h w v) p l a z := by
  refine dseg_frame (fun g hg => ?_) hd
  have := hw g hg
  simp only [store_mem]
  rw [if_neg (Ne.symm this.1), if_neg (Ne.symm this.2)]
  exact ⟨rfl, rfl⟩

/-- Redirecting the `next` field of the last node of a segment. -/
theorem dseg_store_next {h : Heap} {p : Nat} {l : List Nat} {x a m v : Nat}
    (h1 : ∀ y ∈ l, next_field x ≠ prev_field y ∧ next_field x ≠ next_field y)
    (hd : dseg h p (l ++ [x]) a m) : dseg (store h (next_field x) v) p (l ++ [x]) a v := by
  rw [dseg_append] at hd ⊢
  obtain ⟨k, hk, e1, e2, e3, _⟩ := hd
  refine ⟨k, dseg_store h1 hk, e1, e2, ?_, ?_⟩
  · simp only [store_mem, next_field_eq, prev_field_eq]
    rw [if_neg (by omega)]
    simpa [prev_field_eq] using e3
  · show (store h (next_field x) v).mem (next_field x) = v
    simp

/-- Redirecting the `prev` field of the first node of a segment. -/
theorem dseg_store_prev {h : Heap} {p : Nat} {l : List Nat} {y a z v : Nat}
    (h1 : ∀ x ∈ l, prev_field y ≠ prev_field x ∧ prev_field y ≠ next_field x)
    (hd : dseg h p (y :: l) a z) : dseg (store h (prev_field y) v) v (y :: l) a z := by
  obtain ⟨e1, e2, _, e4⟩ := hd
  refine ⟨e1, e2, by simp, ?_⟩
  have : (store h (prev_field y) v).mem (next_field y) = h.mem (next_field y) := by
    simp only [store_mem, next_field_eq, prev_field_eq]
    rw [if_neg (by omega)]
  rw [this]
  exact dseg_store h1 e4

theorem erase_middle {l1 l2 : List Nat} {g : Nat} (hn : (l1 ++ g :: l2).Nodup) :
    (l1 ++ g :: l2).erase g = l1 ++ l2 := by
  have hg : g ∉ l1 := by
    intro hmem
    have := (List.nodup_append.1 hn).2.2
    exact this hmem (List.mem_cons_self _ _) 
  rw [List.erase_append_right _ hg]
  simp

/-! ### `remove_free_block` -/

theorem SameEnv.rfl_ (h : Heap) : SameEnv h h := ⟨rfl, rfl, rfl, rfl⟩

theorem SameEnv.trans_env {h h1 h2 : Heap} (a : SameEnv h h1) (b : SameEnv h1 h2) :
    SameEnv h h2 :=
  ⟨b.1.trans a.1, b.2.1.trans a.2.1, b.2.2.1.trans a.2.2.1, b.2.2.2.trans a.2.2.2⟩

theorem SameEnv.store_env (h : Heap) (w v : Nat) : SameEnv h (store h w v) :=
  ⟨rfl, rfl, rfl, rfl⟩

theorem eq_nil_or_snoc {α : Type} (l : List α) : l = [] ∨ ∃ L b, l = L ++ [b] := by
  rcases List.eq_nil_or_concat l with h | ⟨L, b, h⟩
  · exact Or.inl h
  · exact Or.inr ⟨L, b, by rw [h, List.concat_eq_append]⟩

theorem remove_sameEnv (h : Heap) (g : Nat) : SameEnv h (remove_free_block h g) := by
  unfold remove_free_block
  simp only []
  split_ifs <;> exact ⟨rfl, rfl, rfl, rfl⟩

theorem remove_eq_head {h : Heap} {g n pv : Nat} (hn : h.mem (next_field g) = n)
    (hp : h.mem (prev_field g) = pv) (hh : h.mem h.lo = g) (hlo : n ≠ 0 → h.lo ≠ prev_field n) :
    remove_free_block h g =
      store (if n ≠ 0 then store h (prev_field n) pv else h) h.lo n := by
  unfold remove_free_block
  simp only [load_eq, hn, hp, FREE_LIST_HEAD, mem_heap_lo]
  by_cases h0 : n = 0
  · simp [h0, hh]
  · simp only [ne_eq, h0, not_false_eq_true, if_true, store_mem, store_lo]
    rw [if_neg (hlo h0), if_pos hh.symm]

theorem remove_eq_mid {h : Heap} {g n pv : Nat} (hn : h.mem (next_field g) = n)
    (hp : h.mem (prev_field g) = pv) (hh : h.mem h.lo ≠ g) (hlo : n ≠ 0 → h.lo ≠ prev_field n) :
    remove_free_block h g =
      store (if n ≠ 0 then store h (prev_field n) pv else h) (next_field pv) n := by
  unfold remove_free_block
  simp only [load_eq, hn, hp, FREE_LIST_HEAD, mem_heap_lo]
  by_cases h0 : n = 0
  · simp [h0, Ne.symm hh]
  · simp only [ne_eq, h0, not_false_eq_true, if_true, store_mem, store_lo]
    rw [if_neg (hlo h0), if_neg (Ne.symm hh)]

/-- Unlinking a node of the free list: the list loses that node and keeps
its order, and only the head word and link fields of list nodes change. -/
theorem remove_free_block_links {h : Heap} {fl : List Nat} (hlinks : FreeList h fl)
    (hnd : fl.Nodup) (hsp : Spaced h.lo fl) {g : Nat} (hg : g ∈ fl) :
    FreeList (remove_free_block h g) (fl.erase g) ∧
      LinkFrame h (remove_free_block h g) fl := by
  have hsep := hsp.2
  have hlo := hsp.1
  unfold FreeList at hlinks ⊢
  obtain ⟨l1, l2, rfl⟩ := List.append_of_mem hg
  rw [erase_middle hnd]
  have hnd' : (l1 ++ l2).Nodup := by
    have := hnd
    rw [List.nodup_append] at this ⊢
    exact ⟨this.1, (List.nodup_cons.1 this.2.1).2,
      fun x hx1 hx2 => this.2.2 hx1 (List.mem_cons_of_mem _ hx2)⟩
  have hg1 : g ∉ l1 := fun hm => (List.nodup_append.1 hnd).2.2 hm (List.mem_cons_self _ _)
  have hg2 : g ∉ l2 := (List.nodup_cons.1 (List.nodup_append.1 hnd).2.1).1
  have h12 : ∀ x ∈ l1, ∀ y ∈ l2, x ≠ y := fun x hx y hy e =>
    (List.nodup_append.1 hnd).2.2 hx (List.mem_cons_of_mem _ (e ▸ hy))
  rw [dseg_append] at hlinks
  obtain ⟨m, d1, hm, g0, hpv, d2⟩ := hlinks
  subst hm
  have hnx := dseg_head d2
  have hhd := dseg_head d1
  have glo := hlo m (by simp)
  rcases eq_nil_or_snoc l1 with rfl | ⟨l1', pv, rfl⟩
  · -- the node is the head of the list
    have hh : h.mem h.lo = m := by simpa using hhd
    have hpv0 : h.mem (prev_field m) = 0 := hpv
    cases l2 with
    | nil =>
      have hn0 : h.mem (next_field m) = 0 := by simpa using hnx
      rw [remove_eq_head hn0 hpv0 hh (fun c => absurd rfl c)]
      simp only [ne_eq, not_true_eq_false, if_false, List.nil_append]
      refine ⟨?_, ?_⟩
      · show (store h h.lo 0).mem (store h h.lo 0).lo = 0
        simp
      · intro a ha _
        simp [ha]
    | cons n r =>
      have hn : h.mem (next_field m) = n := by simpa using hnx
      have n0 : n ≠ 0 := d2.2.1
      have nlo := hlo n (by simp)
      rw [remove_eq_head hn hpv0 hh (fun _ => by rw [prev_field_eq]; omega)]
      simp only [ne_eq, n0, not_false_eq_true, if_true, List.nil_append]
      refine ⟨?_, ?_⟩
      · show dseg _ 0 (n :: r) ((store (store h (prev_field n) 0) h.lo n).mem h.lo) 0
        have e : (store (store h (prev_field n) 0) h.lo n).mem h.lo = n := by simp
        rw [e]
        rw [hn] at d2
        refine dseg_store ?_ (dseg_store_prev ?_ d2)
        · intro x hx
          have := hlo x (by simp [hx])
          rw [prev_field_eq, next_field_eq]; omega
        · intro x hx
          have hxn : x ≠ n := fun e => (List.nodup_cons.1 (by simpa using hnd')).1 (e ▸ hx)
          have := hsep x (by simp [hx]) n (by simp)
          rw [prev_field_eq, prev_field_eq, next_field_eq]; omega
      · intro a ha hx
        have := hx n (by simp)
        simp [ha, this.2]
  · -- the node has a predecessor in the list
    have hpvm : pv ≠ m := fun e => hg1 (by simp [e])
    have hh : h.mem h.lo ≠ m := by
      intro e
      rw [e] at hhd
      cases l1' with
      | nil => simp at hhd; exact hpvm hhd.symm
      | cons y t => simp at hhd; exact hg1 (by simp [hhd])
    have hpv' : h.mem (prev_field m) = pv := by rw [hpv, lastOr_append_singleton]
    have pvlo := hlo pv (by simp)
    cases l2 with
    | nil =>
      have hn0 : h.mem (next_field m) = 0 := by simpa using hnx
      rw [remove_eq_mid hn0 hpv' hh (fun c => absurd rfl c)]
      simp only [ne_eq, not_true_eq_false, if_false, List.append_nil] at hnd' ⊢
      refine ⟨?_, ?_⟩
      · show dseg _ 0 (l1' ++ [pv]) ((store h (next_field pv) 0).mem h.lo) 0
        have e : (store h (next_field pv) 0).mem h.lo = h.mem h.lo := by
          simp only [store_mem, next_field_eq]; rw [if_neg (by omega)]
        rw [e]
        refine dseg_store_next ?_ d1
        intro y hy
        have hne : y ≠ pv := by
          intro e
          exact (List.nodup_append.1 (List.nodup_append.1 hnd).1).2.2 hy
            (List.mem_singleton.2 e)
        have := hsep y (by simp [hy]) pv (by simp)
        rw [prev_field_eq, next_field_eq, next_field_eq]; omega
      · intro a ha hx
        have := hx pv (by simp)
        simp [this.1]
    | cons n r =>
      have hn : h.mem (next_field m) = n := by simpa using hnx
      have n0 : n ≠ 0 := d2.2.1
      have nlo := hlo n (by simp)
      have hpvn : pv ≠ n := h12 pv (by simp) n (by simp)
      have spn := hsep pv (by simp) n (by simp)
      rw [remove_eq_mid hn hpv' hh (fun _ => by rw [prev_field_eq]; omega)]
      simp only [ne_eq, n0, not_false_eq_true, if_true]
      refine ⟨?_, ?_⟩
      · rw [dseg_append]
        refine ⟨n, ?_, ?_⟩
        · have e : (store (store h (prev_field n) pv) (next_field pv) n).lo = h.lo := rfl
          have e2 : (store (store h (prev_field n) pv) (next_field pv) n).mem h.lo = h.mem h.lo := by
            simp only [store_mem, next_field_eq, prev_field_eq]
            rw [if_neg (by omega), if_neg (by omega)]
          rw [e, e2]
          refine dseg_store_next ?_ (dseg_store ?_ d1)
          · intro y hy
            have hne : y ≠ pv := by
              intro e
              exact (List.nodup_append.1 (List.nodup_append.1 hnd).1).2.2 hy
                (List.mem_singleton.2 e)
            have := hsep y (by simp [hy]) pv (by simp)
            rw [prev_field_eq, next_field_eq, next_field_eq]; omega
          · intro y hy
            have hne : y ≠ n := h12 y hy n (by simp)
            have hym : y ∈ l1' ++ [pv] ++ m :: n :: r := by
              simp only [List.mem_append, List.mem_cons] at hy ⊢; tauto
            have := hsep y hym n (by simp)
            rw [prev_field_eq, prev_field_eq, next_field_eq]; omega
        · rw [lastOr_append_singleton]
          rw [hn] at d2
          refine dseg_store ?_ (dseg_store_prev ?_ d2)
          · intro x hx
            have hne : pv ≠ x := h12 pv (by simp) x hx
            have hxm : x ∈ l1' ++ [pv] ++ m :: n :: r := by
              simp only [List.mem_append, List.mem_cons] at hx ⊢; tauto
            have := hsep pv (by simp) x hxm
            rw [prev_field_eq, next_field_eq, next_field_eq]; omega
          · intro x hx
            have hxn : x ≠ n := fun e =>
              (List.nodup_cons.1 (List.nodup_cons.1 (List.nodup_append.1 hnd).2.1).2).1 (e ▸ hx)
            have := hsep x (by simp [hx]) n (by simp)
            rw [prev_field_eq, prev_field_eq, next_field_eq]; omega
      · intro a ha hx
        have h1 := hx pv (by simp)
        have h2 := hx n (by simp)
        simp [h1.1, h2.2]

/-! ### `insert_free_block` -/

theorem insert_sameEnv (h : Heap) (g : Nat) : SameEnv h (insert_free_block h g) := by
  unfold insert_free_block
  simp only []
  split_ifs <;> exact ⟨rfl, rfl, rfl, rfl⟩

/-- Pushing a block that is not in the free list: it becomes the head, the
old list follows in its order, and only the head word and link fields of
list nodes change. -/
theorem insert_free_block_links {h : Heap} {fl : List Nat} {g : Nat} (hd : FreeList h fl)
    (hnd : (g :: fl).Nodup) (hsp : Spaced h.lo (g :: fl)) :
    FreeList (insert_free_block h g) (g :: fl) ∧
      LinkFrame h (insert_free_block h g) (g :: fl) := by
  have hg : g ∉ fl := (List.nodup_cons.1 hnd).1
  have hbb : h.lo + 8 ≤ g := hsp.1 g (List.mem_cons_self _ _)
  have hsep : ∀ x ∈ fl, x + 32 ≤ g ∨ g + 32 ≤ x := by
    intro x hx
    rcases hsp.2 x (List.mem_cons_of_mem _ hx) g (List.mem_cons_self _ _) with e | e | e
    · exact absurd (e ▸ hx) hg
    · exact Or.inl e
    · exact Or.inr e
  have hlo : ∀ x ∈ fl, h.lo + 8 ≤ x := fun x hx => hsp.1 x (List.mem_cons_of_mem _ hx)
  unfold FreeList at hd ⊢
  have hhd := dseg_head hd
  cases fl with
  | nil =>
    have h0 : h.mem h.lo = 0 := by simpa using hhd
    have e : insert_free_block h g =
        store (store (store h (next_field g) 0) (prev_field g) 0) h.lo g := by
      unfold insert_free_block
      simp [FREE_LIST_HEAD, mem_heap_lo, h0]
    rw [e]
    refine ⟨?_, ?_⟩
    · refine ⟨by simp, by omega, ?_, ?_⟩
      · simp only [store_mem, prev_field_eq, store_lo]
        rw [if_neg (by omega)]; simp
      · show (store (store (store h (next_field g) 0) (prev_field g) 0) h.lo
          g).mem (next_field g) = 0
        simp only [store_mem, prev_field_eq, next_field_eq]
        rw [if_neg (by omega), if_neg (by omega)]; simp
    · intro a ha hx
      have := hx g (by simp)
      simp [ha, this.1, this.2]
  | cons old r =>
    have h0 : h.mem h.lo = old := by simpa using hhd
    have o0 : old ≠ 0 := hd.2.1
    have olo := hlo old (by simp)
    have osep := hsep old (by simp)
    have e : insert_free_block h g =
        store (store (store (store h (next_field g) old) (prev_field old) g)
          (prev_field g) 0) h.lo g := by
      unfold insert_free_block
      simp [FREE_LIST_HEAD, mem_heap_lo, h0, o0]
    rw [e]
    refine ⟨?_, ?_⟩
    · refine ⟨by simp, by omega, ?_, ?_⟩
      · simp only [store_mem, prev_field_eq, store_lo]
        rw [if_neg (by omega)]; simp
      · have e2 : (store (store (store (store h (next_field g) old) (prev_field old) g)
            (prev_field g) 0) h.lo g).mem (next_field g) = old := by
          simp only [store_mem, prev_field_eq, next_field_eq]
          rw [if_neg (by omega), if_neg (by omega), if_neg (by omega)]; simp
        rw [e2]
        rw [h0] at hd
        have hfield : ∀ w, (w = next_field g ∨ w = prev_field g ∨ w = h.lo) →
            ∀ g ∈ old :: r, w ≠ prev_field g ∧ w ≠ next_field g := by
          intro w hw g hg'
          have := hsep g hg'
          have := hlo g hg'
          rw [prev_field_eq, next_field_eq]
          rw [prev_field_eq, next_field_eq] at hw
          omega
        refine dseg_store (hfield _ (Or.inr (Or.inr rfl)))
          (dseg_store (hfield _ (Or.inr (Or.inl rfl))) ?_)
        refine dseg_store_prev ?_ (dseg_store (hfield _ (Or.inl rfl)) hd)
        intro x hx
        have hxo : x ≠ old := fun e =>
          (List.nodup_cons.1 (List.nodup_cons.1 hnd).2).1 (e ▸ hx)
        have := hsp.2 x (by simp [hx]) old (by simp)
        rw [prev_field_eq, prev_field_eq, next_field_eq]; omega
    · intro a ha hx
      have h1 := hx g (by simp)
      have h2 := hx old (by simp)
      simp [ha, h1.1, h1.2, h2.2]

/-! ### The words written by the free-list operations -/

theorem Touch.widen {lo : Nat} {fl fl2 W W2 : List Nat} {a : Nat} (ht : Touch lo fl W a)
    (h1 : ∀ x ∈ fl, x ∈ fl2) (h2 : ∀ w ∈ W, w ∈ W2) : Touch lo fl2 W2 a := by
  rcases ht with e | ⟨x, hx, e⟩ | e
  · exact Or.inl e
  · exact Or.inr (Or.inl ⟨x, h1 x hx, e⟩)
  · exact Or.inr (Or.inr (h2 a e))

/-- Unlinking a node of the free list writes the head word and link fields of
list nodes only. -/
theorem remove_writes_touch {h : Heap} {fl : List Nat} (hlinks : FreeList h fl)
    (hnd : fl.Nodup) (hsp : Spaced h.lo fl) {g : Nat} (hg : g ∈ fl) :
    ∀ a ∈ remove_free_block_writes h g, Touch h.lo fl [] a := by
  have hlo := hsp.1
  unfold FreeList at hlinks
  obtain ⟨l1, l2, rfl⟩ := List.append_of_mem hg
  have hg1 : g ∉ l1 := fun hm => (List.nodup_append.1 hnd).2.2 hm (List.mem_cons_self _ _)
  rw [dseg_append] at hlinks
  obtain ⟨m, d1, hm, g0, hpv, d2⟩ := hlinks
  subst hm
  have hnx := dseg_head d2
  have hhd := dseg_head d1
  -- the successor is a node, or `NULL`
  have hnext : h.mem (next_field m) ≠ 0 → h.mem (next_field m) ∈ l1 ++ m :: l2 := by
    intro hne
    cases l2 with
    | nil => exact absurd (by simpa using hnx) hne
    | cons n r =>
      have hn : h.mem (next_field m) = n := by simpa using hnx
      rw [hn]; simp
  -- the predecessor is a node, or the node is the head
  have hprev : h.mem (prev_field m) ∈ l1 ++ m :: l2 ∨ h.mem h.lo = m := by
    rcases eq_nil_or_snoc l1 with rfl | ⟨l1', pv, rfl⟩
    · right; simpa using hhd
    · left
      rw [hpv, lastOr_append_singleton]; simp
  intro a ha
  unfold remove_free_block_writes at ha
  simp only [load_eq, FREE_LIST_HEAD, mem_heap_lo, List.mem_append] at ha
  rcases ha with ha | ha
  · by_cases hne : h.mem (next_field m) = 0
    · simp [hne] at ha
    · simp only [ne_eq, hne, not_false_eq_true, if_true, List.mem_singleton] at ha
      exact Or.inr (Or.inl ⟨_, hnext hne, Or.inr ha⟩)
  · split_ifs at ha with c1 c2 c2
    · simp only [List.mem_singleton, store_lo] at ha
      exact Or.inl ha
    · simp only [List.mem_singleton] at ha
      rcases hprev with hp | hp
      · exact Or.inr (Or.inl ⟨_, hp, Or.inl ha⟩)
      · exfalso
        apply c2
        have nlo := hlo _ (hnext c1)
        rw [store_lo, mem_store_of_ne (by rw [prev_field_eq]; omega), hp]
    · simp only [List.mem_singleton] at ha
      exact Or.inl ha
    · simp only [List.mem_singleton] at ha
      rcases hprev with hp | hp
      · exact Or.inr (Or.inl ⟨_, hp, Or.inl ha⟩)
      · exact absurd hp.symm c2

/-- Pushing a block writes the head word and link fields of the block and of
list nodes only. -/
theorem insert_writes_touch {h : Heap} {fl : List Nat} (hd : FreeList h fl) (g : Nat) :
    ∀ a ∈ insert_free_block_writes h g, Touch h.lo (g :: fl) [] a := by
  unfold FreeList at hd
  have hhd := dseg_head hd
  intro a ha
  unfold insert_free_block_writes at ha
  simp only [FREE_LIST_HEAD, mem_heap_lo, load_eq, List.mem_append, List.mem_cons,
    List.mem_singleton, List.not_mem_nil, or_false] at ha
  rcases ha with (ha | ha) | ha | ha
  · exact Or.inr (Or.inl ⟨g, by simp, Or.inl ha⟩)
  · by_cases h0 : h.mem h.lo = 0
    · simp [h0] at ha
    · simp only [ne_eq, h0, not_false_eq_true, if_true, List.mem_singleton] at ha
      refine Or.inr (Or.inl ⟨h.mem h.lo, ?_, Or.inr ha⟩)
      cases fl with
      | nil => exact absurd (by simpa using hhd) h0
      | cons o r =>
        have : h.mem h.lo = o := by simpa using hhd
        rw [this]; simp
  · exact Or.inr (Or.inl ⟨g, by simp, Or.inr ha⟩)
  · exact Or.inl ha

/-! ### `search_free_list` -/

/-- The search loop over a list segment that ends in `NULL`: with fuel for
every node it returns the first node that is large enough, or `NULL` when
there is none. -/
theorem search_loop_spec {h : Heap} {req : Nat} {l : List Nat} :
    ∀ {p a k : Nat}, dseg h p l a 0 → l.length < k →
      (search_loop h req k a = some 0 ∧ ∀ g ∈ l, SIZE (h.mem g) < req) ∨
      ∃ l1 g l2, l = l1 ++ g :: l2 ∧ search_loop h req k a = some g ∧
        req ≤ SIZE (h.mem g) ∧ ∀ x ∈ l1, SIZE (h.mem x) < req := by
  induction l with
  | nil =>
    intro p a fuel hd hf
    have ha : a = 0 := hd
    subst ha
    obtain ⟨k, rfl⟩ : ∃ k, fuel = k + 1 := ⟨fuel - 1, by simp at hf; omega⟩
    left
    exact ⟨by simp [search_loop], fun g hg => by cases hg⟩
  | cons x r ih =>
    intro p a fuel hd hf
    obtain ⟨e1, e2, _, e4⟩ := hd
    subst e1
    obtain ⟨k, rfl⟩ : ∃ k, fuel = k + 1 := ⟨fuel - 1, by simp at hf; omega⟩
    by_cases hx : req ≤ SIZE (h.mem a)
    · right
      refine ⟨[], a, r, rfl, ?_, hx, fun y hy => by cases hy⟩
      simp [search_loop, e2, hx]
    · have hlt : SIZE (h.mem a) < req := by omega
      have hstep : search_loop h req (k + 1) a = search_loop h req k (h.mem (next_field a)) := by
        simp [search_loop, e2, hx]
      rcases ih (k := k) e4 (by simp only [List.length_cons] at hf; omega) with ⟨h1, h2⟩ | ⟨l1, g, l2, h1, h2, h3, h4⟩
      · left
        refine ⟨by rw [hstep]; exact h1, ?_⟩
        intro g hg
        rcases List.mem_cons.1 hg with rfl | hg
        · exact hlt
        · exact h2 g hg
      · right
        refine ⟨a :: l1, g, l2, by rw [h1]; rfl, by rw [hstep]; exact h2, h3, ?_⟩
        intro y hy
        rcases List.mem_cons.1 hy with rfl | hy
        · exact hlt
        · exact h4 y hy

theorem nodup_length_le {l : List Nat} (hn : l.Nodup) {a b : Nat}
    (hb : ∀ x ∈ l, a ≤ x ∧ x < b) : l.length ≤ b - a := by
  have h1 : l.toFinset ⊆ Finset.Ico a b := by
    intro x hx
    have := hb x (List.mem_toFinset.1 hx)
    exact Finset.mem_Ico.2 this
  have h2 := Finset.card_le_card h1
  rw [List.toFinset_card_of_nodup hn, Nat.card_Ico] at h2
  exact h2

theorem slots_length_lt {h : Heap} {xs : List Blk} {fl : List Nat} (hG : Geo h xs)
    (hnd : fl.Nodup) (hsl : Slots xs fl) : fl.length < loop_fuel h := by
  have h1 : fl.length ≤ (h.brk - 8) - (h.lo + 8) := by
    refine nodup_length_le hnd ?_
    intro x hx
    obtain ⟨b, hb, rfl, h32⟩ := hsl x hx
    have := hG.bounds hb
    omega
  have := hG.total_eq
  unfold loop_fuel
  omega

/-- On a well-formed arena `search_free_list` returns: the first node of the
free list that is large enough, or `NULL` when no node is. -/
theorem search_free_list_spec {h : Heap} {xs : List Blk} {fl : List Nat} (hG : Geo h xs)
    (hd : FreeList h fl) (hnd : fl.Nodup) (hsl : Slots xs fl) (req : Nat) :
    (search_free_list h req = some 0 ∧ ∀ g ∈ fl, SIZE (h.mem g) < req) ∨
      ∃ l1 g l2, fl = l1 ++ g :: l2 ∧ search_free_list h req = some g ∧
        req ≤ SIZE (h.mem g) ∧ ∀ x ∈ l1, SIZE (h.mem x) < req :=
  search_loop_spec hd (slots_length_lt hG hnd hsl)

/-! ### `mm_init` -/

/-- The first block that `mm_init` creates. -/
theorem mm_init_eq {h0 : Heap} (hlo : h0.lo + 48 < WORD_MOD) (hb : h0.brk = h0.lo)
    (hm : h0.lo + 48 ≤ h0.max) :
    mm_init h0 = some
      (store (store (store (store (store (store { h0 with brk := h0.lo + 48 }
        (h0.lo + 8) 34) (h0.lo + 16) 0) (h0.lo + 24) 0) (h0.lo + 32) 34) (h0.lo + 40) 1)
        h0.lo (h0.lo + 8), 0) := by
  simp only [WORD_MOD] at hlo
  have a1 : UNSCALED_POINTER_ADD h0.lo 8 = h0.lo + 8 := ptr_add _ _ (by omega) (by simp only [WORD_MOD]; omega)
  have a2 : UNSCALED_POINTER_ADD (h0.lo + 8) 24 = h0.lo + 32 := by
    rw [ptr_add _ _ (by omega) (by simp only [WORD_MOD]; omega)]
  have a3 : UNSCALED_POINTER_SUB (h0.lo + 47) 7 = h0.lo + 40 := by
    rw [ptr_sub _ _ (by omega) (by omega) (by simp only [WORD_MOD]; omega)]; omega
  have e34 : (32 ||| 2 : Nat) = 34 := by decide
  unfold mm_init mem_sbrk
  simp only [hb, WORD_SIZE, MIN_BLOCK_SIZE, TAG_PRECEDING_USED, TAG_USED]
  rw [if_pos (by omega)]
  simp only [mem_heap_lo, mem_heap_hi, store_lo, store_brk, next_field_eq, prev_field_eq]
  norm_num [a1, a2, a3, e34, Nat.add_assoc]

/-- After `mm_init` the arena is one free block of 32 bytes between the
head word and the sentinel, and that block is the whole free list. -/
theorem mm_init_rep {h0 h : Heap} {r : Nat} (he : Env h0) (hb : h0.brk = h0.lo)
    (hi : mm_init h0 = some (h, r)) :
    r = 0 ∧ h.brk = h0.lo + 48 ∧ h.lo = h0.lo ∧
      Rep h [⟨h0.lo + 8, 32, false, true⟩, ⟨h0.lo + 40, 0, true, false⟩] [h0.lo + 8] := by
  have hmax := he.max_lt
  have hspan := he.span
  have hlo0 := he.lo_pos
  simp only [WORD_MOD] at hmax
  by_cases hm : h0.lo + 48 ≤ h0.max
  · rw [mm_init_eq (by simp only [WORD_MOD]; omega) hb hm] at hi
    simp only [Option.some.injEq, Prod.mk.injEq] at hi
    obtain ⟨rfl, rfl⟩ := hi
    refine ⟨rfl, rfl, rfl, ⟨?_, by simp [Flags], ?_, by simp, ?_⟩, ?_⟩
    · refine ⟨⟨⟨he.lo_pos, he.lo_al, he.ps_pos, he.ps_al, he.ps_lt, hm, he.max_lt, he.span⟩,
        ?_, ?_⟩, ?_, ?_⟩
      · simp [Seg]
      · exact ⟨by show (32 : Nat) ≤ 32; omega, ⟨4, rfl⟩, rfl, rfl, rfl⟩
      · intro b hb'
        simp only [List.mem_cons, List.mem_singleton, List.not_mem_nil, or_false] at hb'
        rcases hb' with rfl | rfl
        · simp (disch := omega) only [mem_store_of_eq, mem_store_of_ne]
          rfl
        · simp (disch := omega) only [mem_store_of_eq, mem_store_of_ne]
          rfl
      · intro b hb' hu
        simp only [List.mem_cons, List.mem_singleton, List.not_mem_nil, or_false] at hb'
        rcases hb' with rfl | rfl
        · simp only [Blk.ftr, WORD_SIZE]
          simp (disch := omega) only [mem_store_of_eq, mem_store_of_ne]
          decide
        · cases hu
    · refine ⟨?_, by omega, ?_, ?_⟩
      · simp (disch := omega) only [store_lo, mem_store_of_eq, mem_store_of_ne]
      · simp (disch := omega) only [prev_field_eq, mem_store_of_eq, mem_store_of_ne]
      · show (_ : Heap).mem (next_field (h0.lo + 8)) = 0
        simp (disch := omega) only [next_field_eq, mem_store_of_eq, mem_store_of_ne]
    · intro g
      simp only [List.mem_singleton, List.mem_cons, List.not_mem_nil, or_false]
      constructor
      · rintro rfl
        exact ⟨_, Or.inl rfl, rfl, rfl⟩
      · rintro ⟨b, hb1 | hb1, hb2, hb3⟩
        · rw [hb1] at hb2; exact hb2.symm
        · rw [hb1] at hb3; cases hb3
    · intro b hb' hu
      simp only [List.mem_cons, List.mem_singleton, List.not_mem_nil, or_false] at hb'
      rcases hb' with rfl | rfl
      · refine ⟨rfl, ?_⟩
        simp only [Blk.ftr, WORD_SIZE]
        simp (disch := omega) only [mem_store_of_eq, mem_store_of_ne]
        rfl
      · cases hu
  · exfalso
    unfold mm_init mem_sbrk at hi
    simp only [hb, WORD_SIZE, MIN_BLOCK_SIZE] at hi
    rw [if_neg (by omega)] at hi
    cases hi


/-! ### Replacing a run of blocks -/

/-- In a sequence, a block of the front part ends before any block of the
back part starts. -/
theorem Seg_order {a : Nat} {u v : List Blk} (hs : Seg a (u ++ v)) {y z : Blk}
    (hy : y ∈ u) (hz : z ∈ v) : y.addr + y.size ≤ z.addr := by
  rw [Seg_append] at hs
  have h1 := Seg_bounds hs.1 hy
  have h2 := Seg_bounds hs.2 hz
  omega

/-- Every block before the last one has at least 32 bytes. -/
theorem EndsAt_front {brk : Nat} {l1 l2 : List Blk} (he : EndsAt brk (l1 ++ l2))
    (h2 : l2 ≠ []) {y : Blk} (hy : y ∈ l1) : 32 ≤ y.size ∧ 8 ∣ y.size := by
  cases l2 with
  | nil => exact absurd rfl h2
  | cons c r => exact (EndsAt_append_cons.1 he).1 y hy

/-- A block of at least 32 bytes has a block behind it. -/
theorem Geo.split_real {h : Heap} {xs : List Blk} (hG : Geo h xs) {b : Blk} (hb : b ∈ xs)
    (h32 : 32 ≤ b.size) : ∃ pre c rest, xs = pre ++ b :: c :: rest := by
  obtain ⟨pre, post, rfl⟩ := List.append_of_mem hb
  cases post with
  | nil =>
    have := (EndsAt_append_cons.1 hG.ends).2
    have h0 : b.size = 0 := this.1
    omega
  | cons c rest => exact ⟨pre, c, rest, rfl⟩

/-- A block outside a run of blocks lies wholly before or wholly behind the
bytes of the run, and its address differs from those of the run. -/
theorem Geo.outside {h : Heap} {pre mid rest : List Blk} (hG : Geo h (pre ++ mid ++ rest))
    {y : Blk} (hy : y ∈ pre ++ rest) :
    (y.addr + y.size ≤ h.lo + 8 + total pre ∧ (mid ++ rest ≠ [] → 32 ≤ y.size)) ∨
      (h.lo + 8 + total pre + total mid ≤ y.addr ∧ y ∈ rest ∧ ∀ z ∈ mid, 32 ≤ z.size) := by
  have hs := hG.seg
  simp only [WORD_SIZE] at hs
  rcases List.mem_append.1 hy with hp | hr
  · left
    rw [List.append_assoc, Seg_append] at hs
    have := Seg_bounds hs.1 hp
    refine ⟨by omega, fun hne => ?_⟩
    have he := hG.ends
    rw [List.append_assoc] at he
    exact (EndsAt_front he hne hp).1
  · right
    rw [Seg_append, total_append] at hs
    have := Seg_bounds hs.2 hr
    refine ⟨by omega, hr, fun z hz => ?_⟩
    have hne : rest ≠ [] := List.ne_nil_of_mem hr
    exact (EndsAt_front hG.ends hne (List.mem_append_right _ hz)).1

/-- Rebuilding the tiled arena after a run `mid` of blocks was replaced by
the run `m`: the new run must be tiled and flagged, blocks outside the run
must keep their tags, and the free list must have lost the nodes of `mid` and
gained the free blocks of `m`. -/
theorem Pre.splice_pre {h k : Heap} {pre mid m rest : List Blk} {fl f : List Nat}
    (hR : Pre h (pre ++ mid ++ rest) fl) (hmid : mid ≠ []) (henv : Env k) (hlo : k.lo = h.lo)
    (hseg : Seg (h.lo + 8 + total pre) (m ++ rest))
    (hE : EndsAt k.brk (m ++ rest))
    (hfl : Flags (lastUsed true pre) (m ++ rest))
    (hhdr : ∀ y ∈ m, k.mem y.addr = y.hdr)
    (hftr : ∀ y ∈ m, y.used = false → SIZE (k.mem y.ftr) = y.size)
    (hfr : ∀ y ∈ pre ++ rest, k.mem y.addr = h.mem y.addr ∧
      (y.used = false → k.mem y.ftr = h.mem y.ftr))
    (hlinks : FreeList k f) (hnd : f.Nodup)
    (hag : ∀ g, g ∈ f ↔ (g ∈ fl ∧ ∀ y ∈ mid, y.addr ≠ g) ∨
      ∃ y ∈ m, y.addr = g ∧ y.used = false) :
    Pre k (pre ++ m ++ rest) f := by
  have hG := hR.shape.geo
  have hne1 : m ++ rest ≠ [] := by
    intro e; rw [e] at hE; exact hE
  have hpre : ∀ y ∈ pre, 32 ≤ y.size ∧ 8 ∣ y.size := by
    intro y hy
    have he := hG.ends
    rw [List.append_assoc] at he
    exact EndsAt_front he (by simp [hmid]) hy
  have hsegpre : Seg (h.lo + 8) pre := by
    have := hG.seg
    rw [List.append_assoc, Seg_append] at this
    exact this.1
  have hflpre : Flags true pre := by
    have := hR.flags
    rw [List.append_assoc, Flags_append] at this
    exact this.1
  have hG1 : Geo k (pre ++ m ++ rest) := by
    refine ⟨henv, ?_, ?_⟩
    · rw [List.append_assoc, Seg_append, hlo]
      exact ⟨hsegpre, hseg⟩
    · rw [List.append_assoc]
      cases hm : m ++ rest with
      | nil => exact absurd hm hne1
      | cons c r =>
        rw [hm] at hE
        exact EndsAt_append_cons.2 ⟨hpre, hE⟩
  have hmem : ∀ y, y ∈ pre ++ m ++ rest ↔ y ∈ m ∨ y ∈ pre ++ rest := by
    intro y
    simp only [List.mem_append]
    tauto
  have hold : ∀ y, y ∈ pre ++ rest → y ∈ pre ++ mid ++ rest := by
    intro y
    simp only [List.mem_append]
    tauto
  refine ⟨⟨hG1, ?_, ?_⟩, ?_, hlinks, hnd, ?_⟩
  · intro y hy
    rcases (hmem y).1 hy with hy1 | hy1
    · exact hhdr y hy1
    · rw [(hfr y hy1).1]
      exact hR.shape.hdrs y (hold y hy1)
  · intro y hy hu
    rcases (hmem y).1 hy with hy1 | hy1
    · exact hftr y hy1 hu
    · rw [(hfr y hy1).2 hu]
      exact hR.shape.ftrs y (hold y hy1) hu
  · rw [List.append_assoc, Flags_append]
    exact ⟨hflpre, hfl⟩
  · intro g
    rw [hag g]
    constructor
    · rintro (⟨hg, hne⟩ | ⟨y, hy, e, hu⟩)
      · obtain ⟨y, hy, e, hu⟩ := (hR.agree g).1 hg
        refine ⟨y, ?_, e, hu⟩
        simp only [List.mem_append] at hy ⊢
        rcases hy with (hy | hy) | hy
        · exact Or.inl (Or.inl hy)
        · exact absurd e (hne y hy)
        · exact Or.inr hy
      · exact ⟨y, (hmem y).2 (Or.inl hy), e, hu⟩
    · rintro ⟨y, hy, e, hu⟩
      rcases (hmem y).1 hy with hy1 | hy1
      · exact Or.inr ⟨y, hy1, e, hu⟩
      · left
        refine ⟨(hR.agree g).2 ⟨y, hold y hy1, e, hu⟩, ?_⟩
        intro z hz hzg
        have hy32 := hG.free_real (hold y hy1) hu
        have hs := hG.seg
        simp only [WORD_SIZE] at hs
        rw [Seg_append, Seg_append] at hs
        have hzm := Seg_bounds hs.1.2 hz
        rcases hG.outside hy1 with ⟨h1', _⟩ | ⟨h1', _, h3⟩
        · omega
        · have := h3 z hz
          omega

/-- Rebuilding the invariant after a run `mid` of blocks was replaced by the
run `m`: as `Pre.splice_pre`, with every free block of the new run and every
free block outside the run settled. -/
theorem Rep.splice {h k : Heap} {pre mid m rest : List Blk} {fl f : List Nat}
    (hR : Pre h (pre ++ mid ++ rest) fl)
    (hout : ∀ y ∈ pre ++ rest, y.used = false → y.pu = true ∧ h.mem y.ftr = y.hdr)
    (hmid : mid ≠ []) (henv : Env k) (hlo : k.lo = h.lo)
    (hseg : Seg (h.lo + 8 + total pre) (m ++ rest))
    (hE : EndsAt k.brk (m ++ rest))
    (hfl : Flags (lastUsed true pre) (m ++ rest))
    (hhdr : ∀ y ∈ m, k.mem y.addr = y.hdr)
    (hset : ∀ y ∈ m, y.used = false → y.pu = true ∧ k.mem y.ftr = y.hdr)
    (hfr : ∀ y ∈ pre ++ rest, k.mem y.addr = h.mem y.addr ∧
      (y.used = false → k.mem y.ftr = h.mem y.ftr))
    (hlinks : FreeList k f) (hnd : f.Nodup)
    (hag : ∀ g, g ∈ f ↔ (g ∈ fl ∧ ∀ y ∈ mid, y.addr ≠ g) ∨
      ∃ y ∈ m, y.addr = g ∧ y.used = false) :
    Rep k (pre ++ m ++ rest) f := by
  have hsizes : ∀ y ∈ m, 8 ∣ y.size ∧ y.size < 18446744073709551616 := by
    intro y hy
    have hne1 : m ++ rest ≠ [] := by
      intro e; rw [e] at hE; exact hE
    have hk := EndsAt_kind hE (List.mem_append_left _ hy)
    have ht := EndsAt_total hseg hE
    have hb := Seg_bounds hseg (List.mem_append_left rest hy)
    have := henv.brk_le; have := henv.max_lt
    simp only [WORD_MOD] at *
    refine ⟨?_, by omega⟩
    rcases hk with hk | hk
    · exact hk.2
    · rw [hk.1]; exact Nat.dvd_zero 8
  have hP := Pre.splice_pre hR hmid henv hlo hseg hE hfl hhdr (fun y hy hu => by
    rw [(hset y hy hu).2]
    exact SIZE_word _ _ _ (hsizes y hy).1 (by simp only [WORD_MOD]; exact (hsizes y hy).2))
    hfr hlinks hnd hag
  refine ⟨hP, ?_⟩
  intro y hy hu
  simp only [List.mem_append] at hy
  rcases hy with (hy | hy) | hy
  · have := hout y (List.mem_append_left _ hy) hu
    exact ⟨this.1, by rw [(hfr y (List.mem_append_left _ hy)).2 hu]; exact this.2⟩
  · exact hset y hy hu
  · have := hout y (List.mem_append_right _ hy) hu
    exact ⟨this.1, by rw [(hfr y (List.mem_append_right _ hy)).2 hu]; exact this.2⟩


/-! ### Frames -/

theorem FrameW.refl_ (h : Heap) (fl W : List Nat) : FrameW h h fl W := fun _ _ _ _ => rfl

theorem FrameW.mono {h h1 : Heap} {fl fl2 W W2 : List Nat} (hf : FrameW h h1 fl W)
    (h1' : ∀ x ∈ fl, x ∈ fl2 ∨ (next_field x ∈ W2 ∧ prev_field x ∈ W2))
    (h2 : ∀ w ∈ W, w ∈ W2) : FrameW h h1 fl2 W2 := by
  intro a ha hl hw
  refine hf a ha (fun x hx => ?_) (fun hin => hw (h2 a hin))
  rcases h1' x hx with hx2 | ⟨hn, hp⟩
  · exact hl x hx2
  · exact ⟨fun e => hw (e ▸ hn), fun e => hw (e ▸ hp)⟩

theorem FrameW.of_link {h h1 : Heap} {fl : List Nat} (hf : LinkFrame h h1 fl) (W : List Nat) :
    FrameW h h1 fl W := fun a ha hl _ => hf a ha hl

theorem FrameW.trans_fr {h h1 h2 : Heap} {fl W : List Nat} (hf : FrameW h h1 fl W)
    (hg : FrameW h1 h2 fl W) (hlo : h1.lo = h.lo) : FrameW h h2 fl W := by
  intro a ha hl hw
  rw [hg a (by rw [hlo]; exact ha) hl hw, hf a ha hl hw]

theorem FrameW.store_fr {h : Heap} {fl W : List Nat} {w : Nat} (v : Nat) (hw : w ∈ W) :
    FrameW h (store h w v) fl W := by
  intro a _ _ haw
  have : a ≠ w := fun e => haw (e ▸ hw)
  simp [this]

/-- Blocks outside a run keep their tags when all stores go to the head word,
to link fields of list nodes, and to addresses inside the run. -/
theorem Geo.frame_tags {h h1 : Heap} {pre mid rest : List Blk} {fl W : List Nat}
    (hG : Geo h (pre ++ mid ++ rest)) (hmid : mid ≠ [])
    (hsl : Slots (pre ++ mid ++ rest) fl) (hf : FrameW h h1 fl W)
    (hW : ∀ w ∈ W, h.lo + 8 + total pre ≤ w ∧
      (w < h.lo + 8 + total pre + total mid ∨ rest = [])) :
    ∀ y ∈ pre ++ rest, h1.mem y.addr = h.mem y.addr ∧
      (y.used = false → h1.mem y.ftr = h.mem y.ftr) := by
  intro y hy
  have hyin : y ∈ pre ++ mid ++ rest := by
    simp only [List.mem_append] at hy ⊢; tauto
  have hyb := hG.bounds hyin
  have hout := hG.outside hy
  have hne : mid ++ rest ≠ [] := by simp [hmid]
  constructor
  · refine hf _ (Ne.symm (hG.lo_ne.1 y hyin)) (fun x hx => ?_) (fun hin => ?_)
    · obtain ⟨b, hb, rfl, h32⟩ := hsl x hx
      exact ⟨Ne.symm ((hG.link_ne hb h32).1 y hyin).1, Ne.symm ((hG.link_ne hb h32).1 y hyin).2⟩
    · have := hW _ hin
      rcases hout with ⟨h1', h2'⟩ | ⟨h1', h3', _⟩
      · have := h2' hne; omega
      · rcases this.2 with h4 | h4
        · omega
        · rw [h4] at h3'; cases h3'
  · intro hu
    have h32 := hG.free_real hyin hu
    refine hf _ (Ne.symm (hG.lo_ne.2 y hyin h32)) (fun x hx => ?_) (fun hin => ?_)
    · obtain ⟨b, hb, rfl, hb32⟩ := hsl x hx
      exact ⟨Ne.symm ((hG.link_ne hb hb32).2 y hyin h32).1,
        Ne.symm ((hG.link_ne hb hb32).2 y hyin h32).2⟩
    · have := hW _ hin
      unfold Blk.ftr at this
      simp only [WORD_SIZE] at this
      rcases hout with ⟨h1', _⟩ | ⟨h1', h3', _⟩
      · omega
      · rcases this.2 with h4 | h4
        · omega
        · rw [h4] at h3'; cases h3'

/-- A store to a header or to an address inside a block that is not a link
field of a list node keeps the free list. -/
theorem FreeList.store_fl {h : Heap} {fl : List Nat} (hd : FreeList h fl) {w : Nat} (v : Nat)
    (hlo : w ≠ h.lo) (hw : ∀ g ∈ fl, w ≠ prev_field g ∧ w ≠ next_field g) :
    FreeList (store h w v) fl := by
  unfold FreeList at hd ⊢
  have e : (store h w v).mem (store h w v).lo = h.mem h.lo := by
    simp only [store_lo, store_mem]
    rw [if_neg (Ne.symm hlo)]
  rw [e]
  exact dseg_store hw hd

theorem store_store_same (h : Heap) (a v w : Nat) : store (store h a v) a w = store h a w := by
  unfold store
  simp only [Heap.mk.injEq, true_and]
  funext x
  by_cases hx : x = a <;> simp [hx]

/-- A block of at least 32 bytes is the only block at its address. -/
theorem Geo.addr_inj {h : Heap} {xs : List Blk} (hG : Geo h xs) {y z : Blk} (hy : y ∈ xs)
    (hz : z ∈ xs) (h32 : 32 ≤ y.size) (e : y.addr = z.addr) : y = z := by
  have hyb := hG.bounds hy
  have hzb := hG.bounds hz
  rcases hG.sep hy hz with h1 | h1 | h1
  · exact h1
  · omega
  · rcases EndsAt_kind hG.ends hz with hk | hk
    · omega
    · omega


/-! ### `mm_malloc`: placing the block -/

/-- Facts about a free block `b` of a well-formed arena and the block `c`
behind it. -/
theorem Rep.free_block_facts {h : Heap} {pre rest : List Blk} {b c : Blk} {fl : List Nat}
    (hR : Rep h (pre ++ b :: c :: rest) fl) (hu : b.used = false) :
    b.pu = true ∧ c.addr = b.addr + b.size ∧ c.pu = false ∧ c.used = true ∧
      h.mem b.addr = word b.size false true ∧ h.mem c.addr = word c.size true false ∧
      h.mem b.ftr = word b.size false true ∧ b.addr = h.lo + 8 + total pre ∧
      b.addr ∈ fl := by
  have hG := hR.shape.geo
  have hbin : b ∈ pre ++ b :: c :: rest := by simp
  have hcin : c ∈ pre ++ b :: c :: rest := by simp
  have hset := hR.settled b hbin hu
  have hcp : c.pu = false := by rw [Flags_next hR.flags]; exact hu
  have hcu : c.used = true := by
    cases hc : c.used
    · have := (hR.settled c hcin hc).1
      rw [hcp] at this; cases this
    · rfl
  have hb := hR.shape.hdrs b hbin
  have hc := hR.shape.hdrs c hcin
  unfold Blk.hdr at hb hc hset
  rw [hu, hset.1] at hb
  rw [hcu, hcp] at hc
  have hf := hset.2
  rw [hu, hset.1] at hf
  have hat := Seg_at hG.seg
  simp only [WORD_SIZE] at hat
  exact ⟨hset.1, Seg_next hG.seg, hcp, hcu, hb, hc, hf, hat,
    (hR.agree _).2 ⟨b, hbin, rfl, hu⟩⟩

/-- A list node is no header of a block other than its own. -/
theorem Rep.node_ne {h : Heap} {xs : List Blk} {fl : List Nat} (hR : Rep h xs fl)
    {c : Blk} (hc : c ∈ xs) (hu : c.used = true) : c.addr ∉ fl := by
  intro hin
  obtain ⟨y, hy, e, hyu⟩ := (hR.agree _).1 hin
  have := hR.shape.geo.addr_inj hy hc (hR.shape.geo.free_real hy hyu) e
  rw [this, hu] at hyu
  cases hyu

/-- No-split case of `mm_malloc`: the chosen block becomes used as a whole
and the block behind it learns that its predecessor is used. -/
theorem place_nosplit {h : Heap} {pre rest : List Blk} {b c : Blk} {fl : List Nat} {req : Nat}
    (hR : Rep h (pre ++ b :: c :: rest) fl) (hu : b.used = false) (hreq : req ≤ b.size)
    (hns : b.size < req + 32) :
    ∃ h1, mm_malloc_place h req b.addr = (h1, b.addr + 8) ∧ SameEnv h h1 ∧
      Rep h1 (pre ++ ⟨b.addr, b.size, true, true⟩ :: ⟨c.addr, c.size, c.used, true⟩ :: rest)
        (fl.erase b.addr) ∧
      FrameW h h1 fl [b.addr, c.addr] ∧
      ∀ a ∈ mm_malloc_place_writes h req b.addr, Touch h.lo fl [b.addr, c.addr] a := by
  have hG := hR.shape.geo
  have hbin : b ∈ pre ++ b :: c :: rest := by simp
  have hcin : c ∈ pre ++ b :: c :: rest := by simp
  have hbb := hG.bounds hbin
  have hcb := hG.bounds hcin
  have b32 := hG.free_real hbin hu
  obtain ⟨hbpu, hca, hcpu, hcu, hhb, hhc, hfb, hat, hf⟩ := hR.free_block_facts hu
  have hsz : SIZE (word b.size false true) = b.size :=
    SIZE_word _ _ _ hbb.2.2.1 (by simp only [WORD_MOD]; omega)
  have e1 : UNSCALED_POINTER_ADD b.addr b.size = c.addr := by
    rw [ptr_add _ _ (by omega) (by simp only [WORD_MOD]; omega)]; omega
  have e2 : UNSCALED_POINTER_ADD b.addr 8 = b.addr + 8 :=
    ptr_add _ _ (by omega) (by simp only [WORD_MOD]; omega)
  have hcond : ¬ (b.size ≥ (MIN_BLOCK_SIZE + req) % WORD_MOD) := by
    simp only [MIN_BLOCK_SIZE, WORD_SIZE, WORD_MOD]; omega
  have hne : b.addr ≠ c.addr := by omega
  let hA := store (store h c.addr (word c.size true true)) b.addr (word b.size true true)
  have heval : mm_malloc_place h req b.addr = (remove_free_block hA b.addr, b.addr + 8) := by
    unfold mm_malloc_place
    simp only [load_eq, hhb, hsz, if_neg hcond, e1, e2, hhc, word_or_pu _ _ _ hcb.2.2.1,
      mem_store_of_ne hne, word_or_used _ _ _ hbb.2.2.1, WORD_SIZE]
  have hslots := Agree.slots hG hR.agree
  have hlink : ∀ y ∈ pre ++ b :: c :: rest, y.addr ≠ h.lo ∧
      ∀ g ∈ fl, y.addr ≠ prev_field g ∧ y.addr ≠ next_field g := by
    intro y hy
    refine ⟨Ne.symm (hG.lo_ne.1 y hy), fun g hg => ?_⟩
    obtain ⟨z, hz, rfl, z32⟩ := hslots g hg
    exact ⟨Ne.symm ((hG.link_ne hz z32).1 y hy).2, Ne.symm ((hG.link_ne hz z32).1 y hy).1⟩
  have hFA : FreeList hA fl :=
    (hR.links.store_fl _ (hlink c hcin).1 (hlink c hcin).2).store_fl _ (hlink b hbin).1
      (hlink b hbin).2
  have hrem := remove_free_block_links hFA hR.nodup (hG.spaced hslots) hf
  have hse : SameEnv h (remove_free_block hA b.addr) :=
    SameEnv.trans_env (SameEnv.trans_env (SameEnv.store_env _ _ _) (SameEnv.store_env _ _ _))
      (remove_sameEnv _ _)
  have hfw : FrameW h (remove_free_block hA b.addr) fl [b.addr, c.addr] := by
    refine FrameW.trans_fr (FrameW.trans_fr (FrameW.store_fr _ (by simp)) (FrameW.store_fr _ (by simp))
      rfl) (FrameW.of_link hrem.2 _) rfl
  have hwev : mm_malloc_place_writes h req b.addr =
      ([c.addr] ++ [b.addr]) ++ remove_free_block_writes hA b.addr := by
    unfold mm_malloc_place_writes
    simp only [load_eq, hhb, hsz, if_neg hcond, e1, e2, hhc, word_or_pu _ _ _ hcb.2.2.1,
      mem_store_of_ne hne, word_or_used _ _ _ hbb.2.2.1, WORD_SIZE]
  have hwt : ∀ a ∈ mm_malloc_place_writes h req b.addr, Touch h.lo fl [b.addr, c.addr] a := by
    rw [hwev]
    intro a ha
    rcases List.mem_append.1 ha with ha | ha
    · refine Or.inr (Or.inr ?_)
      simp only [List.mem_append, List.mem_cons, List.mem_singleton, List.not_mem_nil,
        or_false] at ha ⊢
      rcases ha with rfl | rfl
      · exact Or.inr rfl
      · exact Or.inl rfl
    · exact (remove_writes_touch hFA hR.nodup (hG.spaced hslots) hf a ha).widen
        (fun _ hx => hx) (fun _ hw => by cases hw)
  refine ⟨_, heval, hse, ?_, hfw, hwt⟩
  have hR2 : Rep h (pre ++ [b, c] ++ rest) fl := by simpa using hR
  have hG2 : Geo h (pre ++ [b, c] ++ rest) := hR2.shape.geo
  have hres := Rep.splice (k := remove_free_block hA b.addr)
    (m := [⟨b.addr, b.size, true, true⟩, ⟨c.addr, c.size, c.used, true⟩])
    (f := fl.erase b.addr) hR2.toPre (fun y hy hyu => hR2.settled y (by
      rcases List.mem_append.1 hy with hy | hy
      · exact List.mem_append_left _ (List.mem_append_left _ hy)
      · exact List.mem_append_right _ hy) hyu)
    (by simp) (hG.of_sameEnv hse).env hse.1 ?_ ?_ ?_ ?_ ?_ ?_
    hrem.1 (hR.nodup.erase _) ?_
  · simpa using hres
  · have := hG.seg
    rw [Seg_append] at this
    exact this.2
  · have := hG.ends
    rw [hse.2.1]
    have h2 := (EndsAt_append_cons.1 this).2
    cases rest with
    | nil => exact h2
    | cons d r => exact h2
  · have := hR.flags
    rw [Flags_append] at this
    obtain ⟨_, f1, f2, f3⟩ := this
    refine ⟨by rw [← f1, hbpu], rfl, f3⟩
  · intro y hy
    simp only [List.mem_cons, List.mem_singleton, List.not_mem_nil, or_false] at hy
    have hGA : Geo hA (pre ++ b :: c :: rest) :=
      hG.of_sameEnv (SameEnv.trans_env (SameEnv.store_env h _ _) (SameEnv.store_env _ _ _))
    have t := hGA.tags_frame hrem.2 hslots
    rcases hy with rfl | rfl
    · rw [t.1 b hbin]
      exact mem_store_of_eq rfl
    · rw [t.1 c hcin]
      show hA.mem c.addr = word c.size c.used true
      rw [hcu]
      show (store (store h c.addr (word c.size true true)) b.addr _).mem c.addr = _
      rw [mem_store_of_ne (Ne.symm hne), mem_store_of_eq rfl]
  · intro y hy hyu
    simp only [List.mem_cons, List.mem_singleton, List.not_mem_nil, or_false] at hy
    rcases hy with rfl | rfl
    · cases hyu
    · rw [hcu] at hyu; cases hyu
  · refine hG2.frame_tags (by simp) (by simpa using hslots) hfw ?_
    intro w hw
    simp only [List.mem_cons, List.mem_singleton, List.not_mem_nil, or_false] at hw
    simp only [total]
    rcases hw with rfl | rfl
    · omega
    · refine ⟨by omega, ?_⟩
      cases rest with
      | nil => exact Or.inr rfl
      | cons d r =>
        left
        have := (EndsAt_append_cons.1 hG.ends).2
        have hc32 : 32 ≤ c.size := this.2.2.1
        omega
  · intro g
    rw [hR.nodup.mem_erase_iff]
    simp only [List.mem_cons, List.mem_singleton, List.not_mem_nil, or_false, forall_eq_or_imp,
      forall_eq, exists_eq_or_imp, exists_eq_left]
    constructor
    · rintro ⟨h1', h2'⟩
      left
      refine ⟨h2', Ne.symm h1', ?_⟩
      intro e
      exact hR.node_ne hcin hcu (e ▸ h2')
    · rintro (⟨h1', h2', _⟩ | ⟨_, h2'⟩ | ⟨_, h2'⟩)
      · exact ⟨Ne.symm h2', h1'⟩
      · cases h2'
      · rw [hcu] at h2'; cases h2'

/-- A list node is the address of the block `b` or lies outside its bytes. -/
theorem Rep.node_pos {h : Heap} {xs : List Blk} {fl : List Nat} (hR : Rep h xs fl)
    {b : Blk} (hb : b ∈ xs) {x : Nat} (hx : x ∈ fl) :
    x = b.addr ∨ x + 32 ≤ b.addr ∨ b.addr + b.size ≤ x := by
  obtain ⟨z, hz, rfl, hzu⟩ := (hR.agree x).1 hx
  have z32 := hR.shape.geo.free_real hz hzu
  rcases hR.shape.geo.sep hz hb with e | e | e
  · exact Or.inl (by rw [e])
  · right; left; omega
  · right; right; omega

/-- Split case of `mm_malloc`: the low `req` bytes of the chosen block become
the used block, the rest becomes a free block at the head of the free list. -/
theorem place_split {h : Heap} {pre rest : List Blk} {b c : Blk} {fl : List Nat} {req : Nat}
    (hR : Rep h (pre ++ b :: c :: rest) fl) (hu : b.used = false) (h32 : 32 ≤ req)
    (h8 : 8 ∣ req) (hsp : req + 32 ≤ b.size) :
    ∃ h1, mm_malloc_place h req b.addr = (h1, b.addr + 8) ∧ SameEnv h h1 ∧
      Rep h1 (pre ++ ⟨b.addr, req, true, true⟩ ::
          ⟨b.addr + req, b.size - req, false, true⟩ :: c :: rest)
        ((b.addr + req) :: fl.erase b.addr) ∧
      FrameW h h1 fl [b.addr, b.addr + req, next_field (b.addr + req),
        prev_field (b.addr + req), b.addr + b.size - 8] ∧
      ∀ a ∈ mm_malloc_place_writes h req b.addr, Touch h.lo fl [b.addr, b.addr + req,
        next_field (b.addr + req), prev_field (b.addr + req), b.addr + b.size - 8] a := by
  have hG := hR.shape.geo
  have hbin : b ∈ pre ++ b :: c :: rest := by simp
  have hcin : c ∈ pre ++ b :: c :: rest := by simp
  have hbb := hG.bounds hbin
  have hcb := hG.bounds hcin
  have b32 := hG.free_real hbin hu
  obtain ⟨hbpu, hca, hcpu, hcu, hhb, hhc, hfb, hat, hf⟩ := hR.free_block_facts hu
  have hsz : SIZE (word b.size false true) = b.size :=
    SIZE_word _ _ _ hbb.2.2.1 (by simp only [WORD_MOD]; omega)
  have hrem8 : 8 ∣ b.size - req := Nat.dvd_sub' hbb.2.2.1 h8
  have e1 : UNSCALED_POINTER_ADD b.addr req = b.addr + req :=
    ptr_add _ _ (by omega) (by simp only [WORD_MOD]; omega)
  have e2 : UNSCALED_POINTER_ADD b.addr 8 = b.addr + 8 :=
    ptr_add _ _ (by omega) (by simp only [WORD_MOD]; omega)
  have e3 : (b.size + (WORD_MOD - req)) % WORD_MOD = b.size - req := by
    simp only [WORD_MOD]; omega
  have e4 : (b.size - req + req + (WORD_MOD - WORD_SIZE)) % WORD_MOD = b.size - 8 := by
    simp only [WORD_MOD, WORD_SIZE]; omega
  have e5 : UNSCALED_POINTER_ADD b.addr (b.size - 8) = b.addr + b.size - 8 := by
    rw [ptr_add _ _ (by omega) (by simp only [WORD_MOD]; omega)]; omega
  have hcond : b.size ≥ (MIN_BLOCK_SIZE + req) % WORD_MOD := by
    simp only [MIN_BLOCK_SIZE, WORD_SIZE, WORD_MOD]; omega
  have e6 : req ||| word b.size false true &&& TAG_PRECEDING_USED = word req false true := by
    rw [word_and_pu _ _ _ hbb.2.2.1]
    exact size_or_mask req true h8
  have e7 : (b.size - req) ||| TAG_PRECEDING_USED = word (b.size - req) false true :=
    size_or_mask (b.size - req) true hrem8
  -- the arena after the three tag stores
  let g := b.addr + req
  let w := word (b.size - req) false true
  let h5 := store (store (store h b.addr (word req false true)) g w) (b.addr + b.size - 8) w
  have hslots := Agree.slots hG hR.agree
  have hpos : ∀ x ∈ fl, x = b.addr ∨ x + 32 ≤ b.addr ∨ b.addr + b.size ≤ x :=
    fun x hx => hR.node_pos hbin hx
  have hlo : ∀ x ∈ fl, h.lo + 8 ≤ x := (hG.spaced hslots).1
  have hgfl : g ∉ fl := by
    intro hin
    have := hpos g hin
    omega
  have hnd : (g :: fl).Nodup := List.nodup_cons.2 ⟨hgfl, hR.nodup⟩
  have hspaced : Spaced h.lo (g :: fl) := by
    have hs0 := hG.spaced hslots
    constructor
    · intro x hx
      rcases List.mem_cons.1 hx with rfl | hx
      · show h.lo + 8 ≤ b.addr + req
        omega
      · exact hs0.1 x hx
    · intro x hx y hy
      rcases List.mem_cons.1 hx with rfl | hx <;> rcases List.mem_cons.1 hy with rfl | hy
      · exact Or.inl rfl
      · have := hpos y hy
        show b.addr + req = y ∨ b.addr + req + 32 ≤ y ∨ y + 32 ≤ b.addr + req
        omega
      · have := hpos x hx
        show x = b.addr + req ∨ x + 32 ≤ b.addr + req ∨ b.addr + req + 32 ≤ x
        omega
      · exact hs0.2 x hx y hy
  have hinner : ∀ a, b.addr ≤ a → a < b.addr + b.size → a ≠ b.addr + 8 → a ≠ b.addr + 16 →
      a ≠ h.lo ∧ ∀ x ∈ fl, a ≠ prev_field x ∧ a ≠ next_field x := by
    intro a ha1 ha2 ha3 ha4
    refine ⟨by omega, fun x hx => ?_⟩
    have := hpos x hx
    rw [prev_field_eq, next_field_eq]
    omega
  have hF5 : FreeList h5 fl := by
    refine ((hR.links.store_fl _ ?_ ?_).store_fl _ ?_ ?_).store_fl _ ?_ ?_
    · exact (hinner b.addr (by omega) (by omega) (by omega) (by omega)).1
    · exact (hinner b.addr (by omega) (by omega) (by omega) (by omega)).2
    · exact (hinner g (by show b.addr ≤ b.addr + req; omega)
        (by show b.addr + req < _; omega) (by show b.addr + req ≠ _; omega)
        (by show b.addr + req ≠ _; omega)).1
    · exact (hinner g (by show b.addr ≤ b.addr + req; omega)
        (by show b.addr + req < _; omega) (by show b.addr + req ≠ _; omega)
        (by show b.addr + req ≠ _; omega)).2
    · exact (hinner (b.addr + b.size - 8) (by omega) (by omega) (by omega) (by omega)).1
    · exact (hinner (b.addr + b.size - 8) (by omega) (by omega) (by omega) (by omega)).2
  have hins := insert_free_block_links (g := g) hF5 hnd hspaced
  let h6 := insert_free_block h5 g
  have hlo6 : h6.lo = h.lo := (insert_sameEnv h5 g).1
  -- what the link operations leave alone
  have hkeep : ∀ a, b.addr ≤ a → a < b.addr + b.size → a ≠ b.addr + 8 → a ≠ b.addr + 16 →
      a ≠ g + 8 → a ≠ g + 16 →
      a ≠ h.lo ∧ ∀ x ∈ g :: fl, a ≠ next_field x ∧ a ≠ prev_field x := by
    intro a ha1 ha2 ha3 ha4 ha5 ha6
    refine ⟨by omega, fun x hx => ?_⟩
    rcases List.mem_cons.1 hx with rfl | hx
    · rw [prev_field_eq, next_field_eq]; exact ⟨ha5, ha6⟩
    · have := (hinner a ha1 ha2 ha3 ha4).2 x hx
      exact ⟨this.2, this.1⟩
  have k1 := hkeep b.addr (by omega) (by omega) (by omega) (by omega)
    (by show b.addr ≠ b.addr + req + 8; omega) (by show b.addr ≠ b.addr + req + 16; omega)
  have k2 := hkeep g (by show b.addr ≤ b.addr + req; omega) (by show b.addr + req < _; omega)
    (by show b.addr + req ≠ _; omega) (by show b.addr + req ≠ _; omega)
    (by omega) (by omega)
  have k3 := hkeep (b.addr + b.size - 8) (by omega) (by omega) (by omega) (by omega)
    (by show _ ≠ b.addr + req + 8; omega) (by show _ ≠ b.addr + req + 16; omega)
  have h6f : h6.mem b.addr = word req false true := by
    rw [hins.2 b.addr k1.1 k1.2]
    show (store (store (store h b.addr _) g w) (b.addr + b.size - 8) w).mem b.addr = _
    rw [mem_store_of_ne (by omega), mem_store_of_ne (by show b.addr ≠ b.addr + req; omega),
      mem_store_of_eq rfl]
  let h7 := store h6 b.addr (word req true true)
  have hF7 : FreeList h7 (g :: fl) :=
    hins.1.store_fl _ (by rw [hlo6]; exact k1.1) (fun x hx => ⟨(k1.2 x hx).2, (k1.2 x hx).1⟩)
  have hlo7 : h7.lo = h.lo := hlo6
  have hrem := remove_free_block_links (g := b.addr) hF7 hnd (by rw [hlo7]; exact hspaced)
    (List.mem_cons_of_mem _ hf)
  have heval : mm_malloc_place h req b.addr = (remove_free_block h7 b.addr, b.addr + 8) := by
    unfold mm_malloc_place
    simp only [load_eq, hhb, hsz, if_pos hcond, e1, e2, e3, e4, e5, e7, store_store_same,
      mem_store_of_eq, e6]
    show (remove_free_block (store h6 b.addr (h6.mem b.addr ||| TAG_USED)) b.addr, _) = _
    rw [h6f, word_or_used _ _ _ h8]
  have hse : SameEnv h (remove_free_block h7 b.addr) :=
    SameEnv.trans_env (SameEnv.trans_env (SameEnv.trans_env (SameEnv.trans_env (SameEnv.trans_env
      (SameEnv.store_env _ _ _) (SameEnv.store_env _ _ _)) (SameEnv.store_env _ _ _))
      (insert_sameEnv _ _)) (SameEnv.store_env _ _ _)) (remove_sameEnv _ _)
  -- memory of the result at an address the link operations leave alone
  have hread : ∀ a, (a ≠ h.lo ∧ ∀ x ∈ g :: fl, a ≠ next_field x ∧ a ≠ prev_field x) →
      (remove_free_block h7 b.addr).mem a = h7.mem a :=
    fun a ha => hrem.2 a (by rw [hlo7]; exact ha.1) ha.2
  have hfw : FrameW h (remove_free_block h7 b.addr) fl
      [b.addr, g, next_field g, prev_field g, b.addr + b.size - 8] := by
    have f5 : FrameW h h5 fl [b.addr, g, next_field g, prev_field g, b.addr + b.size - 8] :=
      FrameW.trans_fr (FrameW.trans_fr (FrameW.store_fr _ (by simp)) (FrameW.store_fr _ (by simp)) rfl)
        (FrameW.store_fr _ (by simp)) rfl
    have f6 : FrameW h5 h6 fl [b.addr, g, next_field g, prev_field g, b.addr + b.size - 8] :=
      (FrameW.of_link hins.2 []).mono (fun x hx => by
        rcases List.mem_cons.1 hx with rfl | hx
        · right; simp
        · exact Or.inl hx) (fun _ hw => by cases hw)
    have f7 : FrameW h6 h7 fl [b.addr, g, next_field g, prev_field g, b.addr + b.size - 8] :=
      FrameW.store_fr _ (by simp)
    have f8 : FrameW h7 (remove_free_block h7 b.addr) fl
        [b.addr, g, next_field g, prev_field g, b.addr + b.size - 8] :=
      (FrameW.of_link hrem.2 []).mono (fun x hx => by
        rcases List.mem_cons.1 hx with rfl | hx
        · right; simp
        · exact Or.inl hx) (fun _ hw => by cases hw)
    exact FrameW.trans_fr (FrameW.trans_fr (FrameW.trans_fr f5 f6 rfl) f7 hlo6) f8 hlo7
  have hwev : mm_malloc_place_writes h req b.addr =
      (([b.addr, b.addr, g, b.addr + b.size - 8] ++ insert_free_block_writes h5 g) ++
        [b.addr]) ++ remove_free_block_writes h7 b.addr := by
    unfold mm_malloc_place_writes
    simp only [load_eq, hhb, hsz, if_pos hcond, e1, e2, e3, e4, e5, e7, store_store_same,
      mem_store_of_eq, e6]
    show _ ++ remove_free_block_writes (store h6 b.addr (h6.mem b.addr ||| TAG_USED)) b.addr = _
    rw [h6f, word_or_used _ _ _ h8]
  have hwt : ∀ a ∈ mm_malloc_place_writes h req b.addr, Touch h.lo fl
      [b.addr, g, next_field g, prev_field g, b.addr + b.size - 8] a := by
    rw [hwev]
    have hcons : ∀ a, Touch h.lo (g :: fl) [] a → Touch h.lo fl
        [b.addr, g, next_field g, prev_field g, b.addr + b.size - 8] a := by
      intro a ht
      rcases ht with e | ⟨x, hx, e⟩ | e
      · exact Or.inl e
      · rcases List.mem_cons.1 hx with rfl | hx
        · refine Or.inr (Or.inr ?_)
          simp only [List.mem_cons, List.mem_singleton, List.not_mem_nil, or_false]
          rcases e with e | e
          · exact Or.inr (Or.inr (Or.inl e))
          · exact Or.inr (Or.inr (Or.inr (Or.inl e)))
        · exact Or.inr (Or.inl ⟨x, hx, e⟩)
      · cases e
    intro a ha
    simp only [List.mem_append, List.mem_cons, List.mem_singleton, List.not_mem_nil,
      or_false] at ha
    rcases ha with ((ha | ha) | ha) | ha
    · refine Or.inr (Or.inr ?_)
      simp only [List.mem_cons, List.mem_singleton, List.not_mem_nil, or_false]
      rcases ha with rfl | rfl | rfl | rfl
      · exact Or.inl rfl
      · exact Or.inl rfl
      · exact Or.inr (Or.inl rfl)
      · exact Or.inr (Or.inr (Or.inr (Or.inr rfl)))
    · exact hcons a (insert_writes_touch hF5 g a ha)
    · exact Or.inr (Or.inr (by rw [ha]; simp))
    · have := remove_writes_touch (g := b.addr) hF7 hnd (by rw [hlo7]; exact hspaced)
        (List.mem_cons_of_mem _ hf) a ha
      rw [hlo7] at this
      exact hcons a this
  refine ⟨_, heval, hse, ?_, hfw, hwt⟩
  have hR2 : Rep h (pre ++ [b] ++ c :: rest) fl := by simpa using hR
  have hG2 : Geo h (pre ++ [b] ++ c :: rest) := hR2.shape.geo
  have hres := Rep.splice (k := remove_free_block h7 b.addr)
    (m := [⟨b.addr, req, true, true⟩, ⟨b.addr + req, b.size - req, false, true⟩])
    (f := g :: fl.erase b.addr) hR2.toPre (fun y hy hyu => hR2.settled y (by
      rcases List.mem_append.1 hy with hy | hy
      · exact List.mem_append_left _ (List.mem_append_left _ hy)
      · exact List.mem_append_right _ hy) hyu)
    (by simp) (hG.of_sameEnv hse).env hse.1 ?_ ?_ ?_ ?_ ?_ ?_
    ?_ ?_ ?_
  · simpa using hres
  · have := hG.seg
    rw [Seg_append] at this
    obtain ⟨s1, s2⟩ := this.2
    refine ⟨s1, ?_, ?_⟩
    · show b.addr + req = h.lo + WORD_SIZE + total pre + req
      rw [s1]
    · show Seg (h.lo + WORD_SIZE + total pre + req + (b.size - req)) (c :: rest)
      have e : h.lo + WORD_SIZE + total pre + req + (b.size - req) =
          h.lo + WORD_SIZE + total pre + b.size := by omega
      rw [e]; exact s2
  · have := hG.ends
    rw [hse.2.1]
    have h2 := (EndsAt_append_cons.1 this).2
    exact ⟨h32, h8, by show 32 ≤ b.size - req; omega, hrem8, h2.2.2⟩
  · have := hR.flags
    rw [Flags_append] at this
    obtain ⟨_, f1, f2, f3⟩ := this
    exact ⟨by rw [← f1, hbpu], rfl, hcpu, f3⟩
  · intro y hy
    simp only [List.mem_cons, List.mem_singleton, List.not_mem_nil, or_false] at hy
    rcases hy with rfl | rfl
    · rw [hread _ k1]
      exact mem_store_of_eq rfl
    · rw [hread _ k2]
      show (store h6 b.addr _).mem (b.addr + req) = _
      rw [mem_store_of_ne (by omega)]
      show h6.mem g = _
      rw [hins.2 g k2.1 k2.2]
      show (store (store (store h b.addr _) g w) (b.addr + b.size - 8) w).mem g = _
      rw [mem_store_of_ne (by show b.addr + req ≠ _; omega), mem_store_of_eq rfl]
      rfl
  · intro y hy hyu
    simp only [List.mem_cons, List.mem_singleton, List.not_mem_nil, or_false] at hy
    rcases hy with rfl | rfl
    · cases hyu
    · refine ⟨rfl, ?_⟩
      have ef : (⟨b.addr + req, b.size - req, false, true⟩ : Blk).ftr = b.addr + b.size - 8 := by
        show b.addr + req + (b.size - req) - WORD_SIZE = _
        simp only [WORD_SIZE]; omega
      rw [ef, hread _ k3]
      show (store h6 b.addr _).mem (b.addr + b.size - 8) = _
      rw [mem_store_of_ne (by omega), hins.2 _ k3.1 k3.2]
      show (store (store (store h b.addr _) g w) (b.addr + b.size - 8) w).mem _ = _
      rw [mem_store_of_eq rfl]
      rfl
  · refine hG2.frame_tags (by simp) (by simpa using hslots) hfw ?_
    intro a ha
    simp only [List.mem_cons, List.mem_singleton, List.not_mem_nil, or_false, next_field_eq,
      prev_field_eq] at ha
    simp only [total]
    rcases ha with rfl | rfl | rfl | rfl | rfl <;> exact ⟨by omega, Or.inl (by omega)⟩
  · have := hrem.1
    rw [List.erase_cons_tail (by
      simp only [beq_iff_eq]
      show ¬ b.addr + req = b.addr
      omega)] at this
    exact this
  · refine List.nodup_cons.2 ⟨fun hin => hgfl (List.mem_of_mem_erase hin), hR.nodup.erase _⟩
  · intro x
    simp only [List.mem_cons, List.mem_singleton, List.not_mem_nil, or_false, forall_eq,
      exists_eq_or_imp, exists_eq_left, hR.nodup.mem_erase_iff]
    constructor
    · rintro (h1' | ⟨h1', h2'⟩)
      · right; right; exact ⟨h1'.symm, trivial⟩
      · left; exact ⟨h2', Ne.symm h1'⟩
    · rintro (⟨h1', h2'⟩ | ⟨_, h2'⟩ | ⟨h1', _⟩)
      · right; exact ⟨Ne.symm h2', h1'⟩
      · cases h2'
      · left; exact h1'.symm


/-! ### `coalesce_free_block` -/

theorem Pre.loose {h : Heap} {xs : List Blk} {fl : List Nat} (hP : Pre h xs fl) :
    Loose h xs fl :=
  ⟨hP.shape, hP.flags, hP.links, hP.nodup, Agree.slots hP.shape.geo hP.agree⟩

theorem firstBlk_snoc (l : List Blk) (d c : Blk) : firstBlk (l ++ [d]) c = firstBlk l d := by
  cases l <;> rfl

/-- Unlinking a node keeps what the loops rely on. -/
theorem Loose.remove {h : Heap} {xs : List Blk} {fl : List Nat} (hL : Loose h xs fl)
    {g : Nat} (hg : g ∈ fl) :
    Loose (remove_free_block h g) xs (fl.erase g) ∧ SameEnv h (remove_free_block h g) ∧
      FrameW h (remove_free_block h g) fl [] := by
  have hr := remove_free_block_links hL.links hL.nodup (hL.shape.geo.spaced hL.slots) hg
  refine ⟨⟨hL.shape.link_frame (remove_sameEnv h g) hr.2 hL.slots, hL.flags, hr.1,
    hL.nodup.erase _, fun x hx => hL.slots x (List.mem_of_mem_erase hx)⟩, remove_sameEnv h g,
    FrameW.of_link hr.2 _⟩

/-- The first loop of `coalesce_free_block` over a run `back` of free blocks
in front of the cursor block: it unlinks every block of the run and returns
the first block of the run and the summed size. -/
theorem coalesce_preceding_spec (back : List Blk) :
    ∀ {h : Heap} {pre : List Blk} {cur : Blk} {post : List Blk} {fl : List Nat} {n k : Nat},
      Loose h (pre ++ back ++ cur :: post) fl →
      (∀ y ∈ back, y.used = false ∧ y.addr ∈ fl) →
      (firstBlk back cur).pu = true → back.length < k →
      n + total back < 18446744073709551616 →
      ∃ h1, coalesce_preceding k h cur.addr n =
          some (h1, (firstBlk back cur).addr, n + total back) ∧
        SameEnv h h1 ∧ FrameW h h1 fl [] ∧
        Loose h1 (pre ++ back ++ cur :: post) (fl.diff (back.reverse.map Blk.addr)) := by
  induction back using List.reverseRecOn with
  | nil =>
    intro h pre cur post fl n fuel hL _ hpu hfuel _
    obtain ⟨k, rfl⟩ : ∃ k, fuel = k + 1 := ⟨fuel - 1, by simp at hfuel; omega⟩
    have hcin : cur ∈ pre ++ [] ++ cur :: post := by simp
    have hcb := hL.shape.geo.bounds hcin
    have hh := hL.shape.hdrs cur hcin
    have hpu' : cur.pu = true := hpu
    refine ⟨h, ?_, SameEnv.rfl_ h, FrameW.refl_ _ _ _, by simpa using hL⟩
    unfold coalesce_preceding
    simp only [load_eq, hh, Blk.hdr, word_and_pu _ _ _ hcb.2.2.1, hpu', total, firstBlk]
    simp
  | append_singleton l d ih =>
    intro h pre cur post fl n fuel hL hfree hpu hfuel hn
    obtain ⟨k, rfl⟩ : ∃ k, fuel = k + 1 := ⟨fuel - 1, by simp at hfuel; omega⟩
    have hG := hL.shape.geo
    have hxs : pre ++ (l ++ [d]) ++ cur :: post = (pre ++ l) ++ d :: cur :: post := by simp
    have hcin : cur ∈ pre ++ (l ++ [d]) ++ cur :: post := by simp
    have hdin : d ∈ pre ++ (l ++ [d]) ++ cur :: post := by simp
    have hcb := hG.bounds hcin
    have hdb := hG.bounds hdin
    have hd := hfree d (by simp)
    have hd32 := hG.free_real hdin hd.1
    have hseg := hG.seg
    have hfl := hL.flags
    rw [hxs] at hseg hfl
    have hca : cur.addr = d.addr + d.size := Seg_next hseg
    have hcpu : cur.pu = false := by rw [Flags_next hfl]; exact hd.1
    have hh := hL.shape.hdrs cur hcin
    have hft := hL.shape.ftrs d hdin hd.1
    have e1 : UNSCALED_POINTER_SUB cur.addr 8 = d.ftr := by
      rw [ptr_sub _ _ (by omega) (by omega) (by simp only [WORD_MOD]; omega)]
      unfold Blk.ftr; simp only [WORD_SIZE]; omega
    have e2 : UNSCALED_POINTER_SUB cur.addr d.size = d.addr := by
      rw [ptr_sub _ _ (by omega) (by omega) (by simp only [WORD_MOD]; omega)]; omega
    have htot : total (l ++ [d]) = total l + d.size := by
      rw [total_append]; simp [total]
    rw [htot] at hn
    have e3 : (n + d.size) % WORD_MOD = n + d.size := by
      simp only [WORD_MOD]; omega
    obtain ⟨hL1, hse1, hfw1⟩ := hL.remove hd.2
    have hstep : coalesce_preceding (k + 1) h cur.addr n =
        coalesce_preceding k (remove_free_block h d.addr) d.addr (n + d.size) := by
      conv_lhs => unfold coalesce_preceding
      simp only [load_eq, hh, Blk.hdr, word_and_pu _ _ _ hcb.2.2.1, hcpu, WORD_SIZE, e1, hft, e2,
        e3]
      simp
    have hL1' : Loose (remove_free_block h d.addr) (pre ++ l ++ d :: cur :: post)
        (fl.erase d.addr) := by
      rw [← hxs]; exact hL1
    have hfree' : ∀ y ∈ l, y.used = false ∧ y.addr ∈ fl.erase d.addr := by
      intro y hy
      have hyf := hfree y (by simp [hy])
      refine ⟨hyf.1, (hL.nodup.mem_erase_iff).2 ⟨?_, hyf.2⟩⟩
      have hs2 := hseg
      rw [List.append_assoc] at hs2
      have hyd : y.addr + y.size ≤ d.addr :=
        Seg_order (u := pre ++ l) (v := d :: cur :: post)
          (by rw [List.append_assoc]; exact hs2) (by simp [hy]) (by simp)
      have hyin : y ∈ pre ++ (l ++ [d]) ++ cur :: post := by simp [hy]
      have := hG.free_real hyin hyf.1
      omega
    have hpu' : (firstBlk l d).pu = true := by rw [← firstBlk_snoc l d cur]; exact hpu
    have hk : l.length < k := by
      simp only [List.length_append, List.length_cons, List.length_nil] at hfuel; omega
    obtain ⟨h1, r1, r2, r3, r4⟩ := ih (n := n + d.size) (k := k) hL1' hfree' hpu' hk
      (by omega)
    refine ⟨h1, ?_, SameEnv.trans_env hse1 r2, ?_, ?_⟩
    · rw [hstep, r1, firstBlk_snoc, htot]
      simp only [Option.some.injEq, Prod.mk.injEq, true_and]
      omega
    · refine FrameW.trans_fr hfw1 (r3.mono (fun x hx => Or.inl (List.mem_of_mem_erase hx))
        (fun _ hw => hw)) hse1.1
    · rw [hxs]
      have : (l ++ [d]).reverse.map Blk.addr = d.addr :: l.reverse.map Blk.addr := by simp
      rw [this, List.diff_cons]
      exact r4

/-- The second loop of `coalesce_free_block` over a run `fwd` of free blocks
that starts at the cursor and ends before the used block `c`: it unlinks
every block of the run and returns the address of `c` and the summed size. -/
theorem coalesce_following_spec (fwd : List Blk) :
    ∀ {h : Heap} {pre : List Blk} {c : Blk} {rest : List Blk} {f : List Nat} {n k : Nat},
      Loose h (pre ++ fwd ++ c :: rest) f →
      (∀ y ∈ fwd, y.used = false ∧ y.addr ∈ f) →
      c.used = true → fwd.length < k →
      n + total fwd < 18446744073709551616 →
      ∃ h1, coalesce_following k h (firstBlk fwd c).addr n =
          some (h1, c.addr, n + total fwd) ∧
        SameEnv h h1 ∧ FrameW h h1 f [] ∧
        Loose h1 (pre ++ fwd ++ c :: rest) (f.diff (fwd.map Blk.addr)) := by
  induction fwd with
  | nil =>
    intro h pre c rest fl n fuel hL _ hcu hfuel _
    obtain ⟨k, rfl⟩ : ∃ k, fuel = k + 1 := ⟨fuel - 1, by simp at hfuel; omega⟩
    have hcin : c ∈ pre ++ [] ++ c :: rest := by simp
    have hcb := hL.shape.geo.bounds hcin
    have hh := hL.shape.hdrs c hcin
    refine ⟨h, ?_, SameEnv.rfl_ h, FrameW.refl_ _ _ _, by simpa using hL⟩
    unfold coalesce_following
    simp only [load_eq, firstBlk, List.headD, hh, Blk.hdr, word_and_used _ _ _ hcb.2.2.1, hcu,
      total]
    simp
  | cons d fwd ih =>
    intro h pre c rest fl n fuel hL hfree hcu hfuel hn
    obtain ⟨k, rfl⟩ : ∃ k, fuel = k + 1 := ⟨fuel - 1, by simp at hfuel; omega⟩
    have hG := hL.shape.geo
    have hxs : pre ++ (d :: fwd) ++ c :: rest = (pre ++ [d]) ++ fwd ++ c :: rest := by simp
    have hdin : d ∈ pre ++ (d :: fwd) ++ c :: rest := by simp
    have hdb := hG.bounds hdin
    have hd := hfree d (by simp)
    have hd32 := hG.free_real hdin hd.1
    have hh := hL.shape.hdrs d hdin
    have hnext : (firstBlk fwd c).addr = d.addr + d.size := by
      have hseg := hG.seg
      cases fwd with
      | nil =>
        have : pre ++ [d] ++ c :: rest = pre ++ d :: c :: rest := by simp
        rw [this] at hseg
        exact Seg_next hseg
      | cons e fwd2 =>
        have : pre ++ (d :: e :: fwd2) ++ c :: rest = pre ++ d :: e :: (fwd2 ++ c :: rest) := by
          simp
        rw [this] at hseg
        exact Seg_next hseg
    have e1 : UNSCALED_POINTER_ADD d.addr d.size = (firstBlk fwd c).addr := by
      rw [ptr_add _ _ (by omega) (by simp only [WORD_MOD]; omega), hnext]
    have hsz : SIZE (word d.size false d.pu) = d.size :=
      SIZE_word _ _ _ hdb.2.2.1 (by simp only [WORD_MOD]; omega)
    simp only [total] at hn
    have e3 : (n + d.size) % WORD_MOD = n + d.size := by
      simp only [WORD_MOD]; omega
    obtain ⟨hL1, hse1, hfw1⟩ := hL.remove hd.2
    have hstep : coalesce_following (k + 1) h (firstBlk (d :: fwd) c).addr n =
        coalesce_following k (remove_free_block h d.addr) (firstBlk fwd c).addr
          (n + d.size) := by
      conv_lhs => unfold coalesce_following
      have : (firstBlk (d :: fwd) c) = d := rfl
      simp only [this, load_eq, hh, Blk.hdr, hd.1, word_and_used _ _ _ hdb.2.2.1, hsz, e1, e3]
      simp
    have hL1' : Loose (remove_free_block h d.addr) (pre ++ [d] ++ fwd ++ c :: rest)
        (fl.erase d.addr) := by
      rw [← hxs]; exact hL1
    have hfree' : ∀ y ∈ fwd, y.used = false ∧ y.addr ∈ fl.erase d.addr := by
      intro y hy
      have hyf := hfree y (by simp [hy])
      refine ⟨hyf.1, (hL.nodup.mem_erase_iff).2 ⟨?_, hyf.2⟩⟩
      have hs2 := hG.seg
      have hdy : d.addr + d.size ≤ y.addr :=
        Seg_order (u := pre ++ [d]) (v := fwd ++ c :: rest)
          (by rw [hxs, List.append_assoc] at hs2; exact hs2) (by simp) (by simp [hy])
      omega
    have hk : fwd.length < k := by
      simp only [List.length_cons] at hfuel; omega
    obtain ⟨h1, r1, r2, r3, r4⟩ := ih (n := n + d.size) (k := k) hL1' hfree' hcu hk
      (by omega)
    refine ⟨h1, ?_, SameEnv.trans_env hse1 r2, ?_, ?_⟩
    · rw [hstep, r1]
      simp only [Option.some.injEq, Prod.mk.injEq, true_and, total]
      omega
    · refine FrameW.trans_fr hfw1 (r3.mono (fun x hx => Or.inl (List.mem_of_mem_erase hx))
        (fun _ hw => hw)) hse1.1
    · rw [hxs]
      simp only [List.map_cons, List.diff_cons]
      exact r4



theorem total_ge {l : List Blk} (hl : ∀ y ∈ l, 32 ≤ y.size) : 32 * l.length ≤ total l := by
  induction l with
  | nil => simp [total]
  | cons b r ih =>
    have := ih (fun y hy => hl y (List.mem_cons_of_mem _ hy))
    have := hl b (List.mem_cons_self _ _)
    simp only [total, List.length_cons]
    omega

theorem total_dvd {l : List Blk} (hl : ∀ y ∈ l, 8 ∣ y.size) : 8 ∣ total l := by
  induction l with
  | nil => exact Nat.dvd_zero 8
  | cons b r ih =>
    exact Nat.dvd_add (hl b (List.mem_cons_self _ _))
      (ih (fun y hy => hl y (List.mem_cons_of_mem _ hy)))

theorem firstBlk_mem (back : List Blk) (b : Blk) (fwd : List Blk) :
    firstBlk back b ∈ back ++ b :: fwd := by
  cases back <;> simp [firstBlk]

theorem firstBlk_addr {a : Nat} {back : List Blk} {b : Blk} {post : List Blk}
    (hs : Seg a (back ++ b :: post)) : (firstBlk back b).addr = a := by
  cases back with
  | nil => exact hs.1
  | cons d r => exact hs.1

theorem firstBlk_pu {p : Bool} {back : List Blk} {b : Blk} {post : List Blk}
    (hs : Flags p (back ++ b :: post)) : (firstBlk back b).pu = p := by
  cases back with
  | nil => exact hs.1
  | cons d r => exact hs.1

theorem lastUsed_free {p : Bool} {l : List Blk} (hl : ∀ y ∈ l, y.used = false) (hne : l ≠ []) :
    lastUsed p l = false := by
  induction l generalizing p with
  | nil => exact absurd rfl hne
  | cons b r ih =>
    cases r with
    | nil => exact hl b (by simp)
    | cons c r2 =>
      exact ih (p := b.used) (fun y hy => hl y (List.mem_cons_of_mem _ hy)) (by simp)

/-- The number of blocks of a tiled arena is below the loop fuel. -/
theorem Geo.length_lt {h : Heap} {u v w : List Blk} (hG : Geo h (u ++ v ++ w)) (hw : w ≠ []) :
    v.length < loop_fuel h := by
  have ht := hG.total_eq
  rw [total_append, total_append] at ht
  have hv : ∀ y ∈ v, 32 ≤ y.size := fun y hy =>
    (EndsAt_front hG.ends hw (List.mem_append_right _ hy)).1
  have := total_ge hv
  unfold loop_fuel
  omega


/-! ### The words written by the loops of `coalesce_free_block` -/

theorem touch_nil (lo : Nat) (fl W : List Nat) : ∀ a ∈ ([] : List Nat), Touch lo fl W a :=
  fun _ ha => by cases ha

/-- Unlinking a node in the middle of the loops of `coalesce_free_block`
writes the head word and link fields of list nodes only. -/
theorem Loose.remove_touch {h : Heap} {xs : List Blk} {fl : List Nat} (hL : Loose h xs fl)
    {g : Nat} (hg : g ∈ fl) : ∀ a ∈ remove_free_block_writes h g, Touch h.lo fl [] a :=
  remove_writes_touch hL.links hL.nodup (hL.shape.geo.spaced hL.slots) hg

/-- The first loop of `coalesce_free_block` over a run `back` of free blocks
writes the head word and link fields of list nodes only. -/
theorem coalesce_preceding_touch (back : List Blk) :
    ∀ {h : Heap} {pre : List Blk} {cur : Blk} {post : List Blk} {fl : List Nat} {k : Nat},
      Loose h (pre ++ back ++ cur :: post) fl →
      (∀ y ∈ back, y.used = false ∧ y.addr ∈ fl) →
      (firstBlk back cur).pu = true → back.length < k →
      ∀ a ∈ coalesce_preceding_writes k h cur.addr, Touch h.lo fl [] a := by
  induction back using List.reverseRecOn with
  | nil =>
    intro h pre cur post fl fuel hL _ hpu hfuel
    obtain ⟨k, rfl⟩ : ∃ k, fuel = k + 1 := ⟨fuel - 1, by simp at hfuel; omega⟩
    have hcin : cur ∈ pre ++ [] ++ cur :: post := by simp
    have hcb := hL.shape.geo.bounds hcin
    have hh := hL.shape.hdrs cur hcin
    have hpu' : cur.pu = true := hpu
    have e : coalesce_preceding_writes (k + 1) h cur.addr = [] := by
      unfold coalesce_preceding_writes
      simp only [load_eq, hh, Blk.hdr, word_and_pu _ _ _ hcb.2.2.1, hpu']
      simp
    rw [e]
    exact touch_nil _ _ _
  | append_singleton l d ih =>
    intro h pre cur post fl fuel hL hfree hpu hfuel
    obtain ⟨k, rfl⟩ : ∃ k, fuel = k + 1 := ⟨fuel - 1, by simp at hfuel; omega⟩
    have hG := hL.shape.geo
    have hxs : pre ++ (l ++ [d]) ++ cur :: post = (pre ++ l) ++ d :: cur :: post := by simp
    have hcin : cur ∈ pre ++ (l ++ [d]) ++ cur :: post := by simp
    have hdin : d ∈ pre ++ (l ++ [d]) ++ cur :: post := by simp
    have hcb := hG.bounds hcin
    have hdb := hG.bounds hdin
    have hd := hfree d (by simp)
    have hd32 := hG.free_real hdin hd.1
    have hseg := hG.seg
    have hfl := hL.flags
    rw [hxs] at hseg hfl
    have hca : cur.addr = d.addr + d.size := Seg_next hseg
    have hcpu : cur.pu = false := by rw [Flags_next hfl]; exact hd.1
    have hh := hL.shape.hdrs cur hcin
    have hft := hL.shape.ftrs d hdin hd.1
    have e1 : UNSCALED_POINTER_SUB cur.addr 8 = d.ftr := by
      rw [ptr_sub _ _ (by omega) (by omega) (by simp only [WORD_MOD]; omega)]
      unfold Blk.ftr; simp only [WORD_SIZE]; omega
    have e2 : UNSCALED_POINTER_SUB cur.addr d.size = d.addr := by
      rw [ptr_sub _ _ (by omega) (by omega) (by simp only [WORD_MOD]; omega)]; omega
    obtain ⟨hL1, hse1, _⟩ := hL.remove hd.2
    have hstep : coalesce_preceding_writes (k + 1) h cur.addr =
        remove_free_block_writes h d.addr ++
          coalesce_preceding_writes k (remove_free_block h d.addr) d.addr := by
      conv_lhs => unfold coalesce_preceding_writes
      simp only [load_eq, hh, Blk.hdr, word_and_pu _ _ _ hcb.2.2.1, hcpu, WORD_SIZE, e1, hft, e2]
      simp
    have hL1' : Loose (remove_free_block h d.addr) (pre ++ l ++ d :: cur :: post)
        (fl.erase d.addr) := by
      rw [← hxs]; exact hL1
    have hfree' : ∀ y ∈ l, y.used = false ∧ y.addr ∈ fl.erase d.addr := by
      intro y hy
      have hyf := hfree y (by simp [hy])
      refine ⟨hyf.1, (hL.nodup.mem_erase_iff).2 ⟨?_, hyf.2⟩⟩
      have hs2 := hseg
      rw [List.append_assoc] at hs2
      have hyd : y.addr + y.size ≤ d.addr :=
        Seg_order (u := pre ++ l) (v := d :: cur :: post)
          (by rw [List.append_assoc]; exact hs2) (by simp [hy]) (by simp)
      have hyin : y ∈ pre ++ (l ++ [d]) ++ cur :: post := by simp [hy]
      have := hG.free_real hyin hyf.1
      omega
    have hpu' : (firstBlk l d).pu = true := by rw [← firstBlk_snoc l d cur]; exact hpu
    have hk : l.length < k := by
      simp only [List.length_append, List.length_cons, List.length_nil] at hfuel; omega
    have hrec := ih (k := k) hL1' hfree' hpu' hk
    intro a ha
    rw [hstep] at ha
    rcases List.mem_append.1 ha with ha | ha
    · exact hL.remove_touch hd.2 a ha
    · have := hrec a ha
      rw [hse1.1] at this
      exact this.widen (fun x hx => List.mem_of_mem_erase hx) (fun _ hw => hw)

/-- The second loop of `coalesce_free_block` over a run `fwd` of free blocks
writes the head word and link fields of list nodes only. -/
theorem coalesce_following_touch (fwd : List Blk) :
    ∀ {h : Heap} {pre : List Blk} {c : Blk} {rest : List Blk} {f : List Nat} {k : Nat},
      Loose h (pre ++ fwd ++ c :: rest) f →
      (∀ y ∈ fwd, y.used = false ∧ y.addr ∈ f) →
      c.used = true → fwd.length < k →
      ∀ a ∈ coalesce_following_writes k h (firstBlk fwd c).addr, Touch h.lo f [] a := by
  induction fwd with
  | nil =>
    intro h pre c rest fl fuel hL _ hcu hfuel
    obtain ⟨k, rfl⟩ : ∃ k, fuel = k + 1 := ⟨fuel - 1, by simp at hfuel; omega⟩
    have hcin : c ∈ pre ++ [] ++ c :: rest := by simp
    have hcb := hL.shape.geo.bounds hcin
    have hh := hL.shape.hdrs c hcin
    have e : coalesce_following_writes (k + 1) h (firstBlk [] c).addr = [] := by
      unfold coalesce_following_writes
      simp only [load_eq, firstBlk, List.headD, hh, Blk.hdr, word_and_used _ _ _ hcb.2.2.1, hcu]
      simp
    rw [e]
    exact touch_nil _ _ _
  | cons d fwd ih =>
    intro h pre c rest fl fuel hL hfree hcu hfuel
    obtain ⟨k, rfl⟩ : ∃ k, fuel = k + 1 := ⟨fuel - 1, by simp at hfuel; omega⟩
    have hG := hL.shape.geo
    have hxs : pre ++ (d :: fwd) ++ c :: rest = (pre ++ [d]) ++ fwd ++ c :: rest := by simp
    have hdin : d ∈ pre ++ (d :: fwd) ++ c :: rest := by simp
    have hdb := hG.bounds hdin
    have hd := hfree d (by simp)
    have hd32 := hG.free_real hdin hd.1
    have hh := hL.shape.hdrs d hdin
    have hnext : (firstBlk fwd c).addr = d.addr + d.size := by
      have hseg := hG.seg
      cases fwd with
      | nil =>
        have : pre ++ [d] ++ c :: rest = pre ++ d :: c :: rest := by simp
        rw [this] at hseg
        exact Seg_next hseg
      | cons e fwd2 =>
        have : pre ++ (d :: e :: fwd2) ++ c :: rest = pre ++ d :: e :: (fwd2 ++ c :: rest) := by
          simp
        rw [this] at hseg
        exact Seg_next hseg
    have e1 : UNSCALED_POINTER_ADD d.addr d.size = (firstBlk fwd c).addr := by
      rw [ptr_add _ _ (by omega) (by simp only [WORD_MOD]; omega), hnext]
    have hsz : SIZE (word d.size false d.pu) = d.size :=
      SIZE_word _ _ _ hdb.2.2.1 (by simp only [WORD_MOD]; omega)
    obtain ⟨hL1, hse1, _⟩ := hL.remove hd.2
    have hstep : coalesce_following_writes (k + 1) h (firstBlk (d :: fwd) c).addr =
        remove_free_block_writes h d.addr ++
          coalesce_following_writes k (remove_free_block h d.addr) (firstBlk fwd c).addr := by
      conv_lhs => unfold coalesce_following_writes
      have : (firstBlk (d :: fwd) c) = d := rfl
      simp only [this, load_eq, hh, Blk.hdr, hd.1, word_and_used _ _ _ hdb.2.2.1, hsz, e1]
      simp
    have hL1' : Loose (remove_free_block h d.addr) (pre ++ [d] ++ fwd ++ c :: rest)
        (fl.erase d.addr) := by
      rw [← hxs]; exact hL1
    have hfree' : ∀ y ∈ fwd, y.used = false ∧ y.addr ∈ fl.erase d.addr := by
      intro y hy
      have hyf := hfree y (by simp [hy])
      refine ⟨hyf.1, (hL.nodup.mem_erase_iff).2 ⟨?_, hyf.2⟩⟩
      have hs2 := hG.seg
      have hdy : d.addr + d.size ≤ y.addr :=
        Seg_order (u := pre ++ [d]) (v := fwd ++ c :: rest)
          (by rw [hxs, List.append_assoc] at hs2; exact hs2) (by simp) (by simp [hy])
      omega
    have hk : fwd.length < k := by
      simp only [List.length_cons] at hfuel; omega
    have hrec := ih (k := k) hL1' hfree' hcu hk
    intro a ha
    rw [hstep] at ha
    rcases List.mem_append.1 ha with ha | ha
    · exact hL.remove_touch hd.2 a ha
    · have := hrec a ha
      rw [hse1.1] at this
      exact this.widen (fun x hx => List.mem_of_mem_erase hx) (fun _ hw => hw)

/-- `coalesce_free_block` on a free block whose neighbours are both used
writes nothing. -/
theorem coalesce_none_writes {h : Heap} {pre rest : List Blk} {b c : Blk} {fl : List Nat}
    (hP : Pre h (pre ++ b :: c :: rest) fl) (hpu : b.pu = true) (hcu : c.used = true) :
    coalesce_free_block_writes h b.addr = [] := by
  have hG := hP.shape.geo
  have hbin : b ∈ pre ++ b :: c :: rest := by simp
  have hbb := hG.bounds hbin
  have hsz : SIZE (h.mem b.addr) = b.size := by
    rw [hP.shape.hdrs b hbin]
    exact SIZE_word _ _ _ hbb.2.2.1 (by simp only [WORD_MOD]; omega)
  have hca : c.addr = b.addr + b.size := Seg_next hG.seg
  have e1 : UNSCALED_POINTER_ADD b.addr b.size = c.addr := by
    rw [ptr_add _ _ (by omega) (by simp only [WORD_MOD]; omega)]; omega
  have hk : ∃ k, loop_fuel h = k + 1 := by
    have := hG.total_eq
    exact ⟨loop_fuel h - 1, by unfold loop_fuel; omega⟩
  obtain ⟨k, hk⟩ := hk
  unfold coalesce_free_block_writes
  simp only [load_eq, hsz, e1]
  have r1' : coalesce_preceding (loop_fuel h) h b.addr b.size = some (h, b.addr, b.size) := by
    rw [hk]
    unfold coalesce_preceding
    have := hP.shape.hdrs b hbin
    simp only [load_eq, this, Blk.hdr, word_and_pu _ _ _ hbb.2.2.1, hpu]
    simp
  have w1 : coalesce_preceding_writes (loop_fuel h) h b.addr = [] := by
    rw [hk]
    unfold coalesce_preceding_writes
    have := hP.shape.hdrs b hbin
    simp only [load_eq, this, Blk.hdr, word_and_pu _ _ _ hbb.2.2.1, hpu]
    simp
  have hcin : c ∈ pre ++ b :: c :: rest := by simp
  have hcb := hG.bounds hcin
  have r2' : coalesce_following (loop_fuel h) h c.addr b.size = some (h, c.addr, b.size) := by
    rw [hk]
    unfold coalesce_following
    have := hP.shape.hdrs c hcin
    simp only [load_eq, this, Blk.hdr, word_and_used _ _ _ hcb.2.2.1, hcu]
    simp
  have w2 : coalesce_following_writes (loop_fuel h) h c.addr = [] := by
    rw [hk]
    unfold coalesce_following_writes
    have := hP.shape.hdrs c hcin
    simp only [load_eq, this, Blk.hdr, word_and_used _ _ _ hcb.2.2.1, hcu]
    simp
  rw [r1', w1]
  simp only [r2', w2]
  simp


/-- `coalesce_free_block` on a free block whose neighbours are both used
leaves the arena as it is. -/
theorem coalesce_none {h : Heap} {pre rest : List Blk} {b c : Blk} {fl : List Nat}
    (hP : Pre h (pre ++ b :: c :: rest) fl) (hpu : b.pu = true) (hcu : c.used = true) :
    coalesce_free_block h b.addr = some h := by
  have hG := hP.shape.geo
  have hbin : b ∈ pre ++ b :: c :: rest := by simp
  have hbb := hG.bounds hbin
  have hsz : SIZE (h.mem b.addr) = b.size := by
    rw [hP.shape.hdrs b hbin]
    exact SIZE_word _ _ _ hbb.2.2.1 (by simp only [WORD_MOD]; omega)
  have hca : c.addr = b.addr + b.size := Seg_next hG.seg
  have e1 : UNSCALED_POINTER_ADD b.addr b.size = c.addr := by
    rw [ptr_add _ _ (by omega) (by simp only [WORD_MOD]; omega)]; omega
  have hk : ∃ k, loop_fuel h = k + 1 := by
    have := hG.total_eq
    exact ⟨loop_fuel h - 1, by unfold loop_fuel; omega⟩
  obtain ⟨k, hk⟩ := hk
  unfold coalesce_free_block
  simp only [load_eq, hsz, e1]
  have r1' : coalesce_preceding (loop_fuel h) h b.addr b.size = some (h, b.addr, b.size) := by
    rw [hk]
    unfold coalesce_preceding
    have := hP.shape.hdrs b hbin
    simp only [load_eq, this, Blk.hdr, word_and_pu _ _ _ hbb.2.2.1, hpu]
    simp
  have hcin : c ∈ pre ++ b :: c :: rest := by simp
  have hcb := hG.bounds hcin
  have r2' : coalesce_following (loop_fuel h) h c.addr b.size = some (h, c.addr, b.size) := by
    rw [hk]
    unfold coalesce_following
    have := hP.shape.hdrs c hcin
    simp only [load_eq, this, Blk.hdr, word_and_used _ _ _ hcb.2.2.1, hcu]
    simp
  rw [r1']
  simp only [r2']
  simp

/-- `coalesce_free_block` on a free block `b` inside a run of free blocks
(`back` in front of it, `fwd` behind it, at least one of them not empty)
that is bounded by used blocks: the run becomes one free block at the head of
the free list, whose header and last word hold the size of the run with
`TAG_PRECEDING_USED`; the other nodes keep their order and the tags of the
blocks outside the run are untouched.  The call writes the head word, link
fields of list nodes, and the header and the boundary tag of the merged
block only. -/
theorem coalesce_merge_pre {h : Heap} {pre back fwd rest : List Blk} {b c : Blk} {fl : List Nat}
    (hP : Pre h (pre ++ back ++ b :: (fwd ++ c :: rest)) fl)
    (hrun : ∀ y ∈ back ++ b :: fwd, y.used = false)
    (hpu : (firstBlk back b).pu = true) (hcu : c.used = true)
    (hne : back ≠ [] ∨ fwd ≠ []) :
    ∃ h1, coalesce_free_block h b.addr = some h1 ∧ SameEnv h h1 ∧
      Pre h1 (pre ++ ⟨(firstBlk back b).addr, total (back ++ b :: fwd), false, true⟩ ::
          c :: rest)
        ((firstBlk back b).addr :: fl.diff ((back ++ b :: fwd).map Blk.addr)) ∧
      FrameW h h1 fl [(firstBlk back b).addr, c.addr - 8] ∧
      c.addr = (firstBlk back b).addr + total (back ++ b :: fwd) ∧
      h1.mem (firstBlk back b).addr = word (total (back ++ b :: fwd)) false true ∧
      h1.mem (c.addr - 8) = word (total (back ++ b :: fwd)) false true ∧
      (∀ y ∈ pre ++ c :: rest, h1.mem y.addr = h.mem y.addr ∧
        (y.used = false → h1.mem y.ftr = h.mem y.ftr)) ∧
      ∀ a ∈ coalesce_free_block_writes h b.addr,
        Touch h.lo fl [(firstBlk back b).addr, c.addr - 8] a := by
  have hL := hP.loose
  have hG := hP.shape.geo
  have hxs : pre ++ back ++ b :: (fwd ++ c :: rest) = pre ++ (back ++ b :: fwd) ++ c :: rest := by
    simp
  have hmidin : ∀ y ∈ back ++ b :: fwd, y ∈ pre ++ back ++ b :: (fwd ++ c :: rest) := by
    intro y hy
    rw [hxs]
    exact List.mem_append_left _ (List.mem_append_right _ hy)
  have hbin : b ∈ pre ++ back ++ b :: (fwd ++ c :: rest) := hmidin b (by simp)
  have hcin : c ∈ pre ++ back ++ b :: (fwd ++ c :: rest) := by simp
  have hbb := hG.bounds hbin
  have hcb := hG.bounds hcin
  have hbu : b.used = false := hrun b (by simp)
  have b32 := hG.free_real hbin hbu
  have hmid32 : ∀ y ∈ back ++ b :: fwd, 32 ≤ y.size := fun y hy =>
    hG.free_real (hmidin y hy) (hrun y hy)
  have hmid8 : ∀ y ∈ back ++ b :: fwd, 8 ∣ y.size := fun y hy => (hG.bounds (hmidin y hy)).2.2.1
  have hmidfl : ∀ y ∈ back ++ b :: fwd, y.addr ∈ fl := fun y hy =>
    (hP.agree _).2 ⟨y, hmidin y hy, rfl, hrun y hy⟩
  -- geometry of the run
  have hseg := hG.seg
  simp only [WORD_SIZE] at hseg
  rw [hxs, List.append_assoc, Seg_append, Seg_append] at hseg
  obtain ⟨_, hsegmid, hsegc, _⟩ := hseg
  have hfaddr : (firstBlk back b).addr = h.lo + 8 + total pre := firstBlk_addr hsegmid
  have hcaddr : c.addr = h.lo + 8 + total pre + total (back ++ b :: fwd) := hsegc
  have htot : total (back ++ b :: fwd) = total back + (b.size + total fwd) := by
    rw [total_append]; rfl
  have hT32 : 32 ≤ total (back ++ b :: fwd) := by rw [htot]; omega
  have hTlt : total (back ++ b :: fwd) < 2147483648 := by omega
  have hbaddr : b.addr = h.lo + 8 + total pre + total back := by
    have := hG.seg
    simp only [WORD_SIZE] at this
    rw [List.append_assoc, Seg_append, Seg_append] at this
    exact this.2.2.1
  have hsz : SIZE (h.mem b.addr) = b.size := by
    rw [hP.shape.hdrs b hbin]
    exact SIZE_word _ _ _ hbb.2.2.1 (by simp only [WORD_MOD]; omega)
  -- first loop
  obtain ⟨h1, r1, se1, fw1, hL1⟩ := coalesce_preceding_spec back (n := b.size)
    (k := loop_fuel h) hL (fun y hy => ⟨hrun y (by simp [hy]), hmidfl y (by simp [hy])⟩) hpu
    (by
      have : pre ++ back ++ b :: (fwd ++ c :: rest) = pre ++ back ++ (b :: (fwd ++ c :: rest)) :=
        rfl
      exact hG.length_lt (by simp)) (by omega)
  have pw1 := coalesce_preceding_touch back (k := loop_fuel h) hL
    (fun y hy => ⟨hrun y (by simp [hy]), hmidfl y (by simp [hy])⟩) hpu
    (by
      have : pre ++ back ++ b :: (fwd ++ c :: rest) = pre ++ back ++ (b :: (fwd ++ c :: rest)) :=
        rfl
      exact hG.length_lt (by simp))
  -- second loop
  have hnext : (firstBlk fwd c).addr = b.addr + b.size := by
    have := hsegmid
    rw [Seg_append] at this
    cases fwd with
    | nil =>
      show c.addr = _
      rw [hcaddr, htot, hbaddr]; simp only [total]; omega
    | cons e f2 =>
      have h2 := this.2.2.1
      show e.addr = _
      rw [h2, hbaddr]
  have e1 : UNSCALED_POINTER_ADD b.addr b.size = (firstBlk fwd c).addr := by
    rw [ptr_add _ _ (by omega) (by simp only [WORD_MOD]; omega), hnext]
  have hxs2 : pre ++ back ++ b :: (fwd ++ c :: rest) = (pre ++ back ++ [b]) ++ fwd ++ c :: rest := by
    simp
  have hfwdne : ∀ y ∈ fwd, y.addr ∉ back.reverse.map Blk.addr := by
    intro y hy hin
    simp only [List.mem_map, List.mem_reverse] at hin
    obtain ⟨z, hz, e⟩ := hin
    have hord : z.addr + z.size ≤ y.addr :=
      Seg_order (u := back) (v := b :: fwd) hsegmid hz (by simp [hy])
    have := hmid32 z (by simp [hz])
    omega
  obtain ⟨h2, r2, se2, fw2, hL2⟩ := coalesce_following_spec fwd (n := b.size + total back)
    (k := loop_fuel h) (f := fl.diff (back.reverse.map Blk.addr)) (by rw [← hxs2]; exact hL1)
    (fun y hy => ⟨hrun y (by simp [hy]),
      List.mem_diff_of_mem (hmidfl y (by simp [hy])) (hfwdne y hy)⟩) hcu
    (by
      have : pre ++ back ++ b :: (fwd ++ c :: rest) = (pre ++ back ++ [b]) ++ fwd ++ c :: rest :=
        hxs2
      rw [this] at hG
      exact hG.length_lt (by simp)) (by omega)
  have pw2 := coalesce_following_touch fwd (k := loop_fuel h)
    (f := fl.diff (back.reverse.map Blk.addr)) (by rw [← hxs2]; exact hL1)
    (fun y hy => ⟨hrun y (by simp [hy]),
      List.mem_diff_of_mem (hmidfl y (by simp [hy])) (hfwdne y hy)⟩) hcu
    (by
      have : pre ++ back ++ b :: (fwd ++ c :: rest) = (pre ++ back ++ [b]) ++ fwd ++ c :: rest :=
        hxs2
      rw [this] at hG
      exact hG.length_lt (by simp))
  rw [← hxs2] at hL2
  -- the free list after the loops, and after unlinking `b`
  have hbne : b.addr ∉ back.reverse.map Blk.addr ++ fwd.map Blk.addr := by
    intro hin
    simp only [List.mem_append, List.mem_map, List.mem_reverse] at hin
    rcases hin with ⟨z, hz, e⟩ | ⟨z, hz, e⟩
    · have hord : z.addr + z.size ≤ b.addr :=
        Seg_order (u := back) (v := b :: fwd) hsegmid hz (by simp)
      have := hmid32 z (by simp [hz])
      omega
    · have hord : b.addr + b.size ≤ z.addr :=
        Seg_order (u := back ++ [b]) (v := fwd) (by simpa using hsegmid) (by simp) hz
      omega
  have hfl2 : (fl.diff (back.reverse.map Blk.addr)).diff (fwd.map Blk.addr) =
      fl.diff (back.reverse.map Blk.addr ++ fwd.map Blk.addr) := by
    rw [List.diff_append]
  rw [hfl2] at hL2
  have hbin2 : b.addr ∈ fl.diff (back.reverse.map Blk.addr ++ fwd.map Blk.addr) :=
    List.mem_diff_of_mem (hmidfl b (by simp)) hbne
  have pw3 := hL2.remove_touch hbin2
  obtain ⟨hL3, se3, fw3⟩ := hL2.remove hbin2
  have hperm : (back.reverse.map Blk.addr ++ fwd.map Blk.addr ++ [b.addr]).Perm
      ((back ++ b :: fwd).map Blk.addr) := by
    simp only [List.map_append, List.map_cons]
    have p1 : (back.reverse.map Blk.addr).Perm (back.map Blk.addr) :=
      (List.reverse_perm back).map _
    have p2 : (fwd.map Blk.addr ++ [b.addr]).Perm (b.addr :: fwd.map Blk.addr) :=
      List.perm_append_singleton _ _
    rw [List.append_assoc]
    exact p1.append p2
  have hfl3 : (fl.diff (back.reverse.map Blk.addr ++ fwd.map Blk.addr)).erase b.addr =
      fl.diff ((back ++ b :: fwd).map Blk.addr) := by
    rw [← List.Perm.diff_left fl hperm, List.diff_append fl _ [b.addr]]
    simp
  rw [hfl3] at hL3
  -- evaluation of the function
  have hT : b.size + total back + total fwd = total (back ++ b :: fwd) := by rw [htot]; omega
  have hT8 : 8 ∣ total (back ++ b :: fwd) := total_dvd hmid8
  have e2 : UNSCALED_POINTER_SUB c.addr 8 = c.addr - 8 :=
    ptr_sub _ _ (by omega) (by omega) (by simp only [WORD_MOD]; omega)
  have hcond : b.size + total back + total fwd ≠ b.size := by
    rcases hne with hb | hf
    · cases back with
      | nil => exact absurd rfl hb
      | cons d r =>
        have := hmid32 d (by simp)
        simp only [total]; omega
    · cases fwd with
      | nil => exact absurd rfl hf
      | cons d r =>
        have := hmid32 d (by simp)
        simp only [total]; omega
  have heval : coalesce_free_block h b.addr = some (insert_free_block
      (store (store (remove_free_block h2 b.addr) (firstBlk back b).addr
        (word (total (back ++ b :: fwd)) false true)) (c.addr - 8)
        (word (total (back ++ b :: fwd)) false true)) (firstBlk back b).addr) := by
    unfold coalesce_free_block
    have hcond' : total (back ++ b :: fwd) ≠ b.size := by rw [← hT]; exact hcond
    simp only [load_eq, hsz, r1, e1, r2, ne_eq, hT, hcond', not_false_eq_true, if_true,
      WORD_SIZE, e2, ← size_or_mask _ true hT8]
  have hweval : coalesce_free_block_writes h b.addr =
      coalesce_preceding_writes (loop_fuel h) h b.addr ++
        (coalesce_following_writes (loop_fuel h) h1 (firstBlk fwd c).addr ++
          (remove_free_block_writes h2 b.addr ++ [(firstBlk back b).addr, c.addr - 8] ++
            insert_free_block_writes
              (store (store (remove_free_block h2 b.addr) (firstBlk back b).addr
                (word (total (back ++ b :: fwd)) false true)) (c.addr - 8)
                (word (total (back ++ b :: fwd)) false true)) (firstBlk back b).addr)) := by
    unfold coalesce_free_block_writes
    have hcond' : total (back ++ b :: fwd) ≠ b.size := by rw [← hT]; exact hcond
    simp only [load_eq, hsz, r1, e1, r2, ne_eq, hT, hcond', not_false_eq_true, if_true,
      WORD_SIZE, e2, ← size_or_mask _ true hT8]
  generalize remove_free_block h2 b.addr = h3 at hL3 se3 fw3 heval hweval
  generalize hF : (firstBlk back b).addr = F at *
  generalize hTT : total (back ++ b :: fwd) = T at *
  generalize hfl3' : fl.diff ((back ++ b :: fwd).map Blk.addr) = fl3 at *
  have hfirstin : firstBlk back b ∈ back ++ b :: fwd := firstBlk_mem back b fwd
  have hFfl : F ∈ fl := by rw [← hF]; exact hmidfl _ hfirstin
  have hsub3 : ∀ x ∈ fl3, x ∈ fl ∧ x ∉ (back ++ b :: fwd).map Blk.addr := by
    intro x hx
    rw [← hfl3'] at hx
    exact (hP.nodup.mem_diff_iff).1 hx
  -- nodes that are left lie outside the run
  have hG' : Geo h (pre ++ (back ++ b :: fwd) ++ c :: rest) := by rw [← hxs]; exact hG
  have hpos : ∀ x ∈ fl3, x + 32 ≤ F ∨ F + T ≤ x := by
    intro x hx
    obtain ⟨hx1, hx2⟩ := hsub3 x hx
    obtain ⟨z, hz, rfl, hzu⟩ := (hP.agree x).1 hx1
    have z32 := hG.free_real hz hzu
    have hz' : z ∈ pre ++ c :: rest := by
      rw [hxs] at hz
      simp only [List.mem_append] at hz ⊢
      rcases hz with (hz | hz) | hz
      · exact Or.inl hz
      · exact absurd (List.mem_map_of_mem _ (List.mem_append.2 hz)) hx2
      · exact Or.inr hz
    rcases hG'.outside hz' with ⟨o1, _⟩ | ⟨o1, _, _⟩
    · left; omega
    · right; rw [hTT] at o1; omega
  have se13 : SameEnv h h3 := SameEnv.trans_env (SameEnv.trans_env se1 se2) se3
  have hnolink : ∀ a, F ≤ a → a < F + T → a ≠ h3.lo ∧
      ∀ x ∈ fl3, a ≠ prev_field x ∧ a ≠ next_field x := by
    intro a ha1 ha2
    refine ⟨by rw [se13.1]; omega, fun x hx => ?_⟩
    have := hpos x hx
    rw [prev_field_eq, next_field_eq]
    omega
  have hF5 : FreeList (store (store h3 F (word T false true)) (c.addr - 8) (word T false true))
      fl3 := by
    refine (hL3.links.store_fl _ ?_ ?_).store_fl _ ?_ ?_
    · exact (hnolink F (by omega) (by omega)).1
    · exact (hnolink F (by omega) (by omega)).2
    · exact (hnolink (c.addr - 8) (by omega) (by omega)).1
    · exact (hnolink (c.addr - 8) (by omega) (by omega)).2
  have hFnot : F ∉ fl3 := by
    intro hin
    have := hpos F hin
    omega
  have hnd3 : (F :: fl3).Nodup := List.nodup_cons.2 ⟨hFnot, hL3.nodup⟩
  have hsp3 : Spaced h.lo (F :: fl3) := by
    refine hG.spaced ?_
    intro x hx
    rcases List.mem_cons.1 hx with rfl | hx
    · exact ⟨firstBlk back b, hmidin _ hfirstin, hF, hmid32 _ hfirstin⟩
    · exact hL3.slots x hx
  generalize hh5 : store (store h3 F (word T false true)) (c.addr - 8) (word T false true) = h5
    at hF5 heval hweval
  have lo5 : h5.lo = h.lo := by rw [← hh5]; exact se13.1
  have hins := insert_free_block_links (g := F) hF5 hnd3 (by rw [lo5]; exact hsp3)
  have se6 : SameEnv h (insert_free_block h5 F) := by
    refine SameEnv.trans_env (SameEnv.trans_env se13 ?_) (insert_sameEnv _ _)
    rw [← hh5]
    exact SameEnv.trans_env (SameEnv.store_env _ _ _) (SameEnv.store_env _ _ _)
  have hfw : FrameW h (insert_free_block h5 F) fl [F, c.addr - 8] := by
    have f1 : FrameW h h1 fl [F, c.addr - 8] := fw1.mono (fun x hx => Or.inl hx)
      (fun _ hw => by cases hw)
    have f2 : FrameW h1 h2 fl [F, c.addr - 8] :=
      fw2.mono (fun x hx => Or.inl (List.diff_subset _ _ hx)) (fun _ hw => by cases hw)
    have f3 : FrameW h2 h3 fl [F, c.addr - 8] :=
      fw3.mono (fun x hx => Or.inl (List.diff_subset _ _ hx)) (fun _ hw => by cases hw)
    have f5 : FrameW h3 h5 fl [F, c.addr - 8] := by
      rw [← hh5]
      exact FrameW.trans_fr (FrameW.store_fr _ (by simp)) (FrameW.store_fr _ (by simp)) rfl
    have f6 : FrameW h5 (insert_free_block h5 F) fl [F, c.addr - 8] :=
      (FrameW.of_link hins.2 []).mono (fun x hx => by
        rcases List.mem_cons.1 hx with rfl | hx
        · exact Or.inl hFfl
        · exact Or.inl (hsub3 x hx).1) (fun _ hw => by cases hw)
    exact FrameW.trans_fr (FrameW.trans_fr (FrameW.trans_fr (FrameW.trans_fr f1 f2 se1.1) f3
      (SameEnv.trans_env se1 se2).1) f5 se13.1) f6 lo5
  have hkeep : ∀ a, F ≤ a → a < F + T → a ≠ F + 8 → a ≠ F + 16 →
      (insert_free_block h5 F).mem a = h5.mem a := by
    intro a ha1 ha2 ha3 ha4
    refine hins.2 a (by rw [lo5]; omega) (fun x hx => ?_)
    rcases List.mem_cons.1 hx with rfl | hx
    · rw [prev_field_eq, next_field_eq]; exact ⟨ha3, ha4⟩
    · have := hpos x hx
      rw [prev_field_eq, next_field_eq]
      omega
  have hP' : Pre h (pre ++ (back ++ b :: fwd) ++ c :: rest) fl := by rw [← hxs]; exact hP
  have hhdrF : (insert_free_block h5 F).mem F = word T false true := by
    rw [hkeep F (by omega) (by omega) (by omega) (by omega), ← hh5,
      mem_store_of_ne (by omega), mem_store_of_eq rfl]
  have hftrF : (insert_free_block h5 F).mem (c.addr - 8) = word T false true := by
    rw [hkeep _ (by omega) (by omega) (by omega) (by omega), ← hh5, mem_store_of_eq rfl]
  have hfr := hG'.frame_tags (by simp) (by rw [← hxs]; exact hL.slots) hfw (by
    intro a ha
    simp only [List.mem_cons, List.mem_singleton, List.not_mem_nil, or_false] at ha
    rw [hTT]
    rcases ha with rfl | rfl
    · exact ⟨by omega, Or.inl (by omega)⟩
    · exact ⟨by omega, Or.inl (by omega)⟩)
  have hwT : ∀ a ∈ coalesce_free_block_writes h b.addr, Touch h.lo fl [F, c.addr - 8] a := by
    intro a ha
    rw [hweval] at ha
    simp only [List.mem_append] at ha
    rcases ha with ha | ha | (ha | ha) | ha
    · exact (pw1 a ha).widen (fun _ hx => hx) (fun _ hw => by cases hw)
    · have := pw2 a ha
      rw [se1.1] at this
      exact this.widen (fun x hx => List.diff_subset _ _ hx) (fun _ hw => by cases hw)
    · have := pw3 a ha
      rw [(SameEnv.trans_env se1 se2).1] at this
      exact this.widen (fun x hx => List.diff_subset _ _ hx) (fun _ hw => by cases hw)
    · exact Or.inr (Or.inr ha)
    · have := insert_writes_touch hF5 F a ha
      rw [lo5] at this
      exact this.widen (fun x hx => by
        rcases List.mem_cons.1 hx with rfl | hx
        · exact hFfl
        · exact (hsub3 x hx).1) (fun _ hw => by cases hw)
  refine ⟨_, heval, se6, ?_, hfw, by omega, hhdrF, hftrF, hfr, hwT⟩
  have hres := Pre.splice_pre (k := insert_free_block h5 F) (m := [⟨F, T, false, true⟩])
    (f := F :: fl3) hP' (by simp) (hG.of_sameEnv se6).env se6.1 ?_ ?_ ?_ ?_ ?_ hfr hins.1
    hnd3 ?_
  · simpa using hres
  · refine ⟨by rw [← hfaddr], ?_⟩
    show Seg (h.lo + 8 + total pre + T) (c :: rest)
    have := hG'.seg
    simp only [WORD_SIZE] at this
    rw [Seg_append, total_append, hTT, ← Nat.add_assoc] at this
    exact this.2
  · rw [se6.2.1]
    have := (EndsAt_append_cons.1 hG'.ends).2
    exact ⟨hT32, hT8, this⟩
  · have hfl := hP'.flags
    rw [List.append_assoc, Flags_append] at hfl
    have hfl2 := hfl.2
    rw [Flags_append] at hfl2
    refine ⟨?_, ?_, ?_⟩
    · show true = _
      rw [← firstBlk_pu hfl2.1, hpu]
    · show c.pu = false
      rw [hfl2.2.1]
      exact lastUsed_free hrun (by simp)
    · exact hfl2.2.2
  · intro y hy
    rw [List.mem_singleton.1 hy]
    exact hhdrF
  · intro y hy _
    rw [List.mem_singleton.1 hy]
    have ef : (⟨F, T, false, true⟩ : Blk).ftr = c.addr - 8 := by
      show F + T - WORD_SIZE = _
      simp only [WORD_SIZE]; omega
    rw [ef, hftrF]
    exact SIZE_word _ _ _ hT8 (by simp only [WORD_MOD]; omega)
  · intro x
    simp only [List.mem_cons, List.mem_singleton, List.not_mem_nil, or_false, exists_eq_left,
      and_true]
    rw [← hfl3', hP.nodup.mem_diff_iff]
    simp only [List.mem_map, not_exists, not_and]
    constructor
    · rintro (rfl | ⟨h1', h2'⟩)
      · exact Or.inr rfl
      · exact Or.inl ⟨h1', fun y hy e => h2' y hy e⟩
    · rintro (⟨h1', h2'⟩ | h1')
      · exact Or.inr ⟨h1', fun y hy e => h2' y hy e⟩
      · exact Or.inl h1'.symm

/-- `coalesce_free_block` on a free block `b` inside a run of free blocks
(`back` in front of it, `fwd` behind it, at least one of them not empty)
that is bounded by used blocks, when the free blocks outside the run are
settled: the run becomes one settled free block at the head of the free
list, and the other nodes keep their order. -/
theorem coalesce_merge {h : Heap} {pre back fwd rest : List Blk} {b c : Blk} {fl : List Nat}
    (hP : Pre h (pre ++ back ++ b :: (fwd ++ c :: rest)) fl)
    (hout : ∀ y ∈ pre ++ c :: rest, y.used = false → y.pu = true ∧ h.mem y.ftr = y.hdr)
    (hrun : ∀ y ∈ back ++ b :: fwd, y.used = false)
    (hpu : (firstBlk back b).pu = true) (hcu : c.used = true)
    (hne : back ≠ [] ∨ fwd ≠ []) :
    ∃ h1, coalesce_free_block h b.addr = some h1 ∧ SameEnv h h1 ∧
      Rep h1 (pre ++ ⟨(firstBlk back b).addr, total (back ++ b :: fwd), false, true⟩ ::
          c :: rest)
        ((firstBlk back b).addr :: fl.diff ((back ++ b :: fwd).map Blk.addr)) ∧
      FrameW h h1 fl [(firstBlk back b).addr, c.addr - 8] ∧
      ∀ a ∈ coalesce_free_block_writes h b.addr,
        Touch h.lo fl [(firstBlk back b).addr, c.addr - 8] a := by
  obtain ⟨h1, r1, r2, r3, r4, r5, r6, r7, r8, r9⟩ := coalesce_merge_pre hP hrun hpu hcu hne
  refine ⟨h1, r1, r2, ⟨r3, ?_⟩, r4, r9⟩
  have hfrom : ∀ y ∈ pre ++ c :: rest, y.used = false → y.pu = true ∧ h1.mem y.ftr = y.hdr := by
    intro y hy hu
    have := hout y hy hu
    exact ⟨this.1, by rw [(r8 y hy).2 hu]; exact this.2⟩
  intro y hy hu
  simp only [List.mem_append, List.mem_cons] at hy
  rcases hy with hy | rfl | rfl | hy
  · exact hfrom y (by simp [hy]) hu
  · refine ⟨rfl, ?_⟩
    show h1.mem ((firstBlk back b).addr + total (back ++ b :: fwd) - WORD_SIZE) = _
    rw [← r5]
    exact r7
  · exact hfrom y (by simp) hu
  · exact hfrom y (by simp [hy]) hu

/-- Coalescing the block at the head of the free list, whatever the run of
free blocks around it: afterwards the run is one settled free block, which is
the head of the free list, and the invariant holds. -/
theorem coalesce_rep {h : Heap} {pre back fwd rest : List Blk} {b c : Blk} {fl : List Nat}
    (hP : Pre h (pre ++ back ++ b :: (fwd ++ c :: rest)) (b.addr :: fl))
    (hout : ∀ y ∈ pre ++ c :: rest, y.used = false → y.pu = true ∧ h.mem y.ftr = y.hdr)
    (hrun : ∀ y ∈ back ++ b :: fwd, y.used = false)
    (hpu : (firstBlk back b).pu = true) (hcu : c.used = true)
    (hb : h.mem b.ftr = b.hdr) :
    ∃ h1, coalesce_free_block h b.addr = some h1 ∧ SameEnv h h1 ∧
      Rep h1 (pre ++ ⟨(firstBlk back b).addr, total (back ++ b :: fwd), false, true⟩ :: c :: rest)
        ((firstBlk back b).addr :: fl.diff ((back ++ fwd).map Blk.addr)) ∧
      FrameW h h1 (b.addr :: fl) [(firstBlk back b).addr, c.addr - 8] ∧
      ∀ a ∈ coalesce_free_block_writes h b.addr,
        Touch h.lo (b.addr :: fl) [(firstBlk back b).addr, c.addr - 8] a := by
  by_cases hne : back ≠ [] ∨ fwd ≠ []
  · obtain ⟨h1, r1, r2, r3, r4, r5⟩ := coalesce_merge hP hout hrun hpu hcu hne
    refine ⟨h1, r1, r2, ?_, r4, r5⟩
    have hd : (b.addr :: fl).diff ((back ++ b :: fwd).map Blk.addr) =
        fl.diff ((back ++ fwd).map Blk.addr) := by
      have hp : ((back ++ b :: fwd).map Blk.addr).Perm (b.addr :: (back ++ fwd).map Blk.addr) := by
        simp only [List.map_append, List.map_cons]
        exact List.perm_middle
      rw [hp.diff_left, List.diff_cons, List.erase_cons_head]
    rw [← hd]
    exact r3
  · have hb0 : back = [] := by
      by_contra e; exact hne (Or.inl e)
    have hf0 : fwd = [] := by
      by_contra e; exact hne (Or.inr e)
    subst hb0; subst hf0
    simp only [List.append_nil, List.nil_append, firstBlk, List.headD] at hP hpu hrun ⊢
    have hbu : b.used = false := hrun b (by simp)
    refine ⟨h, coalesce_none hP hpu hcu, SameEnv.rfl_ h, ?_, FrameW.refl_ _ _ _, by
      rw [coalesce_none_writes hP hpu hcu]; exact touch_nil _ _ _⟩
    have hM : (⟨b.addr, total [b], false, true⟩ : Blk) = b := by
      cases b
      simp only [total] at *
      simp_all
    rw [hM]
    simp only [List.map_nil, List.diff_nil]
    refine ⟨hP, ?_⟩
    intro y hy hu
    simp only [List.mem_append, List.mem_cons] at hy
    rcases hy with hy | rfl | hy
    · exact hout y (by simp [hy]) hu
    · exact ⟨hpu, hb⟩
    · exact hout y (by simp only [List.mem_append, List.mem_cons]; tauto) hu


/-! ### Payloads of used blocks -/

theorem Keeps.refl_keeps (h : Heap) (ys : List Blk) : Keeps h h ys := fun _ _ _ _ _ _ => rfl

theorem Keeps.of_used {h h1 : Heap} {ys zs : List Blk} (hk : Keeps h h1 ys)
    (hs : ∀ y ∈ zs, y.used = true → y ∈ ys) : Keeps h h1 zs :=
  fun y hy hu a h1' h2' => hk y (hs y hy hu) hu a h1' h2'

theorem Keeps.trans_keeps {h h1 h2 : Heap} {xs xs1 : List Blk} (hk : Keeps h h1 xs)
    (hk1 : Keeps h1 h2 xs1) (hu : UsedKeep xs xs1) (hsz : ∀ y ∈ xs, y.size = 0 ∨ 32 ≤ y.size) :
    Keeps h h2 xs := by
  intro y hy hyu a ha1 ha2
  rcases hsz y hy with h0 | h32
  · omega
  · obtain ⟨z, hz, hzu, e1, e2⟩ := hu y hy hyu h32
    rw [hk1 z hz hzu a (by omega) (by omega), hk y hy hyu a ha1 ha2]

/-- Stores that go to the head word, to link fields of free blocks and of
blocks of a run `mid`, to block headers, and to words inside the run leave the
payloads of the used blocks outside the run as they are. -/
theorem Rep.keeps_run {h h1 : Heap} {pre mid rest : List Blk} {fl fl1 W : List Nat}
    (hR : Rep h (pre ++ mid ++ rest) fl) (hf : FrameW h h1 fl1 W)
    (hfl : ∀ x ∈ fl1, x ∈ fl ∨ ∃ z ∈ mid, z.addr = x)
    (hW : ∀ w ∈ W, (h.lo + 8 + total pre ≤ w ∧
        (w < h.lo + 8 + total pre + total mid ∨ rest = [])) ∨
      ∃ z ∈ pre ++ mid ++ rest, w = z.addr) :
    Keeps h h1 (pre ++ rest) := by
  intro y hy hyu a ha1 ha2
  have hG := hR.shape.geo
  have hyin : y ∈ pre ++ mid ++ rest := by
    simp only [List.mem_append] at hy ⊢
    rcases hy with hy | hy
    · exact Or.inl (Or.inl hy)
    · exact Or.inr hy
  have hyb := hG.bounds hyin
  have hout := hG.outside hy
  have hseg := hG.seg
  simp only [WORD_SIZE] at hseg
  rw [Seg_append, Seg_append] at hseg
  refine hf a (by omega) (fun x hx => ?_) (fun haW => ?_)
  · rw [next_field_eq, prev_field_eq]
    rcases hfl x hx with hx | ⟨z, hz, rfl⟩
    · obtain ⟨z, hz, rfl, hzu⟩ := (hR.agree x).1 hx
      have z32 := hG.free_real hz hzu
      rcases hG.sep hyin hz with e | e | e
      · rw [e, hzu] at hyu; cases hyu
      · omega
      · omega
    · have hzb := Seg_bounds hseg.1.2 hz
      rcases hout with ⟨o1, _⟩ | ⟨o1, _, o3⟩
      · omega
      · have := o3 z hz
        omega
  · rcases hW a haW with ⟨w1, w2⟩ | ⟨z, hz, rfl⟩
    · rcases hout with ⟨o1, _⟩ | ⟨o1, o2, _⟩
      · omega
      · rcases w2 with w2 | w2
        · omega
        · rw [w2] at o2; cases o2
    · rcases hG.sep hyin hz with e | e | e
      · rw [e] at ha1; omega
      · omega
      · omega

theorem free_keeps {h h4 h5 : Heap} {pre1 back fwd rest rest1 : List Blk} {b c c1 : Blk}
    {fl : List Nat} {F : Nat}
    (hR : Rep h (pre1 ++ back ++ b :: c :: rest) fl) (hsplit : c :: rest = fwd ++ c1 :: rest1)
    (hrun : ∀ y ∈ back ++ fwd, y.used = false) (hF : F = (firstBlk back b).addr)
    (hlo : h4.lo = h.lo)
    (hfw : FrameW h h4 (b.addr :: fl) [b.addr, b.addr + b.size - 8, c.addr])
    (r4 : FrameW h4 h5 (b.addr :: fl) [F, c1.addr - 8]) :
    Keeps h h5 (pre1 ++ back ++ c :: rest) := by
  have hx : pre1 ++ back ++ b :: c :: rest = pre1 ++ (back ++ b :: fwd) ++ c1 :: rest1 := by
    rw [hsplit]; simp
  have hcin : c ∈ fwd ++ c1 :: rest1 := by rw [← hsplit]; simp
  have hys : ∀ y ∈ pre1 ++ back ++ c :: rest, y.used = true → y ∈ pre1 ++ c1 :: rest1 := by
    intro y hy hyu
    rw [hsplit] at hy
    simp only [List.mem_append, List.mem_cons] at hy ⊢
    rcases hy with (hy | hy) | hy | hy
    · exact Or.inl hy
    · rw [hrun y (List.mem_append_left _ hy)] at hyu; cases hyu
    · rw [hrun y (List.mem_append_right _ hy)] at hyu; cases hyu
    · exact Or.inr hy
  rw [hx] at hR
  have hG := hR.shape.geo
  have b32 : 32 ≤ b.size :=
    (EndsAt_front hG.ends (by simp) (List.mem_append_right pre1 (by simp))).1
  have hseg := hG.seg
  simp only [WORD_SIZE] at hseg
  rw [Seg_append, Seg_append, Seg_append] at hseg
  have hba : b.addr = h.lo + 8 + total pre1 + total back := hseg.1.2.2.1
  have hc1 : c1.addr = h.lo + 8 + total pre1 + total (back ++ b :: fwd) := by
    have := hseg.2.1
    rw [total_append] at this
    omega
  have htot : total (back ++ b :: fwd) = total back + (b.size + total fwd) := by
    rw [total_append]; rfl
  have hfr : FrameW h h5 (b.addr :: fl)
      [b.addr, b.addr + b.size - 8, c.addr, F, c1.addr - 8] :=
    FrameW.trans_fr (hfw.mono (fun x hx => Or.inl hx) (fun w hw => by
        simp only [List.mem_cons, List.mem_singleton, List.not_mem_nil, or_false] at hw ⊢
        rcases hw with e | e | e <;> simp [e]))
      (r4.mono (fun x hx => Or.inl hx) (fun w hw => by
        simp only [List.mem_cons, List.mem_singleton, List.not_mem_nil, or_false] at hw ⊢
        rcases hw with e | e <;> simp [e])) hlo
  refine (hR.keeps_run hfr ?_ ?_).of_used hys
  · intro x hx
    rcases List.mem_cons.1 hx with rfl | hx
    · exact Or.inr ⟨b, by simp, rfl⟩
    · exact Or.inl hx
  · intro w hw
    simp only [List.mem_cons, List.mem_singleton, List.not_mem_nil, or_false] at hw
    rcases hw with rfl | rfl | rfl | rfl | rfl
    · exact Or.inr ⟨b, by simp, rfl⟩
    · left
      rw [htot]
      exact ⟨by omega, Or.inl (by omega)⟩
    · refine Or.inr ⟨c, ?_, rfl⟩
      simp only [List.mem_append, List.mem_cons] at hcin ⊢
      rcases hcin with hc | hc | hc
      · exact Or.inl (Or.inr (Or.inr (Or.inr hc)))
      · exact Or.inr (Or.inl hc)
      · exact Or.inr (Or.inr hc)
    · refine Or.inr ⟨firstBlk back b, ?_, hF⟩
      exact List.mem_append_left _ (List.mem_append_right _ (firstBlk_mem back b fwd))
    · left
      rw [hc1, htot]
      exact ⟨by omega, Or.inl (by omega)⟩

theorem grow_keeps {h h5 h6 : Heap} {pre1 back : List Blk} {s : Blk} {fl : List Nat}
    {F E T : Nat} (hR : Rep h (pre1 ++ back ++ [s]) fl) (hback : ∀ y ∈ back, y.used = false)
    (hF : F = (firstBlk back s).addr) (hE : E = s.addr + T - 8) (hT : 8 ≤ T)
    (hlo : h5.lo = h.lo)
    (hfw : FrameW h h5 fl [s.addr, s.addr + 8, s.addr + 16, s.addr + T - 8, s.addr + T])
    (r4 : FrameW h5 h6 (s.addr :: fl) [F, E]) :
    Keeps h h6 (pre1 ++ back ++ [s]) := by
  have hx : pre1 ++ back ++ [s] = pre1 ++ (back ++ [s]) ++ [] := by simp
  have hG0 := hR.shape.geo
  have hsent : s.size = 0 := (EndsAt_append_cons.1 hG0.ends).2.1
  rw [hx] at hR
  have hG := hR.shape.geo
  have hseg := hG.seg
  simp only [WORD_SIZE] at hseg
  rw [Seg_append, Seg_append, Seg_append] at hseg
  have hsa : s.addr = h.lo + 8 + total pre1 + total back := hseg.1.2.2.1
  have hfr : FrameW h h6 (s.addr :: fl)
      [s.addr, s.addr + 8, s.addr + 16, s.addr + T - 8, s.addr + T, F] :=
    FrameW.trans_fr (hfw.mono (fun x hx => Or.inl (List.mem_cons_of_mem _ hx)) (fun w hw => by
        simp only [List.mem_cons, List.mem_singleton, List.not_mem_nil, or_false] at hw ⊢
        rcases hw with e | e | e | e | e <;> simp [e]))
      (r4.mono (fun x hx => Or.inl hx) (fun w hw => by
        simp only [List.mem_cons, List.mem_singleton, List.not_mem_nil, or_false] at hw ⊢
        rcases hw with e | e
        · simp [e]
        · rw [e, hE]; simp)) hlo
  have hk := hR.keeps_run hfr (fun x hx => by
      rcases List.mem_cons.1 hx with rfl | hx
      · exact Or.inr ⟨s, by simp, rfl⟩
      · exact Or.inl hx) (fun w hw => by
      simp only [List.mem_cons, List.mem_singleton, List.not_mem_nil, or_false] at hw
      rcases hw with rfl | rfl | rfl | rfl | rfl | rfl
      · exact Or.inl ⟨by omega, Or.inr rfl⟩
      · exact Or.inl ⟨by omega, Or.inr rfl⟩
      · exact Or.inl ⟨by omega, Or.inr rfl⟩
      · exact Or.inl ⟨by omega, Or.inr rfl⟩
      · exact Or.inl ⟨by omega, Or.inr rfl⟩
      · refine Or.inr ⟨firstBlk back s, ?_, hF⟩
        exact List.mem_append_left _ (List.mem_append_right _ (firstBlk_mem back s [])))
  intro y hy hyu a ha1 ha2
  simp only [List.mem_append, List.mem_singleton] at hy
  rcases hy with (hy | hy) | rfl
  · exact hk y (by simp [hy]) hyu a ha1 ha2
  · rw [hback y hy] at hyu; cases hyu
  · omega

theorem place_keeps {h h1 : Heap} {pre rest : List Blk} {b c : Blk} {fl W : List Nat}
    (hR : Rep h (pre ++ b :: c :: rest) fl) (hu : b.used = false)
    (hfw : FrameW h h1 fl W)
    (hW : ∀ w ∈ W, (b.addr ≤ w ∧ w < b.addr + b.size) ∨ w = c.addr) :
    Keeps h h1 (pre ++ b :: c :: rest) := by
  have hx : pre ++ b :: c :: rest = pre ++ [b] ++ c :: rest := by simp
  have hR0 := hR
  rw [hx] at hR
  have hG := hR.shape.geo
  have hseg := hG.seg
  simp only [WORD_SIZE] at hseg
  rw [Seg_append, Seg_append] at hseg
  have hba : b.addr = h.lo + 8 + total pre := hseg.1.2.1
  refine (hR.keeps_run hfw (fun x hx => Or.inl hx) (fun w hw => ?_)).of_used ?_
  · rcases hW w hw with ⟨w1, w2⟩ | rfl
    · left
      simp only [total]
      exact ⟨by omega, Or.inl (by omega)⟩
    · exact Or.inr ⟨c, by simp, rfl⟩
  · intro y hy hyu
    simp only [List.mem_append, List.mem_cons] at hy ⊢
    rcases hy with hy | rfl | hy
    · exact Or.inl hy
    · rw [hu] at hyu; cases hyu
    · exact Or.inr hy

theorem Misses.of_used_blocks {ws : List Nat} {ys zs : List Blk} (hk : Misses ws ys)
    (hs : ∀ y ∈ zs, y.used = true → y ∈ ys) : Misses ws zs :=
  fun a ha y hy hu => hk a ha y (hs y hy hu) hu

theorem Misses.nil_writes (ys : List Blk) : Misses [] ys := fun _ ha => by cases ha

theorem Misses.append_writes {ws ws2 : List Nat} {ys : List Blk} (h1 : Misses ws ys)
    (h2 : Misses ws2 ys) : Misses (ws ++ ws2) ys := by
  intro a ha
  rcases List.mem_append.1 ha with ha | ha
  · exact h1 a ha
  · exact h2 a ha

/-- Words that are written after blocks have been replaced miss the used
blocks that were there before, when every such block is still a used block at
the same address and of the same size. -/
theorem Misses.of_usedKeep {ws : List Nat} {xs xs1 : List Blk} (hk : Misses ws xs1)
    (hu : UsedKeep xs xs1) (hsz : ∀ y ∈ xs, y.size = 0 ∨ 32 ≤ y.size) : Misses ws xs := by
  intro a ha y hy hyu
  rcases hsz y hy with h0 | h32
  · omega
  · obtain ⟨z, hz, hzu, e1, e2⟩ := hu y hy hyu h32
    have := hk a ha z hz hzu
    omega

/-- The head word, the link fields of free blocks and of blocks of a run
`mid`, block headers, and words inside the run lie outside the payloads of
the used blocks outside the run. -/
theorem Rep.misses_run {h : Heap} {pre mid rest : List Blk} {fl fl1 W ws : List Nat}
    (hR : Rep h (pre ++ mid ++ rest) fl) (hT : ∀ a ∈ ws, Touch h.lo fl1 W a)
    (hfl : ∀ x ∈ fl1, x ∈ fl ∨ ∃ z ∈ mid, z.addr = x)
    (hW : ∀ w ∈ W, (h.lo + 8 + total pre ≤ w ∧
        (w < h.lo + 8 + total pre + total mid ∨ rest = [])) ∨
      ∃ z ∈ pre ++ mid ++ rest, w = z.addr) :
    Misses ws (pre ++ rest) := by
  intro a ha y hy hyu
  have hG := hR.shape.geo
  have hyin : y ∈ pre ++ mid ++ rest := by
    simp only [List.mem_append] at hy ⊢
    rcases hy with hy | hy
    · exact Or.inl (Or.inl hy)
    · exact Or.inr hy
  have hyb := hG.bounds hyin
  have hout := hG.outside hy
  have hseg := hG.seg
  simp only [WORD_SIZE] at hseg
  rw [Seg_append, Seg_append] at hseg
  rcases hT a ha with rfl | ⟨x, hx, e⟩ | haW
  · omega
  · rw [next_field_eq, prev_field_eq] at e
    rcases hfl x hx with hx | ⟨z, hz, rfl⟩
    · obtain ⟨z, hz, rfl, hzu⟩ := (hR.agree x).1 hx
      have z32 := hG.free_real hz hzu
      rcases hG.sep hyin hz with e2 | e2 | e2
      · rw [e2, hzu] at hyu; cases hyu
      · omega
      · omega
    · have hzb := Seg_bounds hseg.1.2 hz
      rcases hout with ⟨o1, _⟩ | ⟨o1, _, o3⟩
      · omega
      · have := o3 z hz
        omega
  · rcases hW a haW with ⟨w1, w2⟩ | ⟨z, hz, rfl⟩
    · rcases hout with ⟨o1, _⟩ | ⟨o1, o2, _⟩
      · omega
      · rcases w2 with w2 | w2
        · omega
        · rw [w2] at o2; cases o2
    · rcases hG.sep hyin hz with e | e | e
      · rw [e]; omega
      · omega
      · omega

theorem free_misses {h : Heap} {pre1 back fwd rest rest1 : List Blk} {b c c1 : Blk}
    {fl ws : List Nat} {F : Nat}
    (hR : Rep h (pre1 ++ back ++ b :: c :: rest) fl) (hsplit : c :: rest = fwd ++ c1 :: rest1)
    (hrun : ∀ y ∈ back ++ fwd, y.used = false) (hF : F = (firstBlk back b).addr)
    (hT : ∀ a ∈ ws, Touch h.lo (b.addr :: fl)
      [b.addr, b.addr + b.size - 8, c.addr, F, c1.addr - 8] a) :
    Misses ws (pre1 ++ back ++ c :: rest) := by
  have hx : pre1 ++ back ++ b :: c :: rest = pre1 ++ (back ++ b :: fwd) ++ c1 :: rest1 := by
    rw [hsplit]; simp
  have hcin : c ∈ fwd ++ c1 :: rest1 := by rw [← hsplit]; simp
  have hys : ∀ y ∈ pre1 ++ back ++ c :: rest, y.used = true → y ∈ pre1 ++ c1 :: rest1 := by
    intro y hy hyu
    rw [hsplit] at hy
    simp only [List.mem_append, List.mem_cons] at hy ⊢
    rcases hy with (hy | hy) | hy | hy
    · exact Or.inl hy
    · rw [hrun y (List.mem_append_left _ hy)] at hyu; cases hyu
    · rw [hrun y (List.mem_append_right _ hy)] at hyu; cases hyu
    · exact Or.inr hy
  rw [hx] at hR
  have hG := hR.shape.geo
  have b32 : 32 ≤ b.size :=
    (EndsAt_front hG.ends (by simp) (List.mem_append_right pre1 (by simp))).1
  have hseg := hG.seg
  simp only [WORD_SIZE] at hseg
  rw [Seg_append, Seg_append, Seg_append] at hseg
  have hba : b.addr = h.lo + 8 + total pre1 + total back := hseg.1.2.2.1
  have hc1 : c1.addr = h.lo + 8 + total pre1 + total (back ++ b :: fwd) := by
    have := hseg.2.1
    rw [total_append] at this
    omega
  have htot : total (back ++ b :: fwd) = total back + (b.size + total fwd) := by
    rw [total_append]; rfl
  refine (hR.misses_run hT ?_ ?_).of_used_blocks hys
  · intro x hx
    rcases List.mem_cons.1 hx with rfl | hx
    · exact Or.inr ⟨b, by simp, rfl⟩
    · exact Or.inl hx
  · intro w hw
    simp only [List.mem_cons, List.mem_singleton, List.not_mem_nil, or_false] at hw
    rcases hw with rfl | rfl | rfl | rfl | rfl
    · exact Or.inr ⟨b, by simp, rfl⟩
    · left
      rw [htot]
      exact ⟨by omega, Or.inl (by omega)⟩
    · refine Or.inr ⟨c, ?_, rfl⟩
      simp only [List.mem_append, List.mem_cons] at hcin ⊢
      rcases hcin with hc | hc | hc
      · exact Or.inl (Or.inr (Or.inr (Or.inr hc)))
      · exact Or.inr (Or.inl hc)
      · exact Or.inr (Or.inr hc)
    · refine Or.inr ⟨firstBlk back b, ?_, hF⟩
      exact List.mem_append_left _ (List.mem_append_right _ (firstBlk_mem back b fwd))
    · left
      rw [hc1, htot]
      exact ⟨by omega, Or.inl (by omega)⟩

theorem grow_misses {h : Heap} {pre1 back : List Blk} {s : Blk} {fl ws : List Nat}
    {F T : Nat} (hR : Rep h (pre1 ++ back ++ [s]) fl) (hback : ∀ y ∈ back, y.used = false)
    (hF : F = (firstBlk back s).addr) (hT : 8 ≤ T)
    (hTo : ∀ a ∈ ws, Touch h.lo (s.addr :: fl)
      [s.addr, s.addr + 8, s.addr + 16, s.addr + T - 8, s.addr + T, F] a) :
    Misses ws (pre1 ++ back ++ [s]) := by
  have hx : pre1 ++ back ++ [s] = pre1 ++ (back ++ [s]) ++ [] := by simp
  have hG0 := hR.shape.geo
  have hsent : s.size = 0 := (EndsAt_append_cons.1 hG0.ends).2.1
  rw [hx] at hR
  have hG := hR.shape.geo
  have hseg := hG.seg
  simp only [WORD_SIZE] at hseg
  rw [Seg_append, Seg_append, Seg_append] at hseg
  have hsa : s.addr = h.lo + 8 + total pre1 + total back := hseg.1.2.2.1
  have hk := hR.misses_run hTo (fun x hx => by
      rcases List.mem_cons.1 hx with rfl | hx
      · exact Or.inr ⟨s, by simp, rfl⟩
      · exact Or.inl hx) (fun w hw => by
      simp only [List.mem_cons, List.mem_singleton, List.not_mem_nil, or_false] at hw
      rcases hw with rfl | rfl | rfl | rfl | rfl | rfl
      · exact Or.inl ⟨by omega, Or.inr rfl⟩
      · exact Or.inl ⟨by omega, Or.inr rfl⟩
      · exact Or.inl ⟨by omega, Or.inr rfl⟩
      · exact Or.inl ⟨by omega, Or.inr rfl⟩
      · exact Or.inl ⟨by omega, Or.inr rfl⟩
      · refine Or.inr ⟨firstBlk back s, ?_, hF⟩
        exact List.mem_append_left _ (List.mem_append_right _ (firstBlk_mem back s [])))
  intro a ha y hy hyu
  simp only [List.mem_append, List.mem_singleton] at hy
  rcases hy with (hy | hy) | rfl
  · exact hk a ha y (by simp [hy]) hyu
  · rw [hback y hy] at hyu; cases hyu
  · omega

theorem place_misses {h : Heap} {pre rest : List Blk} {b c : Blk} {fl W ws : List Nat}
    (hR : Rep h (pre ++ b :: c :: rest) fl) (hu : b.used = false)
    (hT : ∀ a ∈ ws, Touch h.lo fl W a)
    (hW : ∀ w ∈ W, (b.addr ≤ w ∧ w < b.addr + b.size) ∨ w = c.addr) :
    Misses ws (pre ++ b :: c :: rest) := by
  have hx : pre ++ b :: c :: rest = pre ++ [b] ++ c :: rest := by simp
  have hR0 := hR
  rw [hx] at hR
  have hG := hR.shape.geo
  have hseg := hG.seg
  simp only [WORD_SIZE] at hseg
  rw [Seg_append, Seg_append] at hseg
  have hba : b.addr = h.lo + 8 + total pre := hseg.1.2.1
  refine (hR.misses_run hT (fun x hx => Or.inl hx) (fun w hw => ?_)).of_used_blocks ?_
  · rcases hW w hw with ⟨w1, w2⟩ | rfl
    · left
      simp only [total]
      exact ⟨by omega, Or.inl (by omega)⟩
    · exact Or.inr ⟨c, by simp, rfl⟩
  · intro y hy hyu
    simp only [List.mem_append, List.mem_cons] at hy ⊢
    rcases hy with hy | rfl | hy
    · exact Or.inl hy
    · rw [hu] at hyu; cases hyu
    · exact Or.inr hy

theorem sub_word_mod (s : Nat) (h8 : 8 ≤ s) (hs : s < WORD_MOD) :
    (s + (WORD_MOD - WORD_SIZE)) % WORD_MOD = s - 8 := by
  simp only [WORD_MOD, WORD_SIZE] at *
  omega

/-- The stores of `mm_free` up to and including `insert_free_block`: the
block is tagged free with a footer, the block behind it learns that its
predecessor is free, and the block heads the free list; adjacent free blocks
are not merged yet. -/
theorem free_prepare {h : Heap} {pre rest : List Blk} {b c : Blk} {fl : List Nat}
    (hR : Rep h (pre ++ b :: c :: rest) fl) (hu : b.used = true) :
    ∃ h4, mm_free h (b.addr + 8) = coalesce_free_block h4 b.addr ∧ SameEnv h h4 ∧
      Pre h4 (pre ++ ⟨b.addr, b.size, false, b.pu⟩ :: ⟨c.addr, c.size, c.used, false⟩ :: rest)
        (b.addr :: fl) ∧
      h4.mem (b.addr + b.size - 8) = word b.size false b.pu ∧
      (∀ y ∈ pre ++ rest, y.used = false → h4.mem y.ftr = h.mem y.ftr) ∧
      (c.used = false → h4.mem c.ftr = h.mem c.ftr) ∧
      FrameW h h4 (b.addr :: fl) [b.addr, b.addr + b.size - 8, c.addr] ∧
      ∃ ws, mm_free_writes h (b.addr + 8) = ws ++ coalesce_free_block_writes h4 b.addr ∧
        ∀ a ∈ ws, Touch h.lo (b.addr :: fl) [b.addr, b.addr + b.size - 8, c.addr] a := by
  have hG := hR.shape.geo
  have hbin : b ∈ pre ++ b :: c :: rest := by simp
  have hcin : c ∈ pre ++ b :: c :: rest := by simp
  have hbb := hG.bounds hbin
  have hcb := hG.bounds hcin
  have b32 : 32 ≤ b.size := (EndsAt_append_cons.1 hG.ends).2.1
  have hca : c.addr = b.addr + b.size := Seg_next hG.seg
  have hcpu : c.pu = true := by rw [Flags_next hR.flags]; exact hu
  have hhb : h.mem b.addr = word b.size true b.pu := by
    have := hR.shape.hdrs b hbin
    rw [Blk.hdr, hu] at this
    exact this
  have hhc : h.mem c.addr = word c.size c.used true := by
    have := hR.shape.hdrs c hcin
    rw [Blk.hdr, hcpu] at this
    exact this
  have hbnot : b.addr ∉ fl := hR.node_ne hbin hu
  have e0 : UNSCALED_POINTER_SUB (b.addr + 8) 8 = b.addr := by
    rw [ptr_sub _ _ (by omega) (by omega) (by simp only [WORD_MOD]; omega)]; omega
  have hsz : SIZE (word b.size true b.pu) = b.size :=
    SIZE_word _ _ _ hbb.2.2.1 (by simp only [WORD_MOD]; omega)
  have e1 : UNSCALED_POINTER_ADD b.addr b.size = c.addr := by
    rw [ptr_add _ _ (by omega) (by simp only [WORD_MOD]; omega)]; omega
  have e2 : UNSCALED_POINTER_ADD b.addr ((b.size + (WORD_MOD - WORD_SIZE)) % WORD_MOD) =
      b.addr + b.size - 8 := by
    rw [sub_word_mod _ (by omega) (by simp only [WORD_MOD]; omega),
      ptr_add _ _ (by omega) (by simp only [WORD_MOD]; omega)]
    omega
  have hne : b.addr ≠ c.addr := by omega
  let hA := store (store (store h c.addr (word c.size c.used false)) b.addr
    (word b.size false b.pu)) (b.addr + b.size - 8) (word b.size false b.pu)
  have heval : mm_free h (b.addr + 8) = coalesce_free_block (insert_free_block hA b.addr)
      b.addr := by
    unfold mm_free
    simp only [WORD_SIZE, e0, load_eq, hhb, hsz, e1, hhc,
      word_clear_pu _ _ _ hcb.2.2.1 (by simp only [WORD_MOD]; omega), mem_store_of_ne hne,
      word_clear_used _ _ _ hbb.2.2.1 (by simp only [WORD_MOD]; omega)]
    have := e2
    simp only [WORD_SIZE] at this
    rw [this]
  have hslots := Agree.slots hG hR.agree
  have hpos : ∀ x ∈ fl, x + 32 ≤ b.addr ∨ b.addr + b.size ≤ x := by
    intro x hx
    rcases hR.node_pos hbin hx with e | e | e
    · exact absurd (e ▸ hx) hbnot
    · exact Or.inl e
    · exact Or.inr e
  have hlo : ∀ a, b.addr ≤ a → a ≤ c.addr → a ≠ h.lo := by
    intro a h1 _; omega
  have hnl : ∀ a, b.addr ≤ a → a ≤ c.addr → ∀ g ∈ fl, a ≠ prev_field g ∧ a ≠ next_field g := by
    intro a h1 h2 g hg
    have := hpos g hg
    rw [prev_field_eq, next_field_eq]
    omega
  have hFA : FreeList hA fl := by
    refine ((hR.links.store_fl _ ?_ ?_).store_fl _ ?_ ?_).store_fl _ ?_ ?_
    · exact hlo _ (by omega) (by omega)
    · exact hnl _ (by omega) (by omega)
    · exact hlo _ (by omega) (by omega)
    · exact hnl _ (by omega) (by omega)
    · exact hlo _ (by omega) (by omega)
    · exact hnl _ (by omega) (by omega)
  have hnd : (b.addr :: fl).Nodup := List.nodup_cons.2 ⟨hbnot, hR.nodup⟩
  have hsl2 : Slots (pre ++ b :: c :: rest) (b.addr :: fl) := by
    intro x hx
    rcases List.mem_cons.1 hx with rfl | hx
    · exact ⟨b, hbin, rfl, b32⟩
    · exact hslots x hx
  have hsp : Spaced h.lo (b.addr :: fl) := hG.spaced hsl2
  have hins := insert_free_block_links (g := b.addr) hFA hnd hsp
  have seA : SameEnv h hA :=
    SameEnv.trans_env (SameEnv.trans_env (SameEnv.store_env _ _ _) (SameEnv.store_env _ _ _))
      (SameEnv.store_env _ _ _)
  have hse : SameEnv h (insert_free_block hA b.addr) := SameEnv.trans_env seA (insert_sameEnv _ _)
  have hfw : FrameW h (insert_free_block hA b.addr) (b.addr :: fl)
      [b.addr, b.addr + b.size - 8, c.addr] := by
    refine FrameW.trans_fr (FrameW.trans_fr (FrameW.trans_fr (FrameW.store_fr _ (by simp))
      (FrameW.store_fr _ (by simp)) rfl) (FrameW.store_fr _ (by simp)) rfl)
      (FrameW.of_link hins.2 _) rfl
  have hkeep : ∀ a, a ≠ h.lo → a ≠ b.addr + 8 → a ≠ b.addr + 16 →
      (∀ g ∈ fl, a ≠ next_field g ∧ a ≠ prev_field g) →
      (insert_free_block hA b.addr).mem a = hA.mem a := by
    intro a h1 h2 h3 h4
    refine hins.2 a h1 (fun x hx => ?_)
    rcases List.mem_cons.1 hx with rfl | hx
    · rw [prev_field_eq, next_field_eq]; exact ⟨h2, h3⟩
    · exact h4 x hx
  have hnl2 : ∀ a, b.addr ≤ a → a ≤ c.addr → ∀ g ∈ fl, a ≠ next_field g ∧ a ≠ prev_field g :=
    fun a h1 h2 g hg => ⟨(hnl a h1 h2 g hg).2, (hnl a h1 h2 g hg).1⟩
  have hR2 : Rep h (pre ++ [b, c] ++ rest) fl := by simpa using hR
  have hG2 : Geo h (pre ++ [b, c] ++ rest) := hR2.shape.geo
  have hfr := hG2.frame_tags (by simp) (by simpa using hsl2) hfw (by
    intro w hw
    simp only [List.mem_cons, List.mem_singleton, List.not_mem_nil, or_false] at hw
    have hat := Seg_at hG.seg
    simp only [WORD_SIZE] at hat
    simp only [total]
    rcases hw with rfl | rfl | rfl
    · omega
    · omega
    · refine ⟨by omega, ?_⟩
      cases rest with
      | nil => exact Or.inr rfl
      | cons d r =>
        left
        have := (EndsAt_append_cons.1 hG.ends).2
        have hc32 : 32 ≤ c.size := this.2.2.1
        omega)
  have hcftr : c.used = false → (insert_free_block hA b.addr).mem c.ftr = h.mem c.ftr := by
    intro hcu
    have c32 := hG.free_real hcin hcu
    have hcf : c.ftr = c.addr + c.size - 8 := rfl
    rw [hkeep _ (by omega) (by omega) (by omega) (by
      intro g hg
      have := hR.node_pos hcin hg
      rw [prev_field_eq, next_field_eq]
      omega)]
    show (store (store (store h c.addr _) b.addr _) (b.addr + b.size - 8) _).mem c.ftr = _
    rw [mem_store_of_ne (by omega), mem_store_of_ne (by omega), mem_store_of_ne (by omega)]
  have hbf : (insert_free_block hA b.addr).mem (b.addr + b.size - 8) =
      word b.size false b.pu := by
    rw [hkeep _ (hlo _ (by omega) (by omega)) (by omega) (by omega)
      (hnl2 _ (by omega) (by omega))]
    exact mem_store_of_eq rfl
  have hwev : mm_free_writes h (b.addr + 8) =
      ([c.addr, b.addr, b.addr + b.size - 8] ++ insert_free_block_writes hA b.addr) ++
        coalesce_free_block_writes (insert_free_block hA b.addr) b.addr := by
    unfold mm_free_writes
    simp only [WORD_SIZE, e0, load_eq, hhb, hsz, e1, hhc,
      word_clear_pu _ _ _ hcb.2.2.1 (by simp only [WORD_MOD]; omega), mem_store_of_ne hne,
      word_clear_used _ _ _ hbb.2.2.1 (by simp only [WORD_MOD]; omega)]
    have := e2
    simp only [WORD_SIZE] at this
    rw [this]
  have hwt : ∀ a ∈ [c.addr, b.addr, b.addr + b.size - 8] ++ insert_free_block_writes hA b.addr,
      Touch h.lo (b.addr :: fl) [b.addr, b.addr + b.size - 8, c.addr] a := by
    intro a ha
    rcases List.mem_append.1 ha with ha | ha
    · refine Or.inr (Or.inr ?_)
      simp only [List.mem_cons, List.mem_singleton, List.not_mem_nil, or_false] at ha ⊢
      rcases ha with rfl | rfl | rfl
      · exact Or.inr (Or.inr rfl)
      · exact Or.inl rfl
      · exact Or.inr (Or.inl rfl)
    · exact (insert_writes_touch hFA b.addr a ha).widen (fun _ hx => hx)
        (fun _ hw => by cases hw)
  refine ⟨_, heval, hse, ?_, hbf, fun y hy hyu => (hfr y hy).2 hyu, hcftr, hfw, _, hwev, hwt⟩
  have hres := Pre.splice_pre (k := insert_free_block hA b.addr)
    (m := [⟨b.addr, b.size, false, b.pu⟩, ⟨c.addr, c.size, c.used, false⟩])
    (f := b.addr :: fl) hR2.toPre (by simp) (hG.of_sameEnv hse).env hse.1 ?_ ?_ ?_ ?_ ?_ hfr
    hins.1 hnd ?_
  · simpa using hres
  · have := hG.seg
    rw [Seg_append] at this
    exact this.2
  · have := hG.ends
    rw [hse.2.1]
    have h2 := (EndsAt_append_cons.1 this).2
    cases rest with
    | nil => exact h2
    | cons d r => exact h2
  · have := hR.flags
    rw [Flags_append] at this
    obtain ⟨_, f1, f2, f3⟩ := this
    exact ⟨f1, rfl, f3⟩
  · intro y hy
    simp only [List.mem_cons, List.mem_singleton, List.not_mem_nil, or_false] at hy
    rcases hy with rfl | rfl
    · show (insert_free_block hA b.addr).mem b.addr = word b.size false b.pu
      rw [hkeep _ (hlo _ (by omega) (by omega)) (by omega) (by omega)
        (hnl2 _ (by omega) (by omega))]
      show (store (store (store h c.addr _) b.addr _) (b.addr + b.size - 8) _).mem b.addr = _
      rw [mem_store_of_ne (by omega), mem_store_of_eq rfl]
    · show (insert_free_block hA b.addr).mem c.addr = word c.size c.used false
      rw [hkeep _ (hlo _ (by omega) (by omega)) (by omega) (by omega)
        (hnl2 _ (by omega) (by omega))]
      show (store (store (store h c.addr _) b.addr _) (b.addr + b.size - 8) _).mem c.addr = _
      rw [mem_store_of_ne (by omega), mem_store_of_ne (by omega), mem_store_of_eq rfl]
  · intro y hy hyu
    simp only [List.mem_cons, List.mem_singleton, List.not_mem_nil, or_false] at hy
    rcases hy with rfl | rfl
    · show SIZE ((insert_free_block hA b.addr).mem (b.addr + b.size - WORD_SIZE)) = b.size
      simp only [WORD_SIZE]
      rw [hbf]
      exact SIZE_word _ _ _ hbb.2.2.1 (by simp only [WORD_MOD]; omega)
    · have hcu : c.used = false := hyu
      show SIZE ((insert_free_block hA b.addr).mem c.ftr) = c.size
      rw [hcftr hcu]
      exact hR.shape.ftrs c hcin hcu
  · intro g
    simp only [List.mem_cons, List.mem_singleton, List.not_mem_nil, or_false, forall_eq_or_imp,
      forall_eq, exists_eq_or_imp, exists_eq_left]
    constructor
    · rintro (rfl | hg)
      · exact Or.inr (Or.inl ⟨rfl, trivial⟩)
      · by_cases e : c.addr = g
        · right; right
          refine ⟨e, ?_⟩
          cases hcu : c.used
          · rfl
          · exact absurd (e ▸ hg) (hR.node_ne hcin hcu)
        · left
          refine ⟨hg, ?_, e⟩
          intro e2
          exact hbnot (e2 ▸ hg)
    · rintro (⟨h1', _, _⟩ | ⟨h1', _⟩ | ⟨h1', h2'⟩)
      · exact Or.inr h1'
      · exact Or.inl h1'.symm
      · right
        exact (hR.agree g).2 ⟨c, hcin, h1', h2'⟩

/-- In a well-formed arena the blocks before a block `b` end in at most one
free block, and exactly when `b` is tagged as having a free predecessor. -/
theorem Rep.back_run {h : Heap} {pre tail : List Blk} {b : Blk} {fl : List Nat}
    (hR : Rep h (pre ++ b :: tail) fl) :
    ∃ pre1 back, pre = pre1 ++ back ∧ (∀ y ∈ back, y.used = false ∧ y.pu = true) ∧
      back.length ≤ 1 ∧ (back = [] ↔ b.pu = true) := by
  have hfl := hR.flags
  rw [Flags_append] at hfl
  have hbpu : b.pu = lastUsed true pre := hfl.2.1
  rcases eq_nil_or_snoc pre with rfl | ⟨pre1, p, rfl⟩
  · exact ⟨[], [], rfl, by simp, by simp, by simp [hbpu, lastUsed]⟩
  · rw [lastUsed_append_cons] at hbpu
    simp only [lastUsed] at hbpu
    cases hp : p.used
    · refine ⟨pre1, [p], rfl, ?_, by simp, ?_⟩
      · intro y hy
        rw [List.mem_singleton.1 hy]
        exact ⟨hp, (hR.settled p (by simp) hp).1⟩
      · rw [hbpu, hp]; simp
    · exact ⟨pre1 ++ [p], [], by simp, by simp, by simp, by simp [hbpu, hp]⟩

/-- In a well-formed arena a free block is followed by a used block. -/
theorem Rep.after_free {h : Heap} {pre rest : List Blk} {c : Blk} {fl : List Nat}
    (hR : Rep h (pre ++ c :: rest) fl) (hcu : c.used = false) :
    ∃ d rest1, rest = d :: rest1 ∧ d.used = true ∧ d.pu = false := by
  have hG := hR.shape.geo
  have c32 := hG.free_real (by simp) hcu
  cases rest with
  | nil =>
    have := EndsAt_kind hG.ends (List.mem_append_right pre (List.mem_singleton.2 rfl))
    have he := hG.ends
    have h2 : EndsAt h.brk ([c]) := by
      cases pre with
      | nil => exact he
      | cons q r => exact (EndsAt_append_cons.1 he).2
    have : c.size = 0 := h2.1
    omega
  | cons d rest1 =>
    obtain ⟨_, _, hcp, hdu, _⟩ := hR.free_block_facts hcu
    exact ⟨d, rest1, rfl, hdu, hcp⟩


/-- `mm_free` on the payload of a used block of a well-formed arena returns,
and leaves a well-formed arena in which the block and its free neighbours
(`back` before it, `fwd` behind it, one block each at most) are one free
block that heads the free list. -/
theorem mm_free_rep {h : Heap} {pre rest : List Blk} {b c : Blk} {fl : List Nat}
    (hR : Rep h (pre ++ b :: c :: rest) fl) (hu : b.used = true) :
    ∃ h1 pre1 back fwd c1 rest1,
      mm_free h (b.addr + 8) = some h1 ∧ SameEnv h h1 ∧
      pre = pre1 ++ back ∧ c :: rest = fwd ++ c1 :: rest1 ∧
      (∀ y ∈ back ++ fwd, y.used = false) ∧ c1.used = true ∧
      back.length ≤ 1 ∧ fwd.length ≤ 1 ∧ (back = [] ↔ b.pu = true) ∧
      Rep h1 (pre1 ++ ⟨(firstBlk back b).addr, total (back ++ b :: fwd), false, true⟩ ::
          ⟨c1.addr, c1.size, true, false⟩ :: rest1)
        ((firstBlk back b).addr :: fl.diff ((back ++ fwd).map Blk.addr)) ∧
      Keeps h h1 (pre ++ c :: rest) ∧
      Misses (mm_free_writes h (b.addr + 8)) (pre ++ c :: rest) := by
  obtain ⟨h4, hev, se4, hP4, hbf, hfr, hcf, hfw, ws, hws, hwt⟩ := free_prepare hR hu
  obtain ⟨pre1, back, rfl, hback, hbl, hbpu⟩ := hR.back_run
  have hbnot : b.addr ∉ fl := hR.node_ne (by simp) hu
  -- the blocks behind `b`
  have hfwd : ∃ fwd c1 rest1, c :: rest = fwd ++ c1 :: rest1 ∧ (∀ y ∈ fwd, y.used = false) ∧
      c1.used = true ∧ fwd.length ≤ 1 ∧
      (⟨c.addr, c.size, c.used, false⟩ :: rest : List Blk) =
        fwd.map (fun y => ⟨y.addr, y.size, y.used, false⟩) ++
          ⟨c1.addr, c1.size, true, false⟩ :: rest1 := by
    cases hcu : c.used
    · have hR' : Rep h ((pre1 ++ back ++ [b]) ++ c :: rest) fl := by simpa using hR
      obtain ⟨d, rest1, rfl, hdu, hdp⟩ := hR'.after_free hcu
      refine ⟨[c], d, rest1, rfl, by simp [hcu], hdu, by simp, ?_⟩
      cases d
      simp only at hdu hdp
      simp [hdu, hdp, hcu]
    · exact ⟨[], c, rest, rfl, by simp, hcu, by simp, by simp⟩
  obtain ⟨fwd, c1, rest1, hsplit, hfu, hc1u, hfl1, hlist⟩ := hfwd
  have hmemr : ∀ y ∈ c1 :: rest1, y ∈ c :: rest := by
    intro y hy; rw [hsplit]; exact List.mem_append_right _ hy
  have hrest1 : ∀ y ∈ rest1, y ∈ rest := by
    intro y hy
    cases fwd with
    | nil =>
      have := (List.cons.inj hsplit).2
      rw [this]; exact hy
    | cons q r =>
      have := (List.cons.inj hsplit).2
      rw [this]
      exact List.mem_append_right _ (List.mem_cons_of_mem _ hy)
  have hP4' : Pre h4 (pre1 ++ back ++ (⟨b.addr, b.size, false, b.pu⟩ : Blk) ::
      (fwd.map (fun y => (⟨y.addr, y.size, y.used, false⟩ : Blk)) ++
        ⟨c1.addr, c1.size, true, false⟩ :: rest1)) (b.addr :: fl) := by
    rw [← hlist]; exact hP4
  have hfirst : ∀ d : Blk, d.addr = b.addr → (firstBlk back d).addr = (firstBlk back b).addr := by
    intro d hd
    cases back with
    | nil => exact hd
    | cons p r => rfl
  have hc1r : c1 ∈ c :: rest := hmemr c1 (by simp)
  obtain ⟨h5, r1, r2, r3, r4, r5w⟩ := coalesce_rep (c := ⟨c1.addr, c1.size, true, false⟩) hP4'
    (by
      intro y hy hyu
      simp only [List.mem_append, List.mem_cons] at hy
      rcases hy with hy | rfl | hy
      · have hin : y ∈ pre1 ++ back ++ b :: c :: rest := by simp [hy]
        have hs := hR.settled y hin hyu
        refine ⟨hs.1, ?_⟩
        rw [← hs.2]
        have hyr : y ∈ pre1 ++ back ++ b :: c :: rest := hin
        have hGy := hR.shape.geo
        have hfw' := hfw
        have hR2 : Rep h (pre1 ++ (back ++ [b, c]) ++ rest) fl := by simpa using hR
        have hsl : Slots (pre1 ++ (back ++ [b, c]) ++ rest) (b.addr :: fl) := by
          intro x hx
          rcases List.mem_cons.1 hx with rfl | hx
          · exact ⟨b, by simp, rfl, (EndsAt_append_cons.1 hR.shape.geo.ends).2.1⟩
          · exact Agree.slots hR2.shape.geo hR2.agree x hx
        have hseg := hR2.shape.geo.seg
        simp only [WORD_SIZE] at hseg
        rw [Seg_append, Seg_append, Seg_append] at hseg
        have hba : b.addr = h.lo + 8 + total pre1 + total back := hseg.1.2.2.1
        have hca : c.addr = b.addr + b.size := by rw [hba]; exact hseg.1.2.2.2.1
        have b32 : 32 ≤ b.size := (EndsAt_append_cons.1 hR.shape.geo.ends).2.1
        have := hR2.shape.geo.frame_tags (by simp) hsl hfw (by
          intro w hw
          simp only [List.mem_cons, List.mem_singleton, List.not_mem_nil, or_false] at hw
          rw [total_append]
          simp only [total]
          rcases hw with rfl | rfl | rfl
          · omega
          · omega
          · refine ⟨by omega, ?_⟩
            cases rest with
            | nil => exact Or.inr rfl
            | cons d r =>
              left
              have he := hR.shape.geo.ends
              have : pre1 ++ back ++ b :: c :: d :: r = (pre1 ++ back ++ [b]) ++ c :: d :: r := by
                simp
              rw [this] at he
              have hc32 : 32 ≤ c.size := (EndsAt_append_cons.1 he).2.1
              omega)
        exact (this y (List.mem_append_left _ hy)).2 hyu
      · cases hyu
      · have hyr : y ∈ rest := hrest1 y hy
        have hin : y ∈ pre1 ++ back ++ b :: c :: rest := by simp [hyr]
        have hs := hR.settled y hin hyu
        refine ⟨hs.1, ?_⟩
        rw [← hs.2]
        exact hfr y (List.mem_append_right _ hyr) hyu)
    (by
      intro y hy
      simp only [List.mem_append, List.mem_cons, List.mem_map] at hy
      rcases hy with hy | rfl | ⟨z, hz, rfl⟩
      · exact (hback y hy).1
      · rfl
      · exact hfu z hz)
    (by
      cases back with
      | nil => exact hbpu.1 rfl
      | cons p r => exact (hback p (by simp)).2)
    rfl
    (by
      show h4.mem (b.addr + b.size - WORD_SIZE) = word b.size false b.pu
      simp only [WORD_SIZE]; exact hbf)
  have hrun : ∀ y ∈ back ++ fwd, y.used = false := by
    intro y hy
    rcases List.mem_append.1 hy with hy | hy
    · exact (hback y hy).1
    · exact hfu y hy
  have hmiss : Misses (mm_free_writes h (b.addr + 8)) (pre1 ++ back ++ c :: rest) := by
    rw [hws]
    refine free_misses hR hsplit hrun (hfirst ⟨b.addr, b.size, false, b.pu⟩ rfl) (fun a ha => ?_)
    rcases List.mem_append.1 ha with ha | ha
    · exact (hwt a ha).widen (fun _ hx => hx) (fun w hw => by
        simp only [List.mem_cons, List.mem_singleton, List.not_mem_nil, or_false] at hw ⊢
        rcases hw with e | e | e
        · exact Or.inl e
        · exact Or.inr (Or.inl e)
        · exact Or.inr (Or.inr (Or.inl e)))
    · have := r5w a ha
      rw [se4.1] at this
      exact this.widen (fun _ hx => hx) (fun w hw => by
        simp only [List.mem_cons, List.mem_singleton, List.not_mem_nil, or_false] at hw ⊢
        rcases hw with e | e
        · exact Or.inr (Or.inr (Or.inr (Or.inl e)))
        · exact Or.inr (Or.inr (Or.inr (Or.inr e))))
  refine ⟨h5, pre1, back, fwd, c1, rest1, by rw [hev, r1], SameEnv.trans_env se4 r2, rfl, hsplit,
    hrun, hc1u, hbl, hfl1, hbpu, ?_,
    free_keeps hR hsplit hrun (hfirst ⟨b.addr, b.size, false, b.pu⟩ rfl) se4.1 hfw r4, hmiss⟩
  · have ht : total (back ++ (⟨b.addr, b.size, false, b.pu⟩ : Blk) ::
        fwd.map (fun y => (⟨y.addr, y.size, y.used, false⟩ : Blk))) =
        total (back ++ b :: fwd) := by
      rw [total_append, total_append]
      simp only [total]
      congr 2
      clear hfu hfl1 hlist hsplit hP4' r3 r4 hrun
      induction fwd with
      | nil => rfl
      | cons q r ih => simp only [List.map_cons, total, ih]
    have hm : (back ++ fwd.map (fun y => (⟨y.addr, y.size, y.used, false⟩ : Blk))).map Blk.addr =
        (back ++ fwd).map Blk.addr := by
      simp only [List.map_append, List.map_map]
      congr 1
    rw [ht, hm, hfirst ⟨b.addr, b.size, false, b.pu⟩ rfl] at r3
    exact r3


/-- The number of bytes by which `request_more_space` grows the arena: the
request rounded up to whole pages, when that does not wrap. -/
theorem grow_size_spec (ps req : Nat) (hps : 0 < ps) (h8 : 8 ∣ ps)
    (hnw : req + ps ≤ WORD_MOD) :
    ∃ T, ((req + ps + (WORD_MOD - 1)) % WORD_MOD) / ps * ps % WORD_MOD = T ∧
      req ≤ T ∧ T < req + ps ∧ 8 ∣ T := by
  have e1 : (req + ps + (WORD_MOD - 1)) % WORD_MOD = req + ps - 1 := by
    simp only [WORD_MOD] at *
    omega
  rw [e1]
  have hq1 : (req + ps - 1) / ps * ps ≤ req + ps - 1 := Nat.div_mul_le_self _ _
  have hq2 : req + ps - 1 < ps * ((req + ps - 1) / ps + 1) := Nat.lt_mul_div_succ _ hps
  have hq3 : ps * ((req + ps - 1) / ps + 1) = (req + ps - 1) / ps * ps + ps := by ring
  rw [hq3] at hq2
  generalize (req + ps - 1) / ps = q at *
  have hd : 8 ∣ q * ps := Dvd.dvd.mul_left h8 q
  generalize q * ps = T at *
  refine ⟨T, ?_, by omega, by omega, hd⟩
  apply Nat.mod_eq_of_lt
  simp only [WORD_MOD] at *
  omega


/-- A non-zero request that does not wrap is rounded up to at least one page. -/
theorem grow_size_pages (ps req : Nat) (hps : 0 < ps) (hnw : req + ps ≤ WORD_MOD)
    (hreq : 0 < req) :
    ps ≤ ((req + ps + (WORD_MOD - 1)) % WORD_MOD) / ps * ps % WORD_MOD := by
  have e1 : (req + ps + (WORD_MOD - 1)) % WORD_MOD = req + ps - 1 := by
    simp only [WORD_MOD] at *
    omega
  rw [e1]
  have hq1 : (req + ps - 1) / ps * ps ≤ req + ps - 1 := Nat.div_mul_le_self _ _
  have hq0 : 1 ≤ (req + ps - 1) / ps := (Nat.one_le_div_iff hps).2 (by omega)
  have hq2 : 1 * ps ≤ (req + ps - 1) / ps * ps := Nat.mul_le_mul_right ps hq0
  rw [Nat.mod_eq_of_lt (by simp only [WORD_MOD] at *; omega)]
  omega

theorem FreeList.of_mem_eq {h k : Heap} {fl : List Nat} (hd : FreeList h fl)
    (hm : k.mem = h.mem) (hlo : k.lo = h.lo) : FreeList k fl := by
  unfold FreeList at *
  rw [hm, hlo]
  exact dseg_frame (fun g _ => by rw [hm]; exact ⟨rfl, rfl⟩) hd

/-- `request_more_space` on a well-formed arena, for a request that does not
wrap when rounded up to pages and that is rounded up to at least
`MIN_BLOCK_SIZE`: it fails when the arena limit is reached, and otherwise
returns with the arena grown by the rounded request `T`; the new space,
merged with the last block when that was free, is one free block that heads
the free list, and the payloads of the used blocks are untouched. -/
theorem request_more_space_rep {h : Heap} {bl : List Blk} {s : Blk} {fl : List Nat} {req : Nat}
    (hR : Rep h (bl ++ [s]) fl) (hmin : 32 ≤ req ∨ (0 < req ∧ 32 ≤ h.pagesize))
    (hnw : req + h.pagesize ≤ WORD_MOD) :
    ∃ T, req ≤ T ∧ T < req + h.pagesize ∧ 8 ∣ T ∧
      (h.max < h.brk + T → request_more_space h req = none) ∧
      (h.brk + T ≤ h.max → ∃ h1 pre1 back, request_more_space h req = some h1 ∧
        h1.lo = h.lo ∧ h1.brk = h.brk + T ∧ h1.max = h.max ∧ h1.pagesize = h.pagesize ∧
        bl = pre1 ++ back ∧ (∀ y ∈ back, y.used = false) ∧ back.length ≤ 1 ∧
        (back = [] ↔ s.pu = true) ∧
        Rep h1 (pre1 ++ [⟨(firstBlk back s).addr, total back + T, false, true⟩,
            ⟨s.addr + T, 0, true, false⟩])
          ((firstBlk back s).addr :: fl.diff (back.map Blk.addr)) ∧
        Keeps h h1 (bl ++ [s]) ∧
        Misses (request_more_space_writes h req) (bl ++ [s])) ∧
      T = request_total_size h req ∧
      (h.max < h.brk + T → request_more_space_writes h req = []) := by
  have hG := hR.shape.geo
  have henv := hG.env
  obtain ⟨T, hT, hreqT, hTlt, hT8⟩ :=
    grow_size_spec h.pagesize req henv.ps_pos henv.ps_al hnw
  have h32 : 32 ≤ T := by
    rcases hmin with h32 | ⟨h0, hp⟩
    · omega
    · have := grow_size_pages h.pagesize req henv.ps_pos hnw h0
      rw [hT] at this
      omega
  refine ⟨T, hreqT, hTlt, hT8, ?_, ?_, hT.symm, ?_⟩
  · intro hbig
    unfold request_more_space
    simp only [mem_pagesize, hT, mem_sbrk, if_neg (Nat.not_le.2 hbig)]
  rotate_left
  · intro hbig
    unfold request_more_space_writes
    simp only [mem_pagesize, hT, mem_sbrk, if_neg (Nat.not_le.2 hbig)]
  intro hfit
  have hsin : s ∈ bl ++ [s] := by simp
  have hsb := hG.bounds hsin
  have hsent : s.size = 0 ∧ s.used = true ∧ s.addr + 8 = h.brk := by
    have := (EndsAt_append_cons.1 hG.ends).2
    exact this
  have hsa : s.addr = h.lo + 8 + total bl := by
    have := hG.seg
    rw [Seg_append] at this
    exact this.2.1
  have hspan := henv.span
  have hmax := henv.max_lt
  simp only [WORD_MOD] at hmax
  have hhs : h.mem s.addr = word 0 true s.pu := by
    have := hR.shape.hdrs s hsin
    rw [Blk.hdr, hsent.1, hsent.2.1] at this
    exact this
  let k : Heap := { h with brk := h.brk + T }
  have hkm : k.mem = h.mem := rfl
  have e0 : UNSCALED_POINTER_SUB h.brk 8 = s.addr := by
    rw [ptr_sub _ _ (by omega) (by omega) (by simp only [WORD_MOD]; omega)]; omega
  have e2 : UNSCALED_POINTER_ADD s.addr ((T + (WORD_MOD - WORD_SIZE)) % WORD_MOD) =
      s.addr + T - 8 := by
    rw [sub_word_mod _ (by omega) (by simp only [WORD_MOD]; omega),
      ptr_add _ _ (by omega) (by simp only [WORD_MOD]; omega)]
    omega
  have e3 : UNSCALED_POINTER_ADD s.addr T = s.addr + T :=
    ptr_add _ _ (by omega) (by simp only [WORD_MOD]; omega)
  let hA := store (store (store k s.addr (word T false s.pu)) (s.addr + T - 8)
    (word T false s.pu)) (s.addr + T) (word 0 true false)
  have heval : request_more_space h req = coalesce_free_block (insert_free_block hA s.addr)
      s.addr := by
    unfold request_more_space
    have e2' := e2
    simp only [WORD_SIZE] at e2'
    simp only [mem_pagesize, hT, mem_sbrk, if_pos hfit, WORD_SIZE, e0, load_eq, hhs,
      word_and_pu _ _ _ (Nat.dvd_zero 8), size_or_mask _ _ hT8, e2', e3]
    rfl
  -- the free list after the stores and the insertion
  have hslots := Agree.slots hG hR.agree
  have hpos : ∀ x ∈ fl, h.lo + 8 ≤ x ∧ x + 32 ≤ s.addr := by
    intro x hx
    obtain ⟨z, hz, rfl, z32⟩ := hslots x hx
    have hzb := hG.bounds hz
    have := hG.sep hz hsin
    rcases this with e | e | e
    · rw [e] at z32; omega
    · omega
    · omega
  have hsnot : s.addr ∉ fl := by
    intro hin
    have := hpos _ hin
    omega
  have hFk : FreeList k fl := hR.links.of_mem_eq hkm rfl
  have hlok : k.lo = h.lo := rfl
  have hFA : FreeList hA fl := by
    refine ((hFk.store_fl _ ?_ ?_).store_fl _ ?_ ?_).store_fl _ ?_ ?_
    · show s.addr ≠ h.lo; omega
    · intro g hg; have := hpos g hg; rw [prev_field_eq, next_field_eq]; omega
    · show s.addr + T - 8 ≠ h.lo; omega
    · intro g hg; have := hpos g hg; rw [prev_field_eq, next_field_eq]; omega
    · show s.addr + T ≠ h.lo; omega
    · intro g hg; have := hpos g hg; rw [prev_field_eq, next_field_eq]; omega
  have hnd : (s.addr :: fl).Nodup := List.nodup_cons.2 ⟨hsnot, hR.nodup⟩
  have hsp : Spaced hA.lo (s.addr :: fl) := by
    have hsp0 := hG.spaced hslots
    constructor
    · intro x hx
      rcases List.mem_cons.1 hx with rfl | hx
      · show h.lo + 8 ≤ s.addr; omega
      · exact hsp0.1 x hx
    · intro x hx y hy
      rcases List.mem_cons.1 hx with rfl | hx <;> rcases List.mem_cons.1 hy with rfl | hy
      · exact Or.inl rfl
      · have := hpos y hy; omega
      · have := hpos x hx; omega
      · exact hsp0.2 x hx y hy
  have hins := insert_free_block_links (g := s.addr) hFA hnd hsp
  have hloA : hA.lo = h.lo := rfl
  have hlo5 : (insert_free_block hA s.addr).lo = h.lo := (insert_sameEnv hA s.addr).1
  have hbrk5 : (insert_free_block hA s.addr).brk = h.brk + T := (insert_sameEnv hA s.addr).2.1
  have hmax5 : (insert_free_block hA s.addr).max = h.max := (insert_sameEnv hA s.addr).2.2.1
  have hps5 : (insert_free_block hA s.addr).pagesize = h.pagesize :=
    (insert_sameEnv hA s.addr).2.2.2
  have hfw : FrameW h (insert_free_block hA s.addr) fl
      [s.addr, s.addr + 8, s.addr + 16, s.addr + T - 8, s.addr + T] := by
    have f1 : FrameW h hA fl [s.addr, s.addr + 8, s.addr + 16, s.addr + T - 8, s.addr + T] := by
      intro a _ _ ha
      simp only [List.mem_cons, List.mem_singleton, List.not_mem_nil, or_false, not_or] at ha
      show (store (store (store k s.addr _) (s.addr + T - 8) _) (s.addr + T) _).mem a = _
      rw [mem_store_of_ne ha.2.2.2.2, mem_store_of_ne ha.2.2.2.1, mem_store_of_ne ha.1]
    have f2 : FrameW hA (insert_free_block hA s.addr) fl
        [s.addr, s.addr + 8, s.addr + 16, s.addr + T - 8, s.addr + T] :=
      (FrameW.of_link hins.2 []).mono (fun x hx => by
        rcases List.mem_cons.1 hx with rfl | hx
        · right; rw [next_field_eq, prev_field_eq]; simp
        · exact Or.inl hx) (fun _ hw => by cases hw)
    exact FrameW.trans_fr f1 f2 hloA
  have hkeep : ∀ a, s.addr ≤ a → a ≠ s.addr + 8 → a ≠ s.addr + 16 →
      (insert_free_block hA s.addr).mem a = hA.mem a := by
    intro a h1 h2 h3
    refine hins.2 a (by rw [hloA]; omega) (fun x hx => ?_)
    rcases List.mem_cons.1 hx with rfl | hx
    · rw [prev_field_eq, next_field_eq]; exact ⟨h2, h3⟩
    · have := hpos x hx
      rw [prev_field_eq, next_field_eq]
      omega
  have T32 : 32 ≤ T := by omega
  have hhdr1 : (insert_free_block hA s.addr).mem s.addr = word T false s.pu := by
    rw [hkeep _ (by omega) (by omega) (by omega)]
    show (store (store (store k s.addr _) (s.addr + T - 8) _) (s.addr + T) _).mem s.addr = _
    rw [mem_store_of_ne (by omega), mem_store_of_ne (by omega), mem_store_of_eq rfl]
  have hftr1 : (insert_free_block hA s.addr).mem (s.addr + T - 8) = word T false s.pu := by
    rw [hkeep _ (by omega) (by omega) (by omega)]
    show (store (store (store k s.addr _) (s.addr + T - 8) _) (s.addr + T) _).mem _ = _
    rw [mem_store_of_ne (by omega), mem_store_of_eq rfl]
  have hhdr2 : (insert_free_block hA s.addr).mem (s.addr + T) = word 0 true false := by
    rw [hkeep _ (by omega) (by omega) (by omega)]
    exact mem_store_of_eq rfl
  have hR2 : Rep h (bl ++ [s] ++ []) fl := by simpa using hR
  have hfr := hR2.shape.geo.frame_tags (by simp) (by simpa using hslots) hfw (by
    intro w hw
    simp only [List.mem_cons, List.mem_singleton, List.not_mem_nil, or_false] at hw
    refine ⟨?_, Or.inr rfl⟩
    rcases hw with rfl | rfl | rfl | rfl | rfl <;> omega)
  have henv5 : Env (insert_free_block hA s.addr) :=
    ⟨by rw [hlo5]; exact henv.lo_pos, by rw [hlo5]; exact henv.lo_al,
      by rw [hps5]; exact henv.ps_pos, by rw [hps5]; exact henv.ps_al,
      by rw [hps5]; exact henv.ps_lt, by rw [hbrk5, hmax5]; exact hfit,
      by rw [hmax5]; exact henv.max_lt, by rw [hmax5, hlo5]; exact henv.span⟩
  have hP5 := Pre.splice_pre (k := insert_free_block hA s.addr)
    (m := [⟨s.addr, T, false, s.pu⟩, ⟨s.addr + T, 0, true, false⟩])
    (f := s.addr :: fl) hR2.toPre (by simp) henv5 hlo5 (by
      rw [← hsa]
      exact ⟨rfl, rfl, trivial⟩)
    (by
      rw [hbrk5]
      refine ⟨T32, hT8, rfl, rfl, ?_⟩
      show s.addr + T + 8 = h.brk + T
      omega)
    (by
      have := hR.flags
      rw [Flags_append] at this
      exact ⟨this.2.1, rfl, trivial⟩)
    (by
      intro y hy
      simp only [List.mem_cons, List.mem_singleton, List.not_mem_nil, or_false] at hy
      rcases hy with rfl | rfl
      · exact hhdr1
      · exact hhdr2)
    (by
      intro y hy hyu
      simp only [List.mem_cons, List.mem_singleton, List.not_mem_nil, or_false] at hy
      rcases hy with rfl | rfl
      · show SIZE ((insert_free_block hA s.addr).mem (s.addr + T - WORD_SIZE)) = T
        simp only [WORD_SIZE]
        rw [hftr1]
        exact SIZE_word _ _ _ hT8 (by simp only [WORD_MOD]; omega)
      · cases hyu)
    hfr hins.1 hnd (by
      intro g
      simp only [List.mem_cons, List.mem_singleton, List.not_mem_nil, or_false, forall_eq,
        exists_eq_or_imp, exists_eq_left]
      constructor
      · rintro (rfl | hg)
        · exact Or.inr (Or.inl ⟨rfl, trivial⟩)
        · left
          refine ⟨hg, ?_⟩
          intro e
          exact hsnot (e ▸ hg)
      · rintro (⟨h1', _⟩ | ⟨h1', _⟩ | ⟨_, h2'⟩)
        · exact Or.inr h1'
        · exact Or.inl h1'.symm
        · cases h2')
  -- coalescing
  have hRs : Rep h (bl ++ s :: []) fl := hR
  obtain ⟨pre1, back, rfl, hback, hbl, hbpu⟩ := hRs.back_run
  have hP5' : Pre (insert_free_block hA s.addr) (pre1 ++ back ++
      (⟨s.addr, T, false, s.pu⟩ : Blk) :: ([] ++ ⟨s.addr + T, 0, true, false⟩ :: []))
      (s.addr :: fl) := by simpa using hP5
  obtain ⟨h6, r1, r2, r3, r4, r5w⟩ := coalesce_rep hP5'
    (by
      intro y hy hyu
      simp only [List.mem_append, List.mem_cons, List.not_mem_nil, or_false] at hy
      rcases hy with hy | rfl
      · have hin : y ∈ pre1 ++ back ++ [s] := by simp [hy]
        have hs := hR.settled y hin hyu
        refine ⟨hs.1, ?_⟩
        rw [← hs.2]
        exact (hfr y (by simp [hy])).2 hyu
      · cases hyu)
    (by
      intro y hy
      simp only [List.mem_append, List.mem_cons, List.not_mem_nil, or_false] at hy
      rcases hy with hy | rfl
      · exact (hback y hy).1
      · rfl)
    (by
      cases back with
      | nil => exact hbpu.1 rfl
      | cons p r => exact (hback p (by simp)).2)
    rfl
    (by
      show (insert_free_block hA s.addr).mem (s.addr + T - WORD_SIZE) = word T false s.pu
      simp only [WORD_SIZE]; exact hftr1)
  have hfirst : (firstBlk back (⟨s.addr, T, false, s.pu⟩ : Blk)).addr = (firstBlk back s).addr := by
    cases back with
    | nil => rfl
    | cons p r => rfl
  have hwev : request_more_space_writes h req =
      ([s.addr, s.addr + T - 8, s.addr + T] ++ insert_free_block_writes hA s.addr) ++
        coalesce_free_block_writes (insert_free_block hA s.addr) s.addr := by
    unfold request_more_space_writes
    have e2' := e2
    simp only [WORD_SIZE] at e2'
    simp only [mem_pagesize, hT, mem_sbrk, if_pos hfit, WORD_SIZE, e0, load_eq, hhs,
      word_and_pu _ _ _ (Nat.dvd_zero 8), size_or_mask _ _ hT8, e2', e3]
    rfl
  have hmiss : Misses (request_more_space_writes h req) (pre1 ++ back ++ [s]) := by
    rw [hwev]
    refine grow_misses (F := (firstBlk back s).addr) (T := T) hR (fun y hy => (hback y hy).1)
      rfl (by omega) (fun a ha => ?_)
    rcases List.mem_append.1 ha with ha | ha
    · rcases List.mem_append.1 ha with ha | ha
      · refine Or.inr (Or.inr ?_)
        simp only [List.mem_cons, List.mem_singleton, List.not_mem_nil, or_false] at ha ⊢
        rcases ha with rfl | rfl | rfl
        · exact Or.inl rfl
        · exact Or.inr (Or.inr (Or.inr (Or.inl rfl)))
        · exact Or.inr (Or.inr (Or.inr (Or.inr (Or.inl rfl))))
      · exact (insert_writes_touch hFA s.addr a ha).widen (fun _ hx => hx)
          (fun _ hw => by cases hw)
    · have := r5w a ha
      rw [hlo5, hfirst] at this
      exact this.widen (fun _ hx => hx) (fun w hw => by
        simp only [List.mem_cons, List.mem_singleton, List.not_mem_nil, or_false] at hw ⊢
        rcases hw with e | e
        · exact Or.inr (Or.inr (Or.inr (Or.inr (Or.inr e))))
        · exact Or.inr (Or.inr (Or.inr (Or.inl e))))
  refine ⟨h6, pre1, back, by rw [heval, r1], by rw [r2.1, hlo5], by rw [r2.2.1, hbrk5],
    by rw [r2.2.2.1, hmax5], by rw [r2.2.2.2, hps5], rfl, fun y hy => (hback y hy).1, hbl, hbpu,
    ?_, grow_keeps hR (fun y hy => (hback y hy).1) hfirst rfl (by omega) hlo5 hfw r4, hmiss⟩
  have ht : total (back ++ (⟨s.addr, T, false, s.pu⟩ : Blk) :: []) = total back + T := by
    rw [total_append]; rfl
  rw [hfirst, ht] at r3
  simpa using r3

/-- The first loop of `coalesce_free_block` does not terminate at a cursor
whose header has `TAG_PRECEDING_USED` clear and whose preceding word has a
size field that `UNSCALED_POINTER_SUB` takes for the offset 0: the cursor
never moves. -/
theorem coalesce_preceding_stuck (A : Nat) (hA1 : 48 ≤ A) (hA2 : A < WORD_MOD) :
    ∀ (fuel : Nat) (hh : Heap) (n : Nat), hh.lo + 8 < A - 8 → 8 ≤ hh.lo →
      hh.mem A = 1 → UNSCALED_POINTER_SUB A (SIZE (hh.mem (A - 8))) = A →
      hh.mem (A + 16) = 0 →
      (hh.mem (A + 8) = 0 ∨ hh.mem (A + 8) + 24 < A) →
      coalesce_preceding fuel hh A n = none := by
  intro fuel
  induction fuel with
  | zero => intro hh n _ _ _ _ _ _; rfl
  | succ k ih =>
    intro hh n hlo hlo8 hm hs hpv hnx
    have e1 : UNSCALED_POINTER_SUB A 8 = A - 8 :=
      ptr_sub _ _ (by omega) (by omega) hA2
    unfold coalesce_preceding
    have hc : hh.mem A &&& TAG_PRECEDING_USED = 0 := by
      rw [hm]; decide
    simp only [WORD_SIZE, e1, load_eq, hs, hc, if_true]
    have hkeep : ∀ a, A - 8 ≤ a → (remove_free_block hh A).mem a = hh.mem a := by
      intro a ha
      unfold remove_free_block
      simp only [load_eq, next_field_eq, prev_field_eq, hpv, FREE_LIST_HEAD, mem_heap_lo]
      split_ifs with c1 c2 c2
      · rw [mem_store_of_ne (by simp only [store_lo]; omega)]
        rcases hnx with e | e
        · exact absurd e c1
        · rw [mem_store_of_ne (by omega)]
      · rw [mem_store_of_ne (by omega)]
        rcases hnx with e | e
        · exact absurd e c1
        · rw [mem_store_of_ne (by omega)]
      · rw [mem_store_of_ne (by omega)]
      · rw [mem_store_of_ne (by omega)]
    apply ih
    · rw [(remove_sameEnv hh A).1]; exact hlo
    · rw [(remove_sameEnv hh A).1]; exact hlo8
    · rw [hkeep _ (by omega)]; exact hm
    · rw [hkeep _ (by omega)]; exact hs
    · rw [hkeep _ (by omega)]; exact hpv
    · rw [hkeep _ (by omega)]; exact hnx


/-- The second loop of `coalesce_free_block` does not terminate at a cursor
whose header has `TAG_USED` clear and a size field that
`UNSCALED_POINTER_ADD` takes for the offset 0, whose `next` is `NULL` and
which is not the head of the free list, when the `next` field of its `prev`
is neither the head word nor one of the three words of the cursor: the
cursor never moves. -/
theorem coalesce_following_stuck (A : Nat) :
    ∀ (fuel : Nat) (hh : Heap) (n : Nat),
      hh.mem A &&& TAG_USED = 0 → UNSCALED_POINTER_ADD A (SIZE (hh.mem A)) = A →
      hh.mem (A + 8) = 0 → hh.mem hh.lo ≠ A →
      hh.mem (A + 16) + 8 ≠ A → hh.mem (A + 16) + 8 ≠ A + 8 →
      hh.mem (A + 16) + 8 ≠ A + 16 → hh.mem (A + 16) + 8 ≠ hh.lo →
      coalesce_following fuel hh A n = none := by
  intro fuel
  induction fuel with
  | zero => intro hh n _ _ _ _ _ _ _ _; rfl
  | succ k ih =>
    intro hh n hu hs hnx hhd h1 h2 h3 h4
    have hrm : remove_free_block hh A = store hh (hh.mem (A + 16) + 8) 0 := by
      unfold remove_free_block
      simp only [load_eq, next_field_eq, prev_field_eq, hnx, FREE_LIST_HEAD, mem_heap_lo,
        ne_eq, not_true_eq_false, if_false]
      rw [if_neg (Ne.symm hhd)]
    unfold coalesce_following
    simp only [load_eq, hu, if_true, hs, hrm]
    apply ih
    · rw [mem_store_of_ne (Ne.symm h1)]; exact hu
    · rw [mem_store_of_ne (Ne.symm h1)]; exact hs
    · rw [mem_store_of_ne (Ne.symm h2)]; exact hnx
    · rw [store_lo, mem_store_of_ne (Ne.symm h4)]; exact hhd
    · rw [mem_store_of_ne (Ne.symm h3)]; exact h1
    · rw [mem_store_of_ne (Ne.symm h3)]; exact h2
    · rw [mem_store_of_ne (Ne.symm h3)]; exact h3
    · rw [mem_store_of_ne (Ne.symm h3)]; exact h4

/-- `coalesce_free_block` does not return when its second loop does not
terminate. -/
theorem coalesce_free_block_stuck {hh : Heap} {b : Nat}
    (hpu : load hh b &&& TAG_PRECEDING_USED ≠ 0) (hf : 0 < loop_fuel hh)
    (hst : ∀ fuel n, coalesce_following fuel hh
      (UNSCALED_POINTER_ADD b (SIZE (load hh b))) n = none) :
    coalesce_free_block hh b = none := by
  unfold coalesce_free_block
  obtain ⟨k, hk⟩ : ∃ k, loop_fuel hh = k + 1 := ⟨loop_fuel hh - 1, by omega⟩
  have e : coalesce_preceding (loop_fuel hh) hh b (SIZE (load hh b)) =
      some (hh, b, SIZE (load hh b)) := by
    rw [hk]
    unfold coalesce_preceding
    rw [if_neg hpu]
  simp only [e, hst]

/-- `coalesce_free_block` does not return when its first loop does not
terminate. -/
theorem coalesce_free_block_stuck_back {hh : Heap} {b : Nat}
    (hst : ∀ fuel n, coalesce_preceding fuel hh b n = none) :
    coalesce_free_block hh b = none := by
  unfold coalesce_free_block
  simp only [hst]

theorem ptr_add_neg8 (p : Nat) (h8 : 8 ≤ p) (hp : p < WORD_MOD) :
    UNSCALED_POINTER_ADD p (WORD_MOD - WORD_SIZE) = p - 8 := by
  unfold UNSCALED_POINTER_ADD
  have : toInt32 (WORD_MOD - WORD_SIZE) = -8 := by decide
  rw [this]
  simp only [WORD_MOD] at *
  omega

/-- `request_more_space` does not return for a request whose rounding up to
pages wraps around: the arena grows by 0 bytes and the backward loop of
`coalesce_free_block` never leaves the sentinel. -/
theorem request_more_space_wrap {h : Heap} {bl : List Blk} {s : Blk} {fl : List Nat}
    {req : Nat} (hR : Rep h (bl ++ [s]) fl) (hbl : bl ≠ []) (hreq : req < WORD_MOD)
    (hw : WORD_MOD < req + h.pagesize) : request_more_space h req = none := by
  have hG := hR.shape.geo
  have henv := hG.env
  have hps := henv.ps_lt
  have hT : ((req + h.pagesize + (WORD_MOD - 1)) % WORD_MOD) / h.pagesize * h.pagesize %
      WORD_MOD = 0 := by
    have e1 : (req + h.pagesize + (WORD_MOD - 1)) % WORD_MOD < h.pagesize := by
      simp only [WORD_MOD] at *
      omega
    rw [Nat.div_eq_of_lt e1, Nat.zero_mul]
    rfl
  have hsin : s ∈ bl ++ [s] := by simp
  have hsb := hG.bounds hsin
  have hsent : s.size = 0 ∧ s.used = true ∧ s.addr + 8 = h.brk :=
    (EndsAt_append_cons.1 hG.ends).2
  have hsa : s.addr = h.lo + 8 + total bl := by
    have := hG.seg
    rw [Seg_append] at this
    exact this.2.1
  have hbl32 : 32 ≤ total bl := by
    cases bl with
    | nil => exact absurd rfl hbl
    | cons q r =>
      have := (EndsAt_append_cons.1 hG.ends).1 q (by simp)
      simp only [total]; omega
  have hmax := henv.max_lt
  have hbrk := henv.brk_le
  simp only [WORD_MOD] at hmax
  have hlo8 : 8 ≤ h.lo := by
    have := henv.lo_pos; have := henv.lo_al
    omega
  have hhs : h.mem s.addr = word 0 true s.pu := by
    have := hR.shape.hdrs s hsin
    rw [Blk.hdr, hsent.1, hsent.2.1] at this
    exact this
  let k : Heap := { h with brk := h.brk + 0 }
  have hkm : k.mem = h.mem := rfl
  have e0 : UNSCALED_POINTER_SUB h.brk 8 = s.addr := by
    rw [ptr_sub _ _ (by omega) (by omega) (by simp only [WORD_MOD]; omega)]; omega
  have e2 : UNSCALED_POINTER_ADD s.addr ((0 + (WORD_MOD - WORD_SIZE)) % WORD_MOD) =
      s.addr - 8 := by
    have : (0 + (WORD_MOD - WORD_SIZE)) % WORD_MOD = WORD_MOD - WORD_SIZE := by decide
    rw [this]
    exact ptr_add_neg8 _ (by omega) (by simp only [WORD_MOD]; omega)
  have e3 : UNSCALED_POINTER_ADD s.addr 0 = s.addr := by
    rw [ptr_add _ _ (by omega) (by simp only [WORD_MOD]; omega)]; rfl
  have hmask : SIZE (word 0 false s.pu) = 0 :=
    SIZE_word _ _ _ (Nat.dvd_zero 8) (by decide)
  let hA := store (store (store k s.addr (word 0 false s.pu)) (s.addr - 8)
    (word 0 false s.pu)) s.addr 1
  have heval : request_more_space h req = coalesce_free_block (insert_free_block hA s.addr)
      s.addr := by
    unfold request_more_space
    have e2' := e2
    simp only [WORD_SIZE] at e2'
    simp only [mem_pagesize, hT, mem_sbrk, Nat.add_zero, if_pos hbrk, WORD_SIZE, e0, load_eq,
      hhs, word_and_pu _ _ _ (Nat.dvd_zero 8), size_or_mask _ _ (Nat.dvd_zero 8), e2', e3,
      TAG_USED]
    rfl
  rw [heval]
  have hslots := Agree.slots hG hR.agree
  have hpos : ∀ x ∈ fl, h.lo + 8 ≤ x ∧ x + 32 ≤ s.addr := by
    intro x hx
    obtain ⟨z, hz, rfl, z32⟩ := hslots x hx
    have hzb := hG.bounds hz
    rcases hG.sep hz hsin with e | e | e
    · rw [e] at z32; omega
    · omega
    · omega
  have hsnot : s.addr ∉ fl := by
    intro hin
    have := hpos _ hin
    omega
  have hFk : FreeList k fl := hR.links.of_mem_eq hkm rfl
  have hFA : FreeList hA fl := by
    refine ((hFk.store_fl _ ?_ ?_).store_fl _ ?_ ?_).store_fl _ ?_ ?_
    · show s.addr ≠ h.lo; omega
    · intro g hg; have := hpos g hg; rw [prev_field_eq, next_field_eq]; omega
    · show s.addr - 8 ≠ h.lo; omega
    · intro g hg; have := hpos g hg; rw [prev_field_eq, next_field_eq]; omega
    · show s.addr ≠ h.lo; omega
    · intro g hg; have := hpos g hg; rw [prev_field_eq, next_field_eq]; omega
  have hnd : (s.addr :: fl).Nodup := List.nodup_cons.2 ⟨hsnot, hR.nodup⟩
  have hsp : Spaced hA.lo (s.addr :: fl) := by
    have hsp0 := hG.spaced hslots
    constructor
    · intro x hx
      rcases List.mem_cons.1 hx with rfl | hx
      · show h.lo + 8 ≤ s.addr; omega
      · exact hsp0.1 x hx
    · intro x hx y hy
      rcases List.mem_cons.1 hx with rfl | hx <;> rcases List.mem_cons.1 hy with rfl | hy
      · exact Or.inl rfl
      · have := hpos y hy; omega
      · have := hpos x hx; omega
      · exact hsp0.2 x hx y hy
  have hins := insert_free_block_links (g := s.addr) hFA hnd hsp
  have hloA : hA.lo = h.lo := rfl
  have hlo5 : (insert_free_block hA s.addr).lo = h.lo := (insert_sameEnv hA s.addr).1
  have hkeep : ∀ a, s.addr - 8 ≤ a → a ≠ s.addr + 8 → a ≠ s.addr + 16 →
      (insert_free_block hA s.addr).mem a = hA.mem a := by
    intro a h1 h2 h3
    refine hins.2 a (by rw [hloA]; omega) (fun x hx => ?_)
    rcases List.mem_cons.1 hx with rfl | hx
    · rw [prev_field_eq, next_field_eq]; exact ⟨h2, h3⟩
    · have := hpos x hx
      rw [prev_field_eq, next_field_eq]
      omega
  have hm5 : (insert_free_block hA s.addr).mem s.addr = 1 := by
    rw [hkeep _ (by omega) (by omega) (by omega)]
    exact mem_store_of_eq rfl
  have hp5 : (insert_free_block hA s.addr).mem (s.addr - 8) = word 0 false s.pu := by
    rw [hkeep _ (by omega) (by omega) (by omega)]
    show (store (store (store k s.addr _) (s.addr - 8) _) s.addr _).mem (s.addr - 8) = _
    rw [mem_store_of_ne (by omega), mem_store_of_eq rfl]
  have hd5 := hins.1
  unfold FreeList at hd5
  obtain ⟨_, _, hprev, hrest⟩ := hd5
  rw [prev_field_eq] at hprev
  have hnext : (insert_free_block hA s.addr).mem (s.addr + 8) = 0 ∨
      (insert_free_block hA s.addr).mem (s.addr + 8) + 24 < s.addr := by
    have := dseg_head hrest
    rw [next_field_eq] at this
    rw [this]
    cases fl with
    | nil => exact Or.inl rfl
    | cons g r =>
      right
      have := hpos g (by simp)
      show g + 24 < s.addr
      omega
  unfold coalesce_free_block
  simp only []
  rw [coalesce_preceding_stuck s.addr (by omega) (by simp only [WORD_MOD]; omega) _ _ _
    (by rw [hlo5]; omega) (by rw [hlo5]; exact hlo8) hm5
    (by
      rw [hp5, hmask, ptr_sub _ _ (by omega) (by omega) (by simp only [WORD_MOD]; omega)]
      rfl) hprev hnext]


theorem freeBytes_append (l1 l2 : List Blk) :
    freeBytes (l1 ++ l2) = freeBytes l1 + freeBytes l2 := by
  induction l1 with
  | nil => simp [freeBytes]
  | cons b r ih =>
    show (if b.used then 0 else b.size) + freeBytes (r ++ l2) = _
    rw [ih]
    simp only [freeBytes]
    omega

theorem freeBytes_free {l : List Blk} (hl : ∀ y ∈ l, y.used = false) :
    freeBytes l = total l := by
  induction l with
  | nil => rfl
  | cons b r ih =>
    simp only [freeBytes, total, hl b (List.mem_cons_self _ _),
      ih (fun y hy => hl y (List.mem_cons_of_mem _ hy))]
    simp

theorem UsedKeep.refl_keep (xs : List Blk) : UsedKeep xs xs :=
  fun y hy hu _ => ⟨y, hy, hu, rfl, rfl⟩

theorem UsedKeep.trans_keep {xs ys zs : List Blk} (h1 : UsedKeep xs ys) (h2 : UsedKeep ys zs) :
    UsedKeep xs zs := by
  intro y hy hu h32
  obtain ⟨z, hz, hzu, e1, e2⟩ := h1 y hy hu h32
  obtain ⟨w, hw, hwu, e3, e4⟩ := h2 z hz hzu (by rw [e2]; exact h32)
  exact ⟨w, hw, hwu, by rw [e3, e1], by rw [e4, e2]⟩

/-- The block size computed by `mm_malloc` for a request that does not wrap:
the least multiple of 8 that holds the request and a header and is no less
than `MIN_BLOCK_SIZE`. -/
theorem req_size_spec (n : Nat) (hn : 0 < n) (hb : n + 16 ≤ WORD_MOD) :
    32 ≤ mm_malloc_req_size n ∧ 8 ∣ mm_malloc_req_size n ∧ n + 8 ≤ mm_malloc_req_size n ∧
      mm_malloc_req_size n + 8 ≤ WORD_MOD ∧
      ∀ s, 8 ∣ s → 32 ≤ s → n + 8 ≤ s → mm_malloc_req_size n ≤ s := by
  unfold mm_malloc_req_size
  simp only [WORD_MOD, WORD_SIZE, MIN_BLOCK_SIZE, ALIGNMENT] at *
  have e1 : (n + 8) % 18446744073709551616 = n + 8 := Nat.mod_eq_of_lt (by omega)
  rw [e1]
  split_ifs with hc
  · exact ⟨by omega, by omega, by omega, by omega, fun s _ h2 _ => h2⟩
  · have e2 : (n + 8 + 8 + (18446744073709551616 - 1)) % 18446744073709551616 = n + 15 := by
      omega
    rw [e2]
    have e3 : (8 * ((n + 15) / 8)) % 18446744073709551616 = 8 * ((n + 15) / 8) :=
      Nat.mod_eq_of_lt (by omega)
    rw [e3]
    refine ⟨by omega, by omega, by omega, by omega, ?_⟩
    intro s h8 _ hs
    omega

/-- Requests of at most the requested payload fit into any block that holds
the payload. -/
theorem req_size_mono (m n s : Nat) (hm : 0 < m) (hmn : m ≤ n) (hb : n + 16 ≤ WORD_MOD)
    (h8 : 8 ∣ s) (h32 : 32 ≤ s) (hs : n + 8 ≤ s) : mm_malloc_req_size m ≤ s :=
  (req_size_spec m hm (by omega)).2.2.2.2 s h8 h32 (by omega)

/-- The tail of `mm_malloc` on a node of the free list that is large enough:
the block, or its first `req` bytes when it can be split, becomes a used
block, and the arena stays well formed. -/
theorem malloc_place_rep {h : Heap} {xs : List Blk} {fl : List Nat} {req g : Nat}
    (hR : Rep h xs fl) (hg : g ∈ fl) (hfit : req ≤ SIZE (h.mem g)) (h32 : 32 ≤ req)
    (h8 : 8 ∣ req) :
    ∃ h1 xs1 fl1 sz, mm_malloc_place h req g = (h1, g + 8) ∧ SameEnv h h1 ∧ Rep h1 xs1 fl1 ∧
      (∃ pu, (⟨g, sz, true, pu⟩ : Blk) ∈ xs1) ∧ req ≤ sz ∧ sz < req + 32 ∧
      (∀ y ∈ xs, y.used = true → y.addr ≠ g) ∧ UsedKeep xs xs1 ∧
      freeBytes xs1 + sz = freeBytes xs ∧ Keeps h h1 xs ∧
      Misses (mm_malloc_place_writes h req g) xs := by
  obtain ⟨b, hbin, rfl, hbu⟩ := (hR.agree g).1 hg
  have hG := hR.shape.geo
  have b32 := hG.free_real hbin hbu
  have hbb := hG.bounds hbin
  obtain ⟨pre, c, rest, rfl⟩ := hG.split_real hbin b32
  have hsz : SIZE (h.mem b.addr) = b.size := by
    rw [hR.shape.hdrs b hbin]
    exact SIZE_word _ _ _ hbb.2.2.1 (by simp only [WORD_MOD]; omega)
  rw [hsz] at hfit
  have hne : ∀ y ∈ pre ++ b :: c :: rest, y.used = true → y.addr ≠ b.addr := by
    intro y hy hyu e
    have := hG.addr_inj hbin hy b32 e.symm
    rw [← this, hbu] at hyu
    cases hyu
  have hfb : freeBytes (pre ++ b :: c :: rest) = freeBytes pre + (b.size + freeBytes (c :: rest)) := by
    rw [freeBytes_append]
    simp only [freeBytes, hbu]
    simp
  by_cases hs : req + 32 ≤ b.size
  · obtain ⟨h1, r1, r2, r3, r4, r5⟩ := place_split hR hbu h32 h8 hs
    have hW : ∀ w ∈ [b.addr, b.addr + req, next_field (b.addr + req),
        prev_field (b.addr + req), b.addr + b.size - 8],
        (b.addr ≤ w ∧ w < b.addr + b.size) ∨ w = c.addr := fun w hw => by
      simp only [List.mem_cons, List.mem_singleton, List.not_mem_nil, or_false,
        next_field_eq, prev_field_eq] at hw
      left
      rcases hw with rfl | rfl | rfl | rfl | rfl <;> omega
    refine ⟨h1, _, _, req, r1, r2, r3, ⟨true, by simp⟩, le_refl _, by omega, hne, ?_, ?_,
      place_keeps hR hbu r4 hW, place_misses hR hbu r5 hW⟩
    · intro y hy hyu _
      refine ⟨y, ?_, hyu, rfl, rfl⟩
      simp only [List.mem_append, List.mem_cons] at hy ⊢
      rcases hy with hy | rfl | hy
      · exact Or.inl hy
      · rw [hbu] at hyu; cases hyu
      · exact Or.inr (Or.inr (Or.inr hy))
    · rw [hfb, freeBytes_append]
      simp only [freeBytes]
      simp
      omega
  · obtain ⟨h1, r1, r2, r3, r4, r5⟩ := place_nosplit hR hbu hfit (by omega)
    obtain ⟨_, _, _, hcu, _⟩ := hR.free_block_facts hbu
    have hW : ∀ w ∈ [b.addr, c.addr], (b.addr ≤ w ∧ w < b.addr + b.size) ∨ w = c.addr :=
      fun w hw => by
        simp only [List.mem_cons, List.mem_singleton, List.not_mem_nil, or_false] at hw
        rcases hw with rfl | rfl
        · exact Or.inl ⟨le_refl _, by omega⟩
        · exact Or.inr rfl
    refine ⟨h1, _, _, b.size, r1, r2, r3, ⟨true, by simp⟩, hfit, by omega, hne, ?_, ?_,
      place_keeps hR hbu r4 hW, place_misses hR hbu r5 hW⟩
    · intro y hy hyu _
      simp only [List.mem_append, List.mem_cons] at hy
      rcases hy with hy | rfl | rfl | hy
      · exact ⟨y, by simp [hy], hyu, rfl, rfl⟩
      · rw [hbu] at hyu; cases hyu
      · exact ⟨⟨y.addr, y.size, y.used, true⟩, by simp, hyu, rfl, rfl⟩
      · exact ⟨y, by simp [hy], hyu, rfl, rfl⟩
    · rw [hfb, freeBytes_append]
      simp only [freeBytes, hcu]
      simp
      omega


theorem Geo.snoc {h : Heap} {xs : List Blk} (hG : Geo h xs) : ∃ bl s, xs = bl ++ [s] := by
  rcases eq_nil_or_snoc xs with e | ⟨bl, s, e⟩
  · have := hG.ends
    rw [e] at this
    exact absurd this (by simp [EndsAt])
  · exact ⟨bl, s, e⟩

/-- The search of `mm_malloc` when the head of the free list is large
enough: the first `search_free_list` returns the head and the arena is not
grown. -/
theorem malloc_find_hit {h : Heap} {xs : List Blk} {fl : List Nat} {F req : Nat}
    (hR : Rep h xs (F :: fl)) (hfit : req ≤ SIZE (h.mem F)) :
    search_free_list h req = some F ∧ F ≠ 0 ∧ mm_malloc_find h req = some (h, F) := by
  have hG := hR.shape.geo
  have hF0 : F ≠ 0 := dseg_ne_zero hR.links F (by simp)
  have hs : search_free_list h req = some F := by
    rcases search_free_list_spec hG hR.links hR.nodup (Agree.slots hG hR.agree) req with
      ⟨_, hall⟩ | ⟨l1, g, l2, hfl, hs, _, hpre⟩
    · have := hall F (by simp)
      omega
    · cases l1 with
      | nil =>
        have : F = g := (List.cons.inj hfl).1
        rw [this]; exact hs
      | cons x r =>
        have e : F = x := (List.cons.inj hfl).1
        have := hpre x (by simp)
        rw [← e] at this
        omega
  refine ⟨hs, hF0, ?_⟩
  unfold mm_malloc_find
  rw [hs]
  simp only [if_neg hF0]

/-- The search of `mm_malloc` on a well-formed arena, when it returns: the
block found is a node of the free list that is large enough, in the arena
as it was or as `request_more_space` has grown it. -/
theorem malloc_find_rep {h : Heap} {xs : List Blk} {fl : List Nat} {req : Nat} {h1 : Heap}
    {g : Nat} (hR : Rep h xs fl) (hreal : ∃ b ∈ xs, 32 ≤ b.size) (h32 : 32 ≤ req)
    (hreq : req < WORD_MOD) (hf : mm_malloc_find h req = some (h1, g)) :
    ∃ xs1 fl1, Rep h1 xs1 fl1 ∧ g ∈ fl1 ∧ req ≤ SIZE (h1.mem g) ∧ h1.lo = h.lo ∧
      h1.max = h.max ∧ h1.pagesize = h.pagesize ∧ h.brk ≤ h1.brk ∧ UsedKeep xs xs1 ∧
      freeBytes xs1 = freeBytes xs + (h1.brk - h.brk) ∧ Keeps h h1 xs := by
  have hG := hR.shape.geo
  unfold mm_malloc_find at hf
  rcases search_free_list_spec hG hR.links hR.nodup (Agree.slots hG hR.agree) req with
    ⟨hs, _⟩ | ⟨l1, g', l2, hfl, hs, hfit, _⟩
  · rw [hs] at hf
    simp only [if_true] at hf
    obtain ⟨bl, s, rfl⟩ := hG.snoc
    have hbl : bl ≠ [] := by
      rintro rfl
      obtain ⟨b, hb, b32⟩ := hreal
      have hb' : b = s := by simpa using hb
      have : s.size = 0 := hG.ends.1
      rw [hb', this] at b32
      omega
    by_cases hnw : req + h.pagesize ≤ WORD_MOD
    · obtain ⟨T, hreqT, _, hT8, hnone, hsome, _⟩ :=
        request_more_space_rep hR (Or.inl h32) hnw
      by_cases hroom : h.brk + T ≤ h.max
      · obtain ⟨h2, pre1, back, hrm, hlo2, hbrk2, hmax2, hps2, hsplit, hback, _, _, hR2, hkp,
          _⟩ := hsome hroom
        rw [hrm] at hf
        simp only [] at hf
        have hG2 := hR2.shape.geo
        have hMin : (⟨(firstBlk back s).addr, total back + T, false, true⟩ : Blk) ∈
            pre1 ++ [⟨(firstBlk back s).addr, total back + T, false, true⟩,
              ⟨s.addr + T, 0, true, false⟩] := by simp
        have hMb := hG2.bounds hMin
        simp only [] at hMb
        have hsz : SIZE (h2.mem (firstBlk back s).addr) = total back + T := by
          have := hR2.shape.hdrs _ hMin
          simp only [Blk.hdr] at this
          rw [this]
          exact SIZE_word _ _ _ hMb.2.2.1 (by simp only [WORD_MOD]; omega)
        obtain ⟨hs2, _, _⟩ := malloc_find_hit hR2 (show req ≤ SIZE (h2.mem (firstBlk back s).addr) by rw [hsz]; omega)
        rw [hs2] at hf
        simp only [Option.some.injEq, Prod.mk.injEq] at hf
        obtain ⟨rfl, rfl⟩ := hf
        refine ⟨_, _, hR2, by simp, by rw [hsz]; omega, hlo2, hmax2, hps2, by omega, ?_, ?_,
          hkp⟩
        · intro y hy hyu y32
          rw [hsplit] at hy
          simp only [List.mem_append, List.mem_singleton] at hy
          rcases hy with (hy | hy) | rfl
          · exact ⟨y, by simp [hy], hyu, rfl, rfl⟩
          · rw [hback y hy] at hyu; cases hyu
          · have : y.size = 0 := (EndsAt_append_cons.1 hG.ends).2.1
            omega
        · rw [hsplit, hbrk2]
          simp only [freeBytes_append, freeBytes, freeBytes_free hback]
          have : s.used = true := (EndsAt_append_cons.1 hG.ends).2.2.1
          simp [this]
          omega
      · rw [hnone (by omega)] at hf
        cases hf
    · rw [request_more_space_wrap hR hbl hreq (by omega)] at hf
      cases hf
  · rw [hs] at hf
    have hg0 : g' ≠ 0 := dseg_ne_zero hR.links g' (by rw [hfl]; simp)
    simp only [if_neg hg0, Option.some.injEq, Prod.mk.injEq] at hf
    obtain ⟨rfl, rfl⟩ := hf
    exact ⟨xs, fl, hR, by rw [hfl]; simp, hfit, rfl, rfl, rfl, le_refl _, UsedKeep.refl_keep _,
      by simp, Keeps.refl_keeps _ _⟩

/-- `mm_malloc` of a non-zero size that does not wrap, on a well-formed
arena, when it returns: the arena is well formed again, the returned
address is the payload of a used block that was no used block before and
holds the request, every block that was used stays as it is, and the free
bytes change by the growth of the arena less the size of the new block. -/
theorem mm_malloc_rep {h : Heap} {xs : List Blk} {fl : List Nat} {n : Nat} {h1 : Heap}
    {p : Nat} (hR : Rep h xs fl) (hreal : ∃ b ∈ xs, 32 ≤ b.size) (hn : 0 < n)
    (hb : n + 16 ≤ WORD_MOD) (hm : mm_malloc h n = some (h1, p)) :
    ∃ xs1 fl1 g sz pu, Rep h1 xs1 fl1 ∧ p = g + 8 ∧ (⟨g, sz, true, pu⟩ : Blk) ∈ xs1 ∧
      n + 8 ≤ sz ∧ 32 ≤ sz ∧ (∀ y ∈ xs, y.used = true → 32 ≤ y.size → y.addr ≠ g) ∧
      UsedKeep xs xs1 ∧ freeBytes xs1 + sz = freeBytes xs + (h1.brk - h.brk) ∧
      h1.lo = h.lo ∧ h1.max = h.max ∧ h1.pagesize = h.pagesize ∧ h.brk ≤ h1.brk ∧
      Keeps h h1 xs := by
  obtain ⟨r32, r8, rn, rlt, _⟩ := req_size_spec n hn hb
  unfold mm_malloc at hm
  rw [if_neg (by omega)] at hm
  cases hfind : mm_malloc_find h (mm_malloc_req_size n) with
  | none => rw [hfind] at hm; cases hm
  | some r =>
    obtain ⟨h2, g⟩ := r
    rw [hfind] at hm
    simp only [Option.some.injEq] at hm
    obtain ⟨xs2, fl2, hR2, hg, hfit, hlo2, hmax2, hps2, hbrk2, hk2, hfb2, hkp2⟩ :=
      malloc_find_rep hR hreal r32 (by omega) hfind
    obtain ⟨h3, xs3, fl3, sz, hpl, se3, hR3, ⟨pu, hin⟩, hsz1, _, hne, hk3, hfb3, hkp3, _⟩ :=
      malloc_place_rep hR2 hg hfit r32 r8
    rw [hpl] at hm
    simp only [Prod.mk.injEq] at hm
    obtain ⟨rfl, rfl⟩ := hm
    refine ⟨xs3, fl3, g, sz, pu, hR3, rfl, hin, by omega, by omega, ?_, hk2.trans_keep hk3, ?_,
      by rw [se3.1, hlo2], by rw [se3.2.2.1, hmax2], by rw [se3.2.2.2, hps2],
      by rw [se3.2.1]; exact hbrk2,
      hkp2.trans_keeps hkp3 hk2 (fun y hy => (hR.shape.geo.bounds hy).2.2.2.2.2.2.2)⟩
    · intro y hy hyu y32 e
      obtain ⟨z, hz, hzu, e1, _⟩ := hk2 y hy hyu y32
      exact hne z hz hzu (by rw [e1, e])
    · rw [se3.2.1]
      omega

/-- The words that `mm_malloc` writes, for a request that wraps neither in
`mm_malloc` nor when it is rounded up to whole pages, lie outside the
payloads of the used blocks of a well-formed arena; this holds whether the
call returns or not. -/
theorem mm_malloc_misses {h : Heap} {xs : List Blk} {fl : List Nat} {n : Nat}
    (hR : Rep h xs fl) (hreal : ∃ b ∈ xs, 32 ≤ b.size) (hb : n + 16 ≤ WORD_MOD)
    (hnw : mm_malloc_req_size n + h.pagesize ≤ WORD_MOD) : Misses (mm_malloc_writes h n) xs := by
  by_cases h0 : n = 0
  · unfold mm_malloc_writes
    rw [if_pos h0]
    exact Misses.nil_writes _
  have hn : 0 < n := Nat.pos_of_ne_zero h0
  obtain ⟨r32, r8, rn, rlt, _⟩ := req_size_spec n hn hb
  have hG := hR.shape.geo
  unfold mm_malloc_writes
  rw [if_neg h0]
  rcases search_free_list_spec hG hR.links hR.nodup (Agree.slots hG hR.agree)
    (mm_malloc_req_size n) with ⟨hs, _⟩ | ⟨l1, g, l2, hfl, hs, hfit, _⟩
  · rw [hs]
    simp only [if_true]
    obtain ⟨bl, s, rfl⟩ := hG.snoc
    obtain ⟨T, hreqT, _, hT8, hnone, hsome, _, hwnone⟩ :=
      request_more_space_rep hR (Or.inl r32) hnw
    by_cases hroom : h.brk + T ≤ h.max
    · obtain ⟨h2, pre1, back, hrm, hlo2, hbrk2, hmax2, hps2, hsplit, hback, _, _, hR2, hkp,
        hms⟩ := hsome hroom
      rw [hrm]
      simp only []
      refine Misses.append_writes hms ?_
      have hMin : (⟨(firstBlk back s).addr, total back + T, false, true⟩ : Blk) ∈
          pre1 ++ [⟨(firstBlk back s).addr, total back + T, false, true⟩,
            ⟨s.addr + T, 0, true, false⟩] := by simp
      have hMb := hR2.shape.geo.bounds hMin
      simp only [] at hMb
      have hsz : SIZE (h2.mem (firstBlk back s).addr) = total back + T := by
        have := hR2.shape.hdrs _ hMin
        simp only [Blk.hdr] at this
        rw [this]
        exact SIZE_word _ _ _ hMb.2.2.1 (by simp only [WORD_MOD]; omega)
      have hfit2 : mm_malloc_req_size n ≤ SIZE (h2.mem (firstBlk back s).addr) := by
        rw [hsz]; omega
      obtain ⟨hs2, _, _⟩ := malloc_find_hit hR2 hfit2
      rw [hs2]
      simp only []
      obtain ⟨_, _, _, _, _, _, _, _, _, _, _, _, _, _, hmp⟩ :=
        malloc_place_rep hR2 (List.mem_cons_self _ _) hfit2 r32 r8
      refine hmp.of_usedKeep ?_ (fun y hy => (hG.bounds hy).2.2.2.2.2.2.2)
      intro y hy hyu y32
      rw [hsplit] at hy
      simp only [List.mem_append, List.mem_singleton] at hy
      rcases hy with (hy | hy) | rfl
      · exact ⟨y, by simp [hy], hyu, rfl, rfl⟩
      · rw [hback y hy] at hyu; cases hyu
      · have : y.size = 0 := (EndsAt_append_cons.1 hG.ends).2.1
        omega
    · rw [hwnone (by omega), hnone (by omega)]
      exact Misses.nil_writes _
  · rw [hs]
    have hg0 : g ≠ 0 := dseg_ne_zero hR.links g (by rw [hfl]; simp)
    simp only [if_neg hg0]
    obtain ⟨_, _, _, _, _, _, _, _, _, _, _, _, _, _, hmp⟩ :=
      malloc_place_rep hR (g := g) (by rw [hfl]; simp) hfit r32 r8
    exact hmp

/-- The walk of `examine_heap` over a tiled run of blocks that ends in the
sentinel visits the blocks in order and stops at the sentinel. -/
theorem examine_loop_spec {h : Heap} {s : Blk} (hs : s.size = 0) (bl : List Blk) :
    ∀ (a fuel : Nat), Seg a (bl ++ [s]) →
      (∀ y ∈ bl ++ [s], h.mem y.addr = y.hdr ∧ y.addr + y.size + 8 ≤ h.brk ∧ 8 ∣ y.size ∧
        y.size < 2147483648 ∧ h.brk < 18446744073709551616) →
      (∀ y ∈ bl, 32 ≤ y.size) → bl.length < fuel →
      examine_loop h fuel a = some (bl.map Blk.addr, s.addr) := by
  induction bl with
  | nil =>
    intro a fuel hseg hall _ hf
    obtain ⟨k, rfl⟩ : ∃ k, fuel = k + 1 := ⟨fuel - 1, by simp at hf; omega⟩
    have hsa : s.addr = a := hseg.1
    have h1 := hall s (by simp)
    unfold examine_loop
    have hz : SIZE (load h a) = 0 := by
      rw [load_eq, ← hsa, h1.1, Blk.hdr, SIZE_word _ _ _ h1.2.2.1 (by simp only [WORD_MOD]; omega)]
      exact hs
    rw [if_neg (by rw [hz]; simp), hsa]
    rfl
  | cons b r ih =>
    intro a fuel hseg hall hreal hf
    obtain ⟨k, rfl⟩ : ∃ k, fuel = k + 1 := ⟨fuel - 1, by simp at hf; omega⟩
    have hba : b.addr = a := hseg.1
    have h1 := hall b (by simp)
    have b32 := hreal b (by simp)
    have hz : SIZE (load h a) = b.size := by
      rw [load_eq, ← hba, h1.1, Blk.hdr, SIZE_word _ _ _ h1.2.2.1 (by simp only [WORD_MOD]; omega)]
    have e1 : UNSCALED_POINTER_ADD a b.size = a + b.size :=
      ptr_add _ _ h1.2.2.2.1 (by simp only [WORD_MOD]; omega)
    unfold examine_loop
    have hc : SIZE (load h a) ≠ 0 ∧ a < mem_heap_hi h := by
      rw [hz]
      unfold mem_heap_hi
      omega
    rw [if_pos hc, hz, e1, ih (a + b.size) k hseg.2
      (fun y hy => hall y (List.mem_cons_of_mem _ hy))
      (fun y hy => hreal y (List.mem_cons_of_mem _ hy)) (by simp at hf; omega)]
    simp [hba]

theorem free_list_loop_spec {h : Heap} (l : List Nat) :
    ∀ (p a fuel : Nat), dseg h p l a 0 → l.length < fuel →
      free_list_loop h fuel a = some l := by
  induction l with
  | nil =>
    intro p a fuel hd hf
    obtain ⟨k, rfl⟩ : ∃ k, fuel = k + 1 := ⟨fuel - 1, by simp at hf; omega⟩
    have ha : a = 0 := hd
    unfold free_list_loop
    simp [ha]
  | cons g r ih =>
    intro p a fuel hd hf
    obtain ⟨k, rfl⟩ : ∃ k, fuel = k + 1 := ⟨fuel - 1, by simp at hf; omega⟩
    obtain ⟨rfl, hg0, _, hrest⟩ := hd
    unfold free_list_loop
    rw [if_neg hg0, load_eq, ih _ _ k hrest (by simp at hf; omega)]

/-- On a well-formed arena `examine_heap` visits the blocks of the tiling
and stops at the sentinel. -/
theorem Rep.examine {h : Heap} {bl : List Blk} {s : Blk} {fl : List Nat}
    (hR : Rep h (bl ++ [s]) fl) : examine_heap h = some (bl.map Blk.addr, s.addr) := by
  have hG := hR.shape.geo
  unfold examine_heap
  have hlo := hG.env.lo_pos
  have hsb := hG.bounds (b := s) (by simp)
  have e0 : UNSCALED_POINTER_ADD (mem_heap_lo h) WORD_SIZE = h.lo + WORD_SIZE := by
    unfold mem_heap_lo
    exact ptr_add _ _ (by decide) (by simp only [WORD_MOD, WORD_SIZE]; omega)
  rw [e0]
  have hsent : s.size = 0 := (EndsAt_append_cons.1 hG.ends).2.1
  refine examine_loop_spec hsent bl _ _ hG.seg ?_ ?_ ?_
  · intro y hy
    have := hG.bounds hy
    exact ⟨hR.shape.hdrs y hy, this.2.1, this.2.2.1, this.2.2.2.2.1, this.2.2.2.2.2.1⟩
  · intro y hy
    exact ((EndsAt_append_cons.1 hG.ends).1 y hy).1
  · have : ([] : List Blk) ++ bl ++ [s] = bl ++ [s] := by simp
    exact Geo.length_lt (u := []) (v := bl) (w := [s]) (by rw [this]; exact hG) (by simp)

/-- On a well-formed arena following `next` from `FREE_LIST_HEAD` yields the
free list. -/
theorem Rep.free_list_eq {h : Heap} {xs : List Blk} {fl : List Nat} (hR : Rep h xs fl) :
    free_list h = some fl := by
  unfold free_list
  exact free_list_loop_spec fl 0 _ _ hR.links
    (slots_length_lt hR.shape.geo hR.nodup (Agree.slots hR.shape.geo hR.agree))

theorem Rep.is_free_iff {h : Heap} {xs : List Blk} {fl : List Nat} (hR : Rep h xs fl)
    {b : Blk} (hb : b ∈ xs) : is_free h b.addr ↔ b.used = false := by
  unfold is_free
  rw [load_eq, hR.shape.hdrs b hb, Blk.hdr, word_and_used _ _ _ (hR.shape.geo.bounds hb).2.2.1]
  cases b.used <;> simp

theorem Rep.pu_iff {h : Heap} {xs : List Blk} {fl : List Nat} (hR : Rep h xs fl)
    {b : Blk} (hb : b ∈ xs) : load h b.addr &&& TAG_PRECEDING_USED ≠ 0 ↔ b.pu = true := by
  rw [load_eq, hR.shape.hdrs b hb, Blk.hdr, word_and_pu _ _ _ (hR.shape.geo.bounds hb).2.2.1]
  cases b.pu <;> simp

theorem Rep.size_eq {h : Heap} {xs : List Blk} {fl : List Nat} (hR : Rep h xs fl)
    {b : Blk} (hb : b ∈ xs) : SIZE (load h b.addr) = b.size := by
  have := hR.shape.geo.bounds hb
  rw [load_eq, hR.shape.hdrs b hb, Blk.hdr,
    SIZE_word _ _ _ this.2.2.1 (by simp only [WORD_MOD]; omega)]

theorem chain_adjacent {P : Blk → Blk → Prop} (xs : List Blk)
    (hP : ∀ pre b c rest, xs = pre ++ b :: c :: rest → P b c) : xs.Chain' P := by
  induction xs with
  | nil => exact List.chain'_nil
  | cons a r ih =>
    cases r with
    | nil => exact List.chain'_singleton a
    | cons c r2 =>
      refine List.chain'_cons.2 ⟨hP [] a c r2 rfl, ih ?_⟩
      intro pre b c2 rest e
      exact hP (a :: pre) b c2 rest (by rw [e]; rfl)

theorem walk_eq_map (bl : List Blk) (s : Blk) :
    bl.map Blk.addr ++ [s.addr] = (bl ++ [s]).map Blk.addr := by simp

theorem Rep.tags_consistent {h : Heap} {xs : List Blk} {fl : List Nat} (hR : Rep h xs fl) :
    TagsConsistent h := by
  obtain ⟨bl, s, rfl⟩ := hR.shape.geo.snoc
  refine ⟨_, _, hR.examine, ?_⟩
  rw [walk_eq_map, List.chain'_map]
  refine chain_adjacent _ ?_
  intro pre b c rest e
  have hbin : b ∈ bl ++ [s] := by rw [e]; simp
  have hcin : c ∈ bl ++ [s] := by rw [e]; simp
  have hfl := hR.flags
  rw [e] at hfl
  have hcp : c.pu = b.used := Flags_next hfl
  rw [hR.pu_iff hcin, hR.is_free_iff hbin, hcp]
  cases b.used <;> simp

theorem Rep.no_adjacent_free {h : Heap} {xs : List Blk} {fl : List Nat} (hR : Rep h xs fl) :
    NoAdjacentFree h := by
  obtain ⟨bl, s, rfl⟩ := hR.shape.geo.snoc
  refine ⟨_, _, hR.examine, ?_⟩
  rw [walk_eq_map, List.chain'_map]
  refine chain_adjacent _ ?_
  intro pre b c rest e
  have hbin : b ∈ bl ++ [s] := by rw [e]; simp
  have hcin : c ∈ bl ++ [s] := by rw [e]; simp
  have hfl := hR.flags
  rw [e] at hfl
  have hcp : c.pu = b.used := Flags_next hfl
  rw [hR.is_free_iff hcin, hR.is_free_iff hbin]
  rintro ⟨hb, hc⟩
  have := (hR.settled c hcin hc).1
  rw [hcp, hb] at this
  cases this

theorem Rep.free_list_exact {h : Heap} {xs : List Blk} {fl : List Nat} (hR : Rep h xs fl) :
    FreeListExact h := by
  have hG := hR.shape.geo
  obtain ⟨bl, s, rfl⟩ := hG.snoc
  refine ⟨_, _, fl, hR.examine, hR.free_list_eq, hR.nodup, ?_⟩
  have hsent : s.size = 0 := (EndsAt_append_cons.1 hG.ends).2.1
  intro a
  rw [hR.agree a]
  constructor
  · rintro ⟨b, hb, rfl, hu⟩
    have b32 := hG.free_real hb hu
    refine ⟨?_, (hR.is_free_iff hb).2 hu⟩
    rcases List.mem_append.1 hb with hb' | hb'
    · exact List.mem_map_of_mem _ hb'
    · rw [List.mem_singleton.1 hb', hsent] at b32
      omega
  · rintro ⟨ha, hf⟩
    obtain ⟨b, hb, rfl⟩ := List.mem_map.1 ha
    have hb' : b ∈ bl ++ [s] := List.mem_append_left _ hb
    exact ⟨b, hb', rfl, (hR.is_free_iff hb').1 hf⟩

theorem Rep.footers_match {h : Heap} {xs : List Blk} {fl : List Nat} (hR : Rep h xs fl) :
    FootersMatch h := by
  have hG := hR.shape.geo
  obtain ⟨bl, s, rfl⟩ := hG.snoc
  refine ⟨_, _, hR.examine, ?_⟩
  intro a ha hf
  obtain ⟨b, hb, rfl⟩ := List.mem_map.1 ha
  have hb' : b ∈ bl ++ [s] := List.mem_append_left _ hb
  have hu := (hR.is_free_iff hb').1 hf
  rw [hR.size_eq hb', load_eq, load_eq, hR.shape.hdrs b hb']
  exact (hR.settled b hb' hu).2

theorem Rep.tiled {h : Heap} {xs : List Blk} {fl : List Nat} (hR : Rep h xs fl) :
    Tiled h := by
  have hG := hR.shape.geo
  obtain ⟨bl, s, rfl⟩ := hG.snoc
  have hsin : s ∈ bl ++ [s] := by simp
  have hsent : s.size = 0 ∧ s.used = true ∧ s.addr + 8 = h.brk :=
    (EndsAt_append_cons.1 hG.ends).2
  have hsb := hG.bounds hsin
  refine ⟨_, _, hR.examine, ?_, ?_, ?_, ?_, ?_, ?_⟩
  · intro a ha
    obtain ⟨b, hb, rfl⟩ := List.mem_map.1 ha
    have hb' : b ∈ bl ++ [s] := List.mem_append_left _ hb
    rw [hR.size_eq hb']
    exact ⟨((EndsAt_append_cons.1 hG.ends).1 b hb).2, ((EndsAt_append_cons.1 hG.ends).1 b hb).1⟩
  · rw [walk_eq_map]
    have hseg := hG.seg
    cases bl with
    | nil => exact congrArg some hseg.1
    | cons b r => exact congrArg some hseg.1
  · rw [walk_eq_map, List.chain'_map]
    refine chain_adjacent _ ?_
    intro pre b c rest e
    have hbin : b ∈ bl ++ [s] := by rw [e]; simp
    have hseg := hG.seg
    rw [e] at hseg
    rw [hR.size_eq hbin]
    exact Seg_next hseg
  · unfold mem_heap_hi
    rw [ptr_sub _ _ (by decide) (by simp only [WORD_SIZE]; omega)
      (by simp only [WORD_MOD]; omega)]
    simp only [WORD_SIZE]
    omega
  · rw [hR.is_free_iff hsin, hsent.2.1]
    simp
  · rw [hR.size_eq hsin]
    exact hsent.1

theorem Rep.free_bytes_eq {h : Heap} {xs : List Blk} {fl : List Nat} (hR : Rep h xs fl) :
    free_bytes h = some (freeBytes xs) := by
  have hG := hR.shape.geo
  obtain ⟨bl, s, rfl⟩ := hG.snoc
  have hsent : s.used = true := (EndsAt_append_cons.1 hG.ends).2.2.1
  unfold free_bytes
  rw [hR.examine]
  simp only [Option.some.injEq]
  rw [freeBytes_append]
  simp only [freeBytes, hsent, if_true, Nat.add_zero]
  have key : ∀ l : List Blk, (∀ y ∈ l, y ∈ bl ++ [s]) →
      (((l.map Blk.addr).filter (fun a => decide (is_free h a))).map
        (fun a => SIZE (load h a))).sum = freeBytes l := by
    intro l
    induction l with
    | nil => intro _; rfl
    | cons b r ih =>
      intro hl
      have hb := hl b (by simp)
      have ihr := ih (fun y hy => hl y (List.mem_cons_of_mem _ hy))
      simp only [List.map_cons, freeBytes]
      cases hu : b.used
      · have : is_free h b.addr := (hR.is_free_iff hb).2 hu
        rw [List.filter_cons_of_pos (by simpa using this)]
        simp only [List.map_cons, List.sum_cons, ihr, hR.size_eq hb]
        simp
      · have : ¬ is_free h b.addr := by
          rw [hR.is_free_iff hb, hu]; simp
        rw [List.filter_cons_of_neg (by simpa using this)]
        simp only [ihr]
        simp
  exact key bl (fun y hy => List.mem_append_left _ hy)


/-! ### The write lists cover the stores

A word whose address is not in the write list of a call is the same before
and after the call. -/

theorem insert_writes_cover (h : Heap) (g a : Nat) (ha : a ∉ insert_free_block_writes h g) :
    (insert_free_block h g).mem a = h.mem a := by
  unfold insert_free_block_writes at ha
  unfold insert_free_block
  simp only [List.mem_append, List.mem_cons, List.mem_singleton, List.not_mem_nil, or_false,
    not_or, mem_heap_lo] at ha ⊢
  obtain ⟨⟨a1, a2⟩, a3, a4⟩ := ha
  by_cases c : FREE_LIST_HEAD h ≠ 0
  · rw [if_pos c] at a2 ⊢
    simp only [List.mem_singleton] at a2
    rw [mem_store_of_ne (by simpa using a4), mem_store_of_ne a3, mem_store_of_ne a2,
      mem_store_of_ne a1]
  · rw [if_neg c]
    rw [mem_store_of_ne (by simpa using a4), mem_store_of_ne a3, mem_store_of_ne a1]

theorem remove_writes_cover (h : Heap) (g a : Nat) (ha : a ∉ remove_free_block_writes h g) :
    (remove_free_block h g).mem a = h.mem a := by
  unfold remove_free_block_writes at ha
  unfold remove_free_block
  simp only [List.mem_append, not_or, mem_heap_lo] at ha ⊢
  obtain ⟨a1, a2⟩ := ha
  by_cases c : load h (next_field g) ≠ 0
  · simp only [if_pos c, List.mem_singleton] at a1 a2 ⊢
    split_ifs at a2 ⊢ with c2 <;> simp only [List.mem_singleton] at a2 <;>
      rw [mem_store_of_ne a2, mem_store_of_ne a1]
  · simp only [if_neg c] at a2 ⊢
    split_ifs at a2 ⊢ with c2 <;> simp only [List.mem_singleton] at a2 <;>
      rw [mem_store_of_ne a2]

theorem coalesce_preceding_cover (fuel : Nat) :
    ∀ (h : Heap) (cur ns : Nat) (r : Heap × Nat × Nat),
      coalesce_preceding fuel h cur ns = some r →
      ∀ a, a ∉ coalesce_preceding_writes fuel h cur → r.1.mem a = h.mem a := by
  induction fuel with
  | zero => intro h cur ns r hr; cases hr
  | succ k ih =>
    intro h cur ns r hr a ha
    unfold coalesce_preceding at hr
    unfold coalesce_preceding_writes at ha
    by_cases c : load h cur &&& TAG_PRECEDING_USED = 0
    · rw [if_pos c] at hr ha
      simp only [List.mem_append, not_or] at ha
      rw [ih _ _ _ r hr a ha.2, remove_writes_cover _ _ _ ha.1]
    · rw [if_neg c] at hr
      simp only [Option.some.injEq] at hr
      rw [← hr]

theorem coalesce_following_cover (fuel : Nat) :
    ∀ (h : Heap) (cur ns : Nat) (r : Heap × Nat × Nat),
      coalesce_following fuel h cur ns = some r →
      ∀ a, a ∉ coalesce_following_writes fuel h cur → r.1.mem a = h.mem a := by
  induction fuel with
  | zero => intro h cur ns r hr; cases hr
  | succ k ih =>
    intro h cur ns r hr a ha
    unfold coalesce_following at hr
    unfold coalesce_following_writes at ha
    by_cases c : load h cur &&& TAG_USED = 0
    · rw [if_pos c] at hr ha
      simp only [List.mem_append, not_or] at ha
      rw [ih _ _ _ r hr a ha.2, remove_writes_cover _ _ _ ha.1]
    · rw [if_neg c] at hr
      simp only [Option.some.injEq] at hr
      rw [← hr]

theorem coalesce_writes_cover (h h1 : Heap) (b a : Nat)
    (hc : coalesce_free_block h b = some h1) (ha : a ∉ coalesce_free_block_writes h b) :
    h1.mem a = h.mem a := by
  unfold coalesce_free_block at hc
  unfold coalesce_free_block_writes at ha
  simp only [] at hc ha
  cases h2 : coalesce_preceding (loop_fuel h) h b (SIZE (load h b)) with
  | none => rw [h2] at hc; cases hc
  | some r =>
    obtain ⟨k1, nb, ns1⟩ := r
    rw [h2] at hc ha
    simp only [List.mem_append, not_or] at hc ha
    have e1 := coalesce_preceding_cover _ _ _ _ _ h2 a ha.1
    cases h3 : coalesce_following (loop_fuel h) k1 (UNSCALED_POINTER_ADD b (SIZE (load h b)))
        ns1 with
    | none => rw [h3] at hc; cases hc
    | some r2 =>
      obtain ⟨k2, cur, ns⟩ := r2
      rw [h3] at hc ha
      simp only [] at hc ha
      have e2 := coalesce_following_cover _ _ _ _ _ h3 a ha.2.1
      simp only [] at e1 e2
      by_cases c : ns ≠ SIZE (load h b)
      · rw [if_pos c] at hc ha
        simp only [Option.some.injEq] at hc
        simp only [List.mem_append, List.mem_cons, List.mem_singleton, List.not_mem_nil,
          or_false, not_or] at ha
        obtain ⟨_, _, ⟨a1, a2, a3⟩, a4⟩ := ha
        rw [← hc, insert_writes_cover _ _ _ a4, mem_store_of_ne a3, mem_store_of_ne a2,
          remove_writes_cover _ _ _ a1, e2, e1]
      · rw [if_neg c] at hc
        simp only [Option.some.injEq] at hc
        rw [← hc, e2, e1]

/-- A word that is not in the write list of a returning `mm_free` is the same
before and after the call. -/
theorem mm_free_writes_cover (h h1 : Heap) (ptr a : Nat) (hf : mm_free h ptr = some h1)
    (ha : a ∉ mm_free_writes h ptr) : load h1 a = load h a := by
  unfold mm_free at hf
  unfold mm_free_writes at ha
  simp only [List.mem_append, List.mem_cons, List.mem_singleton, List.not_mem_nil, or_false,
    not_or] at ha
  obtain ⟨⟨⟨a1, a2, a3⟩, a4⟩, a5⟩ := ha
  rw [load_eq, load_eq, coalesce_writes_cover _ _ _ _ hf a5, insert_writes_cover _ _ _ a4,
    mem_store_of_ne a3, mem_store_of_ne a2, mem_store_of_ne a1]

theorem request_more_space_writes_cover (h h1 : Heap) (req a : Nat)
    (hg : request_more_space h req = some h1) (ha : a ∉ request_more_space_writes h req) :
    h1.mem a = h.mem a := by
  unfold request_more_space at hg
  unfold request_more_space_writes at ha
  simp only [] at hg ha
  cases hs : mem_sbrk h ((((req + mem_pagesize h + (WORD_MOD - 1)) % WORD_MOD) /
      mem_pagesize h * mem_pagesize h) % WORD_MOD) with
  | none => rw [hs] at hg; cases hg
  | some r =>
    obtain ⟨k, res⟩ := r
    rw [hs] at hg ha
    simp only [List.mem_append, List.mem_cons, List.mem_singleton, List.not_mem_nil, or_false,
      not_or] at hg ha
    obtain ⟨⟨⟨a1, a2, a3⟩, a4⟩, a5⟩ := ha
    have hk : k.mem = h.mem := by
      unfold mem_sbrk at hs
      split_ifs at hs
      simp only [Option.some.injEq, Prod.mk.injEq] at hs
      rw [← hs.1]
    rw [coalesce_writes_cover _ _ _ _ hg a5, insert_writes_cover _ _ _ a4, mem_store_of_ne a3,
      mem_store_of_ne a2, mem_store_of_ne a1, hk]

theorem mm_malloc_place_writes_cover (h : Heap) (req g a : Nat)
    (ha : a ∉ mm_malloc_place_writes h req g) :
    (mm_malloc_place h req g).1.mem a = h.mem a := by
  unfold mm_malloc_place_writes at ha
  unfold mm_malloc_place
  simp only [List.mem_append, List.mem_singleton, not_or] at ha ⊢
  obtain ⟨⟨a1, a2⟩, a3⟩ := ha
  rw [remove_writes_cover _ _ _ a3, mem_store_of_ne a2]
  by_cases c : SIZE (load h g) ≥ (MIN_BLOCK_SIZE + req) % WORD_MOD
  · rw [if_pos c] at a1 ⊢
    simp only [List.mem_append, List.mem_cons, List.mem_singleton, List.not_mem_nil, or_false,
      not_or] at a1
    obtain ⟨⟨b1, b2, b3, b4⟩, b5⟩ := a1
    rw [insert_writes_cover _ _ _ b5, mem_store_of_ne b4, mem_store_of_ne b3,
      mem_store_of_ne b2, mem_store_of_ne b1]
  · rw [if_neg c] at a1 ⊢
    simp only [List.mem_singleton] at a1
    rw [mem_store_of_ne a1]

/-- A word that is not in the write list of a returning `mm_malloc` is the
same before and after the call. -/
theorem mm_malloc_writes_cover (h h1 : Heap) (n p a : Nat) (hm : mm_malloc h n = some (h1, p))
    (ha : a ∉ mm_malloc_writes h n) : load h1 a = load h a := by
  unfold mm_malloc at hm
  unfold mm_malloc_writes at ha
  by_cases h0 : n = 0
  · rw [if_pos h0] at hm
    simp only [Option.some.injEq, Prod.mk.injEq] at hm
    rw [← hm.1]
  rw [if_neg h0] at hm ha
  unfold mm_malloc_find at hm
  cases hs : search_free_list h (mm_malloc_req_size n) with
  | none => rw [hs] at hm; cases hm
  | some g =>
    rw [hs] at hm ha
    simp only [] at hm ha
    by_cases hg : g = 0
    · rw [if_pos hg] at hm ha
      cases hr : request_more_space h (mm_malloc_req_size n) with
      | none => rw [hr] at hm; cases hm
      | some k =>
        rw [hr] at hm ha
        simp only [] at hm ha
        cases hs2 : search_free_list k (mm_malloc_req_size n) with
        | none => rw [hs2] at hm; cases hm
        | some g2 =>
          rw [hs2] at hm ha
          simp only [Option.some.injEq, List.mem_append, not_or] at hm ha
          rw [load_eq, load_eq, ← request_more_space_writes_cover _ _ _ _ hr ha.1,
            ← mm_malloc_place_writes_cover _ _ _ _ ha.2, hm]
    · rw [if_neg hg] at hm ha
      simp only [Option.some.injEq] at hm
      rw [load_eq, load_eq, ← mm_malloc_place_writes_cover _ _ _ _ ha, hm]

/-- `mm_free` on the payload of a used block `b` of a well-formed arena:
it returns, the arena is well formed, the head of the free list is a free
block that covers `b` (and starts at `b` when the block before `b` is used),
every other used block stays as it is, and the free bytes grow by the size
of `b`. -/
theorem mm_free_good {h : Heap} {xs : List Blk} {fl : List Nat} {b : Blk}
    (hR : Rep h xs fl) (hb : b ∈ xs) (hu : b.used = true) (h32 : 32 ≤ b.size) :
    ∃ h1 xs1 fl1 F M, mm_free h (b.addr + 8) = some h1 ∧ SameEnv h h1 ∧
      Rep h1 xs1 (F :: fl1) ∧ (⟨F, M, false, true⟩ : Blk) ∈ xs1 ∧ b.size ≤ M ∧
      (b.pu = true → F = b.addr) ∧
      (∀ y ∈ xs, y.used = true → y.addr ≠ b.addr →
        ∃ z ∈ xs1, z.used = true ∧ z.addr = y.addr ∧ z.size = y.size) ∧
      freeBytes xs1 = freeBytes xs + b.size ∧
      (∀ y ∈ xs, y.used = true → y.addr ≠ b.addr →
        ∀ a, y.addr < a → a < y.addr + y.size → h1.mem a = h.mem a) ∧
      (∀ y ∈ xs, y.used = true → y.addr ≠ b.addr →
        ∀ a ∈ mm_free_writes h (b.addr + 8), a ≤ y.addr ∨ y.addr + y.size ≤ a) := by
  obtain ⟨pre, c, rest, rfl⟩ := hR.shape.geo.split_real hb h32
  obtain ⟨h1, pre1, back, fwd, c1, rest1, hfree, hse, hpre, hrest, hrun, hc1u, _, _, hbpu, hR1,
    hkp, hms⟩ := mm_free_rep hR hu
  have ht : total (back ++ b :: fwd) = total back + (b.size + total fwd) := by
    rw [total_append]; rfl
  refine ⟨h1, _, _, _, total (back ++ b :: fwd), hfree, hse, hR1, by simp, by rw [ht]; omega,
    ?_, ?_, ?_, ?_, ?_⟩
  · intro hp
    rw [hbpu.2 hp]
    rfl
  · intro y hy hyu hne
    rw [hpre] at hy
    simp only [List.mem_append, List.mem_cons] at hy
    rcases hy with (hy | hy) | rfl | hy
    · exact ⟨y, by simp [hy], hyu, rfl, rfl⟩
    · rw [hrun y (List.mem_append_left _ hy)] at hyu; cases hyu
    · exact absurd rfl hne
    · have hy' : y ∈ fwd ++ c1 :: rest1 := by
        rw [← hrest]; exact List.mem_cons.2 hy
      simp only [List.mem_append, List.mem_cons] at hy'
      rcases hy' with hy' | rfl | hy'
      · rw [hrun y (List.mem_append_right _ hy')] at hyu; cases hyu
      · exact ⟨⟨y.addr, y.size, true, false⟩, by simp, rfl, rfl, rfl⟩
      · exact ⟨y, by simp [hy'], hyu, rfl, rfl⟩
  · rw [hpre, hrest]
    simp only [freeBytes_append, freeBytes, hu, hc1u, ht]
    rw [freeBytes_free (fun y hy => hrun y (List.mem_append_left _ hy)),
      freeBytes_free (fun y hy => hrun y (List.mem_append_right _ hy))]
    simp
    omega
  · intro y hy hyu hne
    refine hkp y ?_ hyu
    simp only [List.mem_append, List.mem_cons] at hy ⊢
    rcases hy with hy | rfl | hy
    · exact Or.inl hy
    · exact absurd rfl hne
    · exact Or.inr hy
  · intro y hy hyu hne a ha
    refine hms a ha y ?_ hyu
    simp only [List.mem_append, List.mem_cons] at hy ⊢
    rcases hy with hy | rfl | hy
    · exact Or.inl hy
    · exact absurd rfl hne
    · exact Or.inr hy

theorem Env.of_memlib {h : Heap} (hm : Memlib h) (hs : h.max < h.lo + 2147483648) : Env h :=
  ⟨hm.lo_pos, hm.lo_al, hm.ps_pos, hm.ps_al, hm.ps_lt, hm.brk_le, hm.max_lt, hs⟩

theorem Env.memlib {h : Heap} (he : Env h) : Memlib h :=
  ⟨he.lo_pos, he.lo_al, he.ps_pos, he.ps_al, he.ps_lt, he.brk_le, he.max_lt⟩

/-- A store of the client inside a used block keeps the arena well formed:
it hits no header, no boundary tag of a free block, no link field and not the
head word. -/
theorem Rep.client_store {h : Heap} {xs : List Blk} {fl : List Nat} (hR : Rep h xs fl)
    {b : Blk} (hb : b ∈ xs) (hu : b.used = true) {a : Nat} (v : Nat) (h1 : b.addr < a)
    (h2 : a < b.addr + b.size) : Rep (store h a v) xs fl := by
  have hG := hR.shape.geo
  have hbb := hG.bounds hb
  have hne : ∀ c ∈ xs, a ≠ c.addr := by
    intro c hc
    have hcb := hG.bounds hc
    rcases hG.sep hb hc with rfl | h3 | h3 <;> omega
  have hin : ∀ c ∈ xs, c.used = false → ∀ w, c.addr ≤ w → w < c.addr + c.size → a ≠ w := by
    intro c hc hcu w hw1 hw2
    rcases hG.sep hb hc with rfl | h3 | h3
    · rw [hu] at hcu; cases hcu
    · omega
    · omega
  have hftr : ∀ c ∈ xs, c.used = false → a ≠ c.ftr := by
    intro c hc hcu
    have h32 := hG.free_real hc hcu
    refine hin c hc hcu _ ?_ ?_ <;> (unfold Blk.ftr; simp only [WORD_SIZE]; omega)
  refine ⟨⟨hR.shape.after_store v hne hftr, hR.flags, ?_, hR.nodup, hR.agree⟩, ?_⟩
  · refine hR.links.store_fl v (by have := hbb.1; omega) (fun g hg => ?_)
    obtain ⟨c, hc, rfl, hcu⟩ := (hR.agree g).1 hg
    have h32 := hG.free_real hc hcu
    rw [prev_field_eq, next_field_eq]
    exact ⟨hin c hc hcu _ (by omega) (by omega), hin c hc hcu _ (by omega) (by omega)⟩
  · intro c hc hcu
    refine ⟨(hR.settled c hc hcu).1, ?_⟩
    rw [mem_store_of_ne (Ne.symm (hftr c hc hcu))]
    exact (hR.settled c hc hcu).2

/-- Every state reachable with requests that do not wrap, on an arena whose
limit is less than `2^31` bytes above its base, is well formed. -/
theorem reach_good {h0 h : Heap} {L : List (Nat × Nat)} (he : Env h0)
    (hr : Reach REQUEST_MAX h0 h L) : Good h L := by
  induction hr with
  | init h r hb hi =>
    obtain ⟨_, _, _, hR⟩ := mm_init_rep he hb hi
    exact ⟨_, _, hR, ⟨_, List.mem_cons_self _ _, le_refl _⟩, by simp [Live]⟩
  | malloc h L n h1 p _ hn hbound hm ih =>
    obtain ⟨xs, fl, hR, hreal, hnd, hlive⟩ := ih
    obtain ⟨xs1, fl1, g, sz, pu, hR1, rfl, hin, hsz, h32, hnew, hkeep, _⟩ :=
      mm_malloc_rep hR hreal hn (by simp only [REQUEST_MAX, WORD_MOD, WORD_SIZE] at *; omega) hm
    refine ⟨xs1, fl1, hR1, ⟨_, hin, h32⟩, ?_, ?_⟩
    · simp only [List.map_cons, List.nodup_cons]
      refine ⟨?_, hnd⟩
      intro hmem
      obtain ⟨e, he, hfst⟩ := List.mem_map.1 hmem
      obtain ⟨b, hb, hbu, b32, hp, _⟩ := hlive e he
      exact hnew b hb hbu b32 (by omega)
    · intro e he
      rcases List.mem_cons.1 he with rfl | he
      · exact ⟨_, hin, rfl, h32, rfl, hsz⟩
      · obtain ⟨b, hb, hbu, b32, hp, hfit⟩ := hlive e he
        obtain ⟨z, hz, hzu, e1, e2⟩ := hkeep b hb hbu b32
        exact ⟨z, hz, hzu, by omega, by omega, by omega⟩
  | malloc_zero h L h1 p _ hm ih =>
    have : mm_malloc h 0 = some (h, 0) := rfl
    rw [this] at hm
    simp only [Option.some.injEq, Prod.mk.injEq] at hm
    rw [← hm.1]
    exact ih
  | free h L p n h1 _ hin hf ih =>
    obtain ⟨xs, fl, hR, hreal, hnd, hlive⟩ := ih
    obtain ⟨b, hb, hbu, b32, hp, _⟩ := hlive _ hin
    simp only at hp
    obtain ⟨h2, xs1, fl1, F, M, hfree, _, hR1, hM, hMs, _, hkeep, _⟩ := mm_free_good hR hb hbu b32
    rw [hp, hfree] at hf
    simp only [Option.some.injEq] at hf
    subst hf
    have hLnd : L.Nodup := List.Nodup.of_map _ hnd
    refine ⟨xs1, _, hR1, ⟨_, hM, by simp only; omega⟩, ?_, ?_⟩
    · exact hnd.sublist ((List.erase_sublist _ _).map _)
    · intro e he
      have he' := (hLnd.mem_erase_iff).1 he
      obtain ⟨y, hy, hyu, y32, hyp, hfit⟩ := hlive e he'.2
      have hne : y.addr ≠ b.addr := by
        intro e2
        apply he'.1
        have : e.1 = (p, n).1 := by simp only; omega
        exact List.inj_on_of_nodup_map hnd he'.2 hin this
      obtain ⟨z, hz, hzu, e1, e2⟩ := hkeep y hy hyu hne
      exact ⟨z, hz, hzu, by omega, by omega, by omega⟩
  | client_store h L p n a v _ hin ha1 ha2 _ ih =>
    obtain ⟨xs, fl, hR, hreal, hnd, hlive⟩ := ih
    obtain ⟨b, hb, hbu, b32, hp, hfit⟩ := hlive _ hin
    simp only at hp hfit
    exact ⟨xs, fl, hR.client_store hb hbu v (by omega) (by omega), hreal, hnd, hlive⟩

/-! ## Calls on the concrete arena -/

theorem malloc_eq {h : Heap} {n p : Nat} (hp : (mm_malloc h n).map Prod.snd = some p) :
    mm_malloc h n = some (after_malloc h n, p) := by
  unfold after_malloc
  cases hm : mm_malloc h n with
  | none => rw [hm] at hp; cases hp
  | some r =>
    obtain ⟨h1, q⟩ := r
    rw [hm] at hp
    simp only [Option.map_some', Option.some.injEq] at hp
    rw [hp]
    rfl

theorem free_eq {h : Heap} {p : Nat} (hp : (mm_free h p).isSome = true) :
    mm_free h p = some (after_free h p) := by
  unfold after_free
  cases hm : mm_free h p with
  | none => rw [hm] at hp; cases hp
  | some r => rfl

theorem env_arena0 : Env arena0 :=
  ⟨by decide, by decide, by decide, by decide, by decide, by decide, by decide, by decide⟩

theorem init0_eq : mm_init arena0 = some (init0, 0) := rfl

theorem memlib_arena0 : Memlib arena0 := Env.memlib env_arena0

theorem span_arena0 : arena0.max < arena0.lo + 2147483648 := by decide

theorem reach_init0 (bound : Nat) : Reach bound arena0 init0 [] :=
  Reach.init init0 0 rfl init0_eq

theorem scenA1_eq : mm_malloc init0 8 = some (scenA1, 4112) := malloc_eq (by decide)

theorem scenA2_eq : mm_malloc scenA1 16 = some (scenA2, 4144) := malloc_eq (by decide)

theorem scenA3_eq : mm_free scenA2 4112 = some scenA3 := free_eq (by decide)

theorem scenA4_eq : mm_malloc scenA3 8 = some (scenA4, 4112) := malloc_eq (by decide)

theorem reach_scenA2 : Reach REQUEST_MAX arena0 scenA2 [(4144, 16), (4112, 8)] :=
  Reach.malloc _ _ 16 _ _
    (Reach.malloc _ _ 8 _ _ (reach_init0 _) (by decide) (by decide) scenA1_eq)
    (by decide) (by decide) scenA2_eq

theorem reach_scenA3 : Reach REQUEST_MAX arena0 scenA3 [(4144, 16)] :=
  Reach.free _ _ 4112 8 _ reach_scenA2 (by decide) scenA3_eq

theorem wrap1_eq : mm_malloc init0 18446744073709551607 = some (wrap1, 4112) :=
  malloc_eq (by decide)

theorem wrap2_eq : mm_malloc wrap1 8 = some (wrap2, 4112) := malloc_eq (by decide)

theorem wrap3_eq : mm_free wrap2 4112 = some wrap3 := free_eq (by decide)

theorem reach_wrap1 : Reach SIZE_MAX arena0 wrap1 [(4112, 18446744073709551607)] :=
  Reach.malloc _ _ _ _ _ (reach_init0 _) (by decide) (by decide) wrap1_eq

theorem reach_wrap2 : Reach SIZE_MAX arena0 wrap2 [(4112, 8), (4112, 18446744073709551607)] :=
  Reach.malloc _ _ _ _ _ reach_wrap1 (by decide) (by decide) wrap2_eq

theorem reach_grown2 :
    Reach SIZE_MAX arena0 grown2 [(4160, 18446744073709551607), (4112, 40)] :=
  Reach.malloc _ _ _ _ _
    (Reach.malloc _ _ 40 _ _ (reach_init0 _) (by decide) (by decide)
      (malloc_eq (p := 4112) (by decide)))
    (by decide) (by decide) (malloc_eq (by decide))

theorem reach_adjacent_free : Reach SIZE_MAX arena0 adjacent_free
    [(4160, 100), (4160, 4000), (4160, 18446744073709551607), (4112, 40)] :=
  Reach.malloc _ _ 100 _ _
    (Reach.malloc _ _ 4000 _ _ reach_grown2 (by decide) (by decide)
      (malloc_eq (p := 4160) (by decide)))
    (by decide) (by decide) (malloc_eq (by decide))

theorem reach_stale2 : Reach SIZE_MAX arena0 stale2 [] :=
  Reach.free _ _ 4112 40 _
    (Reach.free _ _ 4160 18446744073709551607 _ reach_grown2 (by decide) (free_eq (by decide)))
    (by decide) (free_eq (by decide))

theorem reach_overrun : Reach SIZE_MAX arena0 overrun [(4112, 56)] :=
  Reach.malloc _ _ 56 _ _ reach_stale2 (by decide) (by decide) (malloc_eq (by decide))

theorem reach_torn_footer : Reach SIZE_MAX arena0 torn_footer [(4160, 4000), (4112, 4000)] :=
  Reach.malloc _ _ 4000 _ _
    (Reach.malloc _ _ 4000 _ _ reach_stale2 (by decide) (by decide)
      (malloc_eq (p := 4112) (by decide)))
    (by decide) (by decide) (malloc_eq (by decide))

theorem reach_huge1 : Reach SIZE_MAX arena0 huge1 [(4112, 18446744073709551615)] :=
  Reach.malloc _ _ _ _ _ (reach_init0 _) (by decide) (by decide) (malloc_eq (by decide))

theorem reach_scenA1 : Reach REQUEST_MAX arena0 scenA1 [(4112, 8)] :=
  Reach.malloc _ _ 8 _ _ (reach_init0 _) (by decide) (by decide) scenA1_eq

theorem reach_scenC3 :
    Reach REQUEST_MAX arena0 scenC3 [(4176, 8), (4144, 16), (4112, 8)] :=
  Reach.malloc _ _ 8 _ _ reach_scenA2 (by decide) (by decide)
    (show mm_malloc scenA2 8 = some (scenC3, 4176) from malloc_eq (by decide))

theorem reach_clob2 : Reach SIZE_MAX arena0 clob2
    [(4176, 16), (4176, 18446744073709551607), (4144, 16), (4112, 8)] :=
  Reach.malloc _ _ 16 _ _
    (Reach.malloc _ _ 18446744073709551607 _ _
      (Reach.malloc _ _ 16 _ _
        (Reach.malloc _ _ 8 _ _ (reach_init0 _) (by decide) (by decide) scenA1_eq)
        (by decide) (by decide) scenA2_eq)
      (by decide) (by decide) (show mm_malloc scenA2 18446744073709551607 = some (clob1, 4176)
        from malloc_eq (by decide)))
    (by decide) (by decide) (show mm_malloc clob1 16 = some (clob2, 4176)
      from malloc_eq (by decide))

theorem reach_full1 : Reach REQUEST_MAX arena0 full1 [(4112, 24)] :=
  Reach.malloc _ _ 24 _ _ (reach_init0 _) (by decide) (by decide) (malloc_eq (by decide))

theorem reach_edge7 : Reach SIZE_MAX arena0 edge7
    [(4112, 18446744073709551607), (4240, 8), (4208, 8), (4176, 8), (4144, 16)] :=
  Reach.malloc _ _ 18446744073709551607 _ _
    (Reach.free _ _ 4112 8 _
      (Reach.malloc _ _ 8 _ _
        (Reach.malloc _ _ 8 _ _
          (Reach.malloc _ _ 8 _ _
            (Reach.malloc _ _ 16 _ _
              (Reach.malloc _ _ 8 _ _ (reach_init0 _) (by decide) (by decide) scenA1_eq)
              (by decide) (by decide) scenA2_eq)
            (by decide) (by decide)
            (show mm_malloc scenA2 8 = some (scenC3, 4176) from malloc_eq (by decide)))
          (by decide) (by decide) (malloc_eq (p := 4208) (by decide)))
        (by decide) (by decide) (malloc_eq (p := 4240) (by decide)))
      (by decide) (free_eq (by decide)))
    (by decide) (by decide) (malloc_eq (by decide))

/-! ## Calls on the arena with small pages -/

theorem memlib_arena16 : Memlib arena16 :=
  ⟨by decide, by decide, by decide, by decide, by decide, by decide, by decide⟩

theorem span_arena16 : arena16.max < arena16.lo + 2147483648 := by decide

theorem reach_small1 : Reach REQUEST_MAX arena16 small1 [(4112, 8)] :=
  Reach.malloc _ _ 8 _ _ (Reach.init small0 0 rfl rfl) (by decide) (by decide)
    (malloc_eq (by decide))

/-! ## Calls on the large arena -/

theorem memlib_arenaG : Memlib arenaG :=
  ⟨by decide, by decide, by decide, by decide, by decide, by decide, by decide⟩

theorem big0_eq : mm_init arenaG = some (big0, 0) := rfl

theorem reach_big0 (bound : Nat) : Reach bound arenaG big0 [] :=
  Reach.init big0 0 rfl big0_eq

theorem big1_eq : mm_malloc big0 4294967336 = some (big1, 4112) := malloc_eq (by decide)

theorem big2_eq : mm_malloc big1 8 = some (big2, 4160) := malloc_eq (by decide)

theorem big3_eq : mm_free big2 4112 = some big3 := free_eq (by decide)

theorem reach_big1 : Reach REQUEST_MAX arenaG big1 [(4112, 4294967336)] :=
  Reach.malloc _ _ _ _ _ (reach_big0 _) (by decide) (by decide) big1_eq

theorem reach_big2 : Reach REQUEST_MAX arenaG big2 [(4160, 8), (4112, 4294967336)] :=
  Reach.malloc _ _ _ _ _ reach_big1 (by decide) (by decide) big2_eq

theorem reach_big3 : Reach REQUEST_MAX arenaG big3 [(4160, 8)] :=
  Reach.free _ _ 4112 4294967336 _ reach_big2 (by decide) big3_eq

theorem reach_big4 : Reach REQUEST_MAX arenaG big4 [(4112, 8), (4160, 8)] :=
  Reach.malloc _ _ _ _ _ reach_big3 (by decide) (by decide) (malloc_eq (by decide))

theorem reach_big5 : Reach REQUEST_MAX arenaG big5 [(4160, 40), (4112, 40), (4160, 8)] :=
  Reach.malloc _ _ 40 _ _
    (Reach.malloc _ _ 40 _ _ reach_big3 (by decide) (by decide)
      (malloc_eq (p := 4112) (by decide)))
    (by decide) (by decide) (malloc_eq (by decide))

theorem reach_big6 : Reach REQUEST_MAX arenaG big6 [] :=
  Reach.free _ _ 4112 4294967336 _ reach_big1 (by decide) (free_eq (by decide))

theorem reach_big7 : Reach REQUEST_MAX arenaG big7 [(4112, 4000), (4160, 4000)] :=
  Reach.malloc _ _ 4000 _ _
    (Reach.free _ _ 4112 4294967336 _
      (Reach.malloc _ _ 4000 _ _ reach_big1 (by decide) (by decide)
        (malloc_eq (p := 4160) (by decide)))
      (by decide) (free_eq (by decide)))
    (by decide) (by decide) (malloc_eq (by decide))

theorem reach_bigB : Reach REQUEST_MAX arenaG bigB [(4112, 4294967304)] :=
  Reach.malloc _ _ _ _ _ (reach_big0 _) (by decide) (by decide) (malloc_eq (by decide))

theorem reach_bigC :
    Reach REQUEST_MAX arenaG bigC [(4224, 8), (4192, 8), (4160, 8)] :=
  Reach.free _ _ 4112 4294967336 _
    (Reach.malloc _ _ 8 _ _
      (Reach.malloc _ _ 8 _ _ reach_big2 (by decide) (by decide)
        (malloc_eq (p := 4192) (by decide)))
      (by decide) (by decide) (malloc_eq (p := 4224) (by decide)))
    (by decide) (free_eq (by decide))

/-- On `bigB`, `mm_free(4112)` does not return: the second loop of
`coalesce_free_block` stays at the word `4104 + 16`, which holds 0. -/
theorem bigB_free_stuck : mm_free bigB 4112 = none := by
  have e : mm_free bigB 4112 = coalesce_free_block bigB1 4104 := rfl
  rw [e]
  refine coalesce_free_block_stuck (by decide) (by decide) (fun fuel n => ?_)
  have e2 : UNSCALED_POINTER_ADD 4104 (SIZE (load bigB1 4104)) = 4120 := by decide
  rw [e2]
  exact coalesce_following_stuck 4120 fuel _ n (by decide) (by decide) (by decide) (by decide)
    (by decide) (by decide) (by decide) (by decide)

/-- On `big0`, `request_more_space(2^32)` does not return: the first loop of
`coalesce_free_block` stays at the new block, whose header the sentinel has
replaced. -/
theorem big0_grow_stuck : request_more_space big0 4294967296 = none := by
  have e : request_more_space big0 4294967296 = coalesce_free_block bigR 4136 := rfl
  rw [e]
  exact coalesce_free_block_stuck_back (fun fuel n =>
    coalesce_preceding_stuck 4136 (by decide) (by decide) fuel bigR n (by decide) (by decide)
      (by decide) (by decide) (by decide) (by decide))

/-! ## Properties of the specification -/

theorem examined (h : Heap) (bs : List Nat) (e : Nat) {P : List Nat → Nat → Prop}
    (hw : examine_heap h = some (bs, e)) :
    (∃ bs1 e1, examine_heap h = some (bs1, e1) ∧ P bs1 e1) ↔ P bs e := by
  constructor
  · rintro ⟨bs1, e1, h1, hP⟩
    rw [hw] at h1
    simp only [Option.some.injEq, Prod.mk.injEq] at h1
    rw [h1.1, h1.2]
    exact hP
  · intro hP
    exact ⟨bs, e, hw, hP⟩

/-- C1: `mm_malloc(0)` returns `NULL` in every allocator state and leaves the
arena as it is: bounds, head word, headers, footers and link words. -/
theorem C1_malloc_zero (h : Heap) : mm_malloc h 0 = some (h, 0) := rfl

/-- C2, amended: on an arena whose limit is less than `2^31` bytes above its
base, in every state reachable from `mm_init` by `mm_free` on live pointers,
client stores into live payloads and `mm_malloc` with requests of at most
`2^64 - 16` bytes, any two distinct live allocations `(p1, n1)` and
`(p2, n2)` have disjoint byte ranges `[p1, p1 + n1)` and `[p2, p2 + n2)`. -/
theorem C2_live_disjoint (h0 h : Heap) (L : List (Nat × Nat)) (hlib : Memlib h0)
    (hspan : h0.max < h0.lo + 2147483648) (hr : Reach REQUEST_MAX h0 h L) :
    L.Pairwise (fun a b => a.1 + a.2 ≤ b.1 ∨ b.1 + b.2 ≤ a.1) := by
  obtain ⟨xs, fl, hR, _, hnd, hlive⟩ := reach_good (Env.of_memlib hlib hspan) hr
  refine (List.Nodup.of_map _ hnd).pairwise_of_forall_ne ?_
  intro a ha b hb hne
  obtain ⟨y, hy, _, _, hya, hyn⟩ := hlive a ha
  obtain ⟨z, hz, _, _, hza, hzn⟩ := hlive b hb
  have hab : a.1 ≠ b.1 := fun e => hne (List.inj_on_of_nodup_map hnd ha hb e)
  rcases hR.shape.geo.sep hy hz with e | e | e
  · rw [e] at hya; omega
  · left; omega
  · right; omega

/-- C2, witness: after `mm_init`, `mm_malloc(8)` and `mm_malloc(16)` on the
concrete arena the two live allocations are disjoint. -/
theorem C2_witness :
    Memlib arena0 ∧ arena0.max < arena0.lo + 2147483648 ∧
      Reach REQUEST_MAX arena0 scenA2 [(4144, 16), (4112, 8)] ∧
      ([(4144, 16), (4112, 8)] : List (Nat × Nat)).Pairwise
        (fun a b => a.1 + a.2 ≤ b.1 ∨ b.1 + b.2 ≤ a.1) :=
  ⟨memlib_arena0, span_arena0, reach_scenA2,
    C2_live_disjoint arena0 _ _ memlib_arena0 span_arena0 reach_scenA2⟩

/-- C2 as stated fails, for two reasons.  Requests that wrap: on the small
arena, after `mm_init`, `mm_malloc(2^64 - 9)` and `mm_malloc(8)` both return
4112, so two live allocations overlap.  Arenas beyond the range of `int`: on
the arena of 8 GiB, after `mm_init`, `mm_malloc(2^32 + 40)` returns 4112 and
`mm_malloc(8)` returns 4160, inside the first allocation, because the split
placed the remainder `48` bytes behind the block instead of `2^32 + 48`. -/
theorem C2_counterexample :
    (Env arena0 ∧ Reach SIZE_MAX arena0 wrap2 [(4112, 8), (4112, 18446744073709551607)] ∧
        ¬ ([(4112, 8), (4112, 18446744073709551607)] : List (Nat × Nat)).Pairwise
          (fun a b => a.1 + a.2 ≤ b.1 ∨ b.1 + b.2 ≤ a.1)) ∧
      (Memlib arenaG ∧ Reach REQUEST_MAX arenaG big2 [(4160, 8), (4112, 4294967336)] ∧
        ¬ ([(4160, 8), (4112, 4294967336)] : List (Nat × Nat)).Pairwise
          (fun a b => a.1 + a.2 ≤ b.1 ∨ b.1 + b.2 ≤ a.1)) :=
  ⟨⟨env_arena0, reach_wrap2, by decide⟩, ⟨memlib_arenaG, reach_big2, by decide⟩⟩

/-- C4, amended: on an arena whose limit is less than `2^31` bytes above its
base, in every state reachable from `mm_init` by `mm_free` on live pointers,
client stores into live payloads and `mm_malloc` with requests of at most
`2^64 - 16` bytes, every block of the arena that has a predecessor, the
sentinel included, has `TAG_PRECEDING_USED` set exactly when its predecessor
has `TAG_USED` set. -/
theorem C4_tags_consistent (h0 h : Heap) (L : List (Nat × Nat)) (hlib : Memlib h0)
    (hspan : h0.max < h0.lo + 2147483648) (hr : Reach REQUEST_MAX h0 h L) :
    TagsConsistent h := by
  obtain ⟨xs, fl, hR, _⟩ := reach_good (Env.of_memlib hlib hspan) hr
  exact hR.tags_consistent

/-- C4, witness: the tags are consistent after `mm_init`, `mm_malloc(8)`,
`mm_malloc(16)` and `mm_free` of the first pointer. -/
theorem C4_witness :
    Memlib arena0 ∧ arena0.max < arena0.lo + 2147483648 ∧
      Reach REQUEST_MAX arena0 scenA3 [(4144, 16)] ∧ TagsConsistent scenA3 :=
  ⟨memlib_arena0, span_arena0, reach_scenA3,
    C4_tags_consistent arena0 _ _ memlib_arena0 span_arena0 reach_scenA3⟩

/-- C4 as stated fails, for two reasons.  Requests that wrap: on the small
arena, after `mm_init` and `mm_malloc(2^64 - 9)` the only block is tagged
used and the sentinel has `TAG_PRECEDING_USED` clear.  Arenas beyond the
range of `int`: on the arena of 8 GiB, after `mm_init`,
`mm_malloc(2^32 + 40)`, `mm_malloc(8)`, `mm_free(4112)` and `mm_malloc(40)`
twice, the walk visits 4104, 4152 and 4200, and the block at 4200 has
`TAG_PRECEDING_USED` clear although the block at 4152 is used. -/
theorem C4_counterexample :
    (Env arena0 ∧ Reach SIZE_MAX arena0 wrap1 [(4112, 18446744073709551607)] ∧
        ¬ TagsConsistent wrap1) ∧
      (Memlib arenaG ∧ Reach REQUEST_MAX arenaG big5 [(4160, 40), (4112, 40), (4160, 8)] ∧
        ¬ TagsConsistent big5) :=
  ⟨⟨env_arena0, reach_wrap1, (examined wrap1 [4104] 4136 (by decide)).not.2 (by
      simp only [List.cons_append, List.nil_append, List.chain'_cons, List.chain'_singleton,
        and_true]
      decide)⟩,
    ⟨memlib_arenaG, reach_big5, (examined big5 [4104, 4152, 4200] 8400 (by decide)).not.2 (by
      simp only [List.cons_append, List.nil_append, List.chain'_cons, List.chain'_singleton,
        and_true]
      decide)⟩⟩

/-- C5, amended: on an arena whose limit is less than `2^31` bytes above its
base, in every state reachable from `mm_init` by `mm_free` on live pointers,
client stores into live payloads and `mm_malloc` with requests of at most
`2^64 - 16` bytes, arena growth included, no two adjacent blocks of the
arena both have `TAG_USED` clear. -/
theorem C5_no_adjacent_free (h0 h : Heap) (L : List (Nat × Nat)) (hlib : Memlib h0)
    (hspan : h0.max < h0.lo + 2147483648) (hr : Reach REQUEST_MAX h0 h L) :
    NoAdjacentFree h := by
  obtain ⟨xs, fl, hR, _⟩ := reach_good (Env.of_memlib hlib hspan) hr
  exact hR.no_adjacent_free

/-- C5, witness: no two adjacent blocks are free after `mm_init`,
`mm_malloc(8)`, `mm_malloc(16)` and `mm_free` of the first pointer. -/
theorem C5_witness :
    Memlib arena0 ∧ arena0.max < arena0.lo + 2147483648 ∧
      Reach REQUEST_MAX arena0 scenA3 [(4144, 16)] ∧ NoAdjacentFree scenA3 :=
  ⟨memlib_arena0, span_arena0, reach_scenA3,
    C5_no_adjacent_free arena0 _ _ memlib_arena0 span_arena0 reach_scenA3⟩

/-- C5 as stated fails, for two reasons.  Requests that wrap: on the small
arena, after `mm_init`, `mm_malloc(40)`, `mm_malloc(2^64 - 9)`,
`mm_malloc(4000)` and `mm_malloc(100)` the blocks at 4264 and 8160 are
adjacent and both free.  Arenas beyond the range of `int`: on the arena of
8 GiB, after `mm_init`, `mm_malloc(2^32 + 40)`, `mm_malloc(8)`,
`mm_free(4112)` and `mm_malloc(8)`, the walk visits 4104 and 4136 and stops
at 4152, and the words at 4136 and 4152 both have `TAG_USED` clear. -/
theorem C5_counterexample :
    (Env arena0 ∧
        Reach SIZE_MAX arena0 adjacent_free
          [(4160, 100), (4160, 4000), (4160, 18446744073709551607), (4112, 40)] ∧
        ¬ NoAdjacentFree adjacent_free) ∧
      (Memlib arenaG ∧ Reach REQUEST_MAX arenaG big4 [(4112, 8), (4160, 8)] ∧
        ¬ NoAdjacentFree big4) :=
  ⟨⟨env_arena0, reach_adjacent_free,
      (examined adjacent_free [4104, 4152, 4264, 8160] 8232
        (by decide)).not.2 (by
      simp only [List.cons_append, List.nil_append, List.chain'_cons, List.chain'_singleton,
        and_true]
      decide)⟩,
    ⟨memlib_arenaG, reach_big4, (examined big4 [4104, 4136] 4152 (by decide)).not.2 (by
      simp only [List.cons_append, List.nil_append, List.chain'_cons, List.chain'_singleton,
        and_true]
      decide)⟩⟩


/-- C6, amended: on an arena whose limit is less than `2^31` bytes above its
base, in every state reachable from `mm_init` by `mm_free` on live pointers,
client stores into live payloads and `mm_malloc` with requests of at most
`2^64 - 16` bytes, following `next` from `FREE_LIST_HEAD` reaches `NULL`,
meets no block twice, and meets exactly the blocks of the arena that have
`TAG_USED` clear. -/
theorem C6_free_list_exact (h0 h : Heap) (L : List (Nat × Nat)) (hlib : Memlib h0)
    (hspan : h0.max < h0.lo + 2147483648) (hr : Reach REQUEST_MAX h0 h L) :
    FreeListExact h := by
  obtain ⟨xs, fl, hR, _⟩ := reach_good (Env.of_memlib hlib hspan) hr
  exact hR.free_list_exact

/-- C6, witness: the free list is exact after `mm_init`, `mm_malloc(8)`,
`mm_malloc(16)` and `mm_free` of the first pointer. -/
theorem C6_witness :
    Memlib arena0 ∧ arena0.max < arena0.lo + 2147483648 ∧
      Reach REQUEST_MAX arena0 scenA3 [(4144, 16)] ∧ FreeListExact scenA3 :=
  ⟨memlib_arena0, span_arena0, reach_scenA3,
    C6_free_list_exact arena0 _ _ memlib_arena0 span_arena0 reach_scenA3⟩

/-- C6 as stated fails, for two reasons.  Requests that wrap: on the small
arena, after `mm_init` and `mm_malloc(2^64 - 9)` the block at 4104 is tagged
used, `FREE_LIST_HEAD` points to it and its `next` points to itself, so
following `next` never reaches `NULL`.  Arenas beyond the range of `int`: on
the arena of 8 GiB, after `mm_init`, `mm_malloc(2^32 + 40)`, `mm_malloc(8)`,
`mm_free(4112)` and `mm_malloc(8)`, the free list holds 4136 and 4184 while
the walk visits 4104 and 4136 only. -/
theorem C6_counterexample :
    (Env arena0 ∧ Reach SIZE_MAX arena0 wrap1 [(4112, 18446744073709551607)] ∧
        ¬ FreeListExact wrap1) ∧
      (Memlib arenaG ∧ Reach REQUEST_MAX arenaG big4 [(4112, 8), (4160, 8)] ∧
        ¬ FreeListExact big4) := by
  refine ⟨⟨env_arena0, reach_wrap1, ?_⟩, ⟨memlib_arenaG, reach_big4, ?_⟩⟩
  · rintro ⟨bs, e, l, _, hl, _⟩
    have hnone : free_list wrap1 = none := by decide
    rw [hnone] at hl
    cases hl
  · rintro ⟨bs, e, l, hw, hl, _, hiff⟩
    have hw2 : examine_heap big4 = some ([4104, 4136], 4152) := by decide
    have hl2 : free_list big4 = some [4136, 4184] := by decide
    rw [hw2] at hw
    rw [hl2] at hl
    simp only [Option.some.injEq, Prod.mk.injEq] at hw hl
    have := (hiff 4184).1 (by rw [← hl]; decide)
    rw [← hw.1] at this
    exact absurd this.1 (by decide)

/-- C7, amended: on an arena whose limit is less than `2^31` bytes above its
base, in every state reachable from `mm_init` by `mm_free` on live pointers,
client stores into live payloads and `mm_malloc` with requests of at most
`2^64 - 16` bytes, the footer of every free block, the word at
`b + s - WORD_SIZE` for a block at `b` of size `s`, equals its header. -/
theorem C7_footers_match (h0 h : Heap) (L : List (Nat × Nat)) (hlib : Memlib h0)
    (hspan : h0.max < h0.lo + 2147483648) (hr : Reach REQUEST_MAX h0 h L) :
    FootersMatch h := by
  obtain ⟨xs, fl, hR, _⟩ := reach_good (Env.of_memlib hlib hspan) hr
  exact hR.footers_match

/-- C7, witness: header and footer of every free block agree after
`mm_init`, `mm_malloc(8)`, `mm_malloc(16)` and `mm_free` of the first
pointer. -/
theorem C7_witness :
    Memlib arena0 ∧ arena0.max < arena0.lo + 2147483648 ∧
      Reach REQUEST_MAX arena0 scenA3 [(4144, 16)] ∧ FootersMatch scenA3 :=
  ⟨memlib_arena0, span_arena0, reach_scenA3,
    C7_footers_match arena0 _ _ memlib_arena0 span_arena0 reach_scenA3⟩

/-- C7 as stated fails, for two reasons.  Requests that wrap: on the small
arena, after `mm_init`, `mm_malloc(40)`, `mm_malloc(2^64 - 9)`, `mm_free` of
both pointers and `mm_malloc(4000)` twice, the free block at 8112 has the
header 122 and the footer 74.  Arenas beyond the range of `int`: on the
arena of 8 GiB, after `mm_init`, `mm_malloc(2^32 + 40)` and `mm_free(4112)`,
the free block at 4104 has the header `(2^32 + 4128) | 2`, and the word at
`4104 + (2^32 + 4128) - 8` holds 0: the boundary tag was written 8224 bytes
into the arena. -/
theorem C7_counterexample :
    (Env arena0 ∧ Reach SIZE_MAX arena0 torn_footer [(4160, 4000), (4112, 4000)] ∧
        ¬ FootersMatch torn_footer) ∧
      (Memlib arenaG ∧ Reach REQUEST_MAX arenaG big6 [] ∧ ¬ FootersMatch big6 ∧
        load big6 4104 = 4294971426 ∧ load big6 (4104 + 4294971424 - 8) = 0 ∧
        load big6 8224 = 4294971426) :=
  ⟨⟨env_arena0, reach_torn_footer,
      (examined torn_footer [4104, 8112] 8232 (by decide)).not.2 (by decide)⟩,
    ⟨memlib_arenaG, reach_big6, (examined big6 [4104] 8232 (by decide)).not.2 (by decide),
      by decide, by decide, by decide⟩⟩

/-- C8, amended: on an arena whose limit is less than `2^31` bytes above its
base, in every state reachable from `mm_init` by `mm_free` on live pointers,
client stores into live payloads and `mm_malloc` with requests of at most
`2^64 - 16` bytes, the walk that starts at `mem_heap_lo() + WORD_SIZE` and
advances by `SIZE(header)` visits blocks whose sizes are multiples of 8 and
at least `MIN_BLOCK_SIZE`, each block starting where the one before it ends,
and stops at the last word of the arena, which has `TAG_USED` set and
size 0. -/
theorem C8_tiled (h0 h : Heap) (L : List (Nat × Nat)) (hlib : Memlib h0)
    (hspan : h0.max < h0.lo + 2147483648) (hr : Reach REQUEST_MAX h0 h L) :
    Tiled h := by
  obtain ⟨xs, fl, hR, _⟩ := reach_good (Env.of_memlib hlib hspan) hr
  exact hR.tiled

/-- C8, witness: the arena is tiled after `mm_init`, `mm_malloc(8)`,
`mm_malloc(16)` and `mm_free` of the first pointer. -/
theorem C8_witness :
    Memlib arena0 ∧ arena0.max < arena0.lo + 2147483648 ∧
      Reach REQUEST_MAX arena0 scenA3 [(4144, 16)] ∧ Tiled scenA3 :=
  ⟨memlib_arena0, span_arena0, reach_scenA3,
    C8_tiled arena0 _ _ memlib_arena0 span_arena0 reach_scenA3⟩

/-- C8 as stated fails, for two reasons.  Requests that wrap: on the small
arena, after `mm_init`, `mm_malloc(40)`, `mm_malloc(2^64 - 9)`, `mm_free` of
both pointers and `mm_malloc(56)`, the header at 4168 holds 4168 and the
walk stops at 8336, behind the arena, whose last word is at 8232.  Arenas
beyond the range of `int`: on the arena of 8 GiB, after `mm_init` and
`mm_malloc(2^32 + 40)` the block at 4104 has size `2^32 + 48`, the walk goes
on at `4104 + 48` and stops at 8232, while the last word of the arena is at
`2^32 + 8232`. -/
theorem C8_counterexample :
    (Env arena0 ∧ Reach SIZE_MAX arena0 overrun [(4112, 56)] ∧ ¬ Tiled overrun) ∧
      (Memlib arenaG ∧ Reach REQUEST_MAX arenaG big1 [(4112, 4294967336)] ∧ ¬ Tiled big1 ∧
        examine_heap big1 = some ([4104, 4152], 8232) ∧ SIZE (load big1 4104) = 4294967344 ∧
        mem_heap_hi big1 - 7 = 4294975528) :=
  ⟨⟨env_arena0, reach_overrun, (examined overrun [4104, 4168] 8336 (by decide)).not.2 (by
      rintro ⟨_, _, _, he, _⟩
      revert he
      decide)⟩,
    ⟨memlib_arenaG, reach_big1, (examined big1 [4104, 4152] 8232 (by decide)).not.2 (by
      rintro ⟨_, _, _, he, _⟩
      revert he
      decide), by decide, by decide, by decide⟩⟩


/-- C9, amended: on an arena whose limit is less than `2^31` bytes above its
base, from every state reachable from `mm_init` by `mm_free` on live
pointers, client stores into live payloads and `mm_malloc` with requests of
at most `2^64 - 16` bytes, and for every `n` with `0 < n ≤ 2^64 - 16` for
which `p = mm_malloc(n)` returns: the following `mm_free(p)` returns, and
after it the free byte count of the arena is its value before the
`mm_malloc` call plus the number of bytes by which `mm_malloc` grew the
arena; `mm_free` leaves the arena bounds as they are. -/
theorem C9_free_bytes_restored (h0 h : Heap) (L : List (Nat × Nat)) (n : Nat) (h1 : Heap)
    (p : Nat) (hlib : Memlib h0) (hspan : h0.max < h0.lo + 2147483648)
    (hr : Reach REQUEST_MAX h0 h L) (hn : 0 < n) (hb : n ≤ REQUEST_MAX)
    (hm : mm_malloc h n = some (h1, p)) :
    ∃ h2 f, mm_free h1 p = some h2 ∧ free_bytes h = some f ∧
      free_bytes h2 = some (f + (h1.brk - h.brk)) ∧ h2.brk = h1.brk := by
  obtain ⟨xs, fl, hR, hreal, _⟩ := reach_good (Env.of_memlib hlib hspan) hr
  obtain ⟨xs1, fl1, g, sz, pu, hR1, rfl, hin1, _, h32, _, _, hfb, _⟩ :=
    mm_malloc_rep hR hreal hn (by simp only [REQUEST_MAX, WORD_MOD, WORD_SIZE] at *; omega) hm
  obtain ⟨h2, xs2, fl2, F, M, hfree, hse, hR2, _, _, _, _, hfb2, _⟩ :=
    mm_free_good hR1 hin1 rfl h32
  refine ⟨h2, freeBytes xs, hfree, hR.free_bytes_eq, ?_, hse.2.1⟩
  rw [hR2.free_bytes_eq, hfb2]
  simp only [] at hfb ⊢
  rw [hfb]

/-- C9, witness: `mm_malloc(16)` after `mm_init` and `mm_malloc(8)` grows the
arena by 4096 bytes, and after `mm_free` of its pointer the free byte count
is 4096. -/
theorem C9_witness :
    Memlib arena0 ∧ arena0.max < arena0.lo + 2147483648 ∧
      Reach REQUEST_MAX arena0 scenA1 [(4112, 8)] ∧ free_bytes scenA1 = some 0 ∧
      mm_malloc scenA1 16 = some (scenA2, 4144) ∧ scenA2.brk - scenA1.brk = 4096 ∧
      ∃ h2 f, mm_free scenA2 4144 = some h2 ∧ free_bytes scenA1 = some f ∧
        free_bytes h2 = some (f + (scenA2.brk - scenA1.brk)) ∧ h2.brk = scenA2.brk :=
  ⟨memlib_arena0, span_arena0, reach_scenA1, by decide, scenA2_eq, by decide,
    C9_free_bytes_restored arena0 scenA1 [(4112, 8)] 16 scenA2 4144 memlib_arena0 span_arena0
      reach_scenA1 (by decide) (by decide) scenA2_eq⟩

/-- C9 as stated fails, for three reasons.  Arena growth: on the small
arena, after `mm_init`, `mm_malloc(100)` grows the arena and `mm_free` of
its pointer leaves 4128 free bytes where 32 were free before.  Requests that
wrap: after `mm_init` and `mm_malloc(2^64 - 9)` no byte is free, and
`mm_malloc(8)` followed by `mm_free` of its pointer leaves 32 free bytes
without growing the arena.  Arenas beyond the range of `int`: on the arena
of 8 GiB, after `mm_init`, `mm_malloc(2^32 + 40)`, `mm_malloc(4000)`,
`mm_free(4112)` and `mm_malloc(4000)`, the calls `mm_malloc(8)` and
`mm_free` of its pointer 8120 do not grow the arena and change the free
byte count from `2^32 - 3888` to `2^32 + 4152`. -/
theorem C9_counterexample :
    (Env arena0 ∧ Reach REQUEST_MAX arena0 init0 [] ∧
        mm_malloc init0 100 = some (after_malloc init0 100, 4112) ∧
        mm_free (after_malloc init0 100) 4112 = some regrown ∧
        free_bytes init0 = some 32 ∧ free_bytes regrown = some 4128) ∧
      (Env arena0 ∧ Reach SIZE_MAX arena0 wrap1 [(4112, 18446744073709551607)] ∧
        mm_malloc wrap1 8 = some (wrap2, 4112) ∧ mm_free wrap2 4112 = some wrap3 ∧
        free_bytes wrap1 = some 0 ∧ free_bytes wrap3 = some 32 ∧ wrap2.brk = wrap1.brk) ∧
      (Memlib arenaG ∧ Reach REQUEST_MAX arenaG big7 [(4112, 4000), (4160, 4000)] ∧
        mm_malloc big7 8 = some (big8, 8120) ∧ mm_free big8 8120 = some big9 ∧
        free_bytes big7 = some 4294963408 ∧ free_bytes big9 = some 4294971448 ∧
        big8.brk = big7.brk) :=
  ⟨⟨env_arena0, reach_init0 _, malloc_eq (by decide), free_eq (by decide), by decide,
      by decide⟩,
    ⟨env_arena0, reach_wrap1, wrap2_eq, wrap3_eq, by decide, by decide, by decide⟩,
    ⟨memlib_arenaG, reach_big7, malloc_eq (by decide), free_eq (by decide), by decide,
      by decide, by decide⟩⟩

/-- C10, amended: on an arena whose limit is less than `2^31` bytes above
its base, in every state reachable from `mm_init` by `mm_free` on live
pointers, client stores into live payloads and `mm_malloc` with requests of
at most `2^64 - 16` bytes, for every live pointer `p` returned for a request
of `n` bytes and every `m` with `0 < m ≤ n`: `mm_free(p)` returns, the first
`search_free_list` of the following `mm_malloc(m)` finds a block, so that
`request_more_space` is not called and the arena keeps its size, and
`mm_malloc(m)` returns `p` when every block that ends where the block of `p`
starts is used at the time of the free. -/
theorem C10_lifo_reuse (h0 h : Heap) (L : List (Nat × Nat)) (p n m : Nat) (hlib : Memlib h0)
    (hspan : h0.max < h0.lo + 2147483648) (hr : Reach REQUEST_MAX h0 h L)
    (hin : (p, n) ∈ L) (hm : 0 < m) (hmn : m ≤ n) :
    ∃ h1 h2 g, mm_free h p = some h1 ∧
      search_free_list h1 (mm_malloc_req_size m) = some g ∧ g ≠ 0 ∧
      mm_malloc_find h1 (mm_malloc_req_size m) = some (h1, g) ∧
      mm_malloc h1 m = some (h2, g + WORD_SIZE) ∧ h2.brk = h1.brk ∧
      ((∀ bs e a, examine_heap h = some (bs, e) → a ∈ bs →
          a + SIZE (load h a) + WORD_SIZE = p → ¬ is_free h a) → g + WORD_SIZE = p) := by
  obtain ⟨xs, fl, hR, hreal, hnd, hlive⟩ := reach_good (Env.of_memlib hlib hspan) hr
  obtain ⟨b, hb, hbu, b32, hp, hfit⟩ := hlive _ hin
  simp only [] at hp hfit
  have hbb := hR.shape.geo.bounds hb
  obtain ⟨h1, xs1, fl1, F, M, hfree, hse, hR1, hM, hMs, hFp, _, _⟩ :=
    mm_free_good hR hb hbu b32
  have hnb : n + 16 ≤ WORD_MOD := by simp only [WORD_MOD]; omega
  have hreq : mm_malloc_req_size m ≤ b.size :=
    req_size_mono m n b.size hm hmn hnb hbb.2.2.1 b32 hfit
  obtain ⟨r32, r8, _⟩ := req_size_spec m hm (by omega)
  have hsz : SIZE (h1.mem F) = M := hR1.size_eq hM
  have hfitF : mm_malloc_req_size m ≤ SIZE (h1.mem F) := by rw [hsz]; omega
  obtain ⟨hs, hF0, hfind⟩ := malloc_find_hit hR1 hfitF
  obtain ⟨h2, xs2, fl2, sz, hpl, se2, _⟩ :=
    malloc_place_rep hR1 (List.mem_cons_self F fl1) hfitF r32 r8
  refine ⟨h1, h2, F, by rw [hp]; exact hfree, hs, hF0, hfind, ?_, se2.2.1, ?_⟩
  · unfold mm_malloc
    rw [if_neg (by omega), hfind]
    simp only [hpl, WORD_SIZE]
  · intro hprev
    suffices hpu : b.pu = true by
      rw [hFp hpu, hp]
    obtain ⟨pre, c, rest, rfl⟩ := hR.shape.geo.split_real hb b32
    obtain ⟨pre1, back, rfl, hback, hbl, hbpu⟩ := hR.back_run
    apply hbpu.1
    cases back with
    | nil => rfl
    | cons q r =>
      exfalso
      have hr0 : r = [] := by
        cases r with
        | nil => rfl
        | cons q2 r2 => simp at hbl
      subst hr0
      have hqin : q ∈ pre1 ++ [q] ++ b :: c :: rest := by simp
      have hqu : q.used = false := (hback q (by simp)).1
      obtain ⟨bl, s, hxs⟩ := hR.shape.geo.snoc
      have hR' := hR
      rw [hxs] at hR'
      have hex := hR'.examine
      have hsu : s.used = true := (EndsAt_append_cons.1 hR'.shape.geo.ends).2.2.1
      have hqbl : q ∈ bl := by
        rw [hxs] at hqin
        rcases List.mem_append.1 hqin with hq | hq
        · exact hq
        · rw [List.mem_singleton.1 hq, hsu] at hqu
          cases hqu
      have hseg := hR.shape.geo.seg
      have hx : pre1 ++ [q] ++ b :: c :: rest = pre1 ++ q :: b :: c :: rest := by simp
      rw [hx] at hseg
      have hnext : b.addr = q.addr + q.size := Seg_next hseg
      have := hprev _ _ q.addr hex (List.mem_map_of_mem _ hqbl) (by
        rw [hR.size_eq hqin]
        simp only [WORD_SIZE]
        omega)
      exact this ((hR.is_free_iff hqin).2 hqu)

/-- C10, witness (scenario A): after `mm_init`, `p1 = mm_malloc(8)` and
`p2 = mm_malloc(16)` on the concrete arena, `mm_free(p1)` followed by
`mm_malloc(8)` returns `p1 = 4112` and leaves the arena size as it is. -/
theorem C10_witness :
    Memlib arena0 ∧ arena0.max < arena0.lo + 2147483648 ∧
      Reach REQUEST_MAX arena0 scenA2 [(4144, 16), (4112, 8)] ∧
      mm_init arena0 = some (init0, 0) ∧ mm_malloc init0 8 = some (scenA1, 4112) ∧
      mm_malloc scenA1 16 = some (scenA2, 4144) ∧
      ∃ h1 h2, mm_free scenA2 4112 = some h1 ∧ mm_malloc h1 8 = some (h2, 4112) ∧
        h2.brk = h1.brk := by
  refine ⟨memlib_arena0, span_arena0, reach_scenA2, init0_eq, scenA1_eq, scenA2_eq, ?_⟩
  obtain ⟨h1, h2, g, r1, _, _, _, r5, r6, r7⟩ :=
    C10_lifo_reuse arena0 scenA2 _ 4112 8 8 memlib_arena0 span_arena0 reach_scenA2 (by decide)
      (by decide) (by decide)
  have hg : g + WORD_SIZE = 4112 := by
    apply r7
    intro bs e a hw
    have hv : examine_heap scenA2 = some ([4104, 4136, 4168], 8232) := by decide
    rw [hv] at hw
    simp only [Option.some.injEq, Prod.mk.injEq] at hw
    rw [← hw.1]
    revert a
    decide
  rw [hg] at r5
  exact ⟨h1, h2, r1, r5, r6⟩

/-- C10 as stated fails, for two reasons.  Requests that wrap: on the small
arena, after `mm_init`, `mm_malloc(2^64 - 1)` returns 4112, the payload of a
block of 32 bytes; after `mm_free(4112)` the first `search_free_list` of
`mm_malloc(100)` returns `NULL`, although `100 ≤ 2^64 - 1`.  Arenas beyond
the range of `int`: on the arena of 8 GiB, after `mm_init`,
`mm_malloc(2^32 + 8)` returns 4112 for a block of `2^32 + 16` bytes, and
`mm_free(4112)` does not return: it takes the word at `4104 + 16` for the
following block, the free-list insertion stores `NULL` there, and the second
loop of `coalesce_free_block` never leaves this word of size 0. -/
theorem C10_counterexample :
    (Env arena0 ∧ Reach SIZE_MAX arena0 huge1 [(4112, 18446744073709551615)] ∧
        mm_free huge1 4112 = some huge2 ∧
        search_free_list huge2 (mm_malloc_req_size 100) = some 0) ∧
      (Memlib arenaG ∧ Reach REQUEST_MAX arenaG bigB [(4112, 4294967304)] ∧
        SIZE (load bigB 4104) = 4294967312 ∧ mm_free bigB 4112 = none) :=
  ⟨⟨env_arena0, reach_huge1, free_eq (by decide), by decide⟩,
    ⟨memlib_arenaG, reach_bigB, by decide, bigB_free_stuck⟩⟩


/-- In a state reached with requests that do not wrap, the pointer that
`mm_malloc` returns for such a request is a multiple of `ALIGNMENT`. -/
theorem mm_malloc_aligned (h0 h : Heap) (L : List (Nat × Nat)) (n : Nat) (h1 : Heap) (p : Nat)
    (he : Env h0) (hr : Reach REQUEST_MAX h0 h L) (hn : 0 < n) (hb : n ≤ REQUEST_MAX)
    (hm : mm_malloc h n = some (h1, p)) : ALIGNMENT ∣ p := by
  obtain ⟨xs, fl, hR, hreal, _⟩ := reach_good he hr
  obtain ⟨xs1, fl1, g, sz, pu, hR1, rfl, hin1, _⟩ :=
    mm_malloc_rep hR hreal hn (by simp only [REQUEST_MAX, WORD_MOD, WORD_SIZE] at *; omega) hm
  have := (hR1.shape.geo.bounds hin1).2.2.2.1
  simp only [ALIGNMENT] at *
  omega



/-! ### Claims on `mm_init`, `mm_free(NULL)`, the request size, the search and the unlinking -/

/-- C12: when `mem_sbrk` succeeds on an empty arena, `mm_init` returns 0 and
leaves an arena of `2 * WORD_SIZE + MIN_BLOCK_SIZE` bytes: `FREE_LIST_HEAD`
points to the block at `mem_heap_lo() + WORD_SIZE`, which is the only block
of the arena and of the free list; it is free, header and footer are
`MIN_BLOCK_SIZE | TAG_PRECEDING_USED`, `next` and `prev` are `NULL`, it ends
where the last word of the arena starts, and the last word is `TAG_USED`. -/
theorem C12_init (h0 : Heap) (hb : h0.brk = mem_heap_lo h0)
    (hs : (mem_sbrk h0 (WORD_SIZE + MIN_BLOCK_SIZE + WORD_SIZE)).isSome = true)
    (hmax : h0.max < WORD_MOD) :
    ∃ h, mm_init h0 = some (h, 0) ∧ mem_heap_lo h = mem_heap_lo h0 ∧
      h.brk = mem_heap_lo h + (2 * WORD_SIZE + MIN_BLOCK_SIZE) ∧
      FREE_LIST_HEAD h = mem_heap_lo h + WORD_SIZE ∧
      examine_heap h =
        some ([mem_heap_lo h + WORD_SIZE], mem_heap_lo h + WORD_SIZE + MIN_BLOCK_SIZE) ∧
      free_list h = some [mem_heap_lo h + WORD_SIZE] ∧
      is_free h (mem_heap_lo h + WORD_SIZE) ∧
      load h (mem_heap_lo h + WORD_SIZE) = MIN_BLOCK_SIZE ||| TAG_PRECEDING_USED ∧
      load h (mem_heap_lo h + WORD_SIZE + MIN_BLOCK_SIZE - WORD_SIZE) =
        MIN_BLOCK_SIZE ||| TAG_PRECEDING_USED ∧
      load h (next_field (mem_heap_lo h + WORD_SIZE)) = 0 ∧
      load h (prev_field (mem_heap_lo h + WORD_SIZE)) = 0 ∧
      mem_heap_lo h + WORD_SIZE + MIN_BLOCK_SIZE =
        UNSCALED_POINTER_SUB (mem_heap_hi h) (WORD_SIZE - 1) ∧
      load h (UNSCALED_POINTER_SUB (mem_heap_hi h) (WORD_SIZE - 1)) = TAG_USED := by
  unfold mem_heap_lo at hb
  have hm : h0.lo + 48 ≤ h0.max := by
    unfold mem_sbrk at hs
    simp only [WORD_SIZE, MIN_BLOCK_SIZE, hb] at hs
    by_contra hc
    rw [if_neg hc] at hs
    cases hs
  simp only [WORD_MOD] at hmax
  have hlt : h0.lo + 48 < WORD_MOD := by simp only [WORD_MOD]; omega
  obtain ⟨H, hH⟩ : ∃ H, H = store (store (store (store (store (store
      { h0 with brk := h0.lo + 48 } (h0.lo + 8) 34) (h0.lo + 16) 0) (h0.lo + 24) 0)
      (h0.lo + 32) 34) (h0.lo + 40) 1) h0.lo (h0.lo + 8) := ⟨_, rfl⟩
  have hi := mm_init_eq hlt hb hm
  rw [← hH] at hi
  have hlo : H.lo = h0.lo := by rw [hH]; rfl
  have hbrk : H.brk = h0.lo + 48 := by rw [hH]; rfl
  have m0 : H.mem h0.lo = h0.lo + 8 := by
    rw [hH]; simp (disch := omega) only [mem_store_of_eq, mem_store_of_ne]
  have m8 : H.mem (h0.lo + 8) = 34 := by
    rw [hH]; simp (disch := omega) only [mem_store_of_eq, mem_store_of_ne]
  have m16 : H.mem (h0.lo + 16) = 0 := by
    rw [hH]; simp (disch := omega) only [mem_store_of_eq, mem_store_of_ne]
  have m24 : H.mem (h0.lo + 24) = 0 := by
    rw [hH]; simp (disch := omega) only [mem_store_of_eq, mem_store_of_ne]
  have m32 : H.mem (h0.lo + 32) = 34 := by
    rw [hH]; simp (disch := omega) only [mem_store_of_eq, mem_store_of_ne]
  have m40 : H.mem (h0.lo + 40) = 1 := by
    rw [hH]; simp (disch := omega) only [mem_store_of_eq, mem_store_of_ne]
  clear hH
  have e1 : UNSCALED_POINTER_ADD h0.lo 8 = h0.lo + 8 :=
    ptr_add _ _ (by omega) (by simp only [WORD_MOD]; omega)
  have e2 : UNSCALED_POINTER_ADD (h0.lo + 8) 32 = h0.lo + 40 := by
    rw [ptr_add _ _ (by omega) (by simp only [WORD_MOD]; omega)]
  have e3 : UNSCALED_POINTER_SUB (h0.lo + 48 - 1) 7 = h0.lo + 40 := by
    rw [ptr_sub _ _ (by omega) (by omega) (by simp only [WORD_MOD]; omega)]; omega
  have s34 : SIZE 34 = 32 := by decide
  have s1 : SIZE 1 = 0 := by decide
  have hf : loop_fuel H = 46 + 1 + 1 := by unfold loop_fuel; omega
  have e4 : h0.lo + 8 + 32 - 8 = h0.lo + 32 := by omega
  have e5 : h0.lo + 8 + 32 = h0.lo + 40 := by omega
  refine ⟨H, hi, hlo, ?_, ?_, ?_, ?_, ?_, ?_, ?_, ?_, ?_, ?_, ?_⟩
  · simp only [mem_heap_lo, hlo, hbrk, WORD_SIZE, MIN_BLOCK_SIZE]
  · simp only [FREE_LIST_HEAD, mem_heap_lo, load_eq, hlo, m0, WORD_SIZE]
  · unfold examine_heap
    rw [hf]
    simp only [mem_heap_lo, hlo, WORD_SIZE, MIN_BLOCK_SIZE, e1, e5]
    rw [examine_loop, load_eq, m8, s34, e2, examine_loop, load_eq, m40, s1,
      if_pos ⟨by decide, by unfold mem_heap_hi; omega⟩, if_neg (by simp)]
  · unfold free_list
    rw [hf]
    simp only [FREE_LIST_HEAD, mem_heap_lo, load_eq, hlo, m0, WORD_SIZE]
    rw [free_list_loop, if_neg (by omega), load_eq, next_field_eq, m16, free_list_loop,
      if_pos rfl]
  · simp only [is_free, mem_heap_lo, load_eq, hlo, WORD_SIZE, m8]
    decide
  · simp only [mem_heap_lo, load_eq, hlo, WORD_SIZE, m8]
    decide
  · simp only [mem_heap_lo, load_eq, hlo, WORD_SIZE, MIN_BLOCK_SIZE, e4, m32]
    decide
  · simp only [mem_heap_lo, load_eq, hlo, WORD_SIZE, next_field_eq, m16]
  · simp only [mem_heap_lo, load_eq, hlo, WORD_SIZE, prev_field_eq]
    have : h0.lo + 8 + 16 = h0.lo + 24 := by omega
    rw [this, m24]
  · simp only [mem_heap_lo, mem_heap_hi, hlo, hbrk, WORD_SIZE, MIN_BLOCK_SIZE, e3, e5]
  · simp only [mem_heap_hi, load_eq, hbrk, WORD_SIZE, e3, m40, TAG_USED]

/-- C12, witness: `mm_init` on the concrete empty arena. -/
theorem C12_witness :
    arena0.brk = mem_heap_lo arena0 ∧
      (mem_sbrk arena0 (WORD_SIZE + MIN_BLOCK_SIZE + WORD_SIZE)).isSome = true ∧
      ∃ h, mm_init arena0 = some (h, 0) ∧ h.brk = mem_heap_lo h + 48 ∧
        examine_heap h = some ([4104], 4136) :=
  ⟨rfl, by decide, by
    obtain ⟨h, r1, r2, r3, _, r5, _⟩ := C12_init arena0 rfl (by decide) (by decide)
    have e : mem_heap_lo h = 4096 := r2
    rw [e] at r3 r5
    exact ⟨h, r1, by rw [e]; exact r3, r5⟩⟩

theorem req_size_unbounded_spec (n : Nat) :
    8 ∣ req_size_unbounded n ∧ max (n + WORD_SIZE) MIN_BLOCK_SIZE ≤ req_size_unbounded n ∧
      ∀ s, 8 ∣ s → max (n + WORD_SIZE) MIN_BLOCK_SIZE ≤ s → req_size_unbounded n ≤ s := by
  unfold req_size_unbounded
  simp only [ALIGNMENT, WORD_SIZE, MIN_BLOCK_SIZE]
  generalize max (n + 8) 32 = m
  refine ⟨Dvd.intro _ rfl, by omega, fun s hs hm => ?_⟩
  obtain ⟨k, rfl⟩ := hs
  omega

/-- C14 (amended): for every request `0 < n ≤ 2^64 - 16` the block size that
`mm_malloc` computes in `size_t` arithmetic is the smallest multiple of
`ALIGNMENT` that is at least `max (n + WORD_SIZE) MIN_BLOCK_SIZE` over the
unbounded integers, and `req_size - WORD_SIZE ≥ n`. -/
theorem C14_req_size (n : Nat) (hn : 0 < n) (hb : n ≤ REQUEST_MAX) :
    mm_malloc_req_size n = req_size_unbounded n ∧
      ALIGNMENT ∣ mm_malloc_req_size n ∧
      max (n + WORD_SIZE) MIN_BLOCK_SIZE ≤ mm_malloc_req_size n ∧
      (∀ s, ALIGNMENT ∣ s → max (n + WORD_SIZE) MIN_BLOCK_SIZE ≤ s → mm_malloc_req_size n ≤ s) ∧
      n ≤ mm_malloc_req_size n - WORD_SIZE := by
  have hb2 : n + 16 ≤ WORD_MOD := by
    simp only [REQUEST_MAX, WORD_MOD, WORD_SIZE] at *
    omega
  obtain ⟨r32, r8, rn, _, rmin⟩ := req_size_spec n hn hb2
  obtain ⟨u8, um, umin⟩ := req_size_unbounded_spec n
  simp only [ALIGNMENT, WORD_SIZE, MIN_BLOCK_SIZE] at *
  have hmax : max (n + 8) 32 ≤ mm_malloc_req_size n := max_le rn r32
  have hmin : ∀ s, 8 ∣ s → max (n + 8) 32 ≤ s → mm_malloc_req_size n ≤ s := fun s h8 hm =>
    rmin s h8 (le_trans (le_max_right _ _) hm) (le_trans (le_max_left _ _) hm)
  exact ⟨le_antisymm (hmin _ u8 um) (umin _ r8 hmax), r8, hmax, hmin, by omega⟩

/-- C14, witness: a request of 100 bytes gives a block of 112 bytes. -/
theorem C14_witness :
    0 < 100 ∧ 100 ≤ REQUEST_MAX ∧ mm_malloc_req_size 100 = 112 ∧ req_size_unbounded 100 = 112 :=
  ⟨by decide, by decide, by decide, (C14_req_size 100 (by decide) (by decide)).1.symm.trans
    (by decide)⟩

/-- C14, counterexample: the request `n = 2^64 - 9` is a non-zero `size_t`;
`n + WORD_SIZE` is `2^64 - 1`, rounding it up to a multiple of 8 wraps, and
`mm_malloc` computes the block size 0, which is neither the smallest multiple
of 8 above `n + WORD_SIZE` nor large enough for the payload. -/
theorem C14_counterexample :
    0 < 18446744073709551607 ∧ 18446744073709551607 < WORD_MOD ∧
      mm_malloc_req_size 18446744073709551607 = 0 ∧
      req_size_unbounded 18446744073709551607 = 18446744073709551616 ∧
      ¬ 18446744073709551607 ≤ mm_malloc_req_size 18446744073709551607 - WORD_SIZE := by
  decide

/-- First fit along `next`: when the walk from `a` reaches `NULL` within the
fuel and reads the list `l`, the search with the same fuel returns the first
node of `l` that is large enough, or `NULL` when there is none. -/
theorem search_loop_first_fit {h : Heap} (req : Nat) :
    ∀ (k a : Nat) (l : List Nat), free_list_loop h k a = some l →
      (∀ g ∈ l, g ≠ 0) ∧
      ((search_loop h req k a = some 0 ∧ ∀ g ∈ l, SIZE (load h g) < req) ∨
        ∃ l1 g l2, l = l1 ++ g :: l2 ∧ search_loop h req k a = some g ∧
          req ≤ SIZE (load h g) ∧ ∀ x ∈ l1, SIZE (load h x) < req) := by
  intro k
  induction k with
  | zero =>
    intro a l hl
    simp [free_list_loop] at hl
  | succ k ih =>
    intro a l hl
    unfold free_list_loop at hl
    unfold search_loop
    by_cases ha : a = 0
    · rw [if_pos ha] at hl
      rw [if_pos ha]
      cases hl
      exact ⟨fun g hg => (by cases hg), Or.inl ⟨rfl, fun g hg => (by cases hg)⟩⟩
    · rw [if_neg ha] at hl
      rw [if_neg ha]
      cases hr : free_list_loop h k (load h (next_field a)) with
      | none => rw [hr] at hl; cases hl
      | some r =>
        rw [hr] at hl
        cases hl
        obtain ⟨hnz, hres⟩ := ih _ _ hr
        refine ⟨fun g hg => ?_, ?_⟩
        · rcases List.mem_cons.1 hg with rfl | hg
          · exact ha
          · exact hnz g hg
        · by_cases hfit : SIZE (load h a) ≥ req
          · rw [if_pos hfit]
            exact Or.inr ⟨[], a, r, rfl, rfl, hfit, fun x hx => (by cases hx)⟩
          · rw [if_neg hfit]
            rcases hres with ⟨h0, hall⟩ | ⟨l1, g, l2, rfl, hs, hg, hl1⟩
            · refine Or.inl ⟨h0, fun g hg => ?_⟩
              rcases List.mem_cons.1 hg with rfl | hg
              · omega
              · exact hall g hg
            · refine Or.inr ⟨a :: l1, g, l2, rfl, hs, hg, fun x hx => ?_⟩
              rcases List.mem_cons.1 hx with rfl | hx
              · omega
              · exact hl1 x hx

/-- C18: first fit in list order.  When the walk along `next` from
`FREE_LIST_HEAD` reaches `NULL` and reads the list `l`, then
`search_free_list(req_size)` returns the first block of `l` whose `SIZE` is
at least `req_size`, and it returns `NULL` if and only if no block of `l` has
such a size.  The function only reads: its result is an address, the arena is
not part of it. -/
theorem C18_first_fit (h : Heap) (l : List Nat) (req_size : Nat)
    (hl : free_list h = some l) :
    ((search_free_list h req_size = some 0 ∧ ∀ g ∈ l, SIZE (load h g) < req_size) ∨
      ∃ l1 g l2, l = l1 ++ g :: l2 ∧ search_free_list h req_size = some g ∧ g ≠ 0 ∧
        req_size ≤ SIZE (load h g) ∧ ∀ x ∈ l1, SIZE (load h x) < req_size) ∧
    (search_free_list h req_size = some 0 ↔ ∀ g ∈ l, SIZE (load h g) < req_size) := by
  unfold free_list at hl
  unfold search_free_list
  obtain ⟨hnz, hres⟩ := search_loop_first_fit req_size _ _ _ hl
  rcases hres with ⟨h0, hall⟩ | ⟨l1, g, l2, rfl, hs, hg, hl1⟩
  · exact ⟨Or.inl ⟨h0, hall⟩, fun _ => hall, fun _ => h0⟩
  · have hg0 : g ≠ 0 := hnz g (by simp)
    refine ⟨Or.inr ⟨l1, g, l2, rfl, hs, hg0, hg, hl1⟩, fun h0 => ?_, fun hall => ?_⟩
    · rw [hs] at h0
      exact absurd (Option.some.inj h0) hg0
    · have := hall g (by simp)
      omega

/-- C18, witness: after `mm_init`, `mm_malloc(8)`, `mm_malloc(16)` and
`mm_free` of the first block the free list is `[4104, 4168]`, and the search
for 64 bytes skips the block of 32 bytes at 4104 and returns 4168. -/
theorem C18_witness :
    free_list scenA3 = some [4104, 4168] ∧ search_free_list scenA3 64 = some 4168 ∧
      SIZE (load scenA3 4104) < 64 := by
  have hl : free_list scenA3 = some [4104, 4168] := by decide
  refine ⟨hl, ?_, by decide⟩
  rcases (C18_first_fit scenA3 _ 64 hl).1 with ⟨h0, _⟩ | ⟨l1, g, l2, _, hs, _⟩
  · rw [h0]
    exact absurd h0 (by decide)
  · rw [hs]
    exact hs.symm.trans (by decide)

theorem dseg_headD_next {h : Heap} {p b : Nat} {r : List Nat} {a z : Nat}
    (hd : dseg h p (b :: r) a z) : h.mem (next_field b) = r.headD z :=
  dseg_head hd.2.2.2

/-- C19: unlinking a block from a well-formed doubly-linked free list.  When
the free list reads as the sequence `L` from `FREE_LIST_HEAD` (no repeats,
each `prev` is the predecessor, the `prev` of the first node is `NULL`, the
nodes are blocks behind the head word and at least `MIN_BLOCK_SIZE` apart)
and `b` is in `L`, then after `remove_free_block(b)` the list reads as `L`
with `b` erased, in the same order, and is again well-formed; when `b` is the
first node the head word holds what was the `next` of `b`, and otherwise the
head word is unchanged. -/
theorem C19_remove (h : Heap) (L : List Nat) (b : Nat) (hlinks : FreeList h L)
    (hnd : L.Nodup) (hsp : Spaced h.lo L) (hb : b ∈ L) :
    FreeList (remove_free_block h b) (L.erase b) ∧ (L.erase b).Nodup ∧
      Spaced (remove_free_block h b).lo (L.erase b) ∧ (L.erase b).Sublist L ∧
      b ∉ L.erase b ∧ (∀ x ∈ L, x ≠ b → x ∈ L.erase b) ∧
      (L.head? = some b →
        FREE_LIST_HEAD (remove_free_block h b) = load h (next_field b)) ∧
      (L.head? ≠ some b → FREE_LIST_HEAD (remove_free_block h b) = FREE_LIST_HEAD h) := by
  obtain ⟨hfl, _⟩ := remove_free_block_links hlinks hnd hsp hb
  have hlo : (remove_free_block h b).lo = h.lo := (remove_sameEnv h b).1
  have hsub : (L.erase b).Sublist L := List.erase_sublist b L
  refine ⟨hfl, hnd.sublist hsub, ?_, hsub, ?_, ?_, ?_, ?_⟩
  · rw [hlo]
    exact ⟨fun x hx => hsp.1 x (hsub.subset hx),
      fun x hx y hy => hsp.2 x (hsub.subset hx) y (hsub.subset hy)⟩
  · exact fun hm => (List.Nodup.mem_erase_iff hnd).1 hm |>.1 rfl
  · exact fun x hx hne => (List.mem_erase_of_ne hne).2 hx
  · intro hh
    cases L with
    | nil => cases hb
    | cons x r =>
      simp only [List.head?_cons, Option.some.injEq] at hh
      subst hh
      rw [List.erase_cons_head] at hfl
      have e1 : (remove_free_block h x).mem (remove_free_block h x).lo = r.headD 0 :=
        dseg_head hfl
      have e2 : h.mem (next_field x) = r.headD 0 := dseg_headD_next hlinks
      unfold FREE_LIST_HEAD mem_heap_lo
      rw [load_eq, load_eq, e1, e2]
  · intro hh
    cases L with
    | nil => cases hb
    | cons x r =>
      simp only [List.head?_cons, ne_eq, Option.some.injEq] at hh
      rw [List.erase_cons_tail (by simpa using hh)] at hfl
      have e1 : (remove_free_block h b).mem (remove_free_block h b).lo = x := dseg_head hfl
      have e2 : h.mem h.lo = x := dseg_head hlinks
      unfold FREE_LIST_HEAD mem_heap_lo
      rw [load_eq, load_eq, e1, e2]

theorem freeList_scenA3 : FreeList scenA3 [4104, 4168] := by
  unfold FreeList
  simp only [dseg, prev_field_eq, next_field_eq]
  decide

theorem spaced_scenA3 : Spaced scenA3.lo [4104, 4168] := by
  unfold Spaced
  decide

/-- C19, witness: after `mm_init`, `mm_malloc(8)`, `mm_malloc(16)` and
`mm_free` of the first block the free list reads `[4104, 4168]`; removing
4168, which is not the head, leaves `[4104]`, and removing the head 4104
leaves `[4168]`. -/
theorem C19_witness :
    FreeList scenA3 [4104, 4168] ∧ FreeList (remove_free_block scenA3 4168) [4104] ∧
      FREE_LIST_HEAD (remove_free_block scenA3 4168) = 4104 :=
  have hr := C19_remove scenA3 [4104, 4168] 4168 freeList_scenA3 (by decide) spaced_scenA3
    (by decide)
  ⟨freeList_scenA3, hr.1, (hr.2.2.2.2.2.2.2 (by decide)).trans (by decide)⟩


/-! ### Claims on arena growth, coalescing and placement -/

/-- C15 (amended): the second search of `mm_malloc` succeeds.  On an arena
whose limit is less than `2^31` bytes above its base, from a state reachable
from `mm_init` by `mm_free` on live pointers, client stores into live
payloads and `mm_malloc` with requests of at most `2^64 - 16` bytes, let
`req_size > 0` be such that rounding it up to whole pages does not wrap
(`req_size + pagesize ≤ 2^64`) and gives at least `MIN_BLOCK_SIZE` bytes
(`req_size` or the page size is at least `MIN_BLOCK_SIZE`), let
`search_free_list(req_size)` have returned `NULL` and let `mem_sbrk` succeed
on the rounded size.  Then `request_more_space(req_size)` returns, and the
second `search_free_list(req_size)` returns the head of the free list, which
is not `NULL` and is a free block of size at least `req_size`. -/
theorem C15_second_search (h0 h : Heap) (L : List (Nat × Nat)) (req_size : Nat)
    (hlib : Memlib h0) (hspan : h0.max < h0.lo + 2147483648)
    (hr : Reach REQUEST_MAX h0 h L) (hreq : 0 < req_size)
    (hnw : req_size + mem_pagesize h ≤ WORD_MOD)
    (hmin : MIN_BLOCK_SIZE ≤ req_size ∨ MIN_BLOCK_SIZE ≤ mem_pagesize h)
    (hs : search_free_list h req_size = some 0)
    (hsb : (mem_sbrk h (request_total_size h req_size)).isSome = true) :
    ∃ h1 g, request_more_space h req_size = some h1 ∧
      search_free_list h1 req_size = some g ∧ g ≠ 0 ∧ g = FREE_LIST_HEAD h1 ∧
      is_free h1 g ∧ req_size ≤ SIZE (load h1 g) ∧
      mm_malloc_find h req_size = some (h1, g) := by
  obtain ⟨xs, fl, hR, _, _⟩ := reach_good (Env.of_memlib hlib hspan) hr
  obtain ⟨bl, s, rfl⟩ := hR.shape.geo.snoc
  have hmin2 : 32 ≤ req_size ∨ (0 < req_size ∧ 32 ≤ h.pagesize) := by
    rcases hmin with h1 | h1
    · exact Or.inl h1
    · exact Or.inr ⟨hreq, h1⟩
  obtain ⟨T, hreqT, _, _, _, hsome, hT, _⟩ := request_more_space_rep hR hmin2 hnw
  have hroom : h.brk + T ≤ h.max := by
    rw [hT]
    unfold mem_sbrk at hsb
    by_contra hc
    rw [if_neg hc] at hsb
    cases hsb
  obtain ⟨h1, pre1, back, hrm, _, _, _, _, _, _, _, _, hR1, _⟩ := hsome hroom
  have hMin : (⟨(firstBlk back s).addr, total back + T, false, true⟩ : Blk) ∈
      pre1 ++ [⟨(firstBlk back s).addr, total back + T, false, true⟩,
        ⟨s.addr + T, 0, true, false⟩] := by simp
  have hsz : SIZE (load h1 (firstBlk back s).addr) = total back + T :=
    hR1.size_eq (b := ⟨(firstBlk back s).addr, total back + T, false, true⟩) hMin
  have hfit : req_size ≤ SIZE (h1.mem (firstBlk back s).addr) := by
    rw [← load_eq, hsz]; omega
  obtain ⟨hs2, hg0, _⟩ := malloc_find_hit hR1 hfit
  refine ⟨h1, (firstBlk back s).addr, hrm, hs2, hg0, ?_, ?_, hfit, ?_⟩
  · have := dseg_head hR1.links
    exact this.symm
  · exact (hR1.is_free_iff (b := ⟨(firstBlk back s).addr, total back + T, false, true⟩)
      hMin).2 rfl
  · unfold mm_malloc_find
    rw [hs]
    simp only [if_true, hrm, hs2]

/-- C15, witness (scenario A): after `mm_init` and `mm_malloc(8)` the free
list is empty; `request_more_space(32)` grows the arena by one page and the
second search returns the new block at 4136. -/
theorem C15_witness :
    Memlib arena0 ∧ arena0.max < arena0.lo + 2147483648 ∧
      Reach REQUEST_MAX arena0 scenA1 [(4112, 8)] ∧ search_free_list scenA1 32 = some 0 ∧
      (mem_sbrk scenA1 (request_total_size scenA1 32)).isSome = true ∧
      ∃ h1, request_more_space scenA1 32 = some h1 ∧ search_free_list h1 32 = some 4136 := by
  obtain ⟨h1, g, r1, r2, _, r4, _⟩ :=
    C15_second_search arena0 scenA1 _ 32 memlib_arena0 span_arena0 reach_scenA1 (by decide)
      (by decide) (Or.inl (by decide)) (by decide) (by decide)
  refine ⟨memlib_arena0, span_arena0, reach_scenA1, by decide, by decide, h1, r1, ?_⟩
  have hg : g = 4136 := by
    rw [r4]
    have e : (request_more_space scenA1 32).map FREE_LIST_HEAD = some 4136 := by decide
    rw [r1] at e
    exact Option.some.inj e
  rw [r2, hg]

/-- C15 as stated fails, for three reasons.  Rounding that wraps: on the
small arena, right after `mm_init`, for `req_size = 2^64 - 8` (the block
size that `mm_malloc` computes for a request of `2^64 - 17` bytes) the first
search returns `NULL`; the rounding to whole pages wraps to 0 bytes,
`mem_sbrk(0)` succeeds, and `request_more_space` does not return: there is
no second search.  Pages below `MIN_BLOCK_SIZE`: on the arena with pages of
16 bytes, after `mm_init` and `mm_malloc(8)` the free list is empty; for
`req_size = 8` the arena grows by 16 bytes, the new block is too small for
its link fields, `insert_free_block` stores `NULL` as its `prev` over the
new sentinel, and `coalesce_free_block` takes the sentinel for a free block
of size 0: `request_more_space` does not return.  Arenas beyond the range
of `int`: on the arena of 8 GiB, right after `mm_init`, for
`req_size = 2^32` the first search returns `NULL` and the arena grows by
`2^32` bytes; the new sentinel is stored at the new block plus `(int) 2^32`,
which is the new block itself, and the backward loop of
`coalesce_free_block` never leaves it: `request_more_space` does not
return. -/
theorem C15_counterexample :
    (Env arena0 ∧ Reach REQUEST_MAX arena0 init0 [] ∧ 0 < 18446744073709551608 ∧
        mm_malloc_req_size 18446744073709551599 = 18446744073709551608 ∧
        search_free_list init0 18446744073709551608 = some 0 ∧
        request_total_size init0 18446744073709551608 = 0 ∧
        (mem_sbrk init0 (request_total_size init0 18446744073709551608)).isSome = true ∧
        (request_more_space init0 18446744073709551608).isSome = false) ∧
      (Env arena16 ∧ Reach REQUEST_MAX arena16 small1 [(4112, 8)] ∧
        8 + mem_pagesize small1 ≤ WORD_MOD ∧ mem_pagesize small1 = 16 ∧
        search_free_list small1 8 = some 0 ∧ request_total_size small1 8 = 16 ∧
        (mem_sbrk small1 (request_total_size small1 8)).isSome = true ∧
        (request_more_space small1 8).isSome = false) ∧
      (Memlib arenaG ∧ Reach REQUEST_MAX arenaG big0 [] ∧
        4294967296 + mem_pagesize big0 ≤ WORD_MOD ∧ MIN_BLOCK_SIZE ≤ 4294967296 ∧
        search_free_list big0 4294967296 = some 0 ∧
        request_total_size big0 4294967296 = 4294967296 ∧
        (mem_sbrk big0 (request_total_size big0 4294967296)).isSome = true ∧
        request_more_space big0 4294967296 = none) := by
  refine ⟨⟨env_arena0, reach_init0 _, ?_, ?_, ?_, ?_, ?_, ?_⟩,
    ⟨Env.of_memlib memlib_arena16 span_arena16, reach_small1, ?_, ?_, ?_, ?_, ?_, ?_⟩,
    ⟨memlib_arenaG, reach_big0 _, ?_, ?_, ?_, ?_, ?_, big0_grow_stuck⟩⟩ <;> decide

theorem pre_run3 :
    Pre run3 ([] ++ [⟨4104, 32, false, true⟩] ++
      (⟨4136, 32, false, false⟩ : Blk) :: ([⟨4168, 4064, false, false⟩] ++
        (⟨8232, 0, true, false⟩ : Blk) :: [])) [4136, 4104, 4168] := by
  refine ⟨⟨⟨⟨by decide, by decide, by decide, by decide, by decide, by decide, by decide,
    by decide⟩, ?_, ?_⟩, ?_, ?_⟩, ?_, ?_, by decide, ?_⟩
  · simp only [List.nil_append, List.cons_append, Seg, and_true]
    decide
  · simp only [List.nil_append, List.cons_append, EndsAt]
    decide
  · intro b hb
    simp only [List.nil_append, List.cons_append, List.mem_cons, List.not_mem_nil,
      or_false] at hb
    rcases hb with rfl | rfl | rfl | rfl <;> decide
  · intro b hb hu
    simp only [List.nil_append, List.cons_append, List.mem_cons, List.not_mem_nil,
      or_false] at hb
    rcases hb with rfl | rfl | rfl | rfl
    · decide
    · decide
    · decide
    · cases hu
  · simp only [List.nil_append, List.cons_append, Flags, and_true]
  · unfold FreeList
    simp only [dseg, prev_field_eq, next_field_eq]
    decide
  · intro g
    simp only [List.nil_append, List.cons_append, List.mem_cons, List.not_mem_nil, or_false,
      exists_eq_or_imp, exists_eq_left, and_true, and_false, false_or, or_false]
    constructor
    · rintro (rfl | rfl | rfl) <;> simp
    · rintro (rfl | rfl | rfl | ⟨_, h⟩)
      · simp
      · simp
      · simp
      · cases h

/-- C17 (amended): the placement of `mm_malloc`.  On an arena whose limit is
less than `2^31` bytes above its base, from a state reachable from `mm_init`
by `mm_free` on live pointers, client stores into live payloads and
`mm_malloc` with requests of at most `2^64 - 16` bytes, let `mm_malloc(n)` with
`0 < n ≤ 2^64 - 16` return `p`, let `f` be the free block that the search
(after arena growth, if any) chose, and `s` its size.  Then `p` is
`f + WORD_SIZE`, the block at `f` has `TAG_USED` set and is not in the free
list, and its size lies in `[req_size, req_size + MIN_BLOCK_SIZE)`.  If
`s ≥ req_size + MIN_BLOCK_SIZE` the block at `f` has size `req_size` and
keeps its `TAG_PRECEDING_USED` bit, and a free block with header and footer
`(s - req_size) | TAG_PRECEDING_USED` starts at `f + req_size` and is in the
free list; otherwise the block at `f` keeps the size `s` and the block at
`f + s` has `TAG_PRECEDING_USED` set. -/
theorem C17_place (h0 h : Heap) (L : List (Nat × Nat)) (n : Nat) (h1 : Heap) (p : Nat)
    (hlib : Memlib h0) (hspan : h0.max < h0.lo + 2147483648)
    (hr : Reach REQUEST_MAX h0 h L) (hn : 0 < n) (hb : n ≤ REQUEST_MAX)
    (hm : mm_malloc h n = some (h1, p)) :
    ∃ hf f l, mm_malloc_find h (mm_malloc_req_size n) = some (hf, f) ∧ f ≠ 0 ∧ is_free hf f ∧
      p = f + WORD_SIZE ∧ ¬ is_free h1 f ∧ free_list h1 = some l ∧ f ∉ l ∧
      mm_malloc_req_size n ≤ SIZE (load h1 f) ∧
      SIZE (load h1 f) < mm_malloc_req_size n + MIN_BLOCK_SIZE ∧
      (mm_malloc_req_size n + MIN_BLOCK_SIZE ≤ SIZE (load hf f) →
        SIZE (load h1 f) = mm_malloc_req_size n ∧
        load h1 f &&& TAG_PRECEDING_USED = load hf f &&& TAG_PRECEDING_USED ∧
        load h1 (f + mm_malloc_req_size n) =
          (SIZE (load hf f) - mm_malloc_req_size n) ||| TAG_PRECEDING_USED ∧
        load h1 (f + SIZE (load hf f) - WORD_SIZE) =
          (SIZE (load hf f) - mm_malloc_req_size n) ||| TAG_PRECEDING_USED ∧
        is_free h1 (f + mm_malloc_req_size n) ∧ f + mm_malloc_req_size n ∈ l) ∧
      (SIZE (load hf f) < mm_malloc_req_size n + MIN_BLOCK_SIZE →
        SIZE (load h1 f) = SIZE (load hf f) ∧
        load h1 (f + SIZE (load hf f)) &&& TAG_PRECEDING_USED ≠ 0) := by
  obtain ⟨xs, fl, hR, hreal, _⟩ := reach_good (Env.of_memlib hlib hspan) hr
  have hb2 : n + 16 ≤ WORD_MOD := by simp only [REQUEST_MAX, WORD_MOD, WORD_SIZE] at *; omega
  obtain ⟨r32, r8, rn, rlt, _⟩ := req_size_spec n hn hb2
  unfold mm_malloc at hm
  rw [if_neg (by omega)] at hm
  generalize mm_malloc_req_size n = req at *
  cases hfind : mm_malloc_find h req with
  | none => rw [hfind] at hm; cases hm
  | some r =>
    obtain ⟨h2, g⟩ := r
    rw [hfind] at hm
    simp only [Option.some.injEq] at hm
    obtain ⟨xs2, fl2, hR2, hg, hfit, _⟩ := malloc_find_rep hR hreal r32 (by omega) hfind
    obtain ⟨b, hbin, rfl, hbu⟩ := (hR2.agree g).1 hg
    have hG2 := hR2.shape.geo
    have b32 := hG2.free_real hbin hbu
    have hbb := hG2.bounds hbin
    obtain ⟨pre, c, rest, rfl⟩ := hG2.split_real hbin b32
    have hsz : SIZE (load h2 b.addr) = b.size := hR2.size_eq hbin
    have hfit2 : req ≤ b.size := hsz ▸ hfit
    obtain ⟨hbpu, hca, hcpu, hcu, hhb, _⟩ := hR2.free_block_facts hbu
    have hpu2 : load h2 b.addr &&& TAG_PRECEDING_USED = 2 := by
      rw [load_eq, hhb, word_and_pu _ _ _ hbb.2.2.1]; rfl
    have hg0 : b.addr ≠ 0 := dseg_ne_zero hR2.links _ hg
    have hfree2 : is_free h2 b.addr := (hR2.is_free_iff hbin).2 hbu
    by_cases hs : req + 32 ≤ b.size
    · obtain ⟨h3, r1, _, hR3, _⟩ := place_split hR2 hbu r32 r8 hs
      rw [r1] at hm
      simp only [Prod.mk.injEq] at hm
      obtain ⟨rfl, rfl⟩ := hm
      have hin1 : (⟨b.addr, req, true, true⟩ : Blk) ∈ pre ++ ⟨b.addr, req, true, true⟩ ::
          ⟨b.addr + req, b.size - req, false, true⟩ :: c :: rest := by simp
      have hin2 : (⟨b.addr + req, b.size - req, false, true⟩ : Blk) ∈
          pre ++ ⟨b.addr, req, true, true⟩ ::
          ⟨b.addr + req, b.size - req, false, true⟩ :: c :: rest := by simp
      have hsz1 : SIZE (load h3 b.addr) = req :=
        hR3.size_eq (b := ⟨b.addr, req, true, true⟩) hin1
      have hrem8 : 8 ∣ b.size - req := Nat.dvd_sub' hbb.2.2.1 r8
      have hw : (b.size - req) ||| TAG_PRECEDING_USED = word (b.size - req) false true :=
        size_or_mask _ true hrem8
      refine ⟨h2, b.addr, (b.addr + req) :: fl2.erase b.addr, rfl, hg0, hfree2, ?_⟩
      rw [hsz]
      simp only [MIN_BLOCK_SIZE, WORD_SIZE]
      refine ⟨trivial, ?_, hR3.free_list_eq, ?_, by omega,
        by omega, fun _ => ⟨hsz1, ?_, ?_, ?_, ?_, by simp⟩, fun hc => by omega⟩
      · intro hf
        have := (hR3.is_free_iff (b := ⟨b.addr, req, true, true⟩) hin1).1 hf
        cases this
      · exact hR3.node_ne (c := ⟨b.addr, req, true, true⟩) hin1 rfl
      · rw [hpu2, load_eq, hR3.shape.hdrs _ hin1, Blk.hdr, word_and_pu _ _ _ r8]; rfl
      · rw [load_eq, hw]
        exact hR3.shape.hdrs _ hin2
      · rw [load_eq, hw]
        have := (hR3.settled _ hin2 rfl).2
        have ef : (⟨b.addr + req, b.size - req, false, true⟩ : Blk).ftr = b.addr + b.size - 8 := by
          show b.addr + req + (b.size - req) - WORD_SIZE = _
          simp only [WORD_SIZE]; omega
        rw [ef] at this
        exact this
      · exact (hR3.is_free_iff hin2).2 rfl
    · obtain ⟨h3, r1, _, hR3, _⟩ := place_nosplit hR2 hbu hfit2 (by omega)
      rw [r1] at hm
      simp only [Prod.mk.injEq] at hm
      obtain ⟨rfl, rfl⟩ := hm
      have hin1 : (⟨b.addr, b.size, true, true⟩ : Blk) ∈ pre ++ ⟨b.addr, b.size, true, true⟩ ::
          ⟨c.addr, c.size, c.used, true⟩ :: rest := by simp
      have hin2 : (⟨c.addr, c.size, c.used, true⟩ : Blk) ∈ pre ++ ⟨b.addr, b.size, true, true⟩ ::
          ⟨c.addr, c.size, c.used, true⟩ :: rest := by simp
      have hsz1 : SIZE (load h3 b.addr) = b.size :=
        hR3.size_eq (b := ⟨b.addr, b.size, true, true⟩) hin1
      refine ⟨h2, b.addr, fl2.erase b.addr, rfl, hg0, hfree2, ?_⟩
      rw [hsz]
      simp only [MIN_BLOCK_SIZE, WORD_SIZE]
      refine ⟨trivial, ?_, hR3.free_list_eq, ?_, by omega,
        by omega, fun hc => by omega, fun _ => ⟨hsz1, ?_⟩⟩
      · intro hf
        have := (hR3.is_free_iff (b := ⟨b.addr, b.size, true, true⟩) hin1).1 hf
        cases this
      · exact hR3.node_ne (c := ⟨b.addr, b.size, true, true⟩) hin1 rfl
      · rw [← hca]
        exact (hR3.pu_iff hin2).2 rfl

/-- C17, witness (scenario A): the second `mm_malloc`, of 16 bytes, grows the
arena, splits the new block at 4136 and returns 4144; the block at 4136 is
used and not in the free list, and the remainder at 4168 heads the free
list. -/
theorem C17_witness :
    Memlib arena0 ∧ arena0.max < arena0.lo + 2147483648 ∧
      Reach REQUEST_MAX arena0 scenA1 [(4112, 8)] ∧
      mm_malloc scenA1 16 = some (scenA2, 4144) ∧
      ∃ f l, 4144 = f + WORD_SIZE ∧ ¬ is_free scenA2 f ∧ free_list scenA2 = some l ∧ f ∉ l ∧
        mm_malloc_req_size 16 ≤ SIZE (load scenA2 f) ∧
        SIZE (load scenA2 f) < mm_malloc_req_size 16 + MIN_BLOCK_SIZE := by
  obtain ⟨_, f, l, _, _, _, r4, r5, r6, r7, r8, r9, _⟩ :=
    C17_place arena0 scenA1 _ 16 scenA2 4144 memlib_arena0 span_arena0 reach_scenA1 (by decide)
      (by decide) scenA2_eq
  exact ⟨memlib_arena0, span_arena0, reach_scenA1, scenA2_eq, f, l, r4, r5, r6, r7, r8, r9⟩

/-- C17 as stated fails, for two reasons.  Requests that wrap: on the small
arena, right after `mm_init`, `mm_malloc(2^64 - 9)` computes `req_size = 0`,
chooses the free block `f = 4104` of size `s = 32 ≥ req_size + MIN_BLOCK_SIZE`
and returns `f + WORD_SIZE`; afterwards the block at `f` has size 32, not
`req_size`, which is outside `[req_size, req_size + MIN_BLOCK_SIZE)`, and it
is still the head of the free list.  Arenas beyond the range of `int`: on
the arena of 8 GiB, right after `mm_init`, `mm_malloc(2^32 + 40)` computes
`req_size = 2^32 + 48`, grows the arena and chooses the free block
`f = 4104` of size `s = 2^32 + 4128`; the header of the remainder,
`4080 | TAG_PRECEDING_USED`, is stored at `f + (int) req_size = f + 48`, and
the word at `f + req_size` holds 0. -/
theorem C17_counterexample :
    (Env arena0 ∧ Reach SIZE_MAX arena0 init0 [] ∧
        mm_malloc init0 18446744073709551607 = some (wrap1, 4112) ∧
        mm_malloc_req_size 18446744073709551607 = 0 ∧
        search_free_list init0 0 = some 4104 ∧ SIZE (load init0 4104) = 32 ∧
        0 + MIN_BLOCK_SIZE ≤ SIZE (load init0 4104) ∧
        SIZE (load wrap1 4104) = 32 ∧ ¬ is_free wrap1 4104 ∧ FREE_LIST_HEAD wrap1 = 4104 ∧
        load wrap1 (next_field 4104) = 4104) ∧
      (Memlib arenaG ∧ Reach REQUEST_MAX arenaG big0 [] ∧
        mm_malloc big0 4294967336 = some (big1, 4112) ∧
        mm_malloc_req_size 4294967336 = 4294967344 ∧
        (mm_malloc_find big0 4294967344).map Prod.snd = some 4104 ∧
        (mm_malloc_find big0 4294967344).map (fun r => SIZE (load r.1 4104)) =
          some 4294971424 ∧
        4294967344 + MIN_BLOCK_SIZE ≤ 4294971424 ∧
        (4294971424 - 4294967344) ||| TAG_PRECEDING_USED = 4082 ∧
        load big1 (4104 + 4294967344) = 0 ∧ load big1 (4104 + 48) = 4082) := by
  refine ⟨⟨env_arena0, reach_init0 _, wrap1_eq, ?_, ?_, ?_, ?_, ?_, ?_, ?_, ?_⟩,
    ⟨memlib_arenaG, reach_big0 _, big1_eq, ?_, ?_, ?_, ?_, ?_, ?_, ?_⟩⟩ <;> decide


/-! ### Claims on scenario C and on payloads -/

/-- A block of at least 32 bytes is followed by a block, which starts where
it ends. -/
theorem Geo.next_block {h : Heap} {pre rest : List Blk} {y : Blk}
    (hG : Geo h (pre ++ y :: rest)) (h32 : 32 ≤ y.size) :
    ∃ c rest1, rest = c :: rest1 ∧ c.addr = y.addr + y.size := by
  cases rest with
  | nil =>
    have := (EndsAt_append_cons.1 hG.ends).2
    have h0 : y.size = 0 := this.1
    omega
  | cons c r => exact ⟨c, r, rfl, Seg_next hG.seg⟩

/-- Two blocks of a tiling of which the second starts where the first ends
are neighbours in the tiling. -/
theorem Geo.next_is {h : Heap} {pre rest : List Blk} {y z : Blk}
    (hG : Geo h (pre ++ y :: rest)) (hz : z ∈ pre ++ y :: rest) (hy32 : 32 ≤ y.size)
    (hz32 : 32 ≤ z.size) (e : z.addr = y.addr + y.size) :
    ∃ rest1, rest = z :: rest1 := by
  obtain ⟨c, rest1, rfl, hc⟩ := hG.next_block hy32
  have hcin : c ∈ pre ++ y :: c :: rest1 := by simp
  have := hG.addr_inj hz hcin hz32 (by rw [e, hc])
  subst this
  exact ⟨rest1, rfl⟩

/-- A run of at most one free block in front of a used block is empty. -/
theorem run_before_used {fwd rest rest1 : List Blk} {b c1 : Blk}
    (hs : b :: rest = fwd ++ c1 :: rest1) (hf : ∀ y ∈ fwd, y.used = false)
    (hu : b.used = true) : fwd = [] ∧ c1 = b ∧ rest1 = rest := by
  cases fwd with
  | nil =>
    have := List.cons.inj hs
    exact ⟨rfl, this.1.symm, this.2.symm⟩
  | cons q r =>
    have := (List.cons.inj hs).1
    have hq := hf q (by simp)
    rw [← this, hu] at hq
    cases hq

/-- A run of at most one free block that ends at a used block and starts
with a free block is that block. -/
theorem run_before_free {fwd rest rest1 : List Blk} {b c1 : Blk}
    (hs : b :: rest = fwd ++ c1 :: rest1) (hl : fwd.length ≤ 1)
    (hc : c1.used = true) (hu : b.used = false) : fwd = [b] ∧ rest = c1 :: rest1 := by
  cases fwd with
  | nil =>
    have := (List.cons.inj hs).1
    rw [← this, hu] at hc
    cases hc
  | cons q r =>
    cases r with
    | nil =>
      have := List.cons.inj hs
      exact ⟨by rw [this.1], this.2⟩
    | cons q2 r2 => simp at hl

/-- Scenario C on a well-formed arena: three used blocks `A`, `B`, `C` in a
row are freed in the order `A`, `C`, `B`.  The three calls return, and the
arena then holds one free block that covers the free block in front of `A`
(if any), the three blocks, and the free block behind `C` (if any); it heads
the free list. -/
theorem free_three {h : Heap} {pre rest : List Blk} {A B C D : Blk} {fl : List Nat}
    (hR : Rep h (pre ++ A :: B :: C :: D :: rest) fl)
    (hA : A.used = true) (hB : B.used = true) (hC : C.used = true) :
    ∃ h1 h2 h3 pre1 back fwd c2 rest2 fl3,
      mm_free h (A.addr + 8) = some h1 ∧ mm_free h1 (C.addr + 8) = some h2 ∧
      mm_free h2 (B.addr + 8) = some h3 ∧
      pre = pre1 ++ back ∧ (∀ y ∈ back, y.used = false) ∧ back.length ≤ 1 ∧
      (back = [] ↔ A.pu = true) ∧
      D :: rest = fwd ++ c2 :: rest2 ∧ (∀ y ∈ fwd, y.used = false) ∧ fwd.length ≤ 1 ∧
      c2.used = true ∧
      Rep h3 (pre1 ++ ⟨(firstBlk back A).addr,
          total back + A.size + B.size + C.size + total fwd, false, true⟩ ::
          ⟨c2.addr, c2.size, true, false⟩ :: rest2) ((firstBlk back A).addr :: fl3) := by
  have hCpu : C.pu = true := by
    have hf := hR.flags
    have hx : pre ++ A :: B :: C :: D :: rest = (pre ++ [A]) ++ B :: C :: (D :: rest) := by simp
    rw [hx] at hf
    rw [Flags_next hf]
    exact hB
  -- free A
  obtain ⟨h1, pre1, back, fwd1, c1, rest1, hfree1, _, hpre, hsplit1, hrun1, _, hbl, _, hbpu,
    hR1, _⟩ := mm_free_rep hR hA
  obtain ⟨hf1, hc1, hr1⟩ := run_before_used hsplit1
    (fun y hy => hrun1 y (List.mem_append_right _ hy)) hB
  subst hf1 hc1 hr1
  have hback : ∀ y ∈ back, y.used = false := fun y hy => hrun1 y (by simp [hy])
  -- free C
  have hR1b : Rep h1 ((pre1 ++ [⟨(firstBlk back A).addr, total (back ++ A :: []), false, true⟩,
      ⟨c1.addr, c1.size, true, false⟩]) ++ C :: D :: rest)
      ((firstBlk back A).addr :: fl.diff ((back ++ []).map Blk.addr)) := by
    simpa using hR1
  obtain ⟨h2, pre2, back2, fwd2, c2, rest2, hfree2, _, hpre2, hsplit2, hrun2, hc2u, _, hfl2,
    hbpu2, hR2, _⟩ := mm_free_rep hR1b hC
  have hb2 : back2 = [] := hbpu2.2 hCpu
  subst hb2
  rw [List.append_nil] at hpre2
  subst hpre2
  have hfwd2 : ∀ y ∈ fwd2, y.used = false := fun y hy => hrun2 y (by simp [hy])
  -- free B
  have hR2b : Rep h2 ((pre1 ++ [⟨(firstBlk back A).addr, total (back ++ A :: []), false, true⟩])
      ++ (⟨c1.addr, c1.size, true, false⟩ : Blk) ::
        ⟨(firstBlk [] C).addr, total ([] ++ C :: fwd2), false, true⟩ ::
        (⟨c2.addr, c2.size, true, false⟩ :: rest2))
      ((firstBlk [] C).addr ::
        ((firstBlk back A).addr :: fl.diff ((back ++ []).map Blk.addr)).diff
          (([] ++ fwd2).map Blk.addr)) := by
    simpa using hR2
  obtain ⟨h3, pre3, back3, fwd3, c3, rest3, hfree3, _, hpre3, hsplit3, hrun3, hc3u, hbl3, hfl3,
    hbpu3, hR3, _⟩ := mm_free_rep hR2b rfl
  have hb3 : back3 ≠ [] := by
    intro e
    have := hbpu3.1 e
    cases this
  obtain ⟨q, rfl⟩ : ∃ q, back3 = [q] := by
    cases back3 with
    | nil => exact absurd rfl hb3
    | cons q r =>
      cases r with
      | nil => exact ⟨q, rfl⟩
      | cons q2 r2 => simp at hbl3
  obtain ⟨hp3, hq⟩ := List.append_inj' hpre3 rfl
  subst hp3
  have hq2 := (List.cons.inj hq).1
  subst hq2
  obtain ⟨hf3, hr3⟩ := run_before_free hsplit3 hfl3 hc3u rfl
  subst hf3
  have hr3b := List.cons.inj hr3
  have hc3 := hr3b.1
  have hrest3 := hr3b.2
  subst hrest3
  have ht : total ([⟨(firstBlk back A).addr, total (back ++ A :: []), false, true⟩] ++
      (⟨c1.addr, c1.size, true, false⟩ : Blk) ::
      [⟨(firstBlk [] C).addr, total ([] ++ C :: fwd2), false, true⟩]) =
      total back + A.size + c1.size + C.size + total fwd2 := by
    simp only [List.cons_append, List.nil_append, total, total_append]
    omega
  rw [ht, ← hc3] at hR3
  exact ⟨h1, h2, h3, pre1, back, fwd2, c2, rest2, _, hfree1, hfree2, hfree3, hpre, hback, hbl,
    hbpu, hsplit2, hfwd2, hfl2, hc2u, hR3⟩

/-- C11 (amended): order-independent coalescing, scenario C.  On an arena
whose limit is less than `2^31` bytes above its base, from a state reachable
from `mm_init` by `mm_free` on live pointers, client stores into live
payloads and `mm_malloc` with requests of at most `2^64 - 16` bytes, let
three live allocations have blocks `A`, `B`, `C` that are adjacent in this
order.  Then
`mm_free(A)`, `mm_free(C)`, `mm_free(B)` return, and afterwards one free
block `F`, the head of the free list, covers `A`, `B` and `C`: it starts at
the header of `A` when the block in front of `A` is used, and at the free
block in front of `A` otherwise; its size is the sum of the sizes of `A`, `B`
and `C`, plus the size of the free block in front of `A`, if any, plus the
size of the block behind `C` when that block is free. -/
theorem C11_coalesce_three (h0 h : Heap) (L : List (Nat × Nat)) (pA nA pB nB pC nC : Nat)
    (hlib : Memlib h0) (hspan : h0.max < h0.lo + 2147483648)
    (hr : Reach REQUEST_MAX h0 h L) (hA : (pA, nA) ∈ L) (hB : (pB, nB) ∈ L) (hC : (pC, nC) ∈ L)
    (hAB : pB = pA + SIZE (load h (pA - WORD_SIZE)))
    (hBC : pC = pB + SIZE (load h (pB - WORD_SIZE))) :
    ∃ h1 h2 h3 F, mm_free h pA = some h1 ∧ mm_free h1 pC = some h2 ∧
      mm_free h2 pB = some h3 ∧ FREE_LIST_HEAD h3 = F ∧ is_free h3 F ∧
      (∃ bs e, examine_heap h3 = some (bs, e) ∧ F ∈ bs) ∧
      (load h (pA - WORD_SIZE) &&& TAG_PRECEDING_USED ≠ 0 → F = pA - WORD_SIZE) ∧
      (load h (pA - WORD_SIZE) &&& TAG_PRECEDING_USED = 0 →
        is_free h F ∧ F + SIZE (load h F) = pA - WORD_SIZE) ∧
      SIZE (load h3 F) = (pA - WORD_SIZE - F) + SIZE (load h (pA - WORD_SIZE)) +
        SIZE (load h (pB - WORD_SIZE)) + SIZE (load h (pC - WORD_SIZE)) +
        (if is_free h (pC - WORD_SIZE + SIZE (load h (pC - WORD_SIZE)))
          then SIZE (load h (pC - WORD_SIZE + SIZE (load h (pC - WORD_SIZE)))) else 0) := by
  obtain ⟨xs, fl, hR, _, _, hlive⟩ := reach_good (Env.of_memlib hlib hspan) hr
  obtain ⟨A, hAin, hAu, A32, hpA, _⟩ := hlive _ hA
  obtain ⟨B, hBin, hBu, B32, hpB, _⟩ := hlive _ hB
  obtain ⟨C, hCin, hCu, C32, hpC, _⟩ := hlive _ hC
  simp only [] at hpA hpB hpC
  have ea : pA - WORD_SIZE = A.addr := by simp only [WORD_SIZE]; omega
  have eb : pB - WORD_SIZE = B.addr := by simp only [WORD_SIZE]; omega
  have ec : pC - WORD_SIZE = C.addr := by simp only [WORD_SIZE]; omega
  rw [ea] at hAB
  rw [eb] at hBC
  rw [ea, eb, ec]
  have sA : SIZE (load h A.addr) = A.size := hR.size_eq hAin
  have sB : SIZE (load h B.addr) = B.size := hR.size_eq hBin
  have sC : SIZE (load h C.addr) = C.size := hR.size_eq hCin
  rw [sA] at hAB
  rw [sB] at hBC
  rw [sA, sB, sC]
  obtain ⟨pre, rest0, rfl⟩ := List.append_of_mem hAin
  have hG := hR.shape.geo
  obtain ⟨rest1, rfl⟩ := hG.next_is hBin A32 B32 (by omega)
  have hx1 : pre ++ A :: B :: rest1 = (pre ++ [A]) ++ B :: rest1 := by simp
  have hG1 : Geo h ((pre ++ [A]) ++ B :: rest1) := by rw [← hx1]; exact hG
  have hC1 : C ∈ (pre ++ [A]) ++ B :: rest1 := by rw [← hx1]; exact hCin
  obtain ⟨rest2, rfl⟩ := hG1.next_is hC1 B32 C32 (by omega)
  have hx2 : pre ++ A :: B :: C :: rest2 = (pre ++ [A, B]) ++ C :: rest2 := by simp
  have hG2 : Geo h ((pre ++ [A, B]) ++ C :: rest2) := by rw [← hx2]; exact hG
  obtain ⟨D, rest3, rfl, hD⟩ := hG2.next_block C32
  have hDin : D ∈ pre ++ A :: B :: C :: D :: rest3 := by simp
  obtain ⟨h1, h2, h3, pre1, back, fwd, c2, rest4, fl3, hf1, hf2, hf3, rfl, hback, hbl, hbpu,
    hsplit, hfwd, hfl, hc2u, hR3⟩ := free_three hR hAu hBu hCu
  have hMin : (⟨(firstBlk back A).addr, total back + A.size + B.size + C.size + total fwd,
      false, true⟩ : Blk) ∈ pre1 ++ ⟨(firstBlk back A).addr,
        total back + A.size + B.size + C.size + total fwd, false, true⟩ ::
        ⟨c2.addr, c2.size, true, false⟩ :: rest4 := by simp
  have hseg := hG.seg
  rw [List.append_assoc] at hseg
  have hAa : A.addr = (firstBlk back A).addr + total back := by
    have h1' := hseg
    rw [Seg_append] at h1'
    have h2' := h1'.2
    have h3' : (firstBlk back A).addr = _ := firstBlk_addr h2'
    rw [Seg_append] at h2'
    rw [h3']
    exact h2'.2.1
  refine ⟨h1, h2, h3, (firstBlk back A).addr, by rw [hpA]; exact hf1, by rw [hpC]; exact hf2,
    by rw [hpB]; exact hf3, ?_, ?_, ?_, ?_, ?_, ?_⟩
  · exact dseg_head hR3.links
  · exact (hR3.is_free_iff hMin).2 rfl
  · obtain ⟨bl, s, hxs⟩ := hR3.shape.geo.snoc
    have hR3b := hR3
    rw [hxs] at hR3b hMin
    refine ⟨_, _, hR3b.examine, ?_⟩
    rcases List.mem_append.1 hMin with hm | hm
    · exact List.mem_map.2 ⟨_, hm, rfl⟩
    · have hs0 : s.size = 0 := (EndsAt_append_cons.1 hR3b.shape.geo.ends).2.1
      rw [← List.mem_singleton.1 hm] at hs0
      simp only [] at hs0
      omega
  · intro hpu
    have : A.pu = true := (hR.pu_iff hAin).1 hpu
    rw [hbpu.2 this]
    rfl
  · intro hpu
    have hne : back ≠ [] := by
      intro e
      have := (hR.pu_iff hAin).2 (hbpu.1 e)
      exact this hpu
    obtain ⟨q, rfl⟩ : ∃ q, back = [q] := by
      cases back with
      | nil => exact absurd rfl hne
      | cons q r =>
        cases r with
        | nil => exact ⟨q, rfl⟩
        | cons q2 r2 => simp at hbl
    have hqin : q ∈ (pre1 ++ [q]) ++ A :: B :: C :: D :: rest3 := by simp
    refine ⟨(hR.is_free_iff hqin).2 (hback q (by simp)), ?_⟩
    show q.addr + SIZE (load h q.addr) = A.addr
    rw [hR.size_eq hqin, hAa]
    simp [firstBlk, total]
  · rw [hR3.size_eq hMin]
    simp only []
    have e1 : A.addr - (firstBlk back A).addr = total back := by omega
    rw [e1, ← hD]
    have hDs : SIZE (load h D.addr) = D.size := hR.size_eq hDin
    by_cases hDu : D.used = true
    · obtain ⟨e, _, _⟩ := run_before_used hsplit hfwd hDu
      rw [e]
      have : ¬ is_free h D.addr := by
        intro hf
        rw [(hR.is_free_iff hDin).1 hf] at hDu
        cases hDu
      rw [if_neg this]
      rfl
    · have hDf : D.used = false := by
        cases hd : D.used
        · rfl
        · exact absurd hd hDu
      obtain ⟨e, _⟩ := run_before_free hsplit hfl hc2u hDf
      rw [e, if_pos ((hR.is_free_iff hDin).2 hDf), hDs]
      rfl

/-- C11, witness (scenario C on the concrete arena): the blocks of the
allocations 4112, 4144 and 4176 are adjacent; after freeing them in the order
first, third, second the head of the free list is the block at 4104, whose
size is the three sizes plus the size of the free block that followed the
third. -/
theorem C11_witness :
    Memlib arena0 ∧ arena0.max < arena0.lo + 2147483648 ∧
      Reach REQUEST_MAX arena0 scenC3 [(4176, 8), (4144, 16), (4112, 8)] ∧
      ∃ h1 h2 h3, mm_free scenC3 4112 = some h1 ∧ mm_free h1 4176 = some h2 ∧
        mm_free h2 4144 = some h3 ∧ FREE_LIST_HEAD h3 = 4104 ∧
        SIZE (load h3 4104) = 32 + 32 + 32 + 4032 := by
  obtain ⟨h1, h2, h3, F, r1, r2, r3, r4, _, _, r7, _, r9⟩ :=
    C11_coalesce_three arena0 scenC3 _ 4112 8 4144 16 4176 8 memlib_arena0 span_arena0
      reach_scenC3 (by decide) (by decide) (by decide) (by decide) (by decide)
  have hF : F = 4104 := r7 (by decide)
  subst hF
  exact ⟨memlib_arena0, span_arena0, reach_scenC3, h1, h2, h3, r1, r2, r3, r4,
    r9.trans (by decide)⟩

/-- C11 as stated fails, for three reasons.  Free neighbours (scenario C on
the small arena): the blocks of the live allocations 4112, 4144 and 4176 are
adjacent and have 32 bytes each; after `mm_free(4112)`, `mm_free(4176)`,
`mm_free(4144)` the arena consists of one free block, which starts at 4104;
its size field is 4128, not `32 + 32 + 32`, because the free block behind the
third block was merged as well.  Requests that wrap: after five allocations of
32 bytes, `mm_free(4112)` and `mm_malloc(2^64 - 9)`, the block at 4104 is used
again but the block `A` at 4136 behind it has kept `TAG_PRECEDING_USED` clear;
with `A`, `B`, `C` at 4136, 4168, 4200, the three calls leave a free block of
128 bytes that starts at 4104, the header of a block that was used, not free.
Arenas beyond the range of `int`: on the arena of 8 GiB, after
`mm_malloc(2^32 + 40)`, three times `mm_malloc(8)` and `mm_free(4112)`, the
blocks `A`, `B`, `C` at 4152, 4184, 4216 follow the free block at 4104 of
`2^32 + 48` bytes; the three calls leave a free block at 4104 of
`2^32 + 4128` bytes, which with its size in the start state does not end
where `A` starts. -/
theorem C11_counterexample :
    (Env arena0 ∧ Reach REQUEST_MAX arena0 scenC3 [(4176, 8), (4144, 16), (4112, 8)] ∧
        SIZE (load scenC3 4104) = 32 ∧ SIZE (load scenC3 4136) = 32 ∧
        SIZE (load scenC3 4168) = 32 ∧
        mm_free scenC3 4112 = some scenC4 ∧ mm_free scenC4 4176 = some scenC5 ∧
        mm_free scenC5 4144 = some scenC6 ∧ examine_heap scenC6 = some ([4104], 8232) ∧
        is_free scenC6 4104 ∧ SIZE (load scenC6 4104) = 4128) ∧
      (Env arena0 ∧
        Reach SIZE_MAX arena0 edge7
          [(4112, 18446744073709551607), (4240, 8), (4208, 8), (4176, 8), (4144, 16)] ∧
        4176 = 4144 + SIZE (load edge7 (4144 - WORD_SIZE)) ∧
        4208 = 4176 + SIZE (load edge7 (4176 - WORD_SIZE)) ∧
        mm_free edge7 4144 = some edge8 ∧ mm_free edge8 4208 = some edge9 ∧
        mm_free edge9 4176 = some edge10 ∧ FREE_LIST_HEAD edge10 = 4104 ∧
        load edge7 (4144 - WORD_SIZE) &&& TAG_PRECEDING_USED = 0 ∧ ¬ is_free edge7 4104 ∧
        SIZE (load edge10 4104) = 128) ∧
      (Memlib arenaG ∧ Reach REQUEST_MAX arenaG bigC [(4224, 8), (4192, 8), (4160, 8)] ∧
        4192 = 4160 + SIZE (load bigC (4160 - WORD_SIZE)) ∧
        4224 = 4192 + SIZE (load bigC (4192 - WORD_SIZE)) ∧
        mm_free bigC 4160 = some (after_free bigC 4160) ∧
        mm_free (after_free bigC 4160) 4224 = some (after_free (after_free bigC 4160) 4224) ∧
        mm_free (after_free (after_free bigC 4160) 4224) 4192 = some bigC3 ∧
        FREE_LIST_HEAD bigC3 = 4104 ∧
        load bigC (4160 - WORD_SIZE) &&& TAG_PRECEDING_USED = 0 ∧
        4104 + SIZE (load bigC 4104) ≠ 4160 - WORD_SIZE ∧
        SIZE (load bigC3 4104) = 4294971424) :=
  ⟨⟨env_arena0, reach_scenC3, by decide, by decide, by decide, free_eq (by decide),
      free_eq (by decide), free_eq (by decide), by decide, by decide, by decide⟩,
    ⟨env_arena0, reach_edge7, by decide, by decide, free_eq (by decide), free_eq (by decide),
      free_eq (by decide), by decide, by decide, by decide, by decide⟩,
    ⟨memlib_arenaG, reach_bigC, by decide, by decide, free_eq (by decide), free_eq (by decide),
      free_eq (by decide), by decide, by decide, by decide, by decide⟩⟩

/-- C20 (amended): payload preservation.  On an arena whose limit is less
than `2^31` bytes above its base, from a state reachable from `mm_init` by
`mm_free` on live pointers, client stores into live payloads and `mm_malloc`
with requests of at most `2^64 - 16` bytes, and for a live allocation
`(p, n)`: a call `mm_malloc(m)` with `m ≤ 2^64 - 16` whose block size does
not wrap when it is rounded up to whole pages writes no word that overlaps
the addresses `[p, p + n)`, and it either returns, with every word at these
addresses as it was, or its first search misses and `mem_sbrk` fails, so
that the process exits in `request_more_space` before any store; a call
`mm_free(q)` on a different live pointer `q` returns, writes no word that
overlaps the addresses `[p, p + n)`, and leaves every word at these
addresses as it was. -/
theorem C20_payload_kept (h0 h : Heap) (L : List (Nat × Nat)) (p n : Nat) (hlib : Memlib h0)
    (hspan : h0.max < h0.lo + 2147483648) (hr : Reach REQUEST_MAX h0 h L)
    (hin : (p, n) ∈ L) :
    (∀ m, m ≤ REQUEST_MAX → mm_malloc_req_size m + mem_pagesize h ≤ WORD_MOD →
        (∀ a ∈ mm_malloc_writes h m, a + WORD_SIZE ≤ p ∨ p + n ≤ a) ∧
        ((∃ h1 q, mm_malloc h m = some (h1, q) ∧
            ∀ a, p ≤ a → a < p + n → load h1 a = load h a) ∨
          (search_free_list h (mm_malloc_req_size m) = some 0 ∧
            mem_sbrk h (request_total_size h (mm_malloc_req_size m)) = none ∧
            mm_malloc h m = none ∧ mm_malloc_writes h m = []))) ∧
      (∀ q k, (q, k) ∈ L → q ≠ p →
        ∃ h1, mm_free h q = some h1 ∧
          (∀ a ∈ mm_free_writes h q, a + WORD_SIZE ≤ p ∨ p + n ≤ a) ∧
          ∀ a, p ≤ a → a < p + n → load h1 a = load h a) := by
  have he := Env.of_memlib hlib hspan
  obtain ⟨xs, fl, hR, hreal, hnd, hlive⟩ := reach_good he hr
  obtain ⟨b, hb, hbu, b32, hp, hfit⟩ := hlive _ hin
  simp only [] at hp hfit
  constructor
  · intro m hm hnw
    have hm16 : m + 16 ≤ WORD_MOD := by
      simp only [REQUEST_MAX, WORD_MOD, WORD_SIZE] at *; omega
    have hmiss := mm_malloc_misses hR hreal hm16 hnw
    refine ⟨fun a ha => ?_, ?_⟩
    · have := hmiss a ha b hb hbu
      simp only [WORD_SIZE]
      omega
    by_cases h0 : m = 0
    · left
      subst h0
      exact ⟨h, 0, rfl, fun a _ _ => rfl⟩
    · have hm0 : 0 < m := Nat.pos_of_ne_zero h0
      obtain ⟨r32, r8, _, rlt, _⟩ := req_size_spec m hm0 hm16
      have hret : ∀ h2 g, mm_malloc_find h (mm_malloc_req_size m) = some (h2, g) →
          ∃ h1 q, mm_malloc h m = some (h1, q) ∧
            ∀ a, p ≤ a → a < p + n → load h1 a = load h a := by
        intro h2 g hfind
        have hmal : mm_malloc h m =
            some (mm_malloc_place h2 (mm_malloc_req_size m) g) := by
          unfold mm_malloc
          rw [if_neg h0, hfind]
        obtain ⟨_, _, _, _, _, _, _, _, _, _, _, _, _, _, _, _, _, hk⟩ :=
          mm_malloc_rep hR hreal hm0 hm16 hmal
        exact ⟨_, _, hmal, fun a ha1 ha2 => hk b hb hbu a (by omega) (by omega)⟩
      have hG := hR.shape.geo
      rcases search_free_list_spec hG hR.links hR.nodup (Agree.slots hG hR.agree)
        (mm_malloc_req_size m) with ⟨hs, _⟩ | ⟨l1, g, l2, hfl, hs, hfit2, _⟩
      · by_cases hsb : (mem_sbrk h (request_total_size h (mm_malloc_req_size m))).isSome = true
        · left
          have hsearch : ∃ h2 g, mm_malloc_find h (mm_malloc_req_size m) = some (h2, g) := by
            obtain ⟨bl, s, rfl⟩ := hG.snoc
            obtain ⟨T, _, _, _, _, hsome, hT, _⟩ :=
              request_more_space_rep hR (Or.inl r32) hnw
            have hroom : h.brk + T ≤ h.max := by
              rw [hT]
              unfold mem_sbrk at hsb
              by_contra hc
              rw [if_neg hc] at hsb
              cases hsb
            obtain ⟨h2, pre1, back, hrm, _, _, _, _, _, _, _, _, hR2, _⟩ := hsome hroom
            have hMin : (⟨(firstBlk back s).addr, total back + T, false, true⟩ : Blk) ∈
                pre1 ++ [⟨(firstBlk back s).addr, total back + T, false, true⟩,
                  ⟨s.addr + T, 0, true, false⟩] := by simp
            have hsz : SIZE (load h2 (firstBlk back s).addr) = total back + T :=
              hR2.size_eq (b := ⟨(firstBlk back s).addr, total back + T, false, true⟩) hMin
            have hfit3 : mm_malloc_req_size m ≤ SIZE (h2.mem (firstBlk back s).addr) := by
              rw [← load_eq, hsz]; omega
            obtain ⟨hs2, _, _⟩ := malloc_find_hit hR2 hfit3
            refine ⟨h2, (firstBlk back s).addr, ?_⟩
            unfold mm_malloc_find
            rw [hs]
            simp only [if_true, hrm, hs2]
          obtain ⟨h2, g, hfind⟩ := hsearch
          exact hret h2 g hfind
        · right
          have hnone : mem_sbrk h (request_total_size h (mm_malloc_req_size m)) = none := by
            cases hx : mem_sbrk h (request_total_size h (mm_malloc_req_size m)) with
            | none => rfl
            | some r => rw [hx] at hsb; exact absurd rfl hsb
          have hrm : request_more_space h (mm_malloc_req_size m) = none := by
            unfold request_more_space
            unfold request_total_size at hnone
            simp only [hnone]
          have hrw : request_more_space_writes h (mm_malloc_req_size m) = [] := by
            unfold request_more_space_writes
            unfold request_total_size at hnone
            simp only [hnone]
          refine ⟨hs, hnone, ?_, ?_⟩
          · unfold mm_malloc mm_malloc_find
            rw [if_neg h0, hs]
            simp only [if_true, hrm]
          · unfold mm_malloc_writes
            rw [if_neg h0, hs]
            simp only [if_true, hrm, hrw, List.append_nil]
      · left
        have hg0 : g ≠ 0 := dseg_ne_zero hR.links g (by rw [hfl]; simp)
        have hfind : mm_malloc_find h (mm_malloc_req_size m) = some (h, g) := by
          unfold mm_malloc_find
          rw [hs]
          simp only [if_neg hg0]
        exact hret h g hfind
  · intro q k hq hne
    obtain ⟨c, hc, hcu, c32, hqc, _⟩ := hlive _ hq
    simp only [] at hqc
    obtain ⟨h1, _, _, _, _, hfree, _, _, _, _, _, _, _, hk, hms⟩ := mm_free_good hR hc hcu c32
    refine ⟨h1, by rw [hqc]; exact hfree, fun a ha => ?_, fun a ha1 ha2 => ?_⟩
    · rw [hqc] at ha
      have := hms b hb hbu (by omega) a ha
      simp only [WORD_SIZE]
      omega
    · exact hk b hb hbu (by omega) a (by omega) (by omega)

/-- C20, witness (scenario A): with the allocations at 4112 and 4144 live,
`mm_malloc(8)` and `mm_free(4112)` each write no word that overlaps the 16
bytes at 4144 and leave these bytes as they are. -/
theorem C20_witness :
    Memlib arena0 ∧ arena0.max < arena0.lo + 2147483648 ∧
      Reach REQUEST_MAX arena0 scenA2 [(4144, 16), (4112, 8)] ∧
      mm_malloc scenA2 8 = some (scenC3, 4176) ∧
      (∀ a ∈ mm_malloc_writes scenA2 8, a + WORD_SIZE ≤ 4144 ∨ 4144 + 16 ≤ a) ∧
      (∀ a, 4144 ≤ a → a < 4144 + 16 → load scenC3 a = load scenA2 a) ∧
      ∃ h1, mm_free scenA2 4112 = some h1 ∧
        (∀ a ∈ mm_free_writes scenA2 4112, a + WORD_SIZE ≤ 4144 ∨ 4144 + 16 ≤ a) ∧
        ∀ a, 4144 ≤ a → a < 4144 + 16 → load h1 a = load scenA2 a := by
  have hc := C20_payload_kept arena0 scenA2 _ 4144 16 memlib_arena0 span_arena0 reach_scenA2
    (by decide)
  have hm : mm_malloc scenA2 8 = some (scenC3, 4176) := malloc_eq (by decide)
  have hc8 := hc.1 8 (by decide) (by decide)
  refine ⟨memlib_arena0, span_arena0, reach_scenA2, hm, hc8.1, ?_,
    hc.2 4112 8 (by decide) (by decide)⟩
  rcases hc8.2 with ⟨h1, q, h2, h3⟩ | ⟨_, _, h2, _⟩
  · rw [hm] at h2
    simp only [Option.some.injEq, Prod.mk.injEq] at h2
    rw [h2.1]
    exact h3
  · rw [hm] at h2
    cases h2

/-- C20 as stated fails, for three reasons.  Requests that wrap: on the small
arena, after scenario A's two allocations, `mm_malloc(2^64 - 9)` returns 4176
and leaves its block in the free list, and `mm_malloc(16)` returns 4176
again; with the allocation `(4176, 16)` live, `mm_malloc(8)` returns 4208 and
unlinks its block from the free list, which writes the word at 4184, inside
`[4176, 4176 + 16)`, and replaces 4200 by 4232 there.  Rounding that wraps:
after `mm_init` and `mm_malloc(24)` the payload `[4112, 4136)` ends at the
sentinel; `mm_malloc(2^64 - 17)` computes the block size `2^64 - 8`, the
rounding to whole pages wraps to 0 bytes, and `request_more_space` writes
the boundary tag of the new block of size 0 at `4136 - 8`, inside the
payload, where it replaces 34 by 2, before `coalesce_free_block` fails to
return.  Arenas beyond the range of `int`: on the arena of 8 GiB, after
`mm_malloc(2^32 + 40)` the allocation `(4112, 2^32 + 40)` is live, and
`mm_malloc(8)` takes the remainder block at 4152, inside that payload, and
writes its header, replacing 4082 by 35. -/
theorem C20_counterexample :
    (Env arena0 ∧
        Reach SIZE_MAX arena0 clob2
          [(4176, 16), (4176, 18446744073709551607), (4144, 16), (4112, 8)] ∧
        mm_malloc clob2 8 = some (clob3, 4208) ∧ 4184 ∈ mm_malloc_writes clob2 8 ∧
        4176 ≤ 4184 ∧ 4184 < 4176 + 16 ∧
        load clob2 4184 = 4200 ∧ load clob3 4184 = 4232) ∧
      (Env arena0 ∧ Reach REQUEST_MAX arena0 full1 [(4112, 24)] ∧
        18446744073709551599 ≤ REQUEST_MAX ∧
        mm_malloc_req_size 18446744073709551599 = 18446744073709551608 ∧
        search_free_list full1 18446744073709551608 = some 0 ∧
        request_total_size full1 18446744073709551608 = 0 ∧
        request_more_space full1 18446744073709551608 = coalesce_free_block fullR 4136 ∧
        4128 ∈ mm_malloc_writes full1 18446744073709551599 ∧
        4112 ≤ 4128 ∧ 4128 < 4112 + 24 ∧ load full1 4128 = 34 ∧ load fullR 4128 = 2 ∧
        mm_malloc full1 18446744073709551599 = none) ∧
      (Memlib arenaG ∧ Reach REQUEST_MAX arenaG big1 [(4112, 4294967336)] ∧
        mm_malloc big1 8 = some (big2, 4160) ∧ 4152 ∈ mm_malloc_writes big1 8 ∧
        4112 ≤ 4152 ∧ 4152 < 4112 + 4294967336 ∧
        load big1 4152 = 4082 ∧ load big2 4152 = 35) :=
  ⟨⟨env_arena0, reach_clob2, malloc_eq (by decide), by decide, by decide, by decide,
      by decide, by decide⟩,
    ⟨env_arena0, reach_full1, by decide, by decide, by decide, by decide, rfl, by decide,
      by decide, by decide, by decide, by decide, Option.isNone_iff_eq_none.1 (by decide)⟩,
    ⟨memlib_arenaG, reach_big1, big2_eq, by decide, by decide, by decide, by decide,
      by decide⟩⟩

end MM
